import Mathlib

/-!
# Verification development for the poker game

Shallow embedding of `src/poker_final.cpp`: the hand evaluator
(`Ranking::compare_hand_ranks`, `Ranking::determine_winner`,
`Ranking::evaluate_hand`), `Pot`, `Player::bet`, `Deck`, the master roster of
`Bot`, and the betting functions, the round loop and `distribute_pot` of
`Game`, followed by theorems about them.

Conventions of the embedding:
* `std::string` is `String`; `int` values are `Int`, with `int_wrap` applied
  where the source adds, subtracts or multiplies chip amounts; rank values and
  occurrence counters of the evaluator stay far below the `int` limits and are
  plain `Int` and `Nat`;
* `std::map` is an association list kept in ascending key order, so that
  iterating the list visits the entries in the order of a C++ range-for;
* `std::vector` is a list with `back()` at its end; `operator[]`, `back()` and
  dereferencing `end()` outside the vector are undefined behaviour in C++ and
  `none` here;
* `size_t` arithmetic is arithmetic modulo `2 ^ 64`; an `int` operand that
  meets a `size_t` operand is converted by `to_size_t`;
* random draws and the attempts typed by the human are read from an `Oracle`;
  a function returns `none` when the oracle holds fewer values than it reads;
* console output is left out.
-/

namespace Poker

/-! ## Data model -/

/-- A card, `Cards::Card`: two strings, suit and rank. -/
structure Card where
  suit : String
  rank : String
deriving DecidableEq

/-- The enumeration `Poker_Ranks`, in declaration order. -/
inductive Poker_Ranks where
  | high_card
  | pair
  | two_pair
  | three_of_a_kind
  | straight
  | flush
  | full_house
  | four_of_a_kind
  | straight_flush
  | royal_flush
deriving DecidableEq

/-- The integer value the enumeration assigns to each category. -/
def Poker_Ranks.toInt : Poker_Ranks → Int
  | .high_card => 0
  | .pair => 1
  | .two_pair => 2
  | .three_of_a_kind => 3
  | .straight => 4
  | .flush => 5
  | .full_house => 6
  | .four_of_a_kind => 7
  | .straight_flush => 8
  | .royal_flush => 9

/-- A player as far as the ranking code reads it: name, chips and two cards. -/
structure Player where
  name : String
  chips : Int
  card1 : Card
  card2 : Card
deriving DecidableEq

/-- An evaluation result, `std::pair<Poker_Ranks, int>`. -/
abbrev HandValue := Poker_Ranks × Int

/-- An entry of the list sorted by `determine_winner`. -/
abbrev RankedPlayer := String × HandValue

/-- Enumeration values compare by their integer value. -/
instance : LT Poker_Ranks := ⟨fun a b => a.toInt < b.toInt⟩

instance (a b : Poker_Ranks) : Decidable (a < b) :=
  inferInstanceAs (Decidable (a.toInt < b.toInt))

/-- Enumeration values compare by their integer value. -/
instance : LE Poker_Ranks := ⟨fun a b => a.toInt ≤ b.toInt⟩

instance (a b : Poker_Ranks) : Decidable (a ≤ b) :=
  inferInstanceAs (Decidable (a.toInt ≤ b.toInt))

/-! ## `compare_hand_ranks` -/

/-- The comparator `Ranking::compare_hand_ranks`: `true` when `a` is ordered
before `b`. Enumeration values compare by their integer value. -/
def compare_hand_ranks (a b : RankedPlayer) : Bool :=
  if a.2.1 ≠ b.2.1 then
    decide (a.2.1 > b.2.1)
  else
    decide (a.2.2 > b.2.2)

/-! ## `evaluate_hand` -/

/-- The lookup `rank_to_num[r]`: `operator[]` of the `std::map` yields the
value-initialised `0` for a key that is not in the table. -/
def rank_to_num (r : String) : Int :=
  if r = "2" then 2
  else if r = "3" then 3
  else if r = "4" then 4
  else if r = "5" then 5
  else if r = "6" then 6
  else if r = "7" then 7
  else if r = "8" then 8
  else if r = "9" then 9
  else if r = "10" then 10
  else if r = "J" then 11
  else if r = "Q" then 12
  else if r = "K" then 13
  else if r = "A" then 14
  else 0

/-- The ordering `std::less<int>` of the keys of `rank_counts`. -/
def int_less (a b : Int) : Bool := decide (a < b)

/-- The ordering `std::less<std::string>` of the keys of `suit_counts`:
lexicographic comparison of the character sequences. -/
def string_less (a b : String) : Bool := decide (a.data < b.data)

/-- The statement `++m[k]` on a `std::map<K, int>` held as an association
list in ascending key order; `less` is the key ordering of the map. -/
def mapIncr {K : Type} [DecidableEq K] (less : K → K → Bool)
    (k : K) : List (K × Nat) → List (K × Nat)
  | [] => [(k, 1)]
  | (k', c) :: rest =>
    if k = k' then (k', c + 1) :: rest
    else if less k k' then (k, 1) :: (k', c) :: rest
    else (k', c) :: mapIncr less k rest

/-- The loop `for (auto object : xs) ++counts[object];` from an empty map. -/
def countMap {K : Type} [DecidableEq K] (less : K → K → Bool)
    (xs : List K) : List (K × Nat) :=
  xs.foldl (fun m x => mapIncr less x m) []

/-- The local variables of `evaluate_hand` that the detection loops update. -/
structure EvalState where
  two_pair : Nat
  three_of_a_kind : Nat
  highest_card : Int
  hand_ranking : List Poker_Ranks
deriving DecidableEq

/-- The lambda `add_hand_ranking`: `hand_ranking.push_back(rank)`. -/
def add_hand_ranking (s : EvalState) (rank : Poker_Ranks) : EvalState :=
  { s with hand_ranking := s.hand_ranking ++ [rank] }

/-- Body of the first loop over `rank_counts` (pairs). -/
def pairStep (s : EvalState) (entry : Int × Nat) : EvalState :=
  let s1 := if s.two_pair = 0 then
      { s with highest_card := max s.highest_card entry.1 } else s
  if entry.2 = 2 then
    { add_hand_ranking { s1 with two_pair := s1.two_pair + 1 } .pair with
      highest_card := entry.1 }
  else s1

/-- Body of the second loop over `rank_counts` (three of a kind). -/
def tripStep (s : EvalState) (entry : Int × Nat) : EvalState :=
  if entry.2 = 3 then
    { add_hand_ranking { s with three_of_a_kind := s.three_of_a_kind + 1 }
        .three_of_a_kind with highest_card := entry.1 }
  else s

/-- Body of the loop over `suit_counts` (flush). -/
def flushStep (s : EvalState) (entry : String × Nat) : EvalState :=
  if entry.2 > 4 then add_hand_ranking s .flush else s

/-- Body of the last loop over `rank_counts` (four of a kind). -/
def quadStep (s : EvalState) (entry : Int × Nat) : EvalState :=
  if entry.2 = 4 then
    { add_hand_ranking s .four_of_a_kind with highest_card := entry.1 }
  else s

/-- The subtraction `a - b` on `size_t` operands. -/
def size_t_sub (a b : Nat) : Nat := (a + 2 ^ 64 - b % 2 ^ 64) % 2 ^ 64

/-- The condition of the straight loop at index `i`, evaluated left to right
with the short circuit of `&&`; `none` when a read is out of bounds. -/
def straight_cond (v : List Int) (i : Nat) : Option Bool := do
  let a1 ← v[i + 1]?
  let a0 ← v[i]?
  if a1 ≠ a0 + 1 then return false
  let a2 ← v[i + 2]?
  if a2 ≠ a0 + 2 then return false
  let a3 ← v[i + 3]?
  if a3 ≠ a0 + 3 then return false
  let a4 ← v[i + 4]?
  return decide (a4 = a0 + 4)

/-- The straight loop `for (int i = 0; i < numeric_ranks.size()-4; i++)`, with
`n` the number of iterations still allowed by the loop bound and `i` the
current index. The result is `none` on an out-of-bounds read, `some none` when
the loop ends without a match and `some (some t)` when it breaks with
`highest_card = t`. -/
def straight_loop (v : List Int) : Nat → Nat → Option (Option Int)
  | 0, _ => some none
  | n + 1, i =>
    match straight_cond v i with
    | none => none
    | some true => (v[i + 4]?).map some
    | some false => straight_loop v n (i + 1)

/-- The block guarded by `straight == 1 && flush == 1`; the two locals are
initialised to `0` and never assigned, and are passed in with that value. -/
def straightFlushBlock (straight flush : Int) (rank_counts : List (Int × Nat))
    (s : EvalState) : EvalState :=
  if straight = 1 ∧ flush = 1 then
    let s1 := add_hand_ranking s .straight_flush
    let royal_flush_elements : Nat :=
      rank_counts.foldl (fun n entry =>
        if entry.1 = 10 ∨ entry.1 = 11 ∨ entry.1 = 12 ∨ entry.1 = 13 ∨ entry.1 = 14
        then n + 1 else n) 0
    if royal_flush_elements = 5 then
      { add_hand_ranking s1 .royal_flush with highest_card := 14 }
    else s1
  else s

/-- The vector `numeric_ranks` after `std::sort`. -/
def numeric_ranks (card1 card2 : Card) (community_cards : List Card) : List Int :=
  (rank_to_num card1.rank :: rank_to_num card2.rank ::
    community_cards.map (fun c => rank_to_num c.rank)).insertionSort (fun a b => a ≤ b)

/-- The vector `suits`, in insertion order. -/
def suits (card1 card2 : Card) (community_cards : List Card) : List String :=
  card1.suit :: card2.suit :: community_cards.map (fun c => c.suit)

/-- The state after the pair loop, the two-pair test and the three-of-a-kind
loop. -/
def afterGroups (rank_counts : List (Int × Nat)) : EvalState :=
  let s0 : EvalState :=
    { two_pair := 0, three_of_a_kind := 0, highest_card := 0, hand_ranking := [.high_card] }
  let s1 := rank_counts.foldl pairStep s0
  let s2 := if s1.two_pair ≥ 2 then add_hand_ranking s1 .two_pair else s1
  rank_counts.foldl tripStep s2

/-- The state after the flush loop, the full-house test, the four-of-a-kind
loop and the straight-flush block. -/
def afterStraight (rank_counts : List (Int × Nat)) (suit_counts : List (String × Nat))
    (s4 : EvalState) : EvalState :=
  let s5 := suit_counts.foldl flushStep s4
  let s6 := if (s5.two_pair > 0 ∧ s5.three_of_a_kind > 0) ∨ s5.three_of_a_kind = 2
    then add_hand_ranking s5 .full_house else s5
  let s7 := rank_counts.foldl quadStep s6
  straightFlushBlock 0 0 rank_counts s7

/-- The effect of the straight loop on the state: on a match it appends
`straight` and overwrites `highest_card`. -/
def afterStraightLoop (s3 : EvalState) : Option Int → EvalState
  | some top => { add_hand_ranking s3 .straight with highest_card := top }
  | none => s3

/-- The function `Ranking::evaluate_hand`. The result is `none` when the
straight loop reads `numeric_ranks` out of bounds. -/
def evaluate_hand (card1 card2 : Card) (community_cards : List Card) : Option HandValue := do
  let ranks := numeric_ranks card1 card2 community_cards
  let rank_counts := countMap int_less ranks
  let suit_counts := countMap string_less (suits card1 card2 community_cards)
  let s3 := afterGroups rank_counts
  let found ← straight_loop ranks (size_t_sub ranks.length 4) 0
  let s4 := afterStraightLoop s3 found
  let s8 := afterStraight rank_counts suit_counts s4
  let highest_rank ← s8.hand_ranking.getLast?
  return (highest_rank, s8.highest_card)

/-- The vector `hand_ranking` when `evaluate_hand` returns: the detected
categories in the order in which they were appended. -/
def detected_categories (card1 card2 : Card) (community_cards : List Card) :
    Option (List Poker_Ranks) := do
  let ranks := numeric_ranks card1 card2 community_cards
  let rank_counts := countMap int_less ranks
  let suit_counts := countMap string_less (suits card1 card2 community_cards)
  let s3 := afterGroups rank_counts
  let found ← straight_loop ranks (size_t_sub ranks.length 4) 0
  let s4 := afterStraightLoop s3 found
  let s8 := afterStraight rank_counts suit_counts s4
  return s8.hand_ranking

/-! ## `determine_winner` -/

/-- The list `player_name_and_rank` before sorting, one entry per player in
roster order; `none` when one of the evaluations is undefined. -/
def player_name_and_rank : List Player → List Card → Option (List RankedPlayer)
  | [], _ => some []
  | player :: rest, community_cards => do
    let player_hand ← evaluate_hand player.card1 player.card2 community_cards
    let tail ← player_name_and_rank rest community_cards
    return (player.name, player_hand) :: tail

/-- The winner-collecting loop of `determine_winner`: the leading entries
whose evaluation equals `highest_rank`. -/
def collect_winners (highest_rank : HandValue) : List RankedPlayer → List String
  | [] => []
  | player :: rest =>
    if player.2 = highest_rank then player.1 :: collect_winners highest_rank rest
    else []

/-- The part of `determine_winner` after `std::sort`: reads entry `0` (`none`
when the vector is empty) and collects the winners. -/
def winners_of_sorted (sorted : List RankedPlayer) : Option (List String) := do
  let first ← sorted[0]?
  return collect_winners first.2 sorted

/-- The ordering handed to `std::sort` as a relation on entries: `a` may stand
before `b` when `compare_hand_ranks` does not order `b` before `a`. -/
def sort_order (a b : RankedPlayer) : Prop := compare_hand_ranks b a = false

instance : DecidableRel sort_order := fun a b =>
  inferInstanceAs (Decidable (compare_hand_ranks b a = false))

/-- The function `Ranking::determine_winner` on the players and the community
cards of the deck. `std::sort` is taken to be an insertion sort by
`compare_hand_ranks`; the order it gives to equal entries is one of those
`std::sort` may produce. -/
def determine_winner (players : List Player) (community_cards : List Card) :
    Option (List String) := do
  let entries ← player_name_and_rank players community_cards
  winners_of_sorted (entries.insertionSort sort_order)

/-! ## Machine integers -/

/-- The value stored in an `int` for an expression of mathematical value `x`:
the two's-complement reduction into `-2^31 .. 2^31 - 1`. Signed overflow is
undefined behaviour in C++; the embedding takes the wrapped value of the usual
targets, and the theorems say when no overflow occurs. -/
def int_wrap (x : Int) : Int := (x + 2 ^ 31) % 2 ^ 32 - 2 ^ 31

/-! ## `Bet` and `Pot` -/

/-- The class `Bet`: amount and name of the betting player. -/
structure Bet where
  amount : Int
  player_name : String
deriving DecidableEq

/-- The class `Pot`: the total `pot` and the vector `bets` (the shared
pointers are held as the bets they point to, which are never modified). -/
structure Pot where
  pot : Int
  bets : List Bet
deriving DecidableEq

/-- The default-constructed `Pot`. -/
def Pot.empty : Pot := { pot := 0, bets := [] }

/-- The method `Pot::add_to_pot`. -/
def Pot.add_to_pot (p : Pot) (bet : Bet) : Pot :=
  { pot := int_wrap (p.pot + bet.amount), bets := p.bets ++ [bet] }

/-- The method `Pot::reset`. -/
def Pot.reset (p : Pot) : Pot := { p with pot := 0 }

/-- The method `Pot::get_final_pot`. -/
def Pot.get_final_pot (p : Pot) : Int := p.pot

/-- An operation on a `Pot`. -/
inductive PotOp where
  | add_to_pot (bet : Bet)
  | reset
deriving DecidableEq

/-- The effect of one operation. -/
def PotOp.apply (p : Pot) : PotOp → Pot
  | .add_to_pot bet => p.add_to_pot bet
  | .reset => p.reset

/-- A sequence of operations, applied in order. -/
def Pot.run (p : Pot) (ops : List PotOp) : Pot := ops.foldl PotOp.apply p

/-! ## `Player` -/

/-- The method `Player::bet`: the new player and the new pot (the returned
pointer is the bet just appended to the pot). -/
def Player.bet (p : Player) (amount : Int) (pot : Pot) : Player × Pot :=
  ({ p with chips := int_wrap (p.chips - amount) },
    pot.add_to_pot { amount := amount, player_name := p.name })

/-- The method `Player::receive_pot_share`. -/
def Player.receive_pot_share (p : Player) (amount : Int) : Player :=
  { p with chips := int_wrap (p.chips + amount) }

/-- The method `Player::update_chips`. -/
def Player.update_chips (p : Player) (new_chips : Int) : Player :=
  { p with chips := new_chips }

/-- The method `Player::set_new_cards`. -/
def Player.set_new_cards (p : Player) (input_card1 input_card2 : Card) : Player :=
  { p with card1 := input_card1, card2 := input_card2 }

/-! ## `Card_Container` and `Deck` -/

/-- The member `Card_Container::suits`. -/
def container_suits : List String := ["♥", "♦", "♣", "♠"]

/-- The member `Card_Container::ranks`. -/
def container_ranks : List String :=
  ["2", "3", "4", "5", "6", "7", "8", "9", "10", "J", "Q", "K", "A"]

/-- The cards built by the nested loops of `recreate`, before the shuffle. -/
def ordered_cards : List Card :=
  container_suits.flatMap (fun suit => container_ranks.map (fun rank => { suit := suit, rank := rank }))

/-- The class `Deck` with the members inherited from `Card_Container`;
a vector is a list with `back()` at the end. -/
structure Deck where
  cards : List Card
  game_cards : List Card
  community_cards : List Card
  nr_of_community_cards : Int
  nr_of_players : Int
  flop_is_taken : Bool
  turn_is_taken : Bool
  river_is_taken : Bool
deriving DecidableEq

/-- The method `Card_Container::recreate`; `shuffle` is the permutation that
`std::shuffle` applies on this call. -/
def Deck.recreate (shuffle : List Card → List Card) (d : Deck) : Deck :=
  { d with cards := shuffle ordered_cards }

/-- The loop of `populate_game_cards` with `n` iterations left; `none` when
`cards.back()` is taken from an empty vector. -/
def Deck.populate_loop : Nat → Deck → Option Deck
  | 0, d => some d
  | n + 1, d =>
    match d.cards.getLast? with
    | none => none
    | some selected_card =>
      Deck.populate_loop n
        { d with cards := d.cards.dropLast, game_cards := d.game_cards ++ [selected_card] }

/-- The method `Deck::populate_game_cards`. -/
def Deck.populate_game_cards (d : Deck) : Option Deck :=
  Deck.populate_loop
    (int_wrap (d.nr_of_community_cards + int_wrap (d.nr_of_players * 2))).toNat d

/-- The method `Deck::take_game_card`; `none` when `game_cards` is empty. -/
def Deck.take_game_card (d : Deck) : Option (Card × Deck) :=
  match d.game_cards.getLast? with
  | none => none
  | some taken_card => some (taken_card, { d with game_cards := d.game_cards.dropLast })

/-- The method `Deck::take_flop`. -/
def Deck.take_flop (d : Deck) : Option Deck :=
  if d.flop_is_taken = false then do
    let (flop1, d1) ← d.take_game_card
    let (flop2, d2) ← d1.take_game_card
    let (flop3, d3) ← d2.take_game_card
    return { d3 with community_cards := d3.community_cards ++ [flop1, flop2, flop3],
                     flop_is_taken := true }
  else some d

/-- The method `Deck::take_turn`. -/
def Deck.take_turn (d : Deck) : Option Deck :=
  if d.turn_is_taken = false then do
    let (turn_card, d1) ← d.take_game_card
    return { d1 with community_cards := d1.community_cards ++ [turn_card],
                     turn_is_taken := true }
  else some d

/-- The method `Deck::take_river`. -/
def Deck.take_river (d : Deck) : Option Deck :=
  if d.river_is_taken = false then do
    let (river_card, d1) ← d.take_game_card
    return { d1 with community_cards := d1.community_cards ++ [river_card],
                     river_is_taken := true }
  else some d

/-- The method `Deck::get_community_cards`. -/
def Deck.get_community_cards (d : Deck) : List Card := d.community_cards

/-- The method `Deck::reset`. -/
def Deck.reset (d : Deck) : Deck :=
  { d with cards := [], game_cards := [], community_cards := [],
           flop_is_taken := false, turn_is_taken := false, river_is_taken := false }

/-- A deck as its constructors leave it before `recreate` and
`populate_game_cards` run: empty vectors, flags unset. -/
def Deck.new (i_nr_of_players i_nr_of_community_cards : Int) : Deck :=
  { cards := [], game_cards := [], community_cards := [],
    nr_of_community_cards := i_nr_of_community_cards, nr_of_players := i_nr_of_players,
    flop_is_taken := false, turn_is_taken := false, river_is_taken := false }

/-- A call made on the deck during a hand. -/
inductive DeckOp where
  | take_game_card
  | take_flop
  | take_turn
  | take_river
deriving DecidableEq

/-- A sequence of calls on the deck; `dealt` collects the cards that
`take_game_card` handed out. -/
def Deck.run_ops : List DeckOp → Deck → List Card → Option (Deck × List Card)
  | [], d, dealt => some (d, dealt)
  | .take_game_card :: ops, d, dealt =>
    match d.take_game_card with
    | none => none
    | some (c, d1) => Deck.run_ops ops d1 (dealt ++ [c])
  | .take_flop :: ops, d, dealt =>
    match d.take_flop with
    | none => none
    | some d1 => Deck.run_ops ops d1 dealt
  | .take_turn :: ops, d, dealt =>
    match d.take_turn with
    | none => none
    | some d1 => Deck.run_ops ops d1 dealt
  | .take_river :: ops, d, dealt =>
    match d.take_river with
    | none => none
    | some d1 => Deck.run_ops ops d1 dealt


/-! ## The master bot roster -/

/-- The part of class `Bot` that the game reads: the vector `bots` and the
pool of `names`. -/
structure Bot where
  bots : List Player
  names : List String
deriving DecidableEq

/-- The loop `for (auto &object : bots) if (name matches) { f(object); break; }`. -/
def update_first_named (f : Player → Player) (bot_name : String) : List Player → List Player
  | [] => []
  | object :: rest =>
    if object.name = bot_name then f object :: rest
    else object :: update_first_named f bot_name rest

/-- The method `Bot::update_bot_chips`. -/
def Bot.update_bot_chips (b : Bot) (bot_name : String) (amount : Int) : Bot :=
  let f := fun (object : Player) => object.update_chips (int_wrap (object.chips - amount))
  { b with bots := update_first_named f bot_name b.bots }

/-- The method `Bot::update_chips_for_bot`. -/
def Bot.update_chips_for_bot (b : Bot) (bot_name : String) (amount : Int) : Bot :=
  let f := fun (object : Player) => object.receive_pot_share amount
  { b with bots := update_first_named f bot_name b.bots }

/-- The method `Bot::get_bots`. -/
def Bot.get_bots (b : Bot) : List Player := b.bots

/-- The first bot of a roster with the given name. -/
def find_bot (bot_name : String) (bots : List Player) : Option Player :=
  bots.find? (fun object => object.name = bot_name)

/-- The loop of `Bot::delete_defeated_bots`: `kept` is the part of the vector
before the iterator, the list argument is the part from the iterator to the
end. `erase` drops the element at the iterator, `++it` moves it behind the
iterator. -/
def delete_defeated_loop (kept : List Player) : List Player → List Player
  | [] => kept
  | object :: rest =>
    if object.chips = 0 then delete_defeated_loop kept rest
    else delete_defeated_loop (kept ++ [object]) rest

/-- The method `Bot::delete_defeated_bots`. -/
def Bot.delete_defeated_bots (b : Bot) : Bot :=
  { b with bots := delete_defeated_loop [] b.bots }

/-! ## The state of a `Game` and its inputs -/

/-- The members of class `Game`. -/
structure Game where
  difficulty : Int
  nr_of_bots : Int
  starting_chips : Int
  deck : Deck
  bot : Bot
  human : Player
  pot : Pot
  bots_in_the_game : List Player
  bot_initial_copy : List Player
  all_players_initial_copy : List Player
  human_in_the_game : Bool
  it_is_the_first_game : Bool
deriving DecidableEq

/-- What stands in the input where `std::cin >> x` looks for an `int`: a
decimal number of any size, or a text that is no number. -/
inductive TypedAmount where
  | number (typed : Int)
  | text
deriving DecidableEq

/-- One attempt of the human at a prompt: the action word typed and what is
typed after it (read only when the action asks for a number). -/
structure HumanInput where
  action : String
  amount : TypedAmount
deriving DecidableEq

/-- The value that `std::cin >> x` leaves in the `int` `x`: the number typed
when an `int` holds it, the nearest bound of `int` when none does, and 0 for a
text that is no number. -/
def cin_int : TypedAmount → Int
  | .number typed =>
    if typed < -2 ^ 31 then -2 ^ 31 else if typed ≥ 2 ^ 31 then 2 ^ 31 - 1 else typed
  | .text => 0

/-- Whether `std::cin >> x` succeeds: it does for a number that an `int`
holds. When it fails the stream stays failed: `human_turn` and
`human_response` never clear it, so every later `>>` fails, the action read is
the empty string, it is refused as an invalid action and the loop goes round
for ever without reading an attempt. -/
def cin_ok : TypedAmount → Bool
  | .number typed => decide (-2 ^ 31 ≤ typed ∧ typed < 2 ^ 31)
  | .text => false

/-- What the game receives from outside during a hand: the raw values of the
random engine, in the order drawn, and the attempts of the human, in the order
typed. A function returns `none` when it needs more than the lists hold. -/
structure Oracle where
  rand : List Nat
  human : List HumanInput
deriving DecidableEq

/-- A draw from `std::uniform_int_distribution<>(lo, hi)`: the next raw value
reduced into `lo .. hi`. -/
def draw (lo hi : Int) : List Nat → Option (Int × List Nat)
  | [] => none
  | v :: rest => some (lo + (v : Int) % (hi - lo + 1), rest)

/-- The call `std::max_element` with the comparator on chips: the first
player with the largest balance, `none` for an empty vector (the source then
dereferences `end()`). -/
def max_element_chips : List Player → Option Player
  | [] => none
  | first :: rest =>
    some (rest.foldl (fun largest p => if largest.chips < p.chips then p else largest) first)

/-! ## `bot_response` -/

/-- The CALL branch of `bot_response` for the bot `b` found at index `i`. -/
def bot_call (bet_amount : Int) (i : Nat) (b : Player) (g : Game) : Game :=
  if bet_amount ≥ b.chips then
    let smaller_bet_amount := b.chips
    let r := b.bet smaller_bet_amount g.pot
    { g with bots_in_the_game := g.bots_in_the_game.set i r.1, pot := r.2,
             bot := g.bot.update_bot_chips b.name smaller_bet_amount }
  else
    let r := b.bet bet_amount g.pot
    { g with bots_in_the_game := g.bots_in_the_game.set i r.1, pot := r.2,
             bot := g.bot.update_bot_chips b.name bet_amount }

/-- One iteration of the loop of `bot_response`, at index `i`, with the
indices collected so far. -/
def bot_response_step (bet_amount : Int) (raiser_bot_name : String) (i : Nat) (g : Game)
    (indices_to_remove : List Nat) (rand : List Nat) : Option (Game × List Nat × List Nat) :=
  match g.bots_in_the_game[i]? with
  | none => none
  | some b =>
    if b.name = raiser_bot_name then some (g, indices_to_remove, rand)
    else
      match draw 1 3 rand with
      | none => none
      | some (random_number, rand1) =>
        if random_number = 1 ∧ b.chips > 0 ∧ g.bots_in_the_game.length > 0 then
          some (g, indices_to_remove ++ [i], rand1)
        else if b.chips > 0 then
          some (bot_call bet_amount i b g, indices_to_remove, rand1)
        else some (g, indices_to_remove, rand1)

/-- The loop `for (int i = 0; i < bots_in_the_game.size(); ++i)` of
`bot_response` with `n` iterations left. -/
def bot_response_loop (bet_amount : Int) (raiser_bot_name : String) :
    Nat → Nat → Game → List Nat → List Nat → Option (Game × List Nat × List Nat)
  | 0, _, g, indices_to_remove, rand => some (g, indices_to_remove, rand)
  | n + 1, i, g, indices_to_remove, rand =>
    match bot_response_step bet_amount raiser_bot_name i g indices_to_remove rand with
    | none => none
    | some (g1, indices1, rand1) =>
      bot_response_loop bet_amount raiser_bot_name n (i + 1) g1 indices1 rand1

/-- The final loop of `bot_response`: erase the collected indices, largest
first. -/
def erase_indices (bots : List Player) (indices_to_remove : List Nat) : List Player :=
  (indices_to_remove.insertionSort (fun a b => a ≥ b)).foldl (fun v index => v.eraseIdx index) bots

/-- The method `Game::bot_response`. -/
def bot_response (bet_amount : Int) (raiser_bot_name : String) (g : Game) (rand : List Nat) :
    Option (Game × List Nat) :=
  match bot_response_loop bet_amount raiser_bot_name g.bots_in_the_game.length 0 g [] rand with
  | none => none
  | some (g1, indices_to_remove, rand1) =>
    some ({ g1 with bots_in_the_game := erase_indices g1.bots_in_the_game indices_to_remove },
      rand1)

/-! ## `human_response` and `human_turn` -/

/-- The loop of `human_response`: attempts are read until one is accepted.
The number of extra chips is extracted by `std::cin >> extra_chips`; when the
extraction fails (`cin_ok` false) the stream stays failed, so a refused raise
is followed by no other attempt and the loop never ends (`none`), and an
accepted one leaves no attempt that a later prompt could read. -/
def human_response_loop (amount : Int) (g : Game) (rand : List Nat) :
    List HumanInput → Option (Game × Oracle)
  | [] => none
  | input :: rest =>
    if input.action = "fold" then
      some ({ g with human_in_the_game := false }, { rand := rand, human := rest })
    else if input.action = "call" then
      let human_bet := if g.human.chips < amount then g.human.chips else amount
      let r := g.human.bet human_bet g.pot
      some ({ g with human := r.1, pot := r.2 }, { rand := rand, human := rest })
    else if input.action = "raise" then
      if g.human.chips ≤ amount then human_response_loop amount g rand rest
      else
        match max_element_chips g.bots_in_the_game with
        | none => none
        | some max_chips_player =>
          let max_chips := max_chips_player.chips
          let extra_chips := cin_int input.amount
          if extra_chips ≤ 0 ∨ extra_chips > int_wrap (g.human.chips - amount) ∨
              extra_chips > max_chips then
            if cin_ok input.amount = true then human_response_loop amount g rand rest
            else none
          else
            let r1 := g.human.bet amount g.pot
            let r2 := r1.1.bet extra_chips r1.2
            match bot_response extra_chips "na" { g with human := r2.1, pot := r2.2 } rand with
            | none => none
            | some (g1, rand1) =>
              some (g1, { rand := rand1,
                          human := if cin_ok input.amount = true then rest else [] })
    else human_response_loop amount g rand rest

/-- The method `Game::human_response`. -/
def human_response (amount : Int) (g : Game) (o : Oracle) : Option (Game × Oracle) :=
  human_response_loop amount g o.rand o.human

/-- The loop of `human_turn`; the Boolean is `did_bots_respond`. The amount
is extracted by `std::cin >> human_bet_amount`; when the extraction fails
(`cin_ok` false) the stream stays failed, so a refused raise is followed by no
other attempt and the loop never ends (`none`), and an accepted one leaves no
attempt that a later prompt could read. -/
def human_turn_loop (g : Game) (rand : List Nat) :
    List HumanInput → Option (Bool × Game × Oracle)
  | [] => none
  | input :: rest =>
    if input.action = "check" then some (false, g, { rand := rand, human := rest })
    else if input.action = "raise" then
      match max_element_chips g.bots_in_the_game with
      | none => none
      | some max_chips_player =>
        let max_chips := max_chips_player.chips
        let human_bet_amount := cin_int input.amount
        if human_bet_amount ≤ 0 ∨ human_bet_amount > g.human.chips ∨
            human_bet_amount > max_chips then
          if cin_ok input.amount = true then human_turn_loop g rand rest else none
        else
          let r := g.human.bet human_bet_amount g.pot
          match bot_response human_bet_amount "none" { g with human := r.1, pot := r.2 } rand with
          | none => none
          | some (g1, rand1) =>
            some (true, g1, { rand := rand1,
                              human := if cin_ok input.amount = true then rest else [] })
    else if input.action = "fold" then
      some (false, { g with human_in_the_game := false }, { rand := rand, human := rest })
    else human_turn_loop g rand rest

/-- The method `Game::human_turn`. -/
def human_turn (g : Game) (o : Oracle) : Option (Bool × Game × Oracle) :=
  human_turn_loop g o.rand o.human

/-! ## `bot_turn` -/

/-- The amount a raising bot asks for: `amount0` is the value of the
floating-point expression for the bet size converted to `int`, multiplied
by 5 or by 2 when the second draw is 19 or 20. -/
def raise_request (amount0 bot_raise_random_number : Int) : Int :=
  if bot_raise_random_number = 19 then int_wrap (amount0 * 5)
  else if bot_raise_random_number = 20 then int_wrap (amount0 * 2)
  else amount0

/-- The RAISE branch of `bot_turn` from the clamp to the bet, for the bot `b`
at index `it` and the amount asked for: the amount bet and the new state. -/
def bot_raise (bot_betting_amount1 : Int) (it : Nat) (b : Player) (g : Game) : Int × Game :=
  if bot_betting_amount1 > b.chips then
    let bot_betting_amount := b.chips
    let r := b.bet bot_betting_amount g.pot
    (bot_betting_amount,
      { g with bots_in_the_game := g.bots_in_the_game.set it r.1, pot := r.2,
               bot := g.bot.update_bot_chips b.name bot_betting_amount })
  else
    let r := b.bet bot_betting_amount1 g.pot
    (bot_betting_amount1,
      { g with bots_in_the_game := g.bots_in_the_game.set it r.1, pot := r.2,
               bot := g.bot.update_bot_chips b.name bot_betting_amount1 })

/-- The `while` loop of `bot_turn` with the iterator at index `it`.
`bet_size difficulty starting_chips r` stands for the `int` obtained from the
floating-point expression `r + 0.005*starting_chips*r` (times 3 at difficulty
4), which the embedding does not compute. -/
def bot_turn_loop (bet_size : Int → Int → Int → Int) (g : Game) (human : List HumanInput) :
    Nat → List Nat → Option (Game × Oracle)
  | it, [] =>
    if it ≥ g.bots_in_the_game.length then some (g, { rand := [], human := human }) else none
  | it, v :: rest =>
    if it ≥ g.bots_in_the_game.length then some (g, { rand := v :: rest, human := human })
    else
      match g.bots_in_the_game[it]? with
      | none => none
      | some b =>
        let bot_decision_random_number : Int := 1 + (v : Int) % 5
        if bot_decision_random_number ≤ 4 then bot_turn_loop bet_size g human (it + 1) rest
        else if bot_decision_random_number = 5 ∧ b.chips > 0 then
          match draw 5 20 rest with
          | none => none
          | some (bot_raise_random_number, rand1) =>
            let r := bot_raise
              (raise_request (bet_size g.difficulty g.starting_chips bot_raise_random_number)
                bot_raise_random_number) it b g
            match bot_response r.1 b.name r.2 rand1 with
            | none => none
            | some (g1, rand2) =>
              if g1.human_in_the_game = true ∧ g1.human.chips > 0 then
                human_response r.1 g1 { rand := rand2, human := human }
              else some (g1, { rand := rand2, human := human })
        else bot_turn_loop bet_size g human it rest

/-- The method `Game::bot_turn`. -/
def bot_turn (bet_size : Int → Int → Int → Int) (g : Game) (o : Oracle) :
    Option (Game × Oracle) :=
  bot_turn_loop bet_size g o.human 0 o.rand

/-! ## `get_two_random_players` and the blinds -/

/-- The loop `while (randomIndices.size() < 2) randomIndices.insert(dist(rng))`
for a vector of `n` players; `first` is the content of the set so far. The
result is the pair of indices in the order of the set, smallest first. -/
def two_indices_loop (n : Int) : Option Int → List Nat → Option ((Int × Int) × List Nat)
  | _, [] => none
  | none, v :: rest => two_indices_loop n (some (0 + (v : Int) % (n - 1 - 0 + 1))) rest
  | some a, v :: rest =>
    let x := 0 + (v : Int) % (n - 1 - 0 + 1)
    if x = a then two_indices_loop n (some a) rest
    else some ((min a x, max a x), rest)

/-- The method `Game::get_two_random_players`. -/
def get_two_random_players (players : List Player) (rand : List Nat) :
    Option ((Player × Player) × List Nat) :=
  match two_indices_loop players.length none rand with
  | none => none
  | some ((i1, i2), rand1) =>
    match players[i1.toNat]?, players[i2.toNat]? with
    | some player1, some player2 => some ((player1, player2), rand1)
    | _, _ => none

/-- The big blind computed at the start of round 1. -/
def big_blind_of (starting_chips difficulty : Int) : Int :=
  let big_blind := Int.tdiv starting_chips 10
  if difficulty = 4 then int_wrap (big_blind * 3) else big_blind

/-- The small blind computed at the start of round 1. -/
def small_blind_of (starting_chips difficulty : Int) : Int :=
  let big_blind := Int.tdiv starting_chips 10
  let small_blind := Int.tdiv big_blind 2
  if difficulty = 4 then int_wrap (small_blind * 3) else small_blind

/-- The loop of round 1 over `bots_in_the_game` that makes the bot named as big
blind bet, with `n` iterations left and the current index `i`. -/
def big_blind_loop (player1_name : String) (big_blind : Int) : Nat → Nat → Game → Game
  | 0, _, g => g
  | n + 1, i, g =>
    match g.bots_in_the_game[i]? with
    | none => g
    | some object =>
      if object.name = player1_name then
        let r := object.bet big_blind g.pot
        big_blind_loop player1_name big_blind n (i + 1)
          { g with bots_in_the_game := g.bots_in_the_game.set i r.1, pot := r.2,
                   bot := g.bot.update_bot_chips player1_name big_blind }
      else big_blind_loop player1_name big_blind n (i + 1) g

/-- The branch `round == 1` of the round loop of `run`. -/
def round_one (g : Game) (o : Oracle) : Option (Game × Oracle) :=
  let big_blind := big_blind_of g.starting_chips g.difficulty
  let small_blind := small_blind_of g.starting_chips g.difficulty
  match get_two_random_players g.all_players_initial_copy o.rand with
  | none => none
  | some ((player1, player2), rand1) =>
    let g1 :=
      if player1.name = "Human" then g
      else big_blind_loop player1.name big_blind g.bots_in_the_game.length 0 g
    match bot_response big_blind player1.name g1 rand1 with
    | none => none
    | some (g2, rand2) =>
      if g2.bots_in_the_game.length > 0 then
        if g2.human.chips > big_blind then
          if player1.name ≠ "Human" ∧ player2.name ≠ "Human" then
            human_response big_blind g2 { rand := rand2, human := o.human }
          else if player2.name = "Human" then
            let r := g2.human.bet small_blind g2.pot
            human_response (int_wrap (big_blind - small_blind))
              { g2 with human := r.1, pot := r.2 } { rand := rand2, human := o.human }
          else some (g2, { rand := rand2, human := o.human })
        else human_response g2.human.chips g2 { rand := rand2, human := o.human }
      else some (g2, { rand := rand2, human := o.human })

/-! ## The round loop of `run` -/

/-- The three calls `take_flop(); take_turn(); take_river();` made before each
`break` of the round loop. -/
def take_all (d : Deck) : Option Deck :=
  match d.take_flop with
  | none => none
  | some d1 =>
    match d1.take_turn with
    | none => none
    | some d2 => d2.take_river

/-- The first part of an iteration of the round loop: the blinds in round 1,
the reveal of community cards in rounds 2 to 4. -/
def round_start (round : Int) (g : Game) (o : Oracle) : Option (Game × Oracle) :=
  if round = 1 then round_one g o
  else if round = 2 then (g.deck.take_flop).map (fun d => ({ g with deck := d }, o))
  else if round = 3 then (g.deck.take_turn).map (fun d => ({ g with deck := d }, o))
  else if round = 4 then (g.deck.take_river).map (fun d => ({ g with deck := d }, o))
  else some (g, o)

/-- The local `highest_chips` of the round loop. -/
def highest_chips (bots : List Player) : Int :=
  bots.foldl (fun highest object => max highest object.chips) 0

/-- One iteration of the round loop of `run`; the Boolean tells whether the
iteration left the loop by `break`. -/
def run_round (bet_size : Int → Int → Int → Int) (round : Int) (g : Game) (o : Oracle) :
    Option (Bool × Game × Oracle) :=
  match round_start round g o with
  | none => none
  | some (g1, o1) =>
    if highest_chips g1.bots_in_the_game = 0 then
      (take_all g1.deck).map (fun d => (true, { g1 with deck := d }, o1))
    else
      match (if g1.human_in_the_game = true ∧ g1.human.chips > 0 ∧ round ≠ 1 then
          human_turn g1 o1 else some (false, g1, o1)) with
      | none => none
      | some (bots_responded, g2, o2) =>
        if g2.bots_in_the_game.length > 0 ∧ bots_responded = false ∧ round ≠ 1 then
          (bot_turn bet_size g2 o2).map (fun r => (false, r.1, r.2))
        else if (g2.bots_in_the_game.length = 0 ∧ g2.human_in_the_game = true) ∨
            (g2.bots_in_the_game.length = 1 ∧ g2.human_in_the_game = false) then
          (take_all g2.deck).map (fun d => (true, { g2 with deck := d }, o2))
        else some (false, g2, o2)

/-- The iterations of the round loop for the listed round numbers. -/
def run_rounds (bet_size : Int → Int → Int → Int) :
    List Int → Game → Oracle → Option (Game × Oracle)
  | [], g, o => some (g, o)
  | round :: rest, g, o =>
    match run_round bet_size round g o with
    | none => none
    | some (true, g1, o1) => some (g1, o1)
    | some (false, g1, o1) => run_rounds bet_size rest g1 o1

/-- The loop `for (int round = 1; round <= 4; ++round)` of `run`, up to the
point where `determine_winner` is called. -/
def round_loop (bet_size : Int → Int → Int → Int) (g : Game) (o : Oracle) :
    Option (Game × Oracle) :=
  run_rounds bet_size [1, 2, 3, 4] g o

/-- The assignments of `run` between the set-up of a hand and the round loop. -/
def begin_hand (g : Game) : Game :=
  { g with human_in_the_game := true, bots_in_the_game := g.bot.get_bots,
           bot_initial_copy := g.bot.get_bots,
           all_players_initial_copy := g.bot.get_bots ++ [g.human] }

/-- The vector `remaining_players` that `run` builds after the round loop and
hands to `determine_winner`. -/
def remaining_players (g : Game) : List Player :=
  let remaining_players : List Player := if g.human_in_the_game = true then [g.human] else []
  if g.bots_in_the_game.length > 0 then remaining_players ++ g.bots_in_the_game
  else remaining_players

/-! ## `distribute_pot` -/

/-- The conversion of an `int` to `size_t` that C++ applies when the other
operand of an arithmetic operator or comparison is a `size_t`. -/
def to_size_t (x : Int) : Nat := (x % 2 ^ 64).toNat

/-- The expression
`bot_initial.get_chips()*(std::max(bot_initial_copy.size()/2, all_final_players.size()))`,
a `size_t` value. -/
def partial_pot_amount (chips : Int) (n_initial n_final : Nat) : Nat :=
  (to_size_t chips * max (n_initial / 2) n_final) % 2 ^ 64

/-- The locals of `distribute_pot` that its first loop updates, with the
master roster. -/
structure PartialPot where
  bot : Bot
  partial_pot_winner : String
  distributed_chips : Int
  distributed_chips_count : Int
deriving DecidableEq

/-- The inner loop `for (auto &bot_initial : bot_initial_copy)` of the first
loop of `distribute_pot` for one winner name, from the given position on; it
ends at the `break` of the partial-pot branch. -/
def partial_pot_inner (player_name : String) (amount_to_distribute : Int)
    (n_initial n_final : Nat) : List Player → PartialPot → PartialPot
  | [], s => s
  | bot_initial :: rest, s =>
    if player_name = bot_initial.name then
      if to_size_t amount_to_distribute >
          partial_pot_amount bot_initial.chips n_initial n_final then
        { bot := s.bot.update_chips_for_bot player_name
            (int_wrap (partial_pot_amount bot_initial.chips n_initial n_final)),
          partial_pot_winner := player_name,
          distributed_chips := int_wrap (((to_size_t s.distributed_chips +
            partial_pot_amount bot_initial.chips n_initial n_final) % 2 ^ 64 : Nat)),
          distributed_chips_count := int_wrap (s.distributed_chips_count + 1) }
      else partial_pot_inner player_name amount_to_distribute n_initial n_final rest s
    else partial_pot_inner player_name amount_to_distribute n_initial n_final rest s

/-- The first loop of `distribute_pot`, over the winner names. -/
def partial_pot_loop (amount_to_distribute : Int) (bot_initial_copy : List Player)
    (n_final : Nat) (winning_player_names : List String) (s : PartialPot) : PartialPot :=
  winning_player_names.foldl (fun s player_name =>
    partial_pot_inner player_name amount_to_distribute bot_initial_copy.length n_final
      bot_initial_copy s) s

/-- One iteration of the loop over `all_final_players` that hands
`remaining_chips` to everyone but `partial_pot_winner`. -/
def refund_step (partial_pot_winner : String) (remaining_chips : Int) (g : Game)
    (player : Player) : Game :=
  if partial_pot_winner ≠ player.name then
    if player.name = g.human.name then
      { g with human := g.human.receive_pot_share remaining_chips }
    else { g with bot := g.bot.update_chips_for_bot player.name remaining_chips }
  else g

/-- One iteration of the loop over the winner names that hands out
`amount_to_distribute` when no partial pot was paid. -/
def share_step (amount_to_distribute : Int) (g : Game) (player_name : String) : Game :=
  if player_name = g.human.name then
    { g with human := g.human.receive_pot_share amount_to_distribute }
  else { g with bot := g.bot.update_chips_for_bot player_name amount_to_distribute }

/-- The method `Game::distribute_pot`; `none` for the division by
`winning_player_names.size()` when the vector is empty. The `int` operands
`total_pot_amount`, `distributed_chips` and `distributed_chips_count` meet
`size_t` operands and are converted by `to_size_t`; a `size_t` result stored
in an `int` is reduced by `int_wrap`. -/
def distribute_pot (winning_player_names : List String) (all_final_players : List Player)
    (total_pot_amount : Int) (g : Game) : Option Game :=
  if winning_player_names.length = 0 then none
  else
    let amount_to_distribute : Int :=
      int_wrap ((to_size_t total_pot_amount / winning_player_names.length : Nat))
    let s := partial_pot_loop amount_to_distribute g.bot_initial_copy all_final_players.length
      winning_player_names ⟨g.bot, "", 0, 0⟩
    let g1 := { g with bot := s.bot }
    if s.distributed_chips_count > 0 ∧
        size_t_sub all_final_players.length (to_size_t s.distributed_chips_count) > 0 then
      let remaining_chips : Int :=
        int_wrap ((to_size_t (int_wrap (total_pot_amount - s.distributed_chips)) /
          size_t_sub all_final_players.length (to_size_t s.distributed_chips_count) : Nat))
      some (all_final_players.foldl (refund_step s.partial_pot_winner remaining_chips) g1)
    else if s.distributed_chips_count = 0 then
      some (winning_player_names.foldl (share_step amount_to_distribute) g1)
    else some g1

/-! ## Predicates used in the statements -/

/-- Lexicographic order on evaluation results: category first, then
tie-break. -/
def hand_le (a b : HandValue) : Prop := a.1 < b.1 ∨ (a.1 = b.1 ∧ a.2 ≤ b.2)

/-- The entries of a rank map: keys strictly ascending, each key of the list
present exactly once with its number of occurrences. -/
def RankMapOk (m : List (Int × Nat)) (xs : List Int) : Prop :=
  m.Pairwise (fun a b => a.1 < b.1) ∧ ∀ k c, (k, c) ∈ m ↔ (c = xs.count k ∧ k ∈ xs)

/-- The possible values of a numeric rank. -/
def RankValue (x : Int) : Prop := x = 0 ∨ (2 ≤ x ∧ x ≤ 14)

/-- Runs of equal categories laid end to end. -/
def segments : List (Nat × Poker_Ranks) → List Poker_Ranks
  | [] => []
  | s :: rest => List.replicate s.1 s.2 ++ segments rest

/-- The runs of categories that `evaluate_hand` appends, in order. -/
def ranking_segments (m : List (Int × Nat)) (sm : List (String × Nat)) (found : Option Int) :
    List (Nat × Poker_Ranks) :=
  [(1, .high_card),
   (m.countP (fun e => e.2 = 2), .pair),
   (if 2 ≤ m.countP (fun e => e.2 = 2) then 1 else 0, .two_pair),
   (m.countP (fun e => e.2 = 3), .three_of_a_kind),
   (if found.isSome then 1 else 0, .straight),
   (sm.countP (fun e => e.2 > 4), .flush),
   (if (0 < m.countP (fun e => e.2 = 2) ∧ 0 < m.countP (fun e => e.2 = 3)) ∨
       m.countP (fun e => e.2 = 3) = 2 then 1 else 0, .full_house),
   (m.countP (fun e => e.2 = 4), .four_of_a_kind)]

/-- The values an `int` can hold. -/
def InIntRange (x : Int) : Prop := -2 ^ 31 ≤ x ∧ x < 2 ^ 31

/-- The bets added since the last `reset` (or since the start). -/
def since_reset (ops : List PotOp) : List Bet :=
  ops.foldl (fun acc op =>
    match op with
    | .add_to_pot bet => acc ++ [bet]
    | .reset => []) []

/-- All the bets added by a sequence of operations. -/
def added_bets (ops : List PotOp) : List Bet :=
  ops.foldl (fun acc op =>
    match op with
    | .add_to_pot bet => acc ++ [bet]
    | .reset => acc) []

/-- The four places a card can be in: undealt pool, reserve, community cards
and the cards already handed out. -/
def Deck.all_cards (d : Deck) (dealt : List Card) : List Card :=
  d.cards ++ d.game_cards ++ d.community_cards ++ dealt

/-- The deck after a first `take_flop` that moved `c1`, `c2`, `c3` (in the
order taken) and left the reserve `g`. -/
def Deck.after_flop (d : Deck) (g : List Card) (c1 c2 c3 : Card) : Deck :=
  { d with game_cards := g, community_cards := d.community_cards ++ [c1, c2, c3],
           flop_is_taken := true }

/-- The deck after a first `take_turn` that moved `c` and left the reserve
`g`. -/
def Deck.after_turn (d : Deck) (g : List Card) (c : Card) : Deck :=
  { d with game_cards := g, community_cards := d.community_cards ++ [c],
           turn_is_taken := true }

/-- The deck after a first `take_river` that moved `c` and left the reserve
`g`. -/
def Deck.after_river (d : Deck) (g : List Card) (c : Card) : Deck :=
  { d with game_cards := g, community_cards := d.community_cards ++ [c],
           river_is_taken := true }

/-- The number of community cards that the flags of the deck account for. -/
def Deck.revealed_count (d : Deck) : Nat :=
  (if d.flop_is_taken = true then 3 else 0) + (if d.turn_is_taken = true then 1 else 0) +
    (if d.river_is_taken = true then 1 else 0)

/-- The community cards and the flags agree. -/
def Deck.flags_agree (d : Deck) : Prop := d.community_cards.length = d.revealed_count

/-- The deck has revealed the flop, the turn and the river. -/
def Deck.all_revealed (d : Deck) : Prop :=
  d.flop_is_taken = true ∧ d.turn_is_taken = true ∧ d.river_is_taken = true

/-- What the deck has revealed once round `round` went through without a
`break`: the flop from round 2 on, the turn from round 3 on, the river from
round 4 on. -/
def Deck.revealed_up_to (round : Int) (d : Deck) : Prop :=
  d.flags_agree ∧ (2 ≤ round → d.flop_is_taken = true) ∧ (3 ≤ round → d.turn_is_taken = true) ∧
    (4 ≤ round → d.river_is_taken = true)

/-- A table of two bots and the human with a reserve of five cards, as it
stands when the round loop starts. -/
def sample_game : Game :=
  { difficulty := 2, nr_of_bots := 2, starting_chips := 100,
    deck := { cards := [],
              game_cards := [⟨"♥", "2"⟩, ⟨"♥", "3"⟩, ⟨"♥", "4"⟩, ⟨"♣", "5"⟩, ⟨"♦", "9"⟩],
              community_cards := [], nr_of_community_cards := 5, nr_of_players := 3,
              flop_is_taken := false, turn_is_taken := false, river_is_taken := false },
    bot := ⟨[⟨"Alice", 100, ⟨"♠", "A"⟩, ⟨"♠", "K"⟩⟩, ⟨"Bence", 100, ⟨"♠", "7"⟩, ⟨"♦", "7"⟩⟩], []⟩,
    human := ⟨"Human", 100, ⟨"♠", "Q"⟩, ⟨"♦", "J"⟩⟩, pot := Pot.empty,
    bots_in_the_game :=
      [⟨"Alice", 100, ⟨"♠", "A"⟩, ⟨"♠", "K"⟩⟩, ⟨"Bence", 100, ⟨"♠", "7"⟩, ⟨"♦", "7"⟩⟩],
    bot_initial_copy :=
      [⟨"Alice", 100, ⟨"♠", "A"⟩, ⟨"♠", "K"⟩⟩, ⟨"Bence", 100, ⟨"♠", "7"⟩, ⟨"♦", "7"⟩⟩],
    all_players_initial_copy :=
      [⟨"Alice", 100, ⟨"♠", "A"⟩, ⟨"♠", "K"⟩⟩, ⟨"Bence", 100, ⟨"♠", "7"⟩, ⟨"♦", "7"⟩⟩,
        ⟨"Human", 100, ⟨"♠", "Q"⟩, ⟨"♦", "J"⟩⟩],
    human_in_the_game := true, it_is_the_first_game := true }

/-- Random draws and inputs for `sample_game`: the human calls the blind,
checks, raises 20, mistypes once, calls and checks to the end. -/
def sample_oracle : Oracle :=
  ⟨[0, 2, 1, 1, 0, 4, 3, 2, 2, 0, 0, 0, 0, 0, 0, 0, 0],
    [⟨"call", .number 0⟩, ⟨"check", .number 0⟩, ⟨"raise", .number 20⟩,
      ⟨"bogus", .number 0⟩, ⟨"call", .number 0⟩, ⟨"check", .number 0⟩, ⟨"check", .number 0⟩,
      ⟨"check", .number 0⟩]⟩

/-- The state of `sample_game` after the flop of round 2. -/
def sample_game_flop : Game :=
  { sample_game with
    deck := sample_game.deck.after_flop [⟨"♥", "2"⟩, ⟨"♥", "3"⟩] ⟨"♦", "9"⟩ ⟨"♣", "5"⟩ ⟨"♥", "4"⟩ }

/-- The state of `sample_game_flop` after a raise of 20 by the human to which
both bots fold. -/
def sample_game_all_folded : Game :=
  { sample_game_flop with
    human := { sample_game.human with chips := 80 }, pot := ⟨20, [⟨20, "Human"⟩]⟩,
    bots_in_the_game := [] }

/-- The state of `sample_game` after the human, asked for 10, raised by 20 and
both bots folded. -/
def sample_game_reraised : Game :=
  { sample_game with
    human := { sample_game.human with chips := 70 },
    pot := ⟨30, [⟨10, "Human"⟩, ⟨20, "Human"⟩]⟩,
    bots_in_the_game := [] }

/-- The state of `sample_game` in round 1 after Alice posted the big blind of
10 and Bence called it. -/
def sample_game_big_blind_called : Game :=
  { sample_game with
    bots_in_the_game :=
      [⟨"Alice", 90, ⟨"♠", "A"⟩, ⟨"♠", "K"⟩⟩, ⟨"Bence", 90, ⟨"♠", "7"⟩, ⟨"♦", "7"⟩⟩],
    pot := ⟨20, [⟨10, "Alice"⟩, ⟨10, "Bence"⟩]⟩,
    bot := (sample_game.bot.update_bot_chips "Alice" 10).update_bot_chips "Bence" 10 }

/-- The state of `sample_game` with Alice as the only live bot. -/
def sample_game_lone_bot : Game :=
  { sample_game with bots_in_the_game := [⟨"Alice", 100, ⟨"♠", "A"⟩, ⟨"♠", "K"⟩⟩] }

/-- The state `g` with the balance records of the human and of the master
roster replaced. -/
def Game.with_balances (g : Game) (human : Player) (bots : List Player) : Game :=
  { g with human := human, bot := { g.bot with bots := bots } }

/-- The chips held by the human and by the bots of the master roster. -/
def total_chips (g : Game) : Int := g.human.chips + (g.bot.bots.map Player.chips).sum

/-- The state of a showdown after a hand in which Alice and Bence went all-in
with 10 chips each, Carol (400 chips at the start of the hand) put in 100 and
folded, and the human put in 80: a pot of 200. -/
def sample_game_all_in : Game :=
  { sample_game with
    bot := ⟨[⟨"Alice", 0, ⟨"♠", "A"⟩, ⟨"♠", "K"⟩⟩, ⟨"Bence", 0, ⟨"♥", "A"⟩, ⟨"♥", "K"⟩⟩,
      ⟨"Carol", 300, ⟨"♣", "7"⟩, ⟨"♦", "2"⟩⟩], []⟩,
    human := ⟨"Human", 900, ⟨"♠", "Q"⟩, ⟨"♦", "J"⟩⟩,
    bots_in_the_game := [⟨"Alice", 0, ⟨"♠", "A"⟩, ⟨"♠", "K"⟩⟩,
      ⟨"Bence", 0, ⟨"♥", "A"⟩, ⟨"♥", "K"⟩⟩],
    bot_initial_copy := [⟨"Alice", 10, ⟨"♠", "A"⟩, ⟨"♠", "K"⟩⟩,
      ⟨"Bence", 10, ⟨"♥", "A"⟩, ⟨"♥", "K"⟩⟩, ⟨"Carol", 400, ⟨"♣", "7"⟩, ⟨"♦", "2"⟩⟩] }

/-- The state of `sample_game` at the start of a hand in which Alice is left
with 5 chips. -/
def sample_game_short_bot : Game :=
  { sample_game with
    bot := ⟨[⟨"Alice", 5, ⟨"♠", "A"⟩, ⟨"♠", "K"⟩⟩, ⟨"Bence", 100, ⟨"♠", "7"⟩, ⟨"♦", "7"⟩⟩], []⟩,
    bots_in_the_game :=
      [⟨"Alice", 5, ⟨"♠", "A"⟩, ⟨"♠", "K"⟩⟩, ⟨"Bence", 100, ⟨"♠", "7"⟩, ⟨"♦", "7"⟩⟩],
    bot_initial_copy :=
      [⟨"Alice", 5, ⟨"♠", "A"⟩, ⟨"♠", "K"⟩⟩, ⟨"Bence", 100, ⟨"♠", "7"⟩, ⟨"♦", "7"⟩⟩],
    all_players_initial_copy :=
      [⟨"Alice", 5, ⟨"♠", "A"⟩, ⟨"♠", "K"⟩⟩, ⟨"Bence", 100, ⟨"♠", "7"⟩, ⟨"♦", "7"⟩⟩,
        ⟨"Human", 100, ⟨"♠", "Q"⟩, ⟨"♦", "J"⟩⟩] }

/-- The state of `sample_game` at the start of a hand in which the human is
left with 8 chips. -/
def sample_game_short_human : Game :=
  { sample_game with human := ⟨"Human", 8, ⟨"♠", "Q"⟩, ⟨"♦", "J"⟩⟩ }

/-- The key ordering `less` is a strict total order. -/
def StrictTotal {K : Type} (less : K → K → Bool) : Prop :=
  (∀ a b, less a b = true → less b a = false) ∧
  (∀ a b c, less a b = true → less b c = true → less a c = true) ∧
  (∀ a b, a ≠ b → less a b = true ∨ less b a = true)

/-- What one bot does during `bot_response`. -/
inductive Response where
  | stay
  | fold
  | call
deriving DecidableEq

/-- The roster after the loop of `bot_response`, before the erasure: each
calling bot has paid `min bet_amount chips`. -/
def marked (bet_amount : Int) : List Player → List Response → List Player
  | b :: bots, .call :: rs =>
    { b with chips := b.chips - min bet_amount b.chips } :: marked bet_amount bots rs
  | b :: bots, _ :: rs => b :: marked bet_amount bots rs
  | _, _ => []

/-- The roster left by the given responses: folding bots are dropped, each
calling bot has paid `min bet_amount chips`, the others are unchanged. -/
def survivors (bet_amount : Int) : List Player → List Response → List Player
  | b :: bots, .call :: rs =>
    { b with chips := b.chips - min bet_amount b.chips } :: survivors bet_amount bots rs
  | _ :: bots, .fold :: rs => survivors bet_amount bots rs
  | b :: bots, .stay :: rs => b :: survivors bet_amount bots rs
  | _, _ => []

/-- The bets made by the calling bots, in roster order. -/
def called_bets (bet_amount : Int) : List Player → List Response → List Bet
  | b :: bots, .call :: rs =>
    { amount := min bet_amount b.chips, player_name := b.name } :: called_bets bet_amount bots rs
  | _ :: bots, _ :: rs => called_bets bet_amount bots rs
  | _, _ => []

/-- The indices of the folding bots, counted from `i`. -/
def fold_positions : List Response → Nat → List Nat
  | [], _ => []
  | .fold :: rs, i => i :: fold_positions rs (i + 1)
  | _ :: rs, i => fold_positions rs (i + 1)

/-- Which responses a bot can give: the raiser and a bot without chips stay. -/
def Response.allowed (raiser_bot_name : String) (b : Player) (r : Response) : Prop :=
  (b.name = raiser_bot_name ∨ b.chips ≤ 0) → r = .stay

/-- Somebody is still in the hand: the human has not folded or a bot is in
the live roster. -/
def Game.player_left (g : Game) : Prop :=
  g.human_in_the_game = true ∨ g.bots_in_the_game ≠ []

/-- The cap of the bot named `w`: the stack of its entry in `bot_initial_copy`
times `max (initial_bot_count / 2) final_player_count`; 0 without an entry. -/
def cap_of (bot_initial_copy : List Player) (n_final : Nat) (w : String) : Int :=
  match find_bot w bot_initial_copy with
  | some b => b.chips * (max (bot_initial_copy.length / 2) n_final : Nat)
  | none => 0

/-- The state in which the bots respond to a raise of `a` made in
`human_turn`: the human has bet `a`. -/
def human_bet_state (a : Int) (g : Game) : Game :=
  let r := g.human.bet a g.pot
  { g with human := r.1, pot := r.2 }

/-- The state in which the bots respond to a raise made in
`human_response(amount)`: the human has bet `amount` and then `extra_chips`. -/
def human_raise_state (amount extra_chips : Int) (g : Game) : Game :=
  let r1 := g.human.bet amount g.pot
  let r2 := r1.1.bet extra_chips r1.2
  { g with human := r2.1, pot := r2.2 }

/-! ## Facts about the count maps -/

section CountMap

variable {K : Type} [DecidableEq K]

theorem mapIncr_sum (less : K → K → Bool) (k : K) (m : List (K × Nat)) :
    ((mapIncr less k m).map Prod.snd).sum = (m.map Prod.snd).sum + 1 := by
  induction m with
  | nil => simp [mapIncr]
  | cons e rest ih =>
    obtain ⟨k', c⟩ := e
    unfold mapIncr
    split_ifs
    · simp; omega
    · simp; omega
    · simp [ih]; omega

/-- Invariants of the counting loop are established step by step. -/
theorem foldl_mapIncr_inv (less : K → K → Bool) (P : List (K × Nat) → List K → Prop)
    (hstep : ∀ m pre x, P m pre → P (mapIncr less x m) (pre ++ [x])) :
    ∀ (xs : List K) (m : List (K × Nat)) (pre : List K), P m pre →
      P (xs.foldl (fun m x => mapIncr less x m) m) (pre ++ xs) := by
  intro xs
  induction xs with
  | nil => intro m pre h; simpa using h
  | cons x rest ih =>
    intro m pre h
    have h2 := ih (mapIncr less x m) (pre ++ [x]) (hstep m pre x h)
    simpa using h2

theorem countMap_inv (less : K → K → Bool) (P : List (K × Nat) → List K → Prop)
    (h0 : P [] [])
    (hstep : ∀ m pre x, P m pre → P (mapIncr less x m) (pre ++ [x])) (xs : List K) :
    P (countMap less xs) xs := by
  have h := foldl_mapIncr_inv less P hstep xs [] [] h0
  simpa [countMap] using h

/-- The counts of a count map add up to the number of elements counted. -/
theorem countMap_sum (less : K → K → Bool) (xs : List K) :
    ((countMap less xs).map Prod.snd).sum = xs.length := by
  refine countMap_inv less (fun m pre => (m.map Prod.snd).sum = pre.length) (by simp) ?_ xs
  intro m pre x h
  simp [mapIncr_sum, h]

theorem mem_mapIncr_le (less : K → K → Bool) (x : K) (m : List (K × Nat)) (pre : List K)
    (h : ∀ e ∈ m, 0 < e.2 ∧ e.2 ≤ pre.count e.1) :
    ∀ e ∈ mapIncr less x m, 0 < e.2 ∧ e.2 ≤ (pre ++ [x]).count e.1 := by
  induction m with
  | nil =>
    intro e he
    simp [mapIncr] at he
    subst he
    simp
  | cons e0 rest ih =>
    obtain ⟨k', c⟩ := e0
    have h0 := h (k', c) (by simp)
    have hrest : ∀ e ∈ rest, 0 < e.2 ∧ e.2 ≤ pre.count e.1 :=
      fun e he => h e (by simp [he])
    have hmono : ∀ e : K × Nat, 0 < e.2 ∧ e.2 ≤ pre.count e.1 →
        0 < e.2 ∧ e.2 ≤ (pre ++ [x]).count e.1 := by
      intro e he
      refine ⟨he.1, le_trans he.2 ?_⟩
      simp [List.count_append]
    intro e he
    unfold mapIncr at he
    split_ifs at he with hk hl
    · subst hk
      simp at he
      rcases he with he | he
      · subst he
        simp [List.count_append]
        exact h0.2
      · exact hmono e (hrest e he)
    · simp at he
      rcases he with he | he | he
      · subst he; simp
      · subst he; exact hmono _ h0
      · exact hmono e (hrest e he)
    · simp at he
      rcases he with he | he
      · subst he; exact hmono _ h0
      · exact ih hrest e he

/-- Every entry of a count map holds a positive count that does not exceed the
number of occurrences of its key. -/
theorem countMap_le_count (less : K → K → Bool) (xs : List K) :
    ∀ e ∈ countMap less xs, 0 < e.2 ∧ e.2 ≤ xs.count e.1 :=
  countMap_inv less (fun m pre => ∀ e ∈ m, 0 < e.2 ∧ e.2 ≤ pre.count e.1) (by simp)
    (fun m pre x h => mem_mapIncr_le less x m pre h) xs

end CountMap

theorem mapIncr_key_cases (x : Int) (m : List (Int × Nat)) :
    ∀ e ∈ mapIncr int_less x m, e.1 = x ∨ e ∈ m := by
  induction m with
  | nil => intro e he; simp [mapIncr] at he; simp [he]
  | cons e0 rest ih =>
    obtain ⟨k', c'⟩ := e0
    intro e he
    unfold mapIncr at he
    split_ifs at he with hk hl
    · simp at he
      rcases he with he | he
      · left; rw [he]; exact hk.symm
      · right; simp [he]
    · simp at he
      rcases he with he | he | he
      · left; rw [he]
      · right; simp [he]
      · right; simp [he]
    · simp at he
      rcases he with he | he
      · right; simp [he]
      · rcases ih e he with h | h
        · left; exact h
        · right; simp [h]

theorem mapIncr_pairwise (x : Int) (m : List (Int × Nat))
    (h : m.Pairwise (fun a b => a.1 < b.1)) :
    (mapIncr int_less x m).Pairwise (fun a b => a.1 < b.1) := by
  induction m with
  | nil => simp [mapIncr]
  | cons e0 rest ih =>
    obtain ⟨k', c'⟩ := e0
    rw [List.pairwise_cons] at h
    unfold mapIncr
    split_ifs with hk hl
    · rw [List.pairwise_cons]
      exact ⟨fun e he => h.1 e he, h.2⟩
    · have hlt : x < k' := by simpa [int_less] using hl
      rw [List.pairwise_cons, List.pairwise_cons]
      refine ⟨?_, h.1, h.2⟩
      intro e he
      simp at he
      rcases he with he | he
      · rw [he]; exact hlt
      · exact lt_trans hlt (h.1 e he)
    · have hnlt : ¬ x < k' := by simpa [int_less] using hl
      rw [List.pairwise_cons]
      refine ⟨?_, ih h.2⟩
      intro e he
      rcases mapIncr_key_cases x rest e he with h1 | h1
      · rw [h1]; show k' < x; omega
      · exact h.1 e h1

theorem mem_mapIncr_iff (x : Int) (m : List (Int × Nat))
    (h : m.Pairwise (fun a b => a.1 < b.1)) (k : Int) (c : Nat) :
    (k, c) ∈ mapIncr int_less x m ↔
      (k ≠ x ∧ (k, c) ∈ m) ∨
      (k = x ∧ ((∃ c0, (x, c0) ∈ m ∧ c = c0 + 1) ∨ ((∀ c0, (x, c0) ∉ m) ∧ c = 1))) := by
  induction m with
  | nil =>
    simp only [mapIncr, List.mem_singleton, Prod.mk.injEq]
    constructor
    · rintro ⟨rfl, rfl⟩; right; simp
    · rintro (⟨_, h1⟩ | ⟨rfl, h1⟩)
      · simp at h1
      · rcases h1 with ⟨c0, h2, _⟩ | ⟨_, rfl⟩
        · simp at h2
        · simp
  | cons e0 rest ih =>
    obtain ⟨k', c'⟩ := e0
    rw [List.pairwise_cons] at h
    have hgt : ∀ c0, (k', c0) ∉ rest := fun c0 hc => lt_irrefl k' (h.1 (k', c0) hc)
    unfold mapIncr
    split_ifs with hk hl
    · subst hk
      simp only [List.mem_cons, Prod.mk.injEq]
      constructor
      · rintro (⟨rfl, rfl⟩ | h1)
        · right; exact ⟨rfl, Or.inl ⟨c', Or.inl ⟨trivial, rfl⟩, rfl⟩⟩
        · left
          refine ⟨?_, Or.inr h1⟩
          rintro rfl
          exact hgt c h1
      · rintro (⟨hne, h1⟩ | ⟨rfl, h1⟩)
        · rcases h1 with ⟨h2, _⟩ | h1
          · exact absurd h2 hne
          · exact Or.inr h1
        · rcases h1 with ⟨c0, h2, rfl⟩ | ⟨h2, _⟩
          · rcases h2 with ⟨_, rfl⟩ | h2
            · left; exact ⟨rfl, rfl⟩
            · exact absurd h2 (hgt c0)
          · exact absurd (Or.inl ⟨trivial, rfl⟩) (h2 c')
    · have hlt : x < k' := by simpa [int_less] using hl
      have hx : ∀ c0, (x, c0) ∉ (k', c') :: rest := by
        intro c0 hc
        simp only [List.mem_cons, Prod.mk.injEq] at hc
        rcases hc with ⟨h1, _⟩ | hc
        · exact hk h1
        · have := h.1 _ hc
          simp at this
          omega
      simp only [List.mem_cons, Prod.mk.injEq]
      constructor
      · rintro (⟨rfl, rfl⟩ | h1)
        · right; exact ⟨rfl, Or.inr ⟨fun c0 hc => hx c0 (by simpa using hc), rfl⟩⟩
        · left
          refine ⟨?_, h1⟩
          rintro rfl
          exact hx c (by simpa using h1)
      · rintro (⟨_, h1⟩ | ⟨rfl, h1⟩)
        · exact Or.inr h1
        · rcases h1 with ⟨c0, h2, _⟩ | ⟨_, rfl⟩
          · exact absurd (by simpa using h2) (hx c0)
          · left; exact ⟨rfl, rfl⟩
    · simp only [List.mem_cons, Prod.mk.injEq]
      rw [ih h.2]
      constructor
      · rintro (⟨rfl, rfl⟩ | h1)
        · left; exact ⟨fun hh => hk hh.symm, Or.inl ⟨rfl, rfl⟩⟩
        · rcases h1 with ⟨hne, h1⟩ | ⟨rfl, h1⟩
          · left; exact ⟨hne, Or.inr h1⟩
          · right
            refine ⟨rfl, ?_⟩
            rcases h1 with ⟨c0, h2, rfl⟩ | ⟨h2, rfl⟩
            · exact Or.inl ⟨c0, Or.inr h2, rfl⟩
            · refine Or.inr ⟨?_, rfl⟩
              intro c0 hc
              rcases hc with ⟨h3, _⟩ | hc
              · exact hk h3
              · exact h2 c0 hc
      · rintro (⟨hne, h1⟩ | ⟨rfl, h1⟩)
        · rcases h1 with h1 | h1
          · exact Or.inl h1
          · exact Or.inr (Or.inl ⟨hne, h1⟩)
        · right; right
          refine ⟨rfl, ?_⟩
          rcases h1 with ⟨c0, h2, rfl⟩ | ⟨h2, rfl⟩
          · rcases h2 with ⟨h3, _⟩ | h2
            · exact absurd h3 hk
            · exact Or.inl ⟨c0, h2, rfl⟩
          · exact Or.inr ⟨fun c0 hc => h2 c0 (Or.inr hc), rfl⟩

theorem rankMapOk_step (m : List (Int × Nat)) (pre : List Int) (x : Int)
    (h : RankMapOk m pre) : RankMapOk (mapIncr int_less x m) (pre ++ [x]) := by
  refine ⟨mapIncr_pairwise x m h.1, ?_⟩
  intro k c
  rw [mem_mapIncr_iff x m h.1]
  constructor
  · rintro (⟨hne, h1⟩ | ⟨rfl, h1⟩)
    · have h2 := (h.2 k c).1 h1
      refine ⟨?_, by simp [h2.2]⟩
      rw [List.count_append, h2.1]
      simp [List.count_singleton, hne]
    · refine ⟨?_, by simp⟩
      rcases h1 with ⟨c0, h2, rfl⟩ | ⟨h2, rfl⟩
      · have h3 := (h.2 k c0).1 h2
        rw [List.count_append, h3.1]
        simp
      · have hnot : k ∉ pre := fun hin => h2 _ ((h.2 k _).2 ⟨rfl, hin⟩)
        rw [List.count_append, List.count_eq_zero_of_not_mem hnot]
        simp
  · rintro ⟨hc, hk⟩
    by_cases hkx : k = x
    · subst hkx
      right
      refine ⟨rfl, ?_⟩
      by_cases hin : k ∈ pre
      · left
        refine ⟨pre.count k, (h.2 k _).2 ⟨rfl, hin⟩, ?_⟩
        rw [hc, List.count_append]; simp
      · right
        refine ⟨fun c0 hc0 => hin ((h.2 k c0).1 hc0).2, ?_⟩
        rw [hc, List.count_append, List.count_eq_zero_of_not_mem hin]; simp
    · left
      refine ⟨hkx, (h.2 k c).2 ⟨?_, ?_⟩⟩
      · rw [hc, List.count_append]
        simp [List.count_singleton, hkx]
      · simpa [hkx] using hk

/-- The map `rank_counts` holds, in ascending key order, every rank of the
list once, with its number of occurrences. -/
theorem countMap_rankMapOk (xs : List Int) : RankMapOk (countMap int_less xs) xs :=
  countMap_inv int_less RankMapOk ⟨by simp, by simp⟩
    (fun m pre x h => rankMapOk_step m pre x h) xs

/-! ## Facts about the detection loops -/

theorem fold_pair_two_pair (m : List (Int × Nat)) (s : EvalState) :
    (m.foldl pairStep s).two_pair = s.two_pair + m.countP (fun e => e.2 = 2) := by
  induction m generalizing s with
  | nil => simp
  | cons e rest ih =>
    rw [List.foldl_cons, ih]
    by_cases h2 : e.2 = 2
    · by_cases h0 : s.two_pair = 0 <;>
        simp [pairStep, add_hand_ranking, h2, h0, List.countP_cons] <;> omega
    · by_cases h0 : s.two_pair = 0 <;>
        simp [pairStep, add_hand_ranking, h2, h0, List.countP_cons]

theorem fold_pair_three (m : List (Int × Nat)) (s : EvalState) :
    (m.foldl pairStep s).three_of_a_kind = s.three_of_a_kind := by
  induction m generalizing s with
  | nil => simp
  | cons e rest ih =>
    rw [List.foldl_cons, ih]
    by_cases h2 : e.2 = 2 <;> by_cases h0 : s.two_pair = 0 <;>
      simp [pairStep, add_hand_ranking, h2, h0]

theorem fold_pair_mem (m : List (Int × Nat)) (s : EvalState) (x : Poker_Ranks)
    (hx : x ∈ (m.foldl pairStep s).hand_ranking) : x ∈ s.hand_ranking ∨ x = .pair := by
  induction m generalizing s with
  | nil => left; simpa using hx
  | cons e rest ih =>
    rw [List.foldl_cons] at hx
    rcases ih _ hx with h | h
    · by_cases h2 : e.2 = 2 <;> by_cases h0 : s.two_pair = 0 <;>
        simp [pairStep, add_hand_ranking, h2, h0] at h <;> tauto
    · right; exact h

/-- Without a pair the first loop only raises `highest_card` to the largest
key. -/
theorem fold_pair_none (m : List (Int × Nat)) (s : EvalState) (h0 : s.two_pair = 0)
    (hno : ∀ e ∈ m, e.2 ≠ 2) :
    m.foldl pairStep s =
      { s with highest_card := m.foldl (fun h e => max h e.1) s.highest_card } := by
  induction m generalizing s with
  | nil => simp
  | cons e rest ih =>
    have h2 : e.2 ≠ 2 := hno e (by simp)
    have hstep : pairStep s e = { s with highest_card := max s.highest_card e.1 } := by
      simp [pairStep, h0, h2]
    rw [List.foldl_cons, hstep, ih _ (by simpa using h0) (fun e' he' => hno e' (by simp [he']))]
    simp

theorem fold_trip_two_pair (m : List (Int × Nat)) (s : EvalState) :
    (m.foldl tripStep s).two_pair = s.two_pair := by
  induction m generalizing s with
  | nil => simp
  | cons e rest ih =>
    rw [List.foldl_cons, ih]
    by_cases h3 : e.2 = 3 <;> simp [tripStep, add_hand_ranking, h3]

theorem fold_trip_three (m : List (Int × Nat)) (s : EvalState) :
    (m.foldl tripStep s).three_of_a_kind =
      s.three_of_a_kind + m.countP (fun e => e.2 = 3) := by
  induction m generalizing s with
  | nil => simp
  | cons e rest ih =>
    rw [List.foldl_cons, ih]
    by_cases h3 : e.2 = 3 <;> simp [tripStep, add_hand_ranking, h3, List.countP_cons]
    omega

theorem fold_trip_mem (m : List (Int × Nat)) (s : EvalState) (x : Poker_Ranks)
    (hx : x ∈ (m.foldl tripStep s).hand_ranking) :
    x ∈ s.hand_ranking ∨ x = .three_of_a_kind := by
  induction m generalizing s with
  | nil => left; simpa using hx
  | cons e rest ih =>
    rw [List.foldl_cons] at hx
    rcases ih _ hx with h | h
    · by_cases h3 : e.2 = 3 <;> simp [tripStep, add_hand_ranking, h3] at h <;> tauto
    · right; exact h

theorem fold_trip_none (m : List (Int × Nat)) (s : EvalState) (hno : ∀ e ∈ m, e.2 ≠ 3) :
    m.foldl tripStep s = s := by
  induction m generalizing s with
  | nil => simp
  | cons e rest ih =>
    have h3 : e.2 ≠ 3 := hno e (by simp)
    have hstep : tripStep s e = s := by simp [tripStep, h3]
    rw [List.foldl_cons, hstep, ih _ (fun e' he' => hno e' (by simp [he']))]

/-- With a three of a kind, the second loop leaves in `highest_card` the key
of an entry of count 3 that is not below any other such key. -/
theorem fold_trip_highest (m : List (Int × Nat)) (s : EvalState)
    (hsorted : m.Pairwise (fun a b => a.1 < b.1)) (hex : ∃ e ∈ m, e.2 = 3) :
    (∃ e ∈ m, e.2 = 3 ∧ e.1 = (m.foldl tripStep s).highest_card) ∧
      ∀ e ∈ m, e.2 = 3 → e.1 ≤ (m.foldl tripStep s).highest_card := by
  induction m using List.reverseRecOn with
  | nil => simp at hex
  | append_singleton rest e ih =>
    rw [List.pairwise_append] at hsorted
    rw [List.foldl_append, List.foldl_cons, List.foldl_nil]
    by_cases h3 : e.2 = 3
    · have hstep : (tripStep (rest.foldl tripStep s) e).highest_card = e.1 := by
        simp [tripStep, add_hand_ranking, h3]
      rw [hstep]
      refine ⟨⟨e, by simp, h3, rfl⟩, ?_⟩
      intro e' he' _
      rw [List.mem_append] at he'
      rcases he' with he' | he'
      · exact le_of_lt (hsorted.2.2 e' he' e (by simp))
      · simp at he'; rw [he']
    · have hstep : tripStep (rest.foldl tripStep s) e = rest.foldl tripStep s := by
        simp [tripStep, h3]
      rw [hstep]
      have hex' : ∃ e' ∈ rest, e'.2 = 3 := by
        obtain ⟨e', he', h'⟩ := hex
        rw [List.mem_append] at he'
        rcases he' with he' | he'
        · exact ⟨e', he', h'⟩
        · simp at he'; rw [he'] at h'; exact absurd h' h3
      obtain ⟨⟨e1, he1, h1, h1'⟩, hall⟩ := ih hsorted.1 hex'
      refine ⟨⟨e1, by simp [he1], h1, h1'⟩, ?_⟩
      intro e' he' h'
      rw [List.mem_append] at he'
      rcases he' with he' | he'
      · exact hall e' he' h'
      · simp at he'; rw [he'] at h'; exact absurd h' h3

theorem fold_flush_fields (sm : List (String × Nat)) (s : EvalState) :
    (sm.foldl flushStep s).two_pair = s.two_pair ∧
    (sm.foldl flushStep s).three_of_a_kind = s.three_of_a_kind ∧
    (sm.foldl flushStep s).highest_card = s.highest_card := by
  induction sm generalizing s with
  | nil => simp
  | cons e rest ih =>
    rw [List.foldl_cons]
    obtain ⟨h1, h2, h3⟩ := ih (flushStep s e)
    rw [h1, h2, h3]
    by_cases h : e.2 > 4 <;> simp [flushStep, add_hand_ranking, h]

theorem fold_flush_mem (sm : List (String × Nat)) (s : EvalState) (x : Poker_Ranks)
    (hx : x ∈ (sm.foldl flushStep s).hand_ranking) : x ∈ s.hand_ranking ∨ x = .flush := by
  induction sm generalizing s with
  | nil => left; simpa using hx
  | cons e rest ih =>
    rw [List.foldl_cons] at hx
    rcases ih _ hx with h | h
    · by_cases h4 : e.2 > 4 <;> simp [flushStep, add_hand_ranking, h4] at h <;> tauto
    · right; exact h

theorem fold_flush_none (sm : List (String × Nat)) (s : EvalState)
    (hno : ∀ e ∈ sm, e.2 ≤ 4) : sm.foldl flushStep s = s := by
  induction sm generalizing s with
  | nil => simp
  | cons e rest ih =>
    have h4 : ¬ e.2 > 4 := by have := hno e (by simp); omega
    have hstep : flushStep s e = s := by simp [flushStep, h4]
    rw [List.foldl_cons, hstep, ih _ (fun e' he' => hno e' (by simp [he']))]

theorem fold_quad_mem (m : List (Int × Nat)) (s : EvalState) (x : Poker_Ranks)
    (hx : x ∈ (m.foldl quadStep s).hand_ranking) :
    x ∈ s.hand_ranking ∨ x = .four_of_a_kind := by
  induction m generalizing s with
  | nil => left; simpa using hx
  | cons e rest ih =>
    rw [List.foldl_cons] at hx
    rcases ih _ hx with h | h
    · by_cases h4 : e.2 = 4 <;> simp [quadStep, add_hand_ranking, h4] at h <;> tauto
    · right; exact h

theorem fold_quad_none (m : List (Int × Nat)) (s : EvalState) (hno : ∀ e ∈ m, e.2 ≠ 4) :
    m.foldl quadStep s = s := by
  induction m generalizing s with
  | nil => simp
  | cons e rest ih =>
    have h4 : e.2 ≠ 4 := hno e (by simp)
    have hstep : quadStep s e = s := by simp [quadStep, h4]
    rw [List.foldl_cons, hstep, ih _ (fun e' he' => hno e' (by simp [he']))]

/-- The straight-flush block is never entered: its guard tests two locals that
are still `0`. -/
theorem straightFlushBlock_zero (m : List (Int × Nat)) (s : EvalState) :
    straightFlushBlock 0 0 m s = s := by
  simp [straightFlushBlock]

/-! ## Facts about the straight loop -/

theorem size_t_sub_four (n : Nat) (h4 : 4 ≤ n) (hn : n < 2 ^ 64) :
    size_t_sub n 4 = n - 4 := by
  unfold size_t_sub
  norm_num at hn ⊢
  omega

/-- A successful test of the loop condition at `i` reads five entries that
increase by one each. -/
theorem straight_cond_true (v : List Int) (i : Nat) (h : straight_cond v i = some true) :
    ∃ a, v[i]? = some a ∧ v[i + 1]? = some (a + 1) ∧ v[i + 2]? = some (a + 2) ∧
      v[i + 3]? = some (a + 3) ∧ v[i + 4]? = some (a + 4) := by
  unfold straight_cond at h
  cases h1 : v[i + 1]? with
  | none => simp [h1] at h
  | some a1 =>
    cases h0 : v[i]? with
    | none => simp [h1, h0] at h
    | some a0 =>
      by_cases e1 : a1 = a0 + 1
      swap
      · simp [h1, h0, e1] at h
      cases h2 : v[i + 2]? with
      | none => simp [h1, h0, h2, e1] at h
      | some a2 =>
        by_cases e2 : a2 = a0 + 2
        swap
        · simp [h1, h0, h2, e1, e2] at h
        cases h3 : v[i + 3]? with
        | none => simp [h1, h0, h2, h3, e1, e2] at h
        | some a3 =>
          by_cases e3 : a3 = a0 + 3
          swap
          · simp [h1, h0, h2, h3, e1, e2, e3] at h
          cases h4 : v[i + 4]? with
          | none => simp [h1, h0, h2, h3, h4, e1, e2, e3] at h
          | some a4 =>
            simp [h1, h0, h2, h3, h4, e1, e2, e3] at h
            exact ⟨a0, rfl, by rw [e1], by rw [e2], by rw [e3], by rw [h]⟩

/-- Inside the vector the loop condition is defined. -/
theorem straight_cond_inbounds (v : List Int) (i : Nat) (h : i + 4 < v.length) :
    ∃ b, straight_cond v i = some b := by
  have h0 : v[i]? = some (v[i]) := List.getElem?_eq_getElem (by omega)
  have h1 : v[i + 1]? = some (v[i + 1]) := List.getElem?_eq_getElem (by omega)
  have h2 : v[i + 2]? = some (v[i + 2]) := List.getElem?_eq_getElem (by omega)
  have h3 : v[i + 3]? = some (v[i + 3]) := List.getElem?_eq_getElem (by omega)
  have h4 : v[i + 4]? = some (v[i + 4]) := List.getElem?_eq_getElem (by omega)
  unfold straight_cond
  rw [h0, h1, h2, h3, h4]
  by_cases e1 : v[i + 1] = v[i] + 1
  swap
  · exact ⟨false, by simp [e1]⟩
  by_cases e2 : v[i + 2] = v[i] + 2
  swap
  · exact ⟨false, by simp [e1, e2]⟩
  by_cases e3 : v[i + 3] = v[i] + 3
  swap
  · exact ⟨false, by simp [e1, e2, e3]⟩
  exact ⟨decide (v[i + 4] = v[i] + 4), by simp [e1, e2, e3]⟩

/-- While the loop bound keeps `i + 4` inside the vector, the straight loop
performs no out-of-bounds read. -/
theorem straight_loop_inbounds (v : List Int) (n i : Nat) (h : i + n + 4 ≤ v.length) :
    ∃ r, straight_loop v n i = some r := by
  induction n generalizing i with
  | zero => exact ⟨none, rfl⟩
  | succ n ih =>
    obtain ⟨b, hb⟩ := straight_cond_inbounds v i (by omega)
    unfold straight_loop
    rw [hb]
    cases b with
    | true =>
      have h4 : v[i + 4]? = some (v[i + 4]) := List.getElem?_eq_getElem (by omega)
      exact ⟨some (v[i + 4]), by simp [h4]⟩
    | false => exact ih (i + 1) (by omega)

/-- A match of the straight loop comes from five entries at consecutive
indices that increase by one each; `highest_card` receives the last one. -/
theorem straight_loop_found (v : List Int) (n i : Nat) (t : Int)
    (h : straight_loop v n i = some (some t)) :
    ∃ j a, v[j]? = some a ∧ v[j + 1]? = some (a + 1) ∧ v[j + 2]? = some (a + 2) ∧
      v[j + 3]? = some (a + 3) ∧ v[j + 4]? = some (a + 4) ∧ t = a + 4 := by
  induction n generalizing i with
  | zero => simp [straight_loop] at h
  | succ n ih =>
    unfold straight_loop at h
    cases hb : straight_cond v i with
    | none => simp [hb] at h
    | some b =>
      cases b with
      | true =>
        obtain ⟨a, h0, h1, h2, h3, h4⟩ := straight_cond_true v i hb
        simp [hb, h4] at h
        exact ⟨i, a, h0, h1, h2, h3, h4, h.symm⟩
      | false =>
        simp [hb] at h
        exact ih (i + 1) h

/-- The vector `numeric_ranks` has two more entries than there are community
cards. -/
theorem numeric_ranks_length (card1 card2 : Card) (community_cards : List Card) :
    (numeric_ranks card1 card2 community_cards).length = community_cards.length + 2 := by
  unfold numeric_ranks
  rw [List.length_insertionSort]
  simp

/-- With two to five community cards the straight loop of `evaluate_hand`
stays in bounds. -/
theorem straight_loop_defined (card1 card2 : Card) (community_cards : List Card)
    (hlo : 2 ≤ community_cards.length) (hhi : community_cards.length ≤ 5) :
    ∃ found, straight_loop (numeric_ranks card1 card2 community_cards)
      (size_t_sub (numeric_ranks card1 card2 community_cards).length 4) 0 = some found := by
  have hlen := numeric_ranks_length card1 card2 community_cards
  rw [size_t_sub_four _ (by omega) (by rw [hlen]; norm_num; omega)]
  exact straight_loop_inbounds _ _ 0 (by omega)

theorem getElem?_mem_of_some (v : List Int) (i : Nat) (a : Int) (h : v[i]? = some a) :
    a ∈ v := by
  rw [List.getElem?_eq_some] at h
  obtain ⟨hi, rfl⟩ := h
  exact List.getElem_mem hi

/-! ## Facts about `evaluate_hand` as a whole -/

theorem rankValue_ite (c : Prop) [Decidable c] (a b : Int) (ha : RankValue a)
    (hb : RankValue b) : RankValue (if c then a else b) := by
  split <;> assumption

/-- Every numeric rank is `0` (unknown rank string) or one of `2 .. 14`. -/
theorem rank_to_num_range (r : String) : RankValue (rank_to_num r) := by
  unfold rank_to_num
  have hv : ∀ x : Int, (x = 0 ∨ (2 ≤ x ∧ x ≤ 14)) → RankValue x := fun _ h => h
  iterate 13 refine rankValue_ite _ _ _ (hv _ (by omega)) ?_
  exact hv _ (by omega)

theorem numeric_ranks_perm (card1 card2 : Card) (community_cards : List Card) :
    (numeric_ranks card1 card2 community_cards).Perm
      (rank_to_num card1.rank :: rank_to_num card2.rank ::
        community_cards.map (fun c => rank_to_num c.rank)) :=
  List.perm_insertionSort _ _

theorem numeric_ranks_range (card1 card2 : Card) (community_cards : List Card) (x : Int)
    (hx : x ∈ numeric_ranks card1 card2 community_cards) : x = 0 ∨ (2 ≤ x ∧ x ≤ 14) := by
  rw [(numeric_ranks_perm card1 card2 community_cards).mem_iff] at hx
  simp only [List.mem_cons, List.mem_map] at hx
  rcases hx with rfl | rfl | ⟨c, _, rfl⟩ <;> exact rank_to_num_range _

/-- A list that contains all members of a duplicate-free list is at least as
long. -/
theorem length_le_of_nodup_subset (r l : List Int) (hnd : r.Nodup) (hsub : ∀ x ∈ r, x ∈ l) :
    r.length ≤ l.length :=
  (List.subperm_of_subset hnd hsub).length_le

/-- Once the straight loop has returned, `evaluate_hand` is the last detected
category together with `highest_card`. -/
theorem evaluate_hand_of_found (card1 card2 : Card) (community_cards : List Card)
    (found : Option Int)
    (h : straight_loop (numeric_ranks card1 card2 community_cards)
      (size_t_sub (numeric_ranks card1 card2 community_cards).length 4) 0 = some found) :
    evaluate_hand card1 card2 community_cards =
      ((afterStraight (countMap int_less (numeric_ranks card1 card2 community_cards))
          (countMap string_less (suits card1 card2 community_cards))
          (afterStraightLoop
            (afterGroups (countMap int_less (numeric_ranks card1 card2 community_cards)))
            found)).hand_ranking.getLast?).map
        (fun highest_rank => (highest_rank,
          (afterStraight (countMap int_less (numeric_ranks card1 card2 community_cards))
            (countMap string_less (suits card1 card2 community_cards))
            (afterStraightLoop
              (afterGroups (countMap int_less (numeric_ranks card1 card2 community_cards)))
              found)).highest_card)) := by
  unfold evaluate_hand
  simp only [h, Option.bind_eq_bind, Option.some_bind, Option.pure_def]
  cases (afterStraight (countMap int_less (numeric_ranks card1 card2 community_cards))
          (countMap string_less (suits card1 card2 community_cards))
          (afterStraightLoop
            (afterGroups (countMap int_less (numeric_ranks card1 card2 community_cards)))
            found)).hand_ranking.getLast? <;> rfl

theorem afterGroups_two_pair (m : List (Int × Nat)) :
    (afterGroups m).two_pair = m.countP (fun e => e.2 = 2) := by
  unfold afterGroups
  simp only [fold_trip_two_pair]
  split_ifs <;> simp [add_hand_ranking, fold_pair_two_pair]

theorem afterGroups_three (m : List (Int × Nat)) :
    (afterGroups m).three_of_a_kind = m.countP (fun e => e.2 = 3) := by
  unfold afterGroups
  simp only [fold_trip_three]
  split_ifs <;> simp [add_hand_ranking, fold_pair_three]

theorem afterGroups_mem (m : List (Int × Nat)) (x : Poker_Ranks)
    (hx : x ∈ (afterGroups m).hand_ranking) :
    x = .high_card ∨ x = .pair ∨ (x = .two_pair ∧ 2 ≤ m.countP (fun e => e.2 = 2)) ∨
      x = .three_of_a_kind := by
  unfold afterGroups at hx
  simp only at hx
  rcases fold_trip_mem _ _ _ hx with h | h
  · split_ifs at h with h2
    · simp only [add_hand_ranking, List.mem_append, List.mem_singleton] at h
      rcases h with h | h
      · rcases fold_pair_mem _ _ _ h with h | h
        · left; simpa using h
        · right; left; exact h
      · right; right; left
        refine ⟨h, ?_⟩
        rw [fold_pair_two_pair] at h2
        simpa using h2
    · rcases fold_pair_mem _ _ _ h with h | h
      · left; simpa using h
      · right; left; exact h
  · right; right; right; exact h

theorem afterStraight_mem (m : List (Int × Nat)) (sm : List (String × Nat)) (s4 : EvalState)
    (x : Poker_Ranks) (hx : x ∈ (afterStraight m sm s4).hand_ranking) :
    x ∈ s4.hand_ranking ∨ x = .flush ∨ x = .full_house ∨ x = .four_of_a_kind := by
  unfold afterStraight at hx
  simp only [straightFlushBlock_zero] at hx
  rcases fold_quad_mem _ _ _ hx with h | h
  · split_ifs at h
    · simp only [add_hand_ranking, List.mem_append, List.mem_singleton] at h
      rcases h with h | h
      · rcases fold_flush_mem _ _ _ h with h | h
        · left; exact h
        · right; left; exact h
      · right; right; left; exact h
    · rcases fold_flush_mem _ _ _ h with h | h
      · left; exact h
      · right; left; exact h
  · right; right; right; exact h

/-- With the full-house test satisfied and no count of four, the detected
categories end with `full_house` and `highest_card` is left as it was. -/
theorem afterStraight_full_house (m : List (Int × Nat)) (sm : List (String × Nat))
    (s4 : EvalState)
    (hfh : (s4.two_pair > 0 ∧ s4.three_of_a_kind > 0) ∨ s4.three_of_a_kind = 2)
    (hno4 : ∀ e ∈ m, e.2 ≠ 4) :
    (afterStraight m sm s4).hand_ranking.getLast? = some .full_house ∧
      (afterStraight m sm s4).highest_card = s4.highest_card := by
  unfold afterStraight
  obtain ⟨h1, h2, h3⟩ := fold_flush_fields sm s4
  simp only [straightFlushBlock_zero, h1, h2, hfh, if_true]
  rw [fold_quad_none _ _ hno4]
  simp [add_hand_ranking, h3]

/-- Without a suit count above four, a full-house pattern or a count of four,
the later stages change nothing. -/
theorem afterStraight_none (m : List (Int × Nat)) (sm : List (String × Nat))
    (s4 : EvalState) (hflush : ∀ e ∈ sm, e.2 ≤ 4)
    (hfh : ¬ ((s4.two_pair > 0 ∧ s4.three_of_a_kind > 0) ∨ s4.three_of_a_kind = 2))
    (hno4 : ∀ e ∈ m, e.2 ≠ 4) :
    afterStraight m sm s4 = s4 := by
  unfold afterStraight
  simp only [straightFlushBlock_zero, fold_flush_none sm s4 hflush, hfh, if_false]
  rw [fold_quad_none _ _ hno4]

/-! ## Counting arguments -/


theorem countP_ge_two {α : Type} (p : α → Bool) (l : List α) (a b : α) (ha : a ∈ l)
    (hb : b ∈ l) (hab : a ≠ b) (hpa : p a = true) (hpb : p b = true) : 2 ≤ l.countP p := by
  rw [List.countP_eq_length_filter]
  have hsub : List.Subperm [a, b] (l.filter p) := by
    apply List.subperm_of_subset
    · simp [hab]
    · intro x hx
      simp only [List.mem_cons, List.mem_singleton, List.not_mem_nil, or_false] at hx
      rcases hx with rfl | rfl
      · exact List.mem_filter.2 ⟨ha, hpa⟩
      · exact List.mem_filter.2 ⟨hb, hpb⟩
  simpa using hsub.length_le

theorem three_countP_le_sum (m : List (Int × Nat)) :
    3 * m.countP (fun e => e.2 = 3) ≤ (m.map Prod.snd).sum := by
  induction m with
  | nil => simp
  | cons e rest ih =>
    by_cases h : e.2 = 3 <;> simp [List.countP_cons, h] <;> omega

theorem exists_two_of_countP (p : Int × Nat → Bool) (m : List (Int × Nat))
    (hsorted : m.Pairwise (fun a b => a.1 < b.1)) (h : 2 ≤ m.countP p) :
    ∃ a b, a ∈ m ∧ b ∈ m ∧ p a = true ∧ p b = true ∧ a.1 < b.1 := by
  rw [List.countP_eq_length_filter] at h
  have hpw : (m.filter p).Pairwise (fun a b => a.1 < b.1) :=
    hsorted.sublist (List.filter_sublist m)
  match hf : m.filter p, h, hpw with
  | a :: b :: t, _, hpw =>
    have ha : a ∈ m.filter p := by rw [hf]; simp
    have hb : b ∈ m.filter p := by rw [hf]; simp
    rw [List.pairwise_cons] at hpw
    exact ⟨a, b, (List.mem_filter.1 ha).1, (List.mem_filter.1 hb).1,
      (List.mem_filter.1 ha).2, (List.mem_filter.1 hb).2, hpw.1 b (by simp)⟩

/-- A triple, a further pair and five ranks in a row do not fit in seven
cards. -/
theorem no_run_with_full_house (ranks : List Int) (hlen : ranks.length ≤ 7) (r q a : Int)
    (hr : ranks.count r = 3) (hq : 2 ≤ ranks.count q) (hqr : q ≠ r)
    (h0 : a ∈ ranks) (h1 : a + 1 ∈ ranks) (h2 : a + 2 ∈ ranks) (h3 : a + 3 ∈ ranks)
    (h4 : a + 4 ∈ ranks) : False := by
  have hkeep : ∀ x, x ∈ ranks → x ∈ ((ranks.erase r).erase r).erase q := by
    intro x hx
    have hx0 : 0 < ranks.count x := List.count_pos_iff.2 hx
    apply List.count_pos_iff.1
    by_cases hxr : x = r
    · subst hxr
      rw [List.count_erase_of_ne (fun h => hqr h.symm), List.count_erase_self,
        List.count_erase_self]
      omega
    · by_cases hxq : x = q
      · subst hxq
        rw [List.count_erase_self, List.count_erase_of_ne hxr, List.count_erase_of_ne hxr]
        omega
      · rw [List.count_erase_of_ne hxq, List.count_erase_of_ne hxr,
          List.count_erase_of_ne hxr]
        exact hx0
  have hm1 : r ∈ ranks := List.count_pos_iff.1 (by omega)
  have hm2 : r ∈ ranks.erase r := List.count_pos_iff.1 (by rw [List.count_erase_self]; omega)
  have hm3 : q ∈ (ranks.erase r).erase r :=
    List.count_pos_iff.1 (by
      rw [List.count_erase_of_ne hqr, List.count_erase_of_ne hqr]
      exact lt_of_lt_of_le (by decide) hq)
  have hlenE : (((ranks.erase r).erase r).erase q).length = ranks.length - 3 := by
    rw [List.length_erase_of_mem hm3, List.length_erase_of_mem hm2,
      List.length_erase_of_mem hm1]
    omega
  have h5 := length_le_of_nodup_subset [a, a + 1, a + 2, a + 3, a + 4]
    (((ranks.erase r).erase r).erase q) (by simp) (by
      intro x hx
      simp only [List.mem_cons, List.mem_singleton, List.not_mem_nil, or_false] at hx
      rcases hx with rfl | rfl | rfl | rfl | rfl <;> apply hkeep <;> assumption)
  simp at h5
  omega


theorem foldl_max_spec (m : List (Int × Nat)) (h0 : Int) :
    h0 ≤ m.foldl (fun h e => max h e.1) h0 ∧
      (∀ e ∈ m, e.1 ≤ m.foldl (fun h e => max h e.1) h0) ∧
      (m.foldl (fun h e => max h e.1) h0 = h0 ∨
        ∃ e ∈ m, e.1 = m.foldl (fun h e => max h e.1) h0) := by
  induction m generalizing h0 with
  | nil => simp
  | cons e rest ih =>
    obtain ⟨h1, h2, h3⟩ := ih (max h0 e.1)
    rw [List.foldl_cons]
    refine ⟨le_trans (le_max_left _ _) h1, ?_, ?_⟩
    · intro e' he'
      rw [List.mem_cons] at he'
      rcases he' with rfl | he'
      · exact le_trans (le_max_right _ _) h1
      · exact h2 e' he'
    · rcases h3 with h3 | ⟨e', he', h3⟩
      · rcases max_choice h0 e.1 with hc | hc
        · left; rw [h3, hc]
        · right; exact ⟨e, by simp, by rw [h3, hc]⟩
      · right; exact ⟨e', by simp [he'], h3⟩

/-- With every rank occurring once, the group loops only compute the largest
key. -/
theorem afterGroups_of_distinct (m : List (Int × Nat)) (h1 : ∀ e ∈ m, e.2 = 1) :
    afterGroups m = ⟨0, 0, m.foldl (fun h e => max h e.1) 0, [.high_card]⟩ := by
  unfold afterGroups
  have hp := fold_pair_none m ⟨0, 0, 0, [.high_card]⟩ rfl
    (fun e he => by rw [h1 e he]; decide)
  simp only [hp]
  rw [if_neg (by decide)]
  exact fold_trip_none m _ (fun e he => by rw [h1 e he]; decide)


/-! ## Which category is returned -/


theorem fold_pair_extends (m : List (Int × Nat)) (s : EvalState) :
    s.hand_ranking <+: (m.foldl pairStep s).hand_ranking := by
  induction m generalizing s with
  | nil => exact List.prefix_refl _
  | cons e rest ih =>
    rw [List.foldl_cons]
    refine List.IsPrefix.trans ?_ (ih _)
    by_cases h2 : e.2 = 2 <;> by_cases h0 : s.two_pair = 0 <;>
      simp [pairStep, add_hand_ranking, h2, h0]

theorem fold_trip_extends (m : List (Int × Nat)) (s : EvalState) :
    s.hand_ranking <+: (m.foldl tripStep s).hand_ranking := by
  induction m generalizing s with
  | nil => exact List.prefix_refl _
  | cons e rest ih =>
    rw [List.foldl_cons]
    refine List.IsPrefix.trans ?_ (ih _)
    by_cases h3 : e.2 = 3 <;> simp [tripStep, add_hand_ranking, h3]

theorem fold_flush_extends (sm : List (String × Nat)) (s : EvalState) :
    s.hand_ranking <+: (sm.foldl flushStep s).hand_ranking := by
  induction sm generalizing s with
  | nil => exact List.prefix_refl _
  | cons e rest ih =>
    rw [List.foldl_cons]
    refine List.IsPrefix.trans ?_ (ih _)
    by_cases h4 : e.2 > 4 <;> simp [flushStep, add_hand_ranking, h4]

theorem fold_quad_extends (m : List (Int × Nat)) (s : EvalState) :
    s.hand_ranking <+: (m.foldl quadStep s).hand_ranking := by
  induction m generalizing s with
  | nil => exact List.prefix_refl _
  | cons e rest ih =>
    rw [List.foldl_cons]
    refine List.IsPrefix.trans ?_ (ih _)
    by_cases h4 : e.2 = 4 <;> simp [quadStep, add_hand_ranking, h4]

theorem afterGroups_extends (m : List (Int × Nat)) :
    [Poker_Ranks.high_card] <+: (afterGroups m).hand_ranking := by
  unfold afterGroups
  refine List.IsPrefix.trans ?_ (fold_trip_extends _ _)
  have hp := fold_pair_extends m ⟨0, 0, 0, [.high_card]⟩
  split_ifs
  · exact List.IsPrefix.trans hp (by simp [add_hand_ranking])
  · exact hp

theorem afterStraightLoop_extends (s3 : EvalState) (found : Option Int) :
    s3.hand_ranking <+: (afterStraightLoop s3 found).hand_ranking := by
  cases found <;> simp [afterStraightLoop, add_hand_ranking]

theorem afterStraight_extends (m : List (Int × Nat)) (sm : List (String × Nat))
    (s4 : EvalState) : s4.hand_ranking <+: (afterStraight m sm s4).hand_ranking := by
  unfold afterStraight
  simp only [straightFlushBlock_zero]
  refine List.IsPrefix.trans ?_ (fold_quad_extends _ _)
  have hp := fold_flush_extends sm s4
  split_ifs
  · exact List.IsPrefix.trans hp (by simp [add_hand_ranking])
  · exact hp

/-- Whenever the straight loop returns, `evaluate_hand` returns a category that
is among the detected ones. -/
theorem evaluate_hand_of_found_some (card1 card2 : Card) (community_cards : List Card)
    (found : Option Int)
    (h : straight_loop (numeric_ranks card1 card2 community_cards)
      (size_t_sub (numeric_ranks card1 card2 community_cards).length 4) 0 = some found) :
    ∃ c, evaluate_hand card1 card2 community_cards = some (c,
        (afterStraight (countMap int_less (numeric_ranks card1 card2 community_cards))
          (countMap string_less (suits card1 card2 community_cards))
          (afterStraightLoop
            (afterGroups (countMap int_less (numeric_ranks card1 card2 community_cards)))
            found)).highest_card) ∧
      (afterStraight (countMap int_less (numeric_ranks card1 card2 community_cards))
          (countMap string_less (suits card1 card2 community_cards))
          (afterStraightLoop
            (afterGroups (countMap int_less (numeric_ranks card1 card2 community_cards)))
            found)).hand_ranking.getLast? = some c := by
  rw [evaluate_hand_of_found card1 card2 community_cards found h]
  have hpre := List.IsPrefix.trans (List.IsPrefix.trans
    (afterGroups_extends (countMap int_less (numeric_ranks card1 card2 community_cards)))
    (afterStraightLoop_extends _ found))
    (afterStraight_extends (countMap int_less (numeric_ranks card1 card2 community_cards))
      (countMap string_less (suits card1 card2 community_cards)) _)
  cases hl : (afterStraight (countMap int_less (numeric_ranks card1 card2 community_cards))
          (countMap string_less (suits card1 card2 community_cards))
          (afterStraightLoop
            (afterGroups (countMap int_less (numeric_ranks card1 card2 community_cards)))
            found)).hand_ranking.getLast? with
  | none =>
    rw [List.getLast?_eq_none_iff] at hl
    rw [hl] at hpre
    simp at hpre
  | some c => exact ⟨c, rfl, rfl⟩

/-- A result of `evaluate_hand` comes from a run of the straight loop that
stayed in bounds. -/
theorem evaluate_hand_some_found (card1 card2 : Card) (community_cards : List Card)
    (hv : HandValue) (h : evaluate_hand card1 card2 community_cards = some hv) :
    ∃ found, straight_loop (numeric_ranks card1 card2 community_cards)
      (size_t_sub (numeric_ranks card1 card2 community_cards).length 4) 0 = some found := by
  cases hf : straight_loop (numeric_ranks card1 card2 community_cards)
      (size_t_sub (numeric_ranks card1 card2 community_cards).length 4) 0 with
  | none =>
    unfold evaluate_hand at h
    simp [hf] at h
  | some found => exact ⟨found, rfl⟩

/-- The category returned by `evaluate_hand` is one of the detected ones:
`two_pair` needs two counts of two and `straight` a match of the straight
loop. -/
theorem evaluate_hand_category (card1 card2 : Card) (community_cards : List Card)
    (c : Poker_Ranks) (t : Int)
    (h : evaluate_hand card1 card2 community_cards = some (c, t)) :
    (c = .two_pair →
      2 ≤ (countMap int_less (numeric_ranks card1 card2 community_cards)).countP
        (fun e => e.2 = 2)) ∧
    (c = .straight → ∃ top, straight_loop (numeric_ranks card1 card2 community_cards)
      (size_t_sub (numeric_ranks card1 card2 community_cards).length 4) 0 =
        some (some top)) := by
  obtain ⟨found, hfound⟩ := evaluate_hand_some_found _ _ _ _ h
  obtain ⟨c', hc', hlast⟩ := evaluate_hand_of_found_some _ _ _ found hfound
  rw [h] at hc'
  have hcc : c = c' := by
    have := Option.some.inj hc'
    exact (Prod.mk.inj this).1
  subst hcc
  have hmem := List.mem_of_getLast?_eq_some hlast
  have hcases := afterStraight_mem _ _ _ _ hmem
  constructor
  · intro hc
    subst hc
    rcases hcases with h4 | h4 | h4 | h4
    · cases found with
      | none =>
        rcases afterGroups_mem _ _ h4 with h5 | h5 | h5 | h5
        · cases h5
        · cases h5
        · exact h5.2
        · cases h5
      | some top =>
        simp only [afterStraightLoop, add_hand_ranking, List.mem_append,
          List.mem_singleton] at h4
        rcases h4 with h4 | h4
        · rcases afterGroups_mem _ _ h4 with h5 | h5 | h5 | h5
          · cases h5
          · cases h5
          · exact h5.2
          · cases h5
        · cases h4
    · cases h4
    · cases h4
    · cases h4
  · intro hc
    subst hc
    rcases hcases with h4 | h4 | h4 | h4
    · cases found with
      | none =>
        rcases afterGroups_mem _ _ h4 with h5 | h5 | h5 | h5
        · cases h5
        · cases h5
        · cases h5.1
        · cases h5
      | some top => exact ⟨top, hfound⟩
    · cases h4
    · cases h4
    · cases h4

/-- With two to five community cards `evaluate_hand` returns a result. -/
theorem evaluate_hand_defined (card1 card2 : Card) (community_cards : List Card)
    (hlo : 2 ≤ community_cards.length) (hhi : community_cards.length ≤ 5) :
    ∃ c t, evaluate_hand card1 card2 community_cards = some (c, t) := by
  obtain ⟨found, hfound⟩ := straight_loop_defined card1 card2 community_cards hlo hhi
  obtain ⟨c, hc, _⟩ := evaluate_hand_of_found_some _ _ _ found hfound
  exact ⟨c, _, hc⟩

/-! ## Facts about `compare_hand_ranks` and `determine_winner` -/


theorem toInt_injective (a b : Poker_Ranks) (h : a.toInt = b.toInt) : a = b := by
  cases a <;> cases b <;> simp [Poker_Ranks.toInt] at h <;> rfl

theorem rank_lt_iff (a b : Poker_Ranks) : a < b ↔ a.toInt < b.toInt := Iff.rfl

theorem compare_hand_ranks_true_iff (a b : RankedPlayer) :
    compare_hand_ranks a b = true ↔ (a.2.1 > b.2.1 ∨ (a.2.1 = b.2.1 ∧ a.2.2 > b.2.2)) := by
  unfold compare_hand_ranks
  by_cases h : a.2.1 = b.2.1
  · simp [h, rank_lt_iff]
  · simp [h]

theorem sort_order_iff (a b : RankedPlayer) : sort_order a b ↔ hand_le b.2 a.2 := by
  unfold sort_order hand_le
  rw [← Bool.not_eq_true, compare_hand_ranks_true_iff]
  simp only [gt_iff_lt, rank_lt_iff]
  constructor
  · intro h
    by_cases hlt : b.2.1.toInt < a.2.1.toInt
    · left; exact hlt
    · right
      have hle : a.2.1.toInt ≤ b.2.1.toInt := by omega
      have hne : ¬ a.2.1.toInt < b.2.1.toInt := fun hh => h (Or.inl hh)
      have heq : b.2.1 = a.2.1 := toInt_injective _ _ (by omega)
      refine ⟨heq, ?_⟩
      by_contra hgt
      exact h (Or.inr ⟨heq, by omega⟩)
  · rintro (h | ⟨h1, h2⟩) (h' | ⟨h1', h2'⟩)
    · omega
    · rw [h1'] at h; omega
    · rw [h1] at h'; omega
    · omega

theorem hand_le_refl (a : HandValue) : hand_le a a := Or.inr ⟨rfl, le_refl _⟩

theorem hand_le_total (a b : HandValue) : hand_le a b ∨ hand_le b a := by
  unfold hand_le
  simp only [rank_lt_iff]
  by_cases h1 : a.1.toInt < b.1.toInt
  · left; left; exact h1
  · by_cases h2 : b.1.toInt < a.1.toInt
    · right; left; exact h2
    · have heq : a.1 = b.1 := toInt_injective _ _ (by omega)
      by_cases h3 : a.2 ≤ b.2
      · left; right; exact ⟨heq, h3⟩
      · right; right; exact ⟨heq.symm, by omega⟩

theorem hand_le_trans (a b c : HandValue) (hab : hand_le a b) (hbc : hand_le b c) :
    hand_le a c := by
  unfold hand_le at *
  simp only [rank_lt_iff] at *
  rcases hab with h | ⟨h1, h2⟩ <;> rcases hbc with h' | ⟨h1', h2'⟩
  · left; omega
  · left; rw [← h1']; exact h
  · left; rw [h1]; exact h'
  · right; exact ⟨h1.trans h1', le_trans h2 h2'⟩

theorem hand_le_antisymm (a b : HandValue) (hab : hand_le a b) (hba : hand_le b a) :
    a = b := by
  unfold hand_le at *
  simp only [rank_lt_iff] at *
  rcases hab with h | ⟨h1, h2⟩ <;> rcases hba with h' | ⟨h1', h2'⟩
  · omega
  · rw [h1'] at h; omega
  · rw [h1] at h'; omega
  · exact Prod.ext h1 (le_antisymm h2 h2')

theorem sort_order_total : IsTotal RankedPlayer sort_order :=
  ⟨fun a b => by
    rw [sort_order_iff, sort_order_iff]
    exact (hand_le_total a.2 b.2).symm⟩

theorem sort_order_trans : IsTrans RankedPlayer sort_order :=
  ⟨fun a b c hab hbc => by
    rw [sort_order_iff] at *
    exact hand_le_trans _ _ _ hbc hab⟩

/-- On a list in descending order whose entries do not exceed `best`, the
winner loop returns the names of exactly the entries that equal `best`. -/
theorem collect_winners_sorted (best : HandValue) (l : List RankedPlayer)
    (hsorted : l.Pairwise sort_order) (hbest : ∀ x ∈ l, hand_le x.2 best) :
    collect_winners best l = (l.filter (fun x => x.2 = best)).map Prod.fst := by
  induction l with
  | nil => rfl
  | cons x rest ih =>
    rw [List.pairwise_cons] at hsorted
    unfold collect_winners
    by_cases hx : x.2 = best
    · rw [if_pos hx, ih hsorted.2 (fun y hy => hbest y (by simp [hy]))]
      simp [hx]
    · rw [if_neg hx]
      have hnil : rest.filter (fun y => y.2 = best) = [] := by
        rw [List.filter_eq_nil_iff]
        intro y hy hyb
        simp only [decide_eq_true_eq] at hyb
        have h1 : hand_le y.2 x.2 := (sort_order_iff x y).1 (hsorted.1 y hy)
        have h2 : hand_le x.2 best := hbest x (by simp)
        rw [hyb] at h1
        exact hx (hand_le_antisymm _ _ h2 h1)
      simp [hx, hnil]

/-- Whatever sorted permutation `std::sort` produces, the winners are the
names of the entries holding the greatest evaluation. -/
theorem winners_of_sorted_spec (entries sorted : List RankedPlayer)
    (hperm : sorted.Perm entries) (hsorted : sorted.Pairwise sort_order)
    (hne : entries ≠ []) :
    ∃ best, winners_of_sorted sorted = some (collect_winners best sorted) ∧
      (∃ x ∈ entries, x.2 = best) ∧ (∀ x ∈ entries, hand_le x.2 best) ∧
      (collect_winners best sorted).Perm ((entries.filter (fun x => x.2 = best)).map Prod.fst) := by
  cases hs : sorted with
  | nil =>
    rw [hs] at hperm
    exact absurd hperm.symm.eq_nil hne
  | cons first rest =>
    rw [hs] at hsorted hperm
    have hall : ∀ x ∈ first :: rest, hand_le x.2 first.2 := by
      intro x hx
      rw [List.mem_cons] at hx
      rcases hx with rfl | hx
      · exact hand_le_refl _
      · exact (sort_order_iff first x).1 ((List.pairwise_cons.1 hsorted).1 x hx)
    refine ⟨first.2, by simp [winners_of_sorted], ⟨first, hperm.mem_iff.1 (by simp), rfl⟩,
      fun x hx => hall x (hperm.mem_iff.2 hx), ?_⟩
    rw [collect_winners_sorted first.2 (first :: rest) hsorted hall]
    exact (hperm.filter _).map _

/-- With every evaluation defined, `player_name_and_rank` lists each player's
name with the player's evaluation, in roster order. -/
theorem player_name_and_rank_eq (players : List Player) (community_cards : List Card)
    (hdef : ∀ p ∈ players, ∃ e, evaluate_hand p.card1 p.card2 community_cards = some e) :
    player_name_and_rank players community_cards =
      some (players.map (fun p =>
        (p.name, (evaluate_hand p.card1 p.card2 community_cards).getD (.high_card, 0)))) := by
  induction players with
  | nil => rfl
  | cons p rest ih =>
    obtain ⟨e, he⟩ := hdef p (by simp)
    have hrest := ih (fun q hq => hdef q (by simp [hq]))
    simp only [player_name_and_rank, hrest, he, List.map_cons, Option.getD_some]
    rfl

/-- Selecting the entries with evaluation `best` and reading their names is
selecting the players with evaluation `best` and reading their names. -/
theorem filter_entries_names (players : List Player) (f : Player → RankedPlayer)
    (ev : Player → Option HandValue) (best : HandValue)
    (hf : ∀ p ∈ players, ∃ e, ev p = some e ∧ f p = (p.name, e)) :
    ((players.map f).filter (fun x => x.2 = best)).map Prod.fst =
      (players.filter (fun p => ev p = some best)).map Player.name := by
  induction players with
  | nil => rfl
  | cons p rest ih =>
    obtain ⟨e, he, hfe⟩ := hf p (by simp)
    have hrest := ih (fun q hq => hf q (by simp [hq]))
    rw [List.map_cons, List.filter_cons, List.filter_cons]
    by_cases heb : e = best
    · have h1 : decide ((f p).2 = best) = true := by rw [hfe]; exact decide_eq_true heb
      have h2 : decide (ev p = some best) = true := by rw [he, heb]; exact decide_eq_true rfl
      rw [if_pos h1, if_pos h2, List.map_cons, List.map_cons, hrest, hfe]
    · have h1 : ¬ decide ((f p).2 = best) = true := by
        rw [hfe]; exact fun h => heb (of_decide_eq_true h)
      have h2 : ¬ decide (ev p = some best) = true := by
        rw [he]; exact fun h => heb (Option.some.inj (of_decide_eq_true h))
      rw [if_neg h1, if_neg h2, hrest]

/-! ## Out-of-bounds reads of the straight loop -/

theorem straight_cond_none (v : List Int) (i : Nat) (h : v.length ≤ i + 1) :
    straight_cond v i = none := by
  have h1 : v[i + 1]? = none := List.getElem?_eq_none (by omega)
  unfold straight_cond
  rw [h1]
  rfl

theorem straight_cond_not_true (v : List Int) (i : Nat) (h : v.length ≤ i + 4) :
    straight_cond v i ≠ some true := by
  intro ht
  obtain ⟨a, _, _, _, _, h4⟩ := straight_cond_true v i ht
  rw [List.getElem?_eq_some] at h4
  obtain ⟨hi, _⟩ := h4
  omega

/-- When the loop bound lets `i + 4` run past the end of the vector, the
straight loop ends in an out-of-bounds read. -/
theorem straight_loop_out_of_bounds (v : List Int) (k i n : Nat)
    (hk : v.length ≤ i + 1 + k) (hn : k < n) (h4 : v.length ≤ i + 4) :
    straight_loop v n i = none := by
  induction k generalizing i n with
  | zero =>
    obtain ⟨n', rfl⟩ : ∃ n', n = n' + 1 := ⟨n - 1, by omega⟩
    unfold straight_loop
    rw [straight_cond_none v i (by omega)]
  | succ k ih =>
    obtain ⟨n', rfl⟩ : ∃ n', n = n' + 1 := ⟨n - 1, by omega⟩
    unfold straight_loop
    cases hc : straight_cond v i with
    | none => rfl
    | some b =>
      cases b with
      | true => exact absurd hc (straight_cond_not_true v i h4)
      | false => exact ih (i + 1) n' (by omega) (by omega) (by omega)

theorem evaluate_hand_out_of_bounds (card1 card2 : Card) (community_cards : List Card)
    (h : community_cards.length < 2) : evaluate_hand card1 card2 community_cards = none := by
  have hlen := numeric_ranks_length card1 card2 community_cards
  have hloop : straight_loop (numeric_ranks card1 card2 community_cards)
      (size_t_sub (numeric_ranks card1 card2 community_cards).length 4) 0 = none := by
    apply straight_loop_out_of_bounds _ 2 0
    · omega
    · rw [hlen]
      unfold size_t_sub
      norm_num
      omega
    · omega
  unfold evaluate_hand
  simp [hloop]

/-! ## The vector of detected categories -/

theorem mem_segments (segs : List (Nat × Poker_Ranks)) (x : Poker_Ranks) :
    x ∈ segments segs ↔ ∃ s ∈ segs, s.1 ≠ 0 ∧ x = s.2 := by
  induction segs with
  | nil => simp [segments]
  | cons s rest ih =>
    simp only [segments, List.mem_append, List.mem_replicate, ih, List.mem_cons]
    constructor
    · rintro (h | ⟨s', hs', h⟩)
      · exact ⟨s, Or.inl rfl, h⟩
      · exact ⟨s', Or.inr hs', h⟩
    · rintro ⟨s', hs' | hs', h⟩
      · left; rw [← hs']; exact h
      · right; exact ⟨s', hs', h⟩

/-- Runs whose categories are listed in non-decreasing order give a
non-decreasing list. -/
theorem segments_sorted (segs : List (Nat × Poker_Ranks))
    (h : segs.Pairwise (fun a b => a.2.toInt ≤ b.2.toInt)) :
    (segments segs).Pairwise (fun a b => a.toInt ≤ b.toInt) := by
  induction segs with
  | nil => simp [segments]
  | cons s rest ih =>
    rw [List.pairwise_cons] at h
    simp only [segments]
    rw [List.pairwise_append]
    refine ⟨?_, ih h.2, ?_⟩
    · rw [List.pairwise_replicate]
      right; exact le_refl _
    · intro a ha b hb
      rw [List.mem_replicate] at ha
      rw [mem_segments] at hb
      obtain ⟨s', hs', _, rfl⟩ := hb
      rw [ha.2]
      exact h.1 s' hs'

/-- In a non-decreasing list the last element is a greatest one. -/
theorem getLast?_greatest (l : List Poker_Ranks) (c : Poker_Ranks)
    (hs : l.Pairwise (fun a b => a.toInt ≤ b.toInt)) (hl : l.getLast? = some c) :
    ∀ x ∈ l, x.toInt ≤ c.toInt := by
  rw [List.getLast?_eq_some_iff] at hl
  obtain ⟨ys, rfl⟩ := hl
  rw [List.pairwise_append] at hs
  intro x hx
  rw [List.mem_append] at hx
  rcases hx with hx | hx
  · exact hs.2.2 x hx c (by simp)
  · simp at hx; rw [hx]

theorem fold_pair_ranking (m : List (Int × Nat)) (s : EvalState) :
    (m.foldl pairStep s).hand_ranking =
      s.hand_ranking ++ List.replicate (m.countP (fun e => e.2 = 2)) .pair := by
  induction m generalizing s with
  | nil => simp
  | cons e rest ih =>
    rw [List.foldl_cons, ih]
    by_cases h2 : e.2 = 2 <;> by_cases h0 : s.two_pair = 0 <;>
      simp [pairStep, add_hand_ranking, h2, h0, List.countP_cons, List.replicate_succ]

theorem fold_trip_ranking (m : List (Int × Nat)) (s : EvalState) :
    (m.foldl tripStep s).hand_ranking =
      s.hand_ranking ++ List.replicate (m.countP (fun e => e.2 = 3)) .three_of_a_kind := by
  induction m generalizing s with
  | nil => simp
  | cons e rest ih =>
    rw [List.foldl_cons, ih]
    by_cases h3 : e.2 = 3 <;>
      simp [tripStep, add_hand_ranking, h3, List.countP_cons, List.replicate_succ]

theorem fold_flush_ranking (sm : List (String × Nat)) (s : EvalState) :
    (sm.foldl flushStep s).hand_ranking =
      s.hand_ranking ++ List.replicate (sm.countP (fun e => e.2 > 4)) .flush := by
  induction sm generalizing s with
  | nil => simp
  | cons e rest ih =>
    rw [List.foldl_cons, ih]
    by_cases h4 : e.2 > 4 <;>
      simp [flushStep, add_hand_ranking, h4, List.countP_cons, List.replicate_succ]

theorem fold_quad_ranking (m : List (Int × Nat)) (s : EvalState) :
    (m.foldl quadStep s).hand_ranking =
      s.hand_ranking ++ List.replicate (m.countP (fun e => e.2 = 4)) .four_of_a_kind := by
  induction m generalizing s with
  | nil => simp
  | cons e rest ih =>
    rw [List.foldl_cons, ih]
    by_cases h4 : e.2 = 4 <;>
      simp [quadStep, add_hand_ranking, h4, List.countP_cons, List.replicate_succ]

theorem afterGroups_ranking (m : List (Int × Nat)) :
    (afterGroups m).hand_ranking =
      [.high_card] ++ List.replicate (m.countP (fun e => e.2 = 2)) .pair ++
        List.replicate (if 2 ≤ m.countP (fun e => e.2 = 2) then 1 else 0) .two_pair ++
        List.replicate (m.countP (fun e => e.2 = 3)) .three_of_a_kind := by
  unfold afterGroups
  simp only [fold_trip_ranking]
  by_cases h2 : 2 ≤ m.countP (fun e => e.2 = 2)
  · have h2' : (m.foldl pairStep ⟨0, 0, 0, [.high_card]⟩).two_pair ≥ 2 := by
      rw [fold_pair_two_pair]; simpa using h2
    rw [if_pos h2', if_pos h2]
    simp [add_hand_ranking, fold_pair_ranking]
  · have h2' : ¬ (m.foldl pairStep ⟨0, 0, 0, [.high_card]⟩).two_pair ≥ 2 := by
      rw [fold_pair_two_pair]; simpa using h2
    rw [if_neg h2', if_neg h2]
    simp [fold_pair_ranking]

theorem afterStraightLoop_ranking (s3 : EvalState) (found : Option Int) :
    (afterStraightLoop s3 found).hand_ranking =
      s3.hand_ranking ++ List.replicate (if found.isSome then 1 else 0) .straight := by
  cases found <;> simp [afterStraightLoop, add_hand_ranking]

theorem afterStraightLoop_fields (s3 : EvalState) (found : Option Int) :
    (afterStraightLoop s3 found).two_pair = s3.two_pair ∧
      (afterStraightLoop s3 found).three_of_a_kind = s3.three_of_a_kind := by
  cases found <;> simp [afterStraightLoop, add_hand_ranking]

theorem afterStraight_ranking (m : List (Int × Nat)) (sm : List (String × Nat))
    (s4 : EvalState) :
    (afterStraight m sm s4).hand_ranking =
      s4.hand_ranking ++ List.replicate (sm.countP (fun e => e.2 > 4)) .flush ++
        List.replicate (if (0 < s4.two_pair ∧ 0 < s4.three_of_a_kind) ∨
          s4.three_of_a_kind = 2 then 1 else 0) .full_house ++
        List.replicate (m.countP (fun e => e.2 = 4)) .four_of_a_kind := by
  unfold afterStraight
  obtain ⟨h1, h2, _⟩ := fold_flush_fields sm s4
  simp only [straightFlushBlock_zero, fold_quad_ranking, h1, h2, gt_iff_lt]
  by_cases hfh : (0 < s4.two_pair ∧ 0 < s4.three_of_a_kind) ∨ s4.three_of_a_kind = 2
  · rw [if_pos hfh, if_pos hfh]
    simp [add_hand_ranking, fold_flush_ranking]
  · rw [if_neg hfh, if_neg hfh]
    simp [fold_flush_ranking]

/-- The detected categories are the runs of `ranking_segments`. -/
theorem final_ranking_eq (m : List (Int × Nat)) (sm : List (String × Nat))
    (found : Option Int) :
    (afterStraight m sm (afterStraightLoop (afterGroups m) found)).hand_ranking =
      segments (ranking_segments m sm found) := by
  obtain ⟨h1, h2⟩ := afterStraightLoop_fields (afterGroups m) found
  rw [afterStraight_ranking, afterStraightLoop_ranking, afterGroups_ranking, h1, h2,
    afterGroups_two_pair, afterGroups_three]
  simp [segments, ranking_segments, List.append_assoc]

theorem final_ranking_sorted (m : List (Int × Nat)) (sm : List (String × Nat))
    (found : Option Int) :
    (afterStraight m sm (afterStraightLoop (afterGroups m) found)).hand_ranking.Pairwise
      (fun a b => a.toInt ≤ b.toInt) := by
  rw [final_ranking_eq]
  apply segments_sorted
  simp [ranking_segments, Poker_Ranks.toInt]

theorem rank_le_iff (a b : Poker_Ranks) : a ≤ b ↔ a.toInt ≤ b.toInt := Iff.rfl

/-- With at least two community cards (and a vector size representable in
`size_t`) the straight loop stays in bounds. -/
theorem straight_loop_defined_of_length (card1 card2 : Card) (community_cards : List Card)
    (hlo : 2 ≤ community_cards.length) (hhi : community_cards.length + 2 < 2 ^ 64) :
    ∃ found, straight_loop (numeric_ranks card1 card2 community_cards)
      (size_t_sub (numeric_ranks card1 card2 community_cards).length 4) 0 = some found := by
  have hlen := numeric_ranks_length card1 card2 community_cards
  rw [size_t_sub_four _ (by omega) (by rw [hlen]; exact hhi)]
  exact straight_loop_inbounds _ _ 0 (by omega)

theorem detected_categories_of_found (card1 card2 : Card) (community_cards : List Card)
    (found : Option Int)
    (h : straight_loop (numeric_ranks card1 card2 community_cards)
      (size_t_sub (numeric_ranks card1 card2 community_cards).length 4) 0 = some found) :
    detected_categories card1 card2 community_cards =
      some (afterStraight (countMap int_less (numeric_ranks card1 card2 community_cards))
          (countMap string_less (suits card1 card2 community_cards))
          (afterStraightLoop
            (afterGroups (countMap int_less (numeric_ranks card1 card2 community_cards)))
            found)).hand_ranking := by
  unfold detected_categories
  simp only [h, Option.bind_eq_bind, Option.some_bind, Option.pure_def]

/-- What the last detected category says about the runs: its own run is not
empty and every run of a greater category is. -/
theorem ranking_last_facts (m : List (Int × Nat)) (sm : List (String × Nat))
    (found : Option Int) (c : Poker_Ranks)
    (hlast : (afterStraight m sm (afterStraightLoop (afterGroups m) found)).hand_ranking.getLast?
      = some c) :
    (∃ s ∈ ranking_segments m sm found, s.1 ≠ 0 ∧ c = s.2) ∧
      ∀ s ∈ ranking_segments m sm found, c.toInt < s.2.toInt → s.1 = 0 := by
  have hsorted := final_ranking_sorted m sm found
  have hall := getLast?_greatest _ c hsorted hlast
  have hmem := List.mem_of_getLast?_eq_some hlast
  rw [final_ranking_eq] at hall hmem
  refine ⟨(mem_segments _ _).1 hmem, ?_⟩
  intro s hs hlt
  by_contra hne
  have := hall s.2 ((mem_segments _ _).2 ⟨s, hs, hne, rfl⟩)
  omega

theorem final_highest_no_quad (m : List (Int × Nat)) (sm : List (String × Nat))
    (s4 : EvalState) (hq : m.countP (fun e => e.2 = 4) = 0) :
    (afterStraight m sm s4).highest_card = s4.highest_card := by
  have hno : ∀ e ∈ m, e.2 ≠ 4 := by
    intro e he
    have := List.countP_eq_zero.1 hq e he
    simpa using this
  obtain ⟨_, _, h3⟩ := fold_flush_fields sm s4
  unfold afterStraight
  simp only [straightFlushBlock_zero]
  rw [fold_quad_none _ _ hno]
  split_ifs <;> simp [add_hand_ranking, h3]

theorem afterGroups_highest_no_trip (m : List (Int × Nat))
    (ht : m.countP (fun e => e.2 = 3) = 0) :
    (afterGroups m).highest_card =
      (m.foldl pairStep ⟨0, 0, 0, [.high_card]⟩).highest_card := by
  have hno : ∀ e ∈ m, e.2 ≠ 3 := by
    intro e he
    have := List.countP_eq_zero.1 ht e he
    simpa using this
  unfold afterGroups
  simp only []
  rw [fold_trip_none _ _ hno]
  split_ifs <;> simp [add_hand_ranking]

/-- With a pair, the first loop leaves in `highest_card` the key of an entry
of count 2 that is not below any other such key. -/
theorem fold_pair_highest (m : List (Int × Nat)) (s : EvalState)
    (hsorted : m.Pairwise (fun a b => a.1 < b.1)) (hex : ∃ e ∈ m, e.2 = 2) :
    (∃ e ∈ m, e.2 = 2 ∧ e.1 = (m.foldl pairStep s).highest_card) ∧
      ∀ e ∈ m, e.2 = 2 → e.1 ≤ (m.foldl pairStep s).highest_card := by
  induction m using List.reverseRecOn with
  | nil => simp at hex
  | append_singleton rest e ih =>
    rw [List.pairwise_append] at hsorted
    rw [List.foldl_append, List.foldl_cons, List.foldl_nil]
    by_cases h2 : e.2 = 2
    · have hstep : (pairStep (rest.foldl pairStep s) e).highest_card = e.1 := by
        by_cases h0 : (rest.foldl pairStep s).two_pair = 0 <;>
          simp [pairStep, add_hand_ranking, h2, h0]
      rw [hstep]
      refine ⟨⟨e, by simp, h2, rfl⟩, ?_⟩
      intro e' he' _
      rw [List.mem_append] at he'
      rcases he' with he' | he'
      · exact le_of_lt (hsorted.2.2 e' he' e (by simp))
      · simp at he'; rw [he']
    · have hex' : ∃ e' ∈ rest, e'.2 = 2 := by
        obtain ⟨e', he', h'⟩ := hex
        rw [List.mem_append] at he'
        rcases he' with he' | he'
        · exact ⟨e', he', h'⟩
        · simp at he'; rw [he'] at h'; exact absurd h' h2
      have hpos : (rest.foldl pairStep s).two_pair ≠ 0 := by
        rw [fold_pair_two_pair]
        obtain ⟨e', he', h'⟩ := hex'
        have : 0 < rest.countP (fun e => e.2 = 2) :=
          List.countP_pos_iff.2 ⟨e', he', by simpa using h'⟩
        omega
      have hstep : pairStep (rest.foldl pairStep s) e = rest.foldl pairStep s := by
        simp [pairStep, h2, hpos]
      rw [hstep]
      obtain ⟨⟨e1, he1, h1, h1'⟩, hall⟩ := ih hsorted.1 hex'
      refine ⟨⟨e1, by simp [he1], h1, h1'⟩, ?_⟩
      intro e' he' h'
      rw [List.mem_append] at he'
      rcases he' with he' | he'
      · exact hall e' he' h'
      · simp at he'; rw [he'] at h'; exact absurd h' h2

/-- With a count of four, the last loop leaves in `highest_card` the key of an
entry of count 4 that is not below any other such key. -/
theorem fold_quad_highest (m : List (Int × Nat)) (s : EvalState)
    (hsorted : m.Pairwise (fun a b => a.1 < b.1)) (hex : ∃ e ∈ m, e.2 = 4) :
    (∃ e ∈ m, e.2 = 4 ∧ e.1 = (m.foldl quadStep s).highest_card) ∧
      ∀ e ∈ m, e.2 = 4 → e.1 ≤ (m.foldl quadStep s).highest_card := by
  induction m using List.reverseRecOn with
  | nil => simp at hex
  | append_singleton rest e ih =>
    rw [List.pairwise_append] at hsorted
    rw [List.foldl_append, List.foldl_cons, List.foldl_nil]
    by_cases h4 : e.2 = 4
    · have hstep : (quadStep (rest.foldl quadStep s) e).highest_card = e.1 := by
        simp [quadStep, add_hand_ranking, h4]
      rw [hstep]
      refine ⟨⟨e, by simp, h4, rfl⟩, ?_⟩
      intro e' he' _
      rw [List.mem_append] at he'
      rcases he' with he' | he'
      · exact le_of_lt (hsorted.2.2 e' he' e (by simp))
      · simp at he'; rw [he']
    · have hstep : quadStep (rest.foldl quadStep s) e = rest.foldl quadStep s := by
        simp [quadStep, h4]
      rw [hstep]
      have hex' : ∃ e' ∈ rest, e'.2 = 4 := by
        obtain ⟨e', he', h'⟩ := hex
        rw [List.mem_append] at he'
        rcases he' with he' | he'
        · exact ⟨e', he', h'⟩
        · simp at he'; rw [he'] at h'; exact absurd h' h4
      obtain ⟨⟨e1, he1, h1, h1'⟩, hall⟩ := ih hsorted.1 hex'
      refine ⟨⟨e1, by simp [he1], h1, h1'⟩, ?_⟩
      intro e' he' h'
      rw [List.mem_append] at he'
      rcases he' with he' | he'
      · exact hall e' he' h'
      · simp at he'; rw [he'] at h'; exact absurd h' h4

theorem afterStraight_highest_quad (m : List (Int × Nat)) (sm : List (String × Nat))
    (s4 : EvalState) (hsorted : m.Pairwise (fun a b => a.1 < b.1))
    (hex : ∃ e ∈ m, e.2 = 4) :
    (∃ e ∈ m, e.2 = 4 ∧ e.1 = (afterStraight m sm s4).highest_card) ∧
      ∀ e ∈ m, e.2 = 4 → e.1 ≤ (afterStraight m sm s4).highest_card := by
  unfold afterStraight
  simp only [straightFlushBlock_zero]
  exact fold_quad_highest m _ hsorted hex

/-! ## Facts about `Pot` and `Player::bet` -/

theorem int_wrap_of_range (x : Int) (h : InIntRange x) : int_wrap x = x := by
  unfold InIntRange at h
  unfold int_wrap
  norm_num at h ⊢
  omega

theorem int_wrap_range (x : Int) : InIntRange (int_wrap x) := by
  unfold InIntRange int_wrap
  norm_num
  omega

/-- The total and the history after a sequence of operations, as long as the
running total of the current hand never leaves the range of `int`. -/
theorem pot_run_spec (ops : List PotOp)
    (hrange : ∀ k ≤ ops.length,
      InIntRange (((since_reset (ops.take k)).map Bet.amount).sum)) :
    (Pot.empty.run ops).pot = ((since_reset ops).map Bet.amount).sum ∧
      (Pot.empty.run ops).bets = added_bets ops := by
  induction ops using List.reverseRecOn with
  | nil => exact ⟨rfl, rfl⟩
  | append_singleton init op ih =>
    have hinit : ∀ k ≤ init.length,
        InIntRange (((since_reset (init.take k)).map Bet.amount).sum) := by
      intro k hk
      have := hrange k (by simp; omega)
      rwa [List.take_append_of_le_length hk] at this
    obtain ⟨h1, h2⟩ := ih hinit
    have hlast := hrange (init ++ [op]).length (le_refl _)
    rw [List.take_length] at hlast
    cases op with
    | add_to_pot bet =>
      have hs : since_reset (init ++ [PotOp.add_to_pot bet]) = since_reset init ++ [bet] := by
        simp [since_reset, List.foldl_append]
      have ha : added_bets (init ++ [PotOp.add_to_pot bet]) = added_bets init ++ [bet] := by
        simp [added_bets, List.foldl_append]
      rw [hs] at hlast ⊢
      rw [ha]
      simp only [Pot.run, List.foldl_append, List.foldl_cons, List.foldl_nil, PotOp.apply,
        Pot.add_to_pot]
      simp only [Pot.run] at h1 h2
      rw [h1, h2]
      simp only [List.map_append, List.sum_append, List.map_cons, List.map_nil, List.sum_cons,
        List.sum_nil, add_zero] at hlast ⊢
      exact ⟨int_wrap_of_range _ hlast, trivial⟩
    | reset =>
      have hs : since_reset (init ++ [PotOp.reset]) = [] := by
        simp [since_reset, List.foldl_append]
      have ha : added_bets (init ++ [PotOp.reset]) = added_bets init := by
        simp [added_bets, List.foldl_append]
      rw [hs, ha]
      simp only [Pot.run, List.foldl_append, List.foldl_cons, List.foldl_nil, PotOp.apply,
        Pot.reset]
      simp only [Pot.run] at h2
      exact ⟨rfl, h2⟩

theorem since_reset_adds (bets : List Bet) :
    since_reset (bets.map PotOp.add_to_pot) = bets ∧
      added_bets (bets.map PotOp.add_to_pot) = bets := by
  induction bets using List.reverseRecOn with
  | nil => exact ⟨rfl, rfl⟩
  | append_singleton init b ih =>
    constructor
    · have := ih.1
      simp only [since_reset] at this ⊢
      simp [List.foldl_append, this]
    · have := ih.2
      simp only [added_bets] at this ⊢
      simp [List.foldl_append, this]

/-! ## Facts about the deck -/

theorem getLast?_split (l : List Card) (c : Card) (h : l.getLast? = some c) :
    l = l.dropLast ++ [c] :=
  (List.dropLast_append_getLast? c (by simp [h])).symm

/-- What `take_game_card` does when it succeeds. -/
theorem take_game_card_some (d d1 : Deck) (c : Card) (h : d.take_game_card = some (c, d1)) :
    d.game_cards = d1.game_cards ++ [c] ∧ d1 = { d with game_cards := d1.game_cards } := by
  unfold Deck.take_game_card at h
  cases hl : d.game_cards.getLast? with
  | none => simp [hl] at h
  | some c' =>
    simp only [hl, Option.some.injEq, Prod.mk.injEq] at h
    obtain ⟨rfl, rfl⟩ := h
    exact ⟨getLast?_split _ _ hl, rfl⟩

/-- With a card at the back of the reserve, `take_game_card` hands it out. -/
theorem take_game_card_of_back (d : Deck) (g : List Card) (c : Card)
    (h : d.game_cards = g ++ [c]) :
    d.take_game_card = some (c, { d with game_cards := g }) := by
  unfold Deck.take_game_card
  simp [h]

theorem perm_of_count {l1 l2 : List Card} (h : ∀ a, l1.count a = l2.count a) : l1.Perm l2 :=
  List.perm_iff_count.2 h

theorem take_game_card_perm (d d1 : Deck) (c : Card) (dealt : List Card)
    (h : d.take_game_card = some (c, d1)) :
    (d1.all_cards (dealt ++ [c])).Perm (d.all_cards dealt) := by
  obtain ⟨hg, hd⟩ := take_game_card_some d d1 c h
  rw [hd]
  simp only [Deck.all_cards]
  rw [hg]
  apply perm_of_count
  intro a
  simp only [List.count_append]
  omega

/-- Moving cards from the reserve to the community cards keeps the cards. -/
theorem take_flop_perm (d d1 : Deck) (dealt : List Card) (h : d.take_flop = some d1) :
    (d1.all_cards dealt).Perm (d.all_cards dealt) := by
  unfold Deck.take_flop at h
  by_cases hf : d.flop_is_taken = false
  · rw [if_pos hf] at h
    cases h1 : d.take_game_card with
    | none => simp [h1] at h
    | some r1 =>
      obtain ⟨c1, e1⟩ := r1
      cases h2 : e1.take_game_card with
      | none => simp [h1, h2] at h
      | some r2 =>
        obtain ⟨c2, e2⟩ := r2
        cases h3 : e2.take_game_card with
        | none => simp [h1, h2, h3] at h
        | some r3 =>
          obtain ⟨c3, e3⟩ := r3
          simp only [h1, h2, h3, Option.bind_eq_bind, Option.some_bind, Option.pure_def,
            Option.some.injEq] at h
          obtain ⟨g1, d1'⟩ := take_game_card_some _ _ _ h1
          obtain ⟨g2, d2'⟩ := take_game_card_some _ _ _ h2
          obtain ⟨g3, d3'⟩ := take_game_card_some _ _ _ h3
          rw [← h, d3', d2', d1']
          simp only [Deck.all_cards]
          rw [g1, g2, g3]
          apply perm_of_count
          intro a
          simp only [List.count_append, List.count_cons, List.count_nil]
          omega
  · rw [if_neg hf] at h
    simp only [Option.some.injEq] at h
    rw [h]

theorem take_turn_perm (d d1 : Deck) (dealt : List Card) (h : d.take_turn = some d1) :
    (d1.all_cards dealt).Perm (d.all_cards dealt) := by
  unfold Deck.take_turn at h
  by_cases hf : d.turn_is_taken = false
  · rw [if_pos hf] at h
    cases h1 : d.take_game_card with
    | none => simp [h1] at h
    | some r1 =>
      obtain ⟨c1, e1⟩ := r1
      simp only [h1, Option.bind_eq_bind, Option.some_bind, Option.pure_def,
        Option.some.injEq] at h
      obtain ⟨g1, d1'⟩ := take_game_card_some _ _ _ h1
      rw [← h, d1']
      simp only [Deck.all_cards]
      rw [g1]
      apply perm_of_count
      intro a
      simp only [List.count_append, List.count_cons, List.count_nil]
      omega
  · rw [if_neg hf] at h
    simp only [Option.some.injEq] at h
    rw [h]

theorem take_river_perm (d d1 : Deck) (dealt : List Card) (h : d.take_river = some d1) :
    (d1.all_cards dealt).Perm (d.all_cards dealt) := by
  unfold Deck.take_river at h
  by_cases hf : d.river_is_taken = false
  · rw [if_pos hf] at h
    cases h1 : d.take_game_card with
    | none => simp [h1] at h
    | some r1 =>
      obtain ⟨c1, e1⟩ := r1
      simp only [h1, Option.bind_eq_bind, Option.some_bind, Option.pure_def,
        Option.some.injEq] at h
      obtain ⟨g1, d1'⟩ := take_game_card_some _ _ _ h1
      rw [← h, d1']
      simp only [Deck.all_cards]
      rw [g1]
      apply perm_of_count
      intro a
      simp only [List.count_append, List.count_cons, List.count_nil]
      omega
  · rw [if_neg hf] at h
    simp only [Option.some.injEq] at h
    rw [h]

theorem run_ops_perm (ops : List DeckOp) (d d1 : Deck) (dealt dealt1 : List Card)
    (h : Deck.run_ops ops d dealt = some (d1, dealt1)) :
    (d1.all_cards dealt1).Perm (d.all_cards dealt) := by
  induction ops generalizing d dealt with
  | nil =>
    simp only [Deck.run_ops, Option.some.injEq, Prod.mk.injEq] at h
    rw [h.1, h.2]
  | cons op rest ih =>
    cases op with
    | take_game_card =>
      simp only [Deck.run_ops] at h
      cases h1 : d.take_game_card with
      | none => simp [h1] at h
      | some r =>
        obtain ⟨c, e⟩ := r
        simp only [h1] at h
        exact (ih _ _ h).trans (take_game_card_perm d e c dealt h1)
    | take_flop =>
      simp only [Deck.run_ops] at h
      cases h1 : d.take_flop with
      | none => simp [h1] at h
      | some e =>
        simp only [h1] at h
        exact (ih _ _ h).trans (take_flop_perm d e dealt h1)
    | take_turn =>
      simp only [Deck.run_ops] at h
      cases h1 : d.take_turn with
      | none => simp [h1] at h
      | some e =>
        simp only [h1] at h
        exact (ih _ _ h).trans (take_turn_perm d e dealt h1)
    | take_river =>
      simp only [Deck.run_ops] at h
      cases h1 : d.take_river with
      | none => simp [h1] at h
      | some e =>
        simp only [h1] at h
        exact (ih _ _ h).trans (take_river_perm d e dealt h1)

theorem populate_loop_perm (n : Nat) (d d1 : Deck) (dealt : List Card)
    (h : Deck.populate_loop n d = some d1) :
    (d1.all_cards dealt).Perm (d.all_cards dealt) := by
  induction n generalizing d with
  | zero =>
    simp only [Deck.populate_loop, Option.some.injEq] at h
    rw [h]
  | succ n ih =>
    simp only [Deck.populate_loop] at h
    cases hl : d.cards.getLast? with
    | none => simp [hl] at h
    | some c =>
      simp only [hl] at h
      refine (ih _ h).trans ?_
      simp only [Deck.all_cards]
      nth_rewrite 2 [getLast?_split _ _ hl]
      apply perm_of_count
      intro a
      simp only [List.count_append]
      omega

/-- The cards built by `recreate` are the 52 pairs of a suit and a rank. -/
theorem mem_ordered_cards (c : Card) :
    c ∈ ordered_cards ↔ c.suit ∈ container_suits ∧ c.rank ∈ container_ranks := by
  unfold ordered_cards
  simp only [List.mem_flatMap, List.mem_map]
  constructor
  · rintro ⟨s, hs, r, hr, rfl⟩
    exact ⟨hs, hr⟩
  · rintro ⟨hs, hr⟩
    exact ⟨c.suit, hs, c.rank, hr, rfl⟩

/-! ## Facts about the bets of the bots -/

theorem find_bot_update_first (f : Player → Player) (bot_name : String) (bots : List Player)
    (m : Player) (hf : ∀ p, (f p).name = p.name) (hm : find_bot bot_name bots = some m) :
    find_bot bot_name (update_first_named f bot_name bots) = some (f m) := by
  induction bots with
  | nil => simp [find_bot] at hm
  | cons p rest ih =>
    unfold find_bot at hm ih ⊢
    unfold update_first_named
    by_cases hp : p.name = bot_name
    · rw [List.find?_cons_of_pos _ (by simpa using hp)] at hm
      rw [if_pos hp, List.find?_cons_of_pos _ (by simpa [hf p] using hp)]
      rw [Option.some.inj hm]
    · rw [List.find?_cons_of_neg _ (by simpa using hp)] at hm
      rw [if_neg hp, List.find?_cons_of_neg _ (by simpa using hp)]
      exact ih hm

/-- What a bet of `amt` with `0 < amt ≤ chips`, mirrored in the master roster,
does to the state. -/
theorem bet_and_mirror (g : Game) (i : Nat) (b m : Player) (amt : Int)
    (hi : i < g.bots_in_the_game.length)
    (hm : find_bot b.name g.bot.bots = some m) (hsync : m.chips = b.chips)
    (hamt : 0 < amt) (hle : amt ≤ b.chips) (hcr : InIntRange b.chips) :
    (b.bet amt g.pot).2.bets = g.pot.bets ++ [⟨amt, b.name⟩] ∧
      (b.bet amt g.pot).2.pot = int_wrap (g.pot.pot + amt) ∧
      (g.bots_in_the_game.set i (b.bet amt g.pot).1)[i]? =
        some { b with chips := b.chips - amt } ∧
      find_bot b.name (g.bot.update_bot_chips b.name amt).bots =
        some { m with chips := b.chips - amt } := by
  have hw : int_wrap (b.chips - amt) = b.chips - amt := by
    apply int_wrap_of_range
    unfold InIntRange at *
    norm_num at *
    omega
  refine ⟨rfl, rfl, ?_, ?_⟩
  · rw [List.getElem?_set_self hi]
    simp [Player.bet, hw]
  · unfold Bot.update_bot_chips
    simp only
    rw [find_bot_update_first
      (fun object => object.update_chips (int_wrap (object.chips - amt))) _ _ m
      (fun p => rfl) hm]
    simp [Player.update_chips, hsync, hw]

/-! ## The betting functions leave the deck alone -/

theorem bot_call_deck (bet_amount : Int) (i : Nat) (b : Player) (g : Game) :
    (bot_call bet_amount i b g).deck = g.deck := by
  unfold bot_call
  split_ifs <;> rfl

theorem bot_raise_deck (x : Int) (it : Nat) (b : Player) (g : Game) :
    (bot_raise x it b g).2.deck = g.deck := by
  unfold bot_raise
  split_ifs <;> rfl

theorem bot_response_step_deck (bet_amount : Int) (raiser : String) (i : Nat) (g g1 : Game)
    (idx idx1 rand rand1 : List Nat)
    (h : bot_response_step bet_amount raiser i g idx rand = some (g1, idx1, rand1)) :
    g1.deck = g.deck := by
  unfold bot_response_step at h
  repeat' split at h
  all_goals first
    | (cases h; done)
    | (simp only [Option.some.injEq, Prod.mk.injEq] at h
       obtain ⟨rfl, -⟩ := h
       first | rfl | exact bot_call_deck _ _ _ _)

theorem bot_response_loop_deck (bet_amount : Int) (raiser : String) (n i : Nat) (g g1 : Game)
    (idx idx1 rand rand1 : List Nat)
    (h : bot_response_loop bet_amount raiser n i g idx rand = some (g1, idx1, rand1)) :
    g1.deck = g.deck := by
  induction n generalizing i g idx rand with
  | zero =>
    simp only [bot_response_loop, Option.some.injEq, Prod.mk.injEq] at h
    rw [← h.1]
  | succ n ih =>
    simp only [bot_response_loop] at h
    split at h
    · cases h
    · rename_i g2 idx2 rand2 hs
      rw [ih _ _ _ _ h, bot_response_step_deck _ _ _ _ _ _ _ _ _ hs]

theorem bot_response_deck (bet_amount : Int) (raiser : String) (g g1 : Game)
    (rand rand1 : List Nat) (h : bot_response bet_amount raiser g rand = some (g1, rand1)) :
    g1.deck = g.deck := by
  unfold bot_response at h
  split at h
  · cases h
  · rename_i g2 idx2 rand2 hl
    simp only [Option.some.injEq, Prod.mk.injEq] at h
    obtain ⟨rfl, -⟩ := h
    have hd := bot_response_loop_deck _ _ _ _ _ _ _ _ _ _ hl
    exact hd

theorem human_response_loop_deck (amount : Int) (g g1 : Game) (rand : List Nat)
    (human : List HumanInput) (o1 : Oracle)
    (h : human_response_loop amount g rand human = some (g1, o1)) : g1.deck = g.deck := by
  induction human with
  | nil => simp [human_response_loop] at h
  | cons input rest ih =>
    simp only [human_response_loop] at h
    repeat' split at h
    all_goals first
      | exact ih h
      | (cases h; done)
      | (simp only [Option.some.injEq, Prod.mk.injEq] at h
         obtain ⟨rfl, -⟩ := h
         first
           | rfl
           | (rename_i hr _; have hd := bot_response_deck _ _ _ _ _ _ hr; exact hd))

theorem human_response_deck (amount : Int) (g g1 : Game) (o o1 : Oracle)
    (h : human_response amount g o = some (g1, o1)) : g1.deck = g.deck :=
  human_response_loop_deck amount g g1 o.rand o.human o1 h

theorem human_turn_loop_deck (g g1 : Game) (rand : List Nat) (human : List HumanInput)
    (r : Bool) (o1 : Oracle) (h : human_turn_loop g rand human = some (r, g1, o1)) :
    g1.deck = g.deck := by
  induction human with
  | nil => simp [human_turn_loop] at h
  | cons input rest ih =>
    simp only [human_turn_loop] at h
    repeat' split at h
    all_goals first
      | exact ih h
      | (cases h; done)
      | (simp only [Option.some.injEq, Prod.mk.injEq] at h
         obtain ⟨-, rfl, -⟩ := h
         first
           | rfl
           | (rename_i hr _; have hd := bot_response_deck _ _ _ _ _ _ hr; exact hd))

theorem human_turn_deck (g g1 : Game) (o o1 : Oracle) (r : Bool)
    (h : human_turn g o = some (r, g1, o1)) : g1.deck = g.deck :=
  human_turn_loop_deck g g1 o.rand o.human r o1 h

theorem bot_turn_loop_deck (bet_size : Int → Int → Int → Int) (g g1 : Game)
    (human : List HumanInput) (it : Nat) (rand : List Nat) (o1 : Oracle)
    (h : bot_turn_loop bet_size g human it rand = some (g1, o1)) : g1.deck = g.deck := by
  induction rand generalizing it with
  | nil =>
    simp only [bot_turn_loop] at h
    split at h
    · simp only [Option.some.injEq, Prod.mk.injEq] at h
      obtain ⟨rfl, -⟩ := h
      rfl
    · cases h
  | cons v rest ih =>
    simp only [bot_turn_loop] at h
    split at h
    · simp only [Option.some.injEq, Prod.mk.injEq] at h
      obtain ⟨rfl, -⟩ := h
      rfl
    · split at h
      · cases h
      · split at h
        · exact ih _ h
        · split at h
          · split at h
            · cases h
            · split at h
              · cases h
              · rename_i g2 rand2 hr
                have hg2 : g2.deck = g.deck := by
                  rw [bot_response_deck _ _ _ _ _ _ hr, bot_raise_deck]
                split at h
                · rw [human_response_deck _ _ _ _ _ h, hg2]
                · simp only [Option.some.injEq, Prod.mk.injEq] at h
                  obtain ⟨rfl, -⟩ := h
                  exact hg2
          · exact ih _ h

theorem bot_turn_deck (bet_size : Int → Int → Int → Int) (g g1 : Game) (o o1 : Oracle)
    (h : bot_turn bet_size g o = some (g1, o1)) : g1.deck = g.deck :=
  bot_turn_loop_deck bet_size g g1 o.human 0 o.rand o1 h

theorem big_blind_loop_deck (player1_name : String) (big_blind : Int) (n i : Nat) (g : Game) :
    (big_blind_loop player1_name big_blind n i g).deck = g.deck := by
  induction n generalizing i g with
  | zero => rfl
  | succ n ih =>
    simp only [big_blind_loop]
    split
    · rfl
    · split
      · rw [ih]
      · rw [ih]

theorem round_one_deck (g g1 : Game) (o o1 : Oracle) (h : round_one g o = some (g1, o1)) :
    g1.deck = g.deck := by
  unfold round_one at h
  simp only at h
  split at h
  · cases h
  · rename_i player1 player2 rand1 hp
    split at h
    · cases h
    · rename_i g2 rand2 hr
      have hg2 : g2.deck = g.deck := by
        rw [bot_response_deck _ _ _ _ _ _ hr]
        split
        · rfl
        · exact big_blind_loop_deck _ _ _ _ _
      repeat' split at h
      all_goals first
        | (rw [human_response_deck _ _ _ _ _ h]; exact hg2)
        | (simp only [Option.some.injEq, Prod.mk.injEq] at h; rw [← h.1]; exact hg2)

/-! ## The community cards of the round loop -/

theorem take_game_card_frame (d d1 : Deck) (c : Card) (h : d.take_game_card = some (c, d1)) :
    d1.community_cards = d.community_cards ∧ d1.flop_is_taken = d.flop_is_taken ∧
      d1.turn_is_taken = d.turn_is_taken ∧ d1.river_is_taken = d.river_is_taken := by
  obtain ⟨-, hd⟩ := take_game_card_some d d1 c h
  rw [hd]
  exact ⟨rfl, rfl, rfl, rfl⟩

theorem take_flop_stage (d d1 : Deck) (h : d.take_flop = some d1) (hi : d.flags_agree) :
    d1.flags_agree ∧ d1.flop_is_taken = true ∧ (d.turn_is_taken = true → d1.turn_is_taken = true) ∧
      (d.river_is_taken = true → d1.river_is_taken = true) := by
  unfold Deck.take_flop at h
  by_cases hf : d.flop_is_taken = false
  · rw [if_pos hf] at h
    cases h1 : d.take_game_card with
    | none => simp [h1] at h
    | some r1 =>
      obtain ⟨c1, e1⟩ := r1
      cases h2 : e1.take_game_card with
      | none => simp [h1, h2] at h
      | some r2 =>
        obtain ⟨c2, e2⟩ := r2
        cases h3 : e2.take_game_card with
        | none => simp [h1, h2, h3] at h
        | some r3 =>
          obtain ⟨c3, e3⟩ := r3
          simp only [h1, h2, h3, Option.bind_eq_bind, Option.some_bind, Option.pure_def,
            Option.some.injEq] at h
          obtain ⟨a1, b1, c1', d1'⟩ := take_game_card_frame _ _ _ h1
          obtain ⟨a2, b2, c2', d2'⟩ := take_game_card_frame _ _ _ h2
          obtain ⟨a3, b3, c3', d3'⟩ := take_game_card_frame _ _ _ h3
          rw [← h]
          unfold Deck.flags_agree Deck.revealed_count at hi ⊢
          simp only [List.length_append, List.length_cons, List.length_nil, a3, a2, a1, c3', c2',
            c1', d3', d2', d1', hi, hf, if_true]
          refine ⟨by simp; omega, trivial, id, id⟩
  · rw [if_neg hf] at h
    simp only [Option.some.injEq] at h
    subst h
    refine ⟨hi, by simpa using hf, id, id⟩

theorem take_turn_stage (d d1 : Deck) (h : d.take_turn = some d1) (hi : d.flags_agree) :
    d1.flags_agree ∧ d1.turn_is_taken = true ∧ (d.flop_is_taken = true → d1.flop_is_taken = true) ∧
      (d.river_is_taken = true → d1.river_is_taken = true) := by
  unfold Deck.take_turn at h
  by_cases hf : d.turn_is_taken = false
  · rw [if_pos hf] at h
    cases h1 : d.take_game_card with
    | none => simp [h1] at h
    | some r1 =>
      obtain ⟨c1, e1⟩ := r1
      simp only [h1, Option.bind_eq_bind, Option.some_bind, Option.pure_def,
        Option.some.injEq] at h
      obtain ⟨a1, b1, c1', d1'⟩ := take_game_card_frame _ _ _ h1
      rw [← h]
      unfold Deck.flags_agree Deck.revealed_count at hi ⊢
      simp only [List.length_append, List.length_cons, List.length_nil, a1, b1, d1', hi, hf,
        if_true]
      refine ⟨by simp; omega, trivial, id, id⟩
  · rw [if_neg hf] at h
    simp only [Option.some.injEq] at h
    subst h
    refine ⟨hi, by simpa using hf, id, id⟩

theorem take_river_stage (d d1 : Deck) (h : d.take_river = some d1) (hi : d.flags_agree) :
    d1.flags_agree ∧ d1.river_is_taken = true ∧
      (d.flop_is_taken = true → d1.flop_is_taken = true) ∧
      (d.turn_is_taken = true → d1.turn_is_taken = true) := by
  unfold Deck.take_river at h
  by_cases hf : d.river_is_taken = false
  · rw [if_pos hf] at h
    cases h1 : d.take_game_card with
    | none => simp [h1] at h
    | some r1 =>
      obtain ⟨c1, e1⟩ := r1
      simp only [h1, Option.bind_eq_bind, Option.some_bind, Option.pure_def,
        Option.some.injEq] at h
      obtain ⟨a1, b1, c1', d1'⟩ := take_game_card_frame _ _ _ h1
      rw [← h]
      unfold Deck.flags_agree Deck.revealed_count at hi ⊢
      simp only [List.length_append, List.length_cons, List.length_nil, a1, b1, c1', hi, hf,
        if_true]
      refine ⟨by simp, trivial, id, id⟩
  · rw [if_neg hf] at h
    simp only [Option.some.injEq] at h
    subst h
    refine ⟨hi, by simpa using hf, id, id⟩

theorem take_all_stage (d d1 : Deck) (h : take_all d = some d1) (hi : d.flags_agree) :
    d1.flags_agree ∧ d1.all_revealed := by
  unfold take_all at h
  split at h
  · cases h
  · rename_i e1 h1
    split at h
    · cases h
    · rename_i e2 h2
      obtain ⟨i1, f1, -, -⟩ := take_flop_stage _ _ h1 hi
      obtain ⟨i2, t2, f2, -⟩ := take_turn_stage _ _ h2 i1
      obtain ⟨i3, r3, f3, t3⟩ := take_river_stage _ _ h i2
      exact ⟨i3, f3 (f2 f1), t3 t2, r3⟩

theorem five_of_all_revealed (d : Deck) (hi : d.flags_agree) (ha : d.all_revealed) :
    d.community_cards.length = 5 := by
  unfold Deck.flags_agree Deck.revealed_count at hi
  obtain ⟨hf, ht, hr⟩ := ha
  rw [hi, hf, ht, hr]
  rfl

theorem round_start_stage (round : Int) (g g1 : Game) (o o1 : Oracle)
    (h : round_start round g o = some (g1, o1)) (hr : 1 ≤ round ∧ round ≤ 4)
    (hp : g.deck.revealed_up_to (round - 1)) : g1.deck.revealed_up_to round := by
  obtain ⟨hi, hf, ht, -⟩ := hp
  unfold round_start at h
  split at h
  · rename_i h1
    rw [round_one_deck _ _ _ _ h]
    exact ⟨hi, fun h2 => by omega, fun h2 => by omega, fun h2 => by omega⟩
  · split at h
    · rename_i h2
      simp only [Option.map_eq_some', Prod.mk.injEq] at h
      obtain ⟨d, hd, rfl, -⟩ := h
      obtain ⟨i1, f1, -, -⟩ := take_flop_stage _ _ hd hi
      exact ⟨i1, fun _ => f1, fun h3 => by omega, fun h3 => by omega⟩
    · split at h
      · rename_i h3
        simp only [Option.map_eq_some', Prod.mk.injEq] at h
        obtain ⟨d, hd, rfl, -⟩ := h
        obtain ⟨i1, t1, f1, -⟩ := take_turn_stage _ _ hd hi
        exact ⟨i1, fun _ => f1 (hf (by omega)), fun _ => t1, fun h4 => by omega⟩
      · split at h
        · rename_i h4
          simp only [Option.map_eq_some', Prod.mk.injEq] at h
          obtain ⟨d, hd, rfl, -⟩ := h
          obtain ⟨i1, r1, f1, t1⟩ := take_river_stage _ _ hd hi
          exact ⟨i1, fun _ => f1 (hf (by omega)), fun _ => t1 (ht (by omega)), fun _ => r1⟩
        · omega

theorem run_round_stage (bet_size : Int → Int → Int → Int) (round : Int) (g g1 : Game)
    (o o1 : Oracle) (brk : Bool) (h : run_round bet_size round g o = some (brk, g1, o1))
    (hr : 1 ≤ round ∧ round ≤ 4) (hp : g.deck.revealed_up_to (round - 1)) :
    (brk = true → g1.deck.flags_agree ∧ g1.deck.all_revealed) ∧
      (brk = false → g1.deck.revealed_up_to round) := by
  unfold run_round at h
  split at h
  · cases h
  · rename_i g2 o2 hs
    have hp2 := round_start_stage _ _ _ _ _ hs hr hp
    split at h
    · simp only [Option.map_eq_some', Prod.mk.injEq] at h
      obtain ⟨d, hd, rfl, rfl, -⟩ := h
      exact ⟨fun _ => take_all_stage _ _ hd hp2.1, fun hb => by cases hb⟩
    · split at h
      · cases h
      · rename_i responded g3 o3 ht
        have hg3 : g3.deck = g2.deck := by
          split at ht
          · exact human_turn_deck _ _ _ _ _ ht
          · simp only [Option.some.injEq, Prod.mk.injEq] at ht
            rw [← ht.2.1]
        split at h
        · simp only [Option.map_eq_some', Prod.mk.injEq] at h
          obtain ⟨r, hb, rfl, rfl, -⟩ := h
          refine ⟨fun hb => Bool.noConfusion hb, fun _ => ?_⟩
          have hd := bot_turn_deck _ _ _ _ _ (show bot_turn bet_size g3 o3 = some (r.1, r.2) from hb)
          rw [hd, hg3]
          exact hp2
        · split at h
          · simp only [Option.map_eq_some', Prod.mk.injEq] at h
            obtain ⟨d, hd, rfl, rfl, -⟩ := h
            rw [hg3] at hd
            exact ⟨fun _ => take_all_stage _ _ hd hp2.1, fun hb => by cases hb⟩
          · simp only [Option.some.injEq, Prod.mk.injEq] at h
            obtain ⟨rfl, rfl, -⟩ := h
            refine ⟨fun hb => Bool.noConfusion hb, fun _ => ?_⟩
            rw [hg3]
            exact hp2

theorem run_rounds_cons (bet_size : Int → Int → Int → Int) (round : Int) (rest : List Int)
    (g g1 : Game) (o o1 : Oracle)
    (h : run_rounds bet_size (round :: rest) g o = some (g1, o1)) :
    ∃ brk g2 o2, run_round bet_size round g o = some (brk, g2, o2) ∧
      (brk = true → g1 = g2) ∧ (brk = false → run_rounds bet_size rest g2 o2 = some (g1, o1)) := by
  simp only [run_rounds] at h
  split at h
  · cases h
  · rename_i g2 o2 hs
    simp only [Option.some.injEq, Prod.mk.injEq] at h
    exact ⟨true, g2, o2, hs, fun _ => h.1.symm, fun hb => Bool.noConfusion hb⟩
  · rename_i g2 o2 hs
    exact ⟨false, g2, o2, hs, fun hb => Bool.noConfusion hb, fun _ => h⟩

/-- Whichever way the round loop ends, the deck has revealed the flop, the turn
and the river, and holds the community cards that go with them. -/
theorem round_loop_stage (bet_size : Int → Int → Int → Int) (g g1 : Game) (o o1 : Oracle)
    (h : round_loop bet_size g o = some (g1, o1)) (hi : g.deck.flags_agree) :
    g1.deck.flags_agree ∧ g1.deck.all_revealed := by
  unfold round_loop at h
  have hp0 : g.deck.revealed_up_to (1 - 1) :=
    ⟨hi, fun h2 => by omega, fun h2 => by omega, fun h2 => by omega⟩
  obtain ⟨b1, g2, o2, hs1, ht1, hf1⟩ := run_rounds_cons _ _ _ _ _ _ _ h
  have hq1 := run_round_stage _ _ _ _ _ _ _ hs1 ⟨by omega, by omega⟩ hp0
  cases b1 with
  | true => rw [ht1 rfl]; exact hq1.1 rfl
  | false =>
    obtain ⟨b2, g3, o3, hs2, ht2, hf2⟩ := run_rounds_cons _ _ _ _ _ _ _ (hf1 rfl)
    have hq2 := run_round_stage _ _ _ _ _ _ _ hs2 ⟨by omega, by omega⟩ (hq1.2 rfl)
    cases b2 with
    | true => rw [ht2 rfl]; exact hq2.1 rfl
    | false =>
      obtain ⟨b3, g4, o4, hs3, ht3, hf3⟩ := run_rounds_cons _ _ _ _ _ _ _ (hf2 rfl)
      have hq3 := run_round_stage _ _ _ _ _ _ _ hs3 ⟨by omega, by omega⟩ (hq2.2 rfl)
      cases b3 with
      | true => rw [ht3 rfl]; exact hq3.1 rfl
      | false =>
        obtain ⟨b4, g5, o5, hs4, ht4, hf4⟩ := run_rounds_cons _ _ _ _ _ _ _ (hf3 rfl)
        have hq4 := run_round_stage _ _ _ _ _ _ _ hs4 ⟨by omega, by omega⟩ (hq3.2 rfl)
        cases b4 with
        | true => rw [ht4 rfl]; exact hq4.1 rfl
        | false =>
          have h5 := hf4 rfl
          simp only [run_rounds, Option.some.injEq, Prod.mk.injEq] at h5
          rw [← h5.1]
          obtain ⟨i, f, t, r⟩ := hq4.2 rfl
          exact ⟨i, f (by omega), t (by omega), r (by omega)⟩

/-! ## Facts about the rosters -/

theorem delete_defeated_loop_eq (kept bots : List Player) :
    delete_defeated_loop kept bots = kept ++ bots.filter (fun object => object.chips ≠ 0) := by
  induction bots generalizing kept with
  | nil => simp [delete_defeated_loop]
  | cons object rest ih =>
    simp only [delete_defeated_loop]
    by_cases h : object.chips = 0
    · rw [if_pos h, ih, List.filter_cons_of_neg (by simpa using h)]
    · rw [if_neg h, ih, List.filter_cons_of_pos (by simpa using h), List.append_assoc]
      rfl

/-- Erasing strictly descending indices keeps every element whose index is
not among them. -/
theorem foldl_eraseIdx_keeps (indices : List Nat) (v : List Player) (j : Nat) (p : Player)
    (hsorted : indices.Pairwise (fun a b => a > b)) (hj : j ∉ indices) (hp : v[j]? = some p) :
    p ∈ indices.foldl (fun w index => w.eraseIdx index) v := by
  induction indices generalizing v j with
  | nil => exact List.getElem?_mem hp
  | cons k rest ih =>
    simp only [List.foldl_cons]
    rw [List.pairwise_cons] at hsorted
    have hjk : j ≠ k := fun h => hj (by simp [h])
    have hjr : j ∉ rest := fun h => hj (List.mem_cons_of_mem _ h)
    by_cases hlt : j < k
    · apply ih _ j hsorted.2 hjr
      rw [List.getElem?_eraseIdx, if_pos hlt]
      exact hp
    · have hgt : k < j := by omega
      apply ih _ (j - 1) hsorted.2
      · intro hmem
        have := hsorted.1 _ hmem
        omega
      · rw [List.getElem?_eraseIdx, if_neg (by omega)]
        have : j - 1 + 1 = j := by omega
        rw [this]
        exact hp

theorem bot_call_roster (bet_amount : Int) (i : Nat) (b : Player) (g : Game) :
    ∃ b1, (bot_call bet_amount i b g).bots_in_the_game = g.bots_in_the_game.set i b1 := by
  unfold bot_call
  split_ifs
  · exact ⟨_, rfl⟩
  · exact ⟨_, rfl⟩

/-- One iteration of the loop of `bot_response` leaves a bot without chips in
its place and does not collect its index. -/
theorem bot_response_step_zero (bet_amount : Int) (raiser : String) (i : Nat) (g g1 : Game)
    (idx idx1 rand rand1 : List Nat) (j : Nat) (p : Player)
    (h : bot_response_step bet_amount raiser i g idx rand = some (g1, idx1, rand1))
    (hp : g.bots_in_the_game[j]? = some p) (hz : p.chips = 0)
    (hlt : ∀ k ∈ idx, k < i) (hnd : idx.Pairwise (fun a b => a < b)) (hj : j ∉ idx) :
    g1.bots_in_the_game[j]? = some p ∧ (∀ k ∈ idx1, k < i + 1) ∧
      idx1.Pairwise (fun a b => a < b) ∧ j ∉ idx1 := by
  have hlt1 : ∀ k ∈ idx, k < i + 1 := fun k hk => Nat.lt_succ_of_lt (hlt k hk)
  unfold bot_response_step at h
  split at h
  · cases h
  · rename_i b hb
    split at h
    · simp only [Option.some.injEq, Prod.mk.injEq] at h
      obtain ⟨rfl, rfl, -⟩ := h
      exact ⟨hp, hlt1, hnd, hj⟩
    · split at h
      · cases h
      · rename_i random_number rand2 hd
        split at h
        · rename_i hfold
          simp only [Option.some.injEq, Prod.mk.injEq] at h
          obtain ⟨rfl, rfl, -⟩ := h
          have hij : j ≠ i := by
            intro hji
            subst hji
            rw [hb] at hp
            have := Option.some.inj hp
            subst this
            omega
          refine ⟨hp, ?_, ?_, ?_⟩
          · intro k hk
            rcases List.mem_append.1 hk with hk | hk
            · exact hlt1 k hk
            · simp only [List.mem_singleton] at hk
              omega
          · rw [List.pairwise_append]
            refine ⟨hnd, List.pairwise_singleton _ _, ?_⟩
            intro a ha c hc
            simp only [List.mem_singleton] at hc
            subst hc
            exact hlt a ha
          · intro hmem
            rcases List.mem_append.1 hmem with hk | hk
            · exact hj hk
            · simp only [List.mem_singleton] at hk
              exact hij hk
        · split at h
          · rename_i hcall
            simp only [Option.some.injEq, Prod.mk.injEq] at h
            obtain ⟨rfl, rfl, -⟩ := h
            have hij : i ≠ j := by
              intro hji
              subst hji
              rw [hb] at hp
              have := Option.some.inj hp
              subst this
              omega
            obtain ⟨b1, hb1⟩ := bot_call_roster bet_amount i b g
            refine ⟨?_, hlt1, hnd, hj⟩
            rw [hb1, List.getElem?_set_ne hij]
            exact hp
          · simp only [Option.some.injEq, Prod.mk.injEq] at h
            obtain ⟨rfl, rfl, -⟩ := h
            exact ⟨hp, hlt1, hnd, hj⟩

theorem bot_response_loop_zero (bet_amount : Int) (raiser : String) (n i : Nat) (g g1 : Game)
    (idx idx1 rand rand1 : List Nat) (j : Nat) (p : Player)
    (h : bot_response_loop bet_amount raiser n i g idx rand = some (g1, idx1, rand1))
    (hp : g.bots_in_the_game[j]? = some p) (hz : p.chips = 0)
    (hlt : ∀ k ∈ idx, k < i) (hnd : idx.Pairwise (fun a b => a < b)) (hj : j ∉ idx) :
    g1.bots_in_the_game[j]? = some p ∧ idx1.Pairwise (fun a b => a < b) ∧ j ∉ idx1 := by
  induction n generalizing i g idx rand with
  | zero =>
    simp only [bot_response_loop, Option.some.injEq, Prod.mk.injEq] at h
    obtain ⟨rfl, rfl, -⟩ := h
    exact ⟨hp, hnd, hj⟩
  | succ n ih =>
    simp only [bot_response_loop] at h
    split at h
    · cases h
    · rename_i g2 idx2 rand2 hs
      obtain ⟨h1, h2, h3, h4⟩ := bot_response_step_zero _ _ _ _ _ _ _ _ _ j p hs hp hz hlt hnd hj
      exact ih _ _ _ _ h h1 h2 h3 h4

theorem erase_indices_keeps (v : List Player) (idx : List Nat) (j : Nat) (p : Player)
    (hnd : idx.Pairwise (fun a b => a < b)) (hj : j ∉ idx) (hp : v[j]? = some p) :
    p ∈ erase_indices v idx := by
  unfold erase_indices
  haveI : IsTotal Nat (fun a b => a ≥ b) := ⟨fun a b => Nat.le_total b a⟩
  haveI : IsTrans Nat (fun a b => a ≥ b) := ⟨fun a b c hab hbc => Nat.le_trans hbc hab⟩
  have hs := List.sorted_insertionSort (fun a b : Nat => a ≥ b) idx
  have hperm := List.perm_insertionSort (fun a b : Nat => a ≥ b) idx
  have hnodup : (idx.insertionSort (fun a b => a ≥ b)).Nodup :=
    hperm.nodup_iff.2 (hnd.imp (fun h => Nat.ne_of_lt h))
  apply foldl_eraseIdx_keeps _ _ j p _ (fun hm => hj (hperm.mem_iff.1 hm)) hp
  exact (List.Pairwise.and hs hnodup).imp (fun h => by omega)

theorem bot_response_keeps_zero (bet_amount : Int) (raiser : String) (g g1 : Game)
    (rand rand1 : List Nat) (p : Player)
    (h : bot_response bet_amount raiser g rand = some (g1, rand1))
    (hp : p ∈ g.bots_in_the_game) (hz : p.chips = 0) : p ∈ g1.bots_in_the_game := by
  obtain ⟨j, hj⟩ := List.mem_iff_getElem?.1 hp
  unfold bot_response at h
  split at h
  · cases h
  · rename_i g2 idx2 rand2 hl
    simp only [Option.some.injEq, Prod.mk.injEq] at h
    obtain ⟨rfl, -⟩ := h
    obtain ⟨h1, h2, h3⟩ := bot_response_loop_zero _ _ _ _ _ _ _ _ _ _ j p hl hj hz
      (fun k hk => by simp at hk) List.Pairwise.nil (by simp)
    exact erase_indices_keeps _ _ j p h2 h3 h1

/-! ## Facts about the size of the reserve -/

theorem ordered_cards_length : ordered_cards.length = 52 := by decide

/-- With at least `n` cards in the pool, the loop of `populate_game_cards`
moves `n` cards to the reserve and changes nothing else. -/
theorem populate_loop_some (n : Nat) (d : Deck) (h : n ≤ d.cards.length) :
    ∃ d1, Deck.populate_loop n d = some d1 ∧ d1.cards.length + n = d.cards.length ∧
      d1.game_cards.length = d.game_cards.length + n ∧
      d1.community_cards = d.community_cards ∧ d1.flop_is_taken = d.flop_is_taken ∧
      d1.turn_is_taken = d.turn_is_taken ∧ d1.river_is_taken = d.river_is_taken := by
  induction n generalizing d with
  | zero => exact ⟨d, rfl, rfl, rfl, rfl, rfl, rfl, rfl⟩
  | succ n ih =>
    simp only [Deck.populate_loop]
    cases hl : d.cards.getLast? with
    | none =>
      rw [List.getLast?_eq_none_iff] at hl
      rw [hl] at h
      simp at h
    | some c =>
      simp only []
      obtain ⟨d1, h1, h2, h3, h4, h5, h6, h7⟩ := ih
        { d with cards := d.cards.dropLast, game_cards := d.game_cards ++ [c] }
        (by simp only [List.length_dropLast]; omega)
      refine ⟨d1, h1, ?_, ?_, h4, h5, h6, h7⟩
      · simp only [List.length_dropLast] at h2
        omega
      · simp only [List.length_append, List.length_singleton] at h3
        omega

/-- With fewer than `n` cards in the pool, the loop of `populate_game_cards`
reads `back()` of an empty vector. -/
theorem populate_loop_none (n : Nat) (d : Deck) (h : d.cards.length < n) :
    Deck.populate_loop n d = none := by
  induction n generalizing d with
  | zero => omega
  | succ n ih =>
    simp only [Deck.populate_loop]
    cases hl : d.cards.getLast? with
    | none => rfl
    | some c =>
      simp only []
      apply ih
      have hne : d.cards ≠ [] := by
        intro he
        rw [he] at hl
        simp at hl
      have := List.length_pos.2 hne
      simp only [List.length_dropLast]
      omega

theorem take_game_card_some_of_pos (d : Deck) (h : 0 < d.game_cards.length) :
    ∃ c d1, d.take_game_card = some (c, d1) ∧ d1.game_cards.length + 1 = d.game_cards.length ∧
      d1.flop_is_taken = d.flop_is_taken ∧ d1.turn_is_taken = d.turn_is_taken ∧
      d1.river_is_taken = d.river_is_taken := by
  unfold Deck.take_game_card
  cases hl : d.game_cards.getLast? with
  | none =>
    rw [List.getLast?_eq_none_iff] at hl
    rw [hl] at h
    simp at h
  | some c =>
    refine ⟨c, _, rfl, ?_, rfl, rfl, rfl⟩
    simp only [List.length_dropLast]
    omega

theorem revealed_count_le (d : Deck) : d.revealed_count ≤ 5 := by
  unfold Deck.revealed_count
  split_ifs <;> omega

theorem take_flop_some (d : Deck) (h : 5 ≤ d.game_cards.length + d.revealed_count) :
    ∃ d1, d.take_flop = some d1 ∧
      d1.game_cards.length + d1.revealed_count = d.game_cards.length + d.revealed_count := by
  unfold Deck.take_flop
  by_cases hf : d.flop_is_taken = false
  · rw [if_pos hf]
    have hr : d.revealed_count ≤ 2 := by
      unfold Deck.revealed_count
      rw [hf]
      cases d.flop_is_taken <;> cases d.turn_is_taken <;> cases d.river_is_taken <;> simp
    obtain ⟨c1, e1, h1, l1, f1, t1, r1⟩ := take_game_card_some_of_pos d (by omega)
    obtain ⟨c2, e2, h2, l2, f2, t2, r2⟩ := take_game_card_some_of_pos e1 (by omega)
    obtain ⟨c3, e3, h3, l3, f3, t3, r3⟩ := take_game_card_some_of_pos e2 (by omega)
    simp only [h1, h2, h3, Option.bind_eq_bind, Option.some_bind, Option.pure_def]
    refine ⟨_, rfl, ?_⟩
    simp only [Deck.revealed_count, t3, t2, t1, r3, r2, r1, hf]
    simp
    omega
  · rw [if_neg hf]
    exact ⟨d, rfl, rfl⟩

theorem take_turn_some (d : Deck) (h : 5 ≤ d.game_cards.length + d.revealed_count) :
    ∃ d1, d.take_turn = some d1 ∧
      d1.game_cards.length + d1.revealed_count = d.game_cards.length + d.revealed_count := by
  unfold Deck.take_turn
  by_cases hf : d.turn_is_taken = false
  · rw [if_pos hf]
    have hr : d.revealed_count ≤ 4 := by
      unfold Deck.revealed_count
      rw [hf]
      cases d.flop_is_taken <;> cases d.turn_is_taken <;> cases d.river_is_taken <;> simp
    obtain ⟨c1, e1, h1, l1, f1, t1, r1⟩ := take_game_card_some_of_pos d (by omega)
    simp only [h1, Option.bind_eq_bind, Option.some_bind, Option.pure_def]
    refine ⟨_, rfl, ?_⟩
    simp only [Deck.revealed_count, f1, r1, hf]
    simp
    omega
  · rw [if_neg hf]
    exact ⟨d, rfl, rfl⟩

theorem take_river_some (d : Deck) (h : 5 ≤ d.game_cards.length + d.revealed_count) :
    ∃ d1, d.take_river = some d1 ∧
      d1.game_cards.length + d1.revealed_count = d.game_cards.length + d.revealed_count := by
  unfold Deck.take_river
  by_cases hf : d.river_is_taken = false
  · rw [if_pos hf]
    have hr : d.revealed_count ≤ 4 := by
      unfold Deck.revealed_count
      rw [hf]
      cases d.flop_is_taken <;> cases d.turn_is_taken <;> cases d.river_is_taken <;> simp
    obtain ⟨c1, e1, h1, l1, f1, t1, r1⟩ := take_game_card_some_of_pos d (by omega)
    simp only [h1, Option.bind_eq_bind, Option.some_bind, Option.pure_def]
    refine ⟨_, rfl, ?_⟩
    simp only [Deck.revealed_count, f1, t1, hf]
    simp
    omega
  · rw [if_neg hf]
    exact ⟨d, rfl, rfl⟩

/-- A sequence of calls on the deck never reads an empty reserve when the
reserve holds the cards for its `take_game_card` calls and for the community
cards not yet revealed. -/
theorem run_ops_some (ops : List DeckOp) (d : Deck) (dealt : List Card)
    (h : ops.count .take_game_card + 5 ≤ d.game_cards.length + d.revealed_count) :
    ∃ d1 dealt1, Deck.run_ops ops d dealt = some (d1, dealt1) := by
  induction ops generalizing d dealt with
  | nil => exact ⟨d, dealt, rfl⟩
  | cons op rest ih =>
    have hr := revealed_count_le d
    cases op with
    | take_game_card =>
      simp only [List.count_cons_self] at h
      obtain ⟨c, d1, h1, l1, f1, t1, r1⟩ := take_game_card_some_of_pos d (by omega)
      simp only [Deck.run_ops, h1]
      apply ih
      have : d1.revealed_count = d.revealed_count := by
        simp only [Deck.revealed_count, f1, t1, r1]
      omega
    | take_flop =>
      rw [List.count_cons_of_ne (by decide)] at h
      obtain ⟨d1, h1, l1⟩ := take_flop_some d (by omega)
      simp only [Deck.run_ops, h1]
      exact ih _ _ (by omega)
    | take_turn =>
      rw [List.count_cons_of_ne (by decide)] at h
      obtain ⟨d1, h1, l1⟩ := take_turn_some d (by omega)
      simp only [Deck.run_ops, h1]
      exact ih _ _ (by omega)
    | take_river =>
      rw [List.count_cons_of_ne (by decide)] at h
      obtain ⟨d1, h1, l1⟩ := take_river_some d (by omega)
      simp only [Deck.run_ops, h1]
      exact ih _ _ (by omega)

/-- The method `populate_game_cards` on a deck just recreated, with an empty
reserve: it succeeds when the number of cards asked for is at most 52. -/
theorem populate_game_cards_lengths (shuffle : List Card → List Card)
    (hshuffle : (shuffle ordered_cards).Perm ordered_cards) (d0 : Deck)
    (hg : d0.game_cards = []) (hp : 0 ≤ d0.nr_of_players) (hc : 0 ≤ d0.nr_of_community_cards)
    (hsum : d0.nr_of_community_cards + 2 * d0.nr_of_players ≤ 52) :
    ∃ d1, (d0.recreate shuffle).populate_game_cards = some d1 ∧
      (d1.game_cards.length : Int) = d0.nr_of_community_cards + 2 * d0.nr_of_players ∧
      (d1.cards.length : Int) = 52 - (d0.nr_of_community_cards + 2 * d0.nr_of_players) ∧
      d1.flop_is_taken = d0.flop_is_taken ∧ d1.turn_is_taken = d0.turn_is_taken ∧
      d1.river_is_taken = d0.river_is_taken := by
  have hlen : (shuffle ordered_cards).length = 52 := by
    rw [hshuffle.length_eq, ordered_cards_length]
  have h2 : int_wrap (d0.nr_of_players * 2) = d0.nr_of_players * 2 :=
    int_wrap_of_range _ (by unfold InIntRange; norm_num; omega)
  have h3 : int_wrap (d0.nr_of_community_cards + d0.nr_of_players * 2) =
      d0.nr_of_community_cards + d0.nr_of_players * 2 :=
    int_wrap_of_range _ (by unfold InIntRange; norm_num; omega)
  unfold Deck.populate_game_cards
  simp only [Deck.recreate, h2, h3]
  obtain ⟨d1, h1, l1, l2, -, f, t, r⟩ := populate_loop_some
    (d0.nr_of_community_cards + d0.nr_of_players * 2).toNat
    { d0 with cards := shuffle ordered_cards } (by simp only [hlen]; omega)
  refine ⟨d1, h1, ?_, ?_, f, t, r⟩
  · simp only [hg, List.length_nil] at l2
    omega
  · simp only [hlen] at l1
    omega

/-! ## Facts about the turns of the human -/

theorem foldl_largest_spec (rest : List Player) (first : Player) :
    (rest.foldl (fun largest p => if largest.chips < p.chips then p else largest) first ∈
        first :: rest) ∧
      ∀ b ∈ first :: rest, b.chips ≤
        (rest.foldl (fun largest p => if largest.chips < p.chips then p else largest)
          first).chips := by
  induction rest generalizing first with
  | nil => simp
  | cons q rest ih =>
    simp only [List.foldl_cons]
    by_cases h : first.chips < q.chips
    · rw [if_pos h]
      obtain ⟨h1, h2⟩ := ih q
      refine ⟨List.mem_cons_of_mem _ h1, ?_⟩
      intro b hb
      rcases List.mem_cons.1 hb with rfl | hb
      · exact le_trans (le_of_lt h) (h2 q (List.mem_cons_self _ _))
      · exact h2 b hb
    · rw [if_neg h]
      obtain ⟨h1, h2⟩ := ih first
      constructor
      · rcases List.mem_cons.1 h1 with h1 | h1
        · rw [h1]; exact List.mem_cons_self _ _
        · exact List.mem_cons_of_mem _ (List.mem_cons_of_mem _ h1)
      · intro b hb
        rcases List.mem_cons.1 hb with rfl | hb
        · exact h2 _ (List.mem_cons_self _ _)
        · rcases List.mem_cons.1 hb with rfl | hb
          · exact le_trans (not_lt.1 h) (h2 first (List.mem_cons_self _ _))
          · exact h2 b (List.mem_cons_of_mem _ hb)

/-- On a non-empty vector `max_element` with the comparator on chips finds a
player whose balance is the largest. -/
theorem max_element_chips_spec (bots : List Player) (hne : bots ≠ []) :
    ∃ m, max_element_chips bots = some m ∧ m ∈ bots ∧ ∀ b ∈ bots, b.chips ≤ m.chips := by
  cases bots with
  | nil => exact absurd rfl hne
  | cons first rest =>
    obtain ⟨h1, h2⟩ := foldl_largest_spec rest first
    exact ⟨_, rfl, h1, h2⟩

theorem player_bet_chips (p : Player) (a : Int) (pot : Pot) (hr : InIntRange p.chips)
    (ha : 0 ≤ a) (hle : a ≤ p.chips) :
    (p.bet a pot).1 = { p with chips := p.chips - a } := by
  have h : int_wrap (p.chips - a) = p.chips - a := by
    apply int_wrap_of_range
    unfold InIntRange at *
    omega
  simp only [Player.bet, h]

/-! ## Facts about the end of the round loop -/

/-- In rounds 2 to 4 the first part of the iteration only touches the deck. -/
theorem round_start_frame (round : Int) (g g1 : Game) (o o1 : Oracle) (hr : round ≠ 1)
    (h : round_start round g o = some (g1, o1)) :
    o1 = o ∧ g1.pot = g.pot ∧ g1.human = g.human ∧ g1.bot = g.bot ∧
      g1.bots_in_the_game = g.bots_in_the_game ∧
      g1.human_in_the_game = g.human_in_the_game := by
  unfold round_start at h
  rw [if_neg hr] at h
  repeat' split at h
  all_goals first
    | (simp only [Option.map_eq_some', Prod.mk.injEq] at h
       obtain ⟨d, -, rfl, rfl⟩ := h
       exact ⟨rfl, rfl, rfl, rfl, rfl, rfl⟩)
    | (simp only [Option.some.injEq, Prod.mk.injEq] at h
       obtain ⟨rfl, rfl⟩ := h
       exact ⟨rfl, rfl, rfl, rfl, rfl, rfl⟩)

/-- An iteration of the round loop whose first part ends with no live bot
leaves the loop at once. -/
theorem run_round_no_bots (bet_size : Int → Int → Int → Int) (round : Int) (g g1 : Game)
    (o o1 : Oracle) (h : round_start round g o = some (g1, o1))
    (he : g1.bots_in_the_game = []) :
    run_round bet_size round g o =
      (take_all g1.deck).map (fun d => (true, { g1 with deck := d }, o1)) := by
  unfold run_round
  simp only [h]
  rw [if_pos (by rw [he]; rfl)]

/-! ## Facts about `distribute_pot` -/

theorem to_size_t_of_nonneg (x : Int) (h0 : 0 ≤ x) (h1 : x < 2 ^ 64) :
    to_size_t x = x.toNat := by
  unfold to_size_t
  rw [Int.emod_eq_of_lt h0 h1]

/-- The inner loop of the first loop changes nothing when no entry with the
name of the winner meets the partial-pot condition. -/
theorem partial_pot_inner_none (player_name : String) (amount : Int) (n_initial n_final : Nat)
    (bots : List Player) (s : PartialPot)
    (h : ∀ b ∈ bots, b.name = player_name →
      ¬ to_size_t amount > partial_pot_amount b.chips n_initial n_final) :
    partial_pot_inner player_name amount n_initial n_final bots s = s := by
  induction bots with
  | nil => rfl
  | cons b rest ih =>
    simp only [partial_pot_inner]
    by_cases hn : player_name = b.name
    · rw [if_pos hn, if_neg (h b (List.mem_cons_self _ _) hn.symm)]
      exact ih (fun c hc => h c (List.mem_cons_of_mem _ hc))
    · rw [if_neg hn]
      exact ih (fun c hc => h c (List.mem_cons_of_mem _ hc))

theorem partial_pot_loop_none (amount : Int) (bot_initial_copy : List Player) (n_final : Nat)
    (winners : List String) (s : PartialPot)
    (h : ∀ b ∈ bot_initial_copy, b.name ∈ winners →
      ¬ to_size_t amount > partial_pot_amount b.chips bot_initial_copy.length n_final) :
    partial_pot_loop amount bot_initial_copy n_final winners s = s := by
  unfold partial_pot_loop
  induction winners with
  | nil => rfl
  | cons w rest ih =>
    simp only [List.foldl_cons]
    rw [partial_pot_inner_none w amount _ _ _ s
      (fun b hb hn => h b hb (by rw [hn]; exact List.mem_cons_self _ _))]
    exact ih (fun b hb hm => h b hb (List.mem_cons_of_mem _ hm))

/-- On a roster with distinct names, updating the first bot with a name
updates every bot with that name. -/
theorem update_first_named_eq_map (f : Player → Player) (bot_name : String)
    (bots : List Player) (hnd : (bots.map Player.name).Nodup) :
    update_first_named f bot_name bots =
      bots.map (fun p => if p.name = bot_name then f p else p) := by
  induction bots with
  | nil => rfl
  | cons p rest ih =>
    simp only [List.map_cons, List.nodup_cons] at hnd
    simp only [update_first_named, List.map_cons]
    by_cases hp : p.name = bot_name
    · rw [if_pos hp, if_pos hp]
      congr 1
      symm
      have hid : rest.map (fun p => if p.name = bot_name then f p else p) = rest.map id := by
        apply List.map_congr_left
        intro q hq
        rw [if_neg]
        · rfl
        · intro hqn
          exact hnd.1 (by rw [hp, ← hqn]; exact List.mem_map_of_mem _ hq)
      rw [hid, List.map_id]
    · rw [if_neg hp, if_neg hp, ih hnd.2]

theorem share_step_with_balances (a : Int) (g : Game) (human : Player) (bots : List Player)
    (w : String) :
    share_step a (g.with_balances human bots) w =
      g.with_balances (if w = human.name then human.receive_pot_share a else human)
        (if w = human.name then bots
          else update_first_named (fun p => p.receive_pot_share a) w bots) := by
  unfold share_step Game.with_balances Bot.update_chips_for_bot
  by_cases h : w = human.name
  · simp only [h, if_true]
  · simp only [h, if_false]

theorem map_receive_names (a : Int) (bots : List Player) (c : Player → Prop)
    [DecidablePred c] :
    (bots.map (fun p => if c p then p.receive_pot_share a else p)).map Player.name =
      bots.map Player.name := by
  rw [List.map_map]
  apply List.map_congr_left
  intro p _
  simp only [Function.comp]
  split_ifs <;> rfl

/-- The loop that hands the even share to the winners, in closed form: with
distinct winner names and distinct bot names, every winner receives the share
once. -/
theorem share_fold (a : Int) (ws : List String) (g : Game) (human : Player)
    (bots : List Player) (hws : ws.Nodup) (hnd : (bots.map Player.name).Nodup)
    (hh : ∀ p ∈ bots, p.name ≠ human.name) :
    ws.foldl (share_step a) (g.with_balances human bots) =
      g.with_balances (if human.name ∈ ws then human.receive_pot_share a else human)
        (bots.map (fun p => if p.name ∈ ws then p.receive_pot_share a else p)) := by
  induction ws generalizing human bots with
  | nil =>
    simp only [List.foldl_nil, List.not_mem_nil, if_false]
    congr 1
    exact (List.map_id _).symm
  | cons w rest ih =>
    rw [List.nodup_cons] at hws
    rw [List.foldl_cons, share_step_with_balances]
    by_cases hw : w = human.name
    · rw [if_pos hw, if_pos hw]
      rw [ih (human.receive_pot_share a) bots hws.2 hnd hh]
      have hname : (human.receive_pot_share a).name = human.name := rfl
      rw [hname, if_neg (by rw [← hw]; exact hws.1), if_pos (by rw [hw]; exact List.mem_cons_self _ _)]
      congr 1
      apply List.map_congr_left
      intro p hp
      have hpn : p.name ≠ w := by rw [hw]; exact hh p hp
      simp only [List.mem_cons, hpn, false_or]
    · rw [if_neg hw, if_neg hw, update_first_named_eq_map _ _ _ hnd]
      rw [ih human _ hws.2 (by rw [map_receive_names a bots (fun p => p.name = w)]; exact hnd)
        (by
          intro p hp
          rw [List.mem_map] at hp
          obtain ⟨q, hq, rfl⟩ := hp
          have := hh q hq
          split_ifs <;> exact this)]
      have hhw : human.name ≠ w := fun h => hw h.symm
      congr 1
      · simp only [List.mem_cons, hhw, false_or]
      · rw [List.map_map]
        apply List.map_congr_left
        intro p hp
        simp only [Function.comp, List.mem_cons]
        by_cases hpw : p.name = w
        · have hn : (p.receive_pot_share a).name = w := hpw
          rw [if_pos hpw, if_pos (Or.inl hpw), hn, if_neg hws.1]
        · rw [if_neg hpw]
          simp only [hpw, false_or]

/-- The even share computed by the mixed `int`/`size_t` division is the
integer quotient when the pot total is a non-negative `int`. -/
theorem even_share_eq (total : Int) (n : Nat) (hn : 0 < n) (h0 : 0 ≤ total)
    (hr : InIntRange total) :
    int_wrap ((to_size_t total / n : Nat)) = total / (n : Int) := by
  unfold InIntRange at hr
  rw [to_size_t_of_nonneg total h0 (by omega)]
  have hcast : ((total.toNat / n : Nat) : Int) = total / (n : Int) := by
    rw [Int.natCast_div, Int.toNat_of_nonneg h0]
  rw [hcast]
  apply int_wrap_of_range
  have h1 : 0 ≤ total / (n : Int) := Int.ediv_nonneg h0 (by omega)
  have h2 : total / (n : Int) ≤ total := Int.ediv_le_self _ h0
  unfold InIntRange
  omega

/-- The partial-pot condition of the source is false when the share is at
most the stack times the factor, all values being in range. -/
theorem not_capped (share chips : Int) (n_initial n_final : Nat) (hs : 0 ≤ share)
    (hsr : InIntRange share) (hc : 0 ≤ chips) (hcr : InIntRange chips)
    (hn : n_initial < 2 ^ 32) (hf : n_final < 2 ^ 32)
    (hle : share ≤ chips * (max (n_initial / 2) n_final : Nat)) :
    ¬ to_size_t share > partial_pot_amount chips n_initial n_final := by
  unfold InIntRange at hsr hcr
  unfold partial_pot_amount
  rw [to_size_t_of_nonneg share hs (by omega), to_size_t_of_nonneg chips hc (by omega)]
  have hm : max (n_initial / 2) n_final < 2 ^ 32 := by
    rw [max_lt_iff]
    exact ⟨by omega, hf⟩
  have hc2 : chips.toNat < 2 ^ 31 := by omega
  have hprod : chips.toNat * max (n_initial / 2) n_final < 2 ^ 64 := by
    calc chips.toNat * max (n_initial / 2) n_final
        ≤ 2 ^ 31 * 2 ^ 32 := Nat.mul_le_mul (le_of_lt hc2) (le_of_lt hm)
      _ < 2 ^ 64 := by norm_num
  rw [Nat.mod_eq_of_lt hprod]
  have : (share.toNat : Int) ≤ ((chips.toNat * max (n_initial / 2) n_final : Nat) : Int) := by
    rw [Int.toNat_of_nonneg hs]
    push_cast
    rw [Int.toNat_of_nonneg hc]
    push_cast at hle
    exact hle
  have h2 : share.toNat ≤ chips.toNat * max (n_initial / 2) n_final := by exact_mod_cast this
  omega

/-- With a non-empty list of distinct winners none of whom meets the
partial-pot condition, `distribute_pot` hands the even share to every winner
and to nobody else. -/
theorem distribute_pot_uncapped (winners : List String) (final : List Player) (total : Int)
    (g : Game) (hne : winners ≠ []) (hws : winners.Nodup)
    (hnd : (g.bot.bots.map Player.name).Nodup) (hh : ∀ p ∈ g.bot.bots, p.name ≠ g.human.name)
    (h0 : 0 ≤ total) (hr : InIntRange total)
    (hn : g.bot_initial_copy.length < 2 ^ 32) (hf : final.length < 2 ^ 32)
    (hcap : ∀ b ∈ g.bot_initial_copy, b.name ∈ winners → 0 ≤ b.chips ∧ InIntRange b.chips ∧
      total / (winners.length : Int) ≤
        b.chips * (max (g.bot_initial_copy.length / 2) final.length : Nat)) :
    distribute_pot winners final total g =
      some (g.with_balances
        (if g.human.name ∈ winners then
          g.human.receive_pot_share (total / (winners.length : Int)) else g.human)
        (g.bot.bots.map (fun p => if p.name ∈ winners then
          p.receive_pot_share (total / (winners.length : Int)) else p))) := by
  have hlen : 0 < winners.length := List.length_pos.2 hne
  have hshare := even_share_eq total winners.length hlen h0 hr
  have hs0 : 0 ≤ total / (winners.length : Int) := Int.ediv_nonneg h0 (by omega)
  have hsr : InIntRange (total / (winners.length : Int)) := by
    have h2 : total / (winners.length : Int) ≤ total := Int.ediv_le_self _ h0
    unfold InIntRange at hr ⊢
    omega
  unfold distribute_pot
  rw [if_neg (by omega)]
  simp only [hshare]
  rw [partial_pot_loop_none _ _ _ _ _ (fun b hb hm =>
    not_capped _ _ _ _ hs0 hsr (hcap b hb hm).1 (hcap b hb hm).2.1 hn hf (hcap b hb hm).2.2)]
  simp only [gt_iff_lt, lt_self_iff_false, false_and, if_false, if_true]
  exact congrArg some (share_fold _ winners g g.human g.bot.bots hws hnd hh)

theorem receive_pot_share_exact (p : Player) (a : Int) (h : InIntRange (p.chips + a)) :
    p.receive_pot_share a = { p with chips := p.chips + a } := by
  simp only [Player.receive_pot_share, int_wrap_of_range _ h]

theorem sum_chips_map_share (a : Int) (ws : List String) (bots : List Player) :
    ((bots.map (fun p => if p.name ∈ ws then { p with chips := p.chips + a } else p)).map
      Player.chips).sum =
      (bots.map Player.chips).sum + a * (bots.countP (fun p => p.name ∈ ws) : Nat) := by
  induction bots with
  | nil => simp
  | cons p rest ih =>
    simp only [List.map_cons, List.sum_cons, ih, List.countP_cons]
    by_cases h : p.name ∈ ws
    · simp only [h, if_true, decide_True]
      push_cast
      ring
    · simp only [h, if_false, decide_False]
      push_cast
      ring

theorem countP_name_eq (w : String) (bots : List Player)
    (hnd : (bots.map Player.name).Nodup) :
    bots.countP (fun p => p.name = w) = if w ∈ bots.map Player.name then 1 else 0 := by
  induction bots with
  | nil => simp
  | cons p rest ih =>
    simp only [List.map_cons, List.nodup_cons] at hnd
    simp only [List.countP_cons, List.map_cons, List.mem_cons, ih hnd.2]
    by_cases h : p.name = w
    · have hn : w ∉ rest.map Player.name := by rw [← h]; exact hnd.1
      simp [h, hn]
    · have h2 : ¬ w = p.name := fun e => h e.symm
      simp [h, h2]

theorem countP_name_mem_cons (w : String) (ws : List String) (bots : List Player)
    (hw : w ∉ ws) :
    bots.countP (fun p => p.name ∈ w :: ws) =
      bots.countP (fun p => p.name = w) + bots.countP (fun p => p.name ∈ ws) := by
  induction bots with
  | nil => simp
  | cons p rest ih =>
    simp only [List.countP_cons, ih]
    by_cases h1 : p.name = w
    · simp [h1, hw]
      omega
    · simp [h1]
      omega

/-- Every winner is one player: the winners among the bots and the human make
up the list of winners. -/
theorem count_winners (ws : List String) (human_name : String) (bots : List Player)
    (hws : ws.Nodup) (hnd : (bots.map Player.name).Nodup)
    (hh : ∀ p ∈ bots, p.name ≠ human_name)
    (hmem : ∀ w ∈ ws, w = human_name ∨ w ∈ bots.map Player.name) :
    bots.countP (fun p => p.name ∈ ws) + (if human_name ∈ ws then 1 else 0) = ws.length := by
  induction ws with
  | nil => simp
  | cons w rest ih =>
    rw [List.nodup_cons] at hws
    have ih1 := ih hws.2 (fun v hv => hmem v (List.mem_cons_of_mem _ hv))
    rw [countP_name_mem_cons w rest bots hws.1, countP_name_eq w bots hnd, List.length_cons]
    have hhn : human_name ∉ bots.map Player.name := by
      intro hm
      rw [List.mem_map] at hm
      obtain ⟨p, hp, hpn⟩ := hm
      exact hh p hp hpn
    rcases hmem w (List.mem_cons_self _ _) with hw | hw
    · have h1 : w ∉ bots.map Player.name := by rw [hw]; exact hhn
      have h2 : human_name ∉ rest := by rw [← hw]; exact hws.1
      rw [if_neg h1, if_pos (by rw [hw]; exact List.mem_cons_self _ _)]
      rw [if_neg h2] at ih1
      omega
    · have h1 : w ≠ human_name := by
        intro e
        rw [e] at hw
        exact hhn hw
      have h2 : (human_name ∈ w :: rest) ↔ human_name ∈ rest := by
        simp only [List.mem_cons]
        constructor
        · rintro (e | e)
          · exact absurd e.symm h1
          · exact e
        · exact Or.inr
      rw [if_pos hw]
      simp only [h2]
      omega

/-- The even-share case of `distribute_pot` with the new balances written
out, the sums being in the range of `int`. -/
theorem distribute_pot_exact (winners : List String) (final : List Player) (total : Int)
    (g : Game) (hne : winners ≠ []) (hws : winners.Nodup)
    (hnd : (g.bot.bots.map Player.name).Nodup) (hh : ∀ p ∈ g.bot.bots, p.name ≠ g.human.name)
    (h0 : 0 ≤ total) (hr : InIntRange total)
    (hn : g.bot_initial_copy.length < 2 ^ 32) (hf : final.length < 2 ^ 32)
    (hcap : ∀ b ∈ g.bot_initial_copy, b.name ∈ winners → 0 ≤ b.chips ∧ InIntRange b.chips ∧
      total / (winners.length : Int) ≤
        b.chips * (max (g.bot_initial_copy.length / 2) final.length : Nat))
    (hrh : InIntRange (g.human.chips + total / (winners.length : Int)))
    (hrb : ∀ p ∈ g.bot.bots, InIntRange (p.chips + total / (winners.length : Int))) :
    distribute_pot winners final total g =
      some (g.with_balances
        (if g.human.name ∈ winners then
          { g.human with chips := g.human.chips + total / (winners.length : Int) }
          else g.human)
        (g.bot.bots.map (fun p => if p.name ∈ winners then
          { p with chips := p.chips + total / (winners.length : Int) } else p))) := by
  rw [distribute_pot_uncapped winners final total g hne hws hnd hh h0 hr hn hf hcap,
    receive_pot_share_exact _ _ hrh]
  congr 2
  apply List.map_congr_left
  intro p hp
  rw [receive_pot_share_exact _ _ (hrb p hp)]

/-! ## Facts about the blinds -/

theorem big_blind_of_eq (starting_chips difficulty : Int)
    (h : 0 ≤ starting_chips ∧ starting_chips ≤ 10000) :
    big_blind_of starting_chips difficulty =
      if difficulty = 4 then starting_chips / 10 * 3 else starting_chips / 10 := by
  unfold big_blind_of
  simp only [Int.tdiv_eq_ediv h.1 (by norm_num : (0 : Int) ≤ 10)]
  split_ifs
  · apply int_wrap_of_range
    unfold InIntRange
    omega
  · rfl

theorem small_blind_of_eq (starting_chips difficulty : Int)
    (h : 0 ≤ starting_chips ∧ starting_chips ≤ 10000) :
    small_blind_of starting_chips difficulty =
      if difficulty = 4 then starting_chips / 10 / 2 * 3 else starting_chips / 10 / 2 := by
  unfold small_blind_of
  have h10 : 0 ≤ starting_chips / 10 := by omega
  simp only [Int.tdiv_eq_ediv h.1 (by norm_num : (0 : Int) ≤ 10),
    Int.tdiv_eq_ediv h10 (by norm_num : (0 : Int) ≤ 2)]
  split_ifs
  · apply int_wrap_of_range
    unfold InIntRange
    omega
  · rfl

/-! ## Facts about `get_two_random_players` -/

/-- From an index after which no bot has the name, the big-blind loop changes
nothing. -/
theorem big_blind_loop_none (player1_name : String) (big_blind : Int) (n k : Nat) (g : Game)
    (h : ∀ j c, k ≤ j → g.bots_in_the_game[j]? = some c → c.name ≠ player1_name) :
    big_blind_loop player1_name big_blind n k g = g := by
  induction n generalizing k with
  | zero => rfl
  | succ n ih =>
    simp only [big_blind_loop]
    split
    · rfl
    · rename_i object ho
      rw [if_neg (h k object (le_refl _) ho)]
      exact ih (k + 1) (fun j c hj hc => h j c (by omega) hc)

/-- With one bot of the name in the live roster, at index `i`, the big-blind
loop makes that bot bet the big blind, whatever its balance, and mirrors the
bet in the master roster. -/
theorem big_blind_loop_one (player1_name : String) (big_blind : Int) (n k i : Nat) (g : Game)
    (b : Player) (hb : g.bots_in_the_game[i]? = some b) (hn : b.name = player1_name)
    (hu : ∀ j c, j ≠ i → g.bots_in_the_game[j]? = some c → c.name ≠ player1_name)
    (hk : k ≤ i) (hi : i < k + n) :
    big_blind_loop player1_name big_blind n k g =
      { g with bots_in_the_game := g.bots_in_the_game.set i (b.bet big_blind g.pot).1,
               pot := (b.bet big_blind g.pot).2,
               bot := g.bot.update_bot_chips player1_name big_blind } := by
  induction n generalizing k with
  | zero => omega
  | succ n ih =>
    simp only [big_blind_loop]
    by_cases hki : k = i
    · subst hki
      simp only [hb, hn, if_true]
      apply big_blind_loop_none
      intro j c hj hc
      simp only at hc
      rw [List.getElem?_set_ne (by omega)] at hc
      exact hu j c (by omega) hc
    · have hlt : k < g.bots_in_the_game.length := by
        have := (List.getElem?_eq_some_iff.1 hb).1
        omega
      rw [List.getElem?_eq_getElem hlt]
      simp only
      rw [if_neg (hu k _ hki (List.getElem?_eq_getElem hlt))]
      exact ih (k + 1) (by omega) (by omega)

/-! ## Count maps do not depend on the order of the insertions -/

theorem mapIncr_comm {K : Type} [DecidableEq K] (less : K → K → Bool)
    (ho : StrictTotal less) (x y : K)
    (m : List (K × Nat)) :
    mapIncr less x (mapIncr less y m) = mapIncr less y (mapIncr less x m) := by
  obtain ⟨hasymm, htrans, htotal⟩ := ho
  by_cases hxy : x = y
  · rw [hxy]
  have hyx : y ≠ x := fun h => hxy h.symm
  induction m with
  | nil =>
    simp only [mapIncr, if_neg hxy, if_neg hyx]
    rcases htotal x y hxy with h | h
    · rw [h, hasymm x y h]
      simp
    · rw [h, hasymm y x h]
      simp
  | cons e rest ih =>
    obtain ⟨k, c⟩ := e
    by_cases hxk : x = k
    · subst hxk
      simp only [mapIncr, if_neg hyx, if_true]
      cases hlt : less y x with
      | true =>
        have h2 := hasymm y x hlt
        simp only [mapIncr, if_neg hxy, h2, if_true]
        simp
      | false =>
        simp only [mapIncr, if_true]
        simp
    · by_cases hyk : y = k
      · subst hyk
        simp only [mapIncr, if_neg hxy, if_true]
        cases hlt : less x y with
        | true =>
          have h2 := hasymm x y hlt
          simp only [mapIncr, if_neg hyx, h2, if_true]
          simp
        | false =>
          simp only [mapIncr, if_true]
          simp
      · cases hxl : less x k with
        | true =>
          cases hyl : less y k with
          | true =>
            simp only [mapIncr, if_neg hxk, if_neg hyk, hxl, hyl, if_true, if_neg hxy,
              if_neg hyx]
            rcases htotal x y hxy with h | h
            · rw [h, hasymm x y h]
              simp [hxl]
            · rw [h, hasymm y x h]
              simp [hyl]
          | false =>
            have hky : less k y = true := by
              rcases htotal y k hyk with h | h
              · rw [h] at hyl; cases hyl
              · exact h
            have hxy2 : less x y = true := htrans x k y hxl hky
            have hyx2 := hasymm x y hxy2
            simp only [mapIncr, if_neg hxk, if_neg hyk, hxl, hyl, if_true, if_neg hxy,
              if_neg hyx, hyx2]
            simp
        | false =>
          have hkx : less k x = true := by
            rcases htotal x k hxk with h | h
            · rw [h] at hxl; cases hxl
            · exact h
          cases hyl : less y k with
          | true =>
            have hyx2 : less y x = true := htrans y k x hyl hkx
            have hxy2 := hasymm y x hyx2
            simp only [mapIncr, if_neg hxk, if_neg hyk, hxl, hyl, if_true, if_neg hxy,
              if_neg hyx, hxy2]
            simp
          | false =>
            simp only [mapIncr, if_neg hxk, if_neg hyk, hxl, hyl, ih]
            simp

/-- The count map of a list is the count map of every permutation of it. -/
theorem countMap_perm {K : Type} [DecidableEq K] (less : K → K → Bool)
    (ho : StrictTotal less) (l1 l2 : List K)
    (h : l1.Perm l2) : countMap less l1 = countMap less l2 := by
  unfold countMap
  exact h.foldl_eq' (fun x _ y _ z => mapIncr_comm less ho y x z) []

theorem int_less_strictTotal : StrictTotal int_less := by
  refine ⟨?_, ?_, ?_⟩
  · intro a b h
    unfold int_less at *
    have := of_decide_eq_true h
    exact decide_eq_false (by omega)
  · intro a b c h1 h2
    unfold int_less at *
    have := of_decide_eq_true h1
    have := of_decide_eq_true h2
    exact decide_eq_true (by omega)
  · intro a b hab
    unfold int_less
    rcases lt_or_gt_of_ne hab with h | h
    · exact Or.inl (decide_eq_true h)
    · exact Or.inr (decide_eq_true h)

theorem string_less_strictTotal : StrictTotal string_less := by
  refine ⟨?_, ?_, ?_⟩
  · intro a b h
    unfold string_less at *
    exact decide_eq_false (lt_asymm (of_decide_eq_true h))
  · intro a b c h1 h2
    unfold string_less at *
    exact decide_eq_true (lt_trans (of_decide_eq_true h1) (of_decide_eq_true h2))
  · intro a b hab
    unfold string_less
    have hd : a.data ≠ b.data := fun h => hab (String.ext h)
    rcases lt_or_gt_of_ne hd with h | h
    · exact Or.inl (decide_eq_true h)
    · exact Or.inr (decide_eq_true h)

/-- Hands with the same ranks and the same suits, in any order, have the same
sorted vector of numeric ranks and the same count maps, and so the same
evaluation. -/
theorem evaluate_hand_of_perm (card1 card2 : Card) (community_cards : List Card)
    (other1 other2 : Card) (other_cards : List Card)
    (hr : (card1.rank :: card2.rank :: community_cards.map (fun c => c.rank)).Perm
      (other1.rank :: other2.rank :: other_cards.map (fun c => c.rank)))
    (hs : (card1.suit :: card2.suit :: community_cards.map (fun c => c.suit)).Perm
      (other1.suit :: other2.suit :: other_cards.map (fun c => c.suit))) :
    evaluate_hand card1 card2 community_cards = evaluate_hand other1 other2 other_cards := by
  have hmap := hr.map rank_to_num
  simp only [List.map_cons, List.map_map] at hmap
  have hn : numeric_ranks card1 card2 community_cards =
      numeric_ranks other1 other2 other_cards := by
    unfold numeric_ranks
    apply List.eq_of_perm_of_sorted (r := fun a b : Int => a ≤ b)
    · exact ((List.perm_insertionSort _ _).trans hmap).trans (List.perm_insertionSort _ _).symm
    · exact List.sorted_insertionSort _ _
    · exact List.sorted_insertionSort _ _
  have hsm : countMap string_less (suits card1 card2 community_cards) =
      countMap string_less (suits other1 other2 other_cards) :=
    countMap_perm string_less string_less_strictTotal _ _ hs
  unfold evaluate_hand
  simp only [hn, hsm]

/-! ## Every key of a list is in its count map -/

theorem mem_mapIncr_of_ne {K : Type} [DecidableEq K] (less : K → K → Bool) (x : K)
    (m : List (K × Nat)) (e : K × Nat) (he : e ∈ m) (hne : x ≠ e.1) :
    e ∈ mapIncr less x m := by
  induction m with
  | nil => cases he
  | cons f rest ih =>
    obtain ⟨k, c⟩ := f
    simp only [mapIncr]
    rcases List.mem_cons.1 he with h | h
    · subst h
      rw [if_neg hne]
      split_ifs <;> simp
    · split_ifs
      · exact List.mem_cons_of_mem _ h
      · exact List.mem_cons_of_mem _ (List.mem_cons_of_mem _ h)
      · exact List.mem_cons_of_mem _ (ih h)

theorem foldl_mapIncr_keeps {K : Type} [DecidableEq K] (less : K → K → Bool) (xs : List K)
    (m : List (K × Nat)) (e : K × Nat) (he : e ∈ m) (hne : ∀ x ∈ xs, x ≠ e.1) :
    e ∈ xs.foldl (fun m x => mapIncr less x m) m := by
  induction xs generalizing m with
  | nil => exact he
  | cons x rest ih =>
    simp only [List.foldl_cons]
    exact ih _ (mem_mapIncr_of_ne less x m e he (hne x (List.mem_cons_self _ _)))
      (fun y hy => hne y (List.mem_cons_of_mem _ hy))

theorem countMap_replicate {K : Type} [DecidableEq K] (less : K → K → Bool) (s : K) (n : Nat) :
    countMap less (List.replicate (n + 1) s) = [(s, n + 1)] := by
  unfold countMap
  induction n with
  | zero => simp [mapIncr]
  | succ n ih =>
    rw [List.replicate_succ', List.foldl_append, ih]
    simp [mapIncr]

/-- The count map holds every element of the list with its number of
occurrences. -/
theorem countMap_mem_count {K : Type} [DecidableEq K] (less : K → K → Bool)
    (ho : StrictTotal less) (l : List K) (s : K) (hs : s ∈ l) :
    (s, l.count s) ∈ countMap less l := by
  have hperm : l.Perm (l.filter (fun x => x == s) ++ l.filter (fun x => !(x == s))) :=
    (List.filter_append_perm _ l).symm
  rw [countMap_perm less ho _ _ hperm, List.filter_beq]
  have hpos : 0 < l.count s := List.count_pos_iff.2 hs
  obtain ⟨n, hn⟩ : ∃ n, l.count s = n + 1 := ⟨l.count s - 1, by omega⟩
  rw [hn]
  unfold countMap
  rw [List.foldl_append]
  have h1 := countMap_replicate less s n
  unfold countMap at h1
  rw [h1]
  apply foldl_mapIncr_keeps
  · exact List.mem_singleton_self _
  · intro x hx
    rw [List.mem_filter] at hx
    simpa using hx.2

/-! ## The responses of the bots -/

theorem fold_positions_ge (rs : List Response) (i : Nat) : ∀ k ∈ fold_positions rs i, i ≤ k := by
  induction rs generalizing i with
  | nil => simp [fold_positions]
  | cons r rs ih =>
    intro k hk
    cases r
    · have := ih (i + 1) k (by simpa [fold_positions] using hk)
      omega
    · simp only [fold_positions, List.mem_cons] at hk
      rcases hk with hk | hk
      · omega
      · have := ih (i + 1) k hk
        omega
    · have := ih (i + 1) k (by simpa [fold_positions] using hk)
      omega

theorem fold_positions_sorted (rs : List Response) (i : Nat) :
    (fold_positions rs i).Pairwise (fun a b => a < b) := by
  induction rs generalizing i with
  | nil => simp [fold_positions]
  | cons r rs ih =>
    cases r
    · simpa [fold_positions] using ih (i + 1)
    · simp only [fold_positions, List.pairwise_cons]
      refine ⟨fun k hk => ?_, ih (i + 1)⟩
      have := fold_positions_ge rs (i + 1) k hk
      omega
    · simpa [fold_positions] using ih (i + 1)

/-- Sorting strictly ascending indices in descending order reverses them. -/
theorem insertionSort_ge_of_sorted (idx : List Nat) (h : idx.Pairwise (fun a b => a < b)) :
    idx.insertionSort (fun a b => a ≥ b) = idx.reverse := by
  haveI : IsTotal Nat (fun a b => a ≥ b) := ⟨fun a b => Nat.le_total b a⟩
  haveI : IsTrans Nat (fun a b => a ≥ b) := ⟨fun a b c hab hbc => Nat.le_trans hbc hab⟩
  haveI : IsAntisymm Nat (fun a b => a ≥ b) := ⟨fun a b hab hba => Nat.le_antisymm hba hab⟩
  apply List.eq_of_perm_of_sorted ((List.perm_insertionSort _ idx).trans (List.reverse_perm idx).symm)
    (List.sorted_insertionSort _ idx)
  unfold List.Sorted
  rw [List.pairwise_reverse]
  exact h.imp (fun hab => Nat.le_of_lt hab)

/-- Erasing the positions of the folding bots, last first, leaves the bots that
did not fold. -/
theorem foldr_eraseIdx_fold_positions (bet_amount : Int) (rs : List Response) :
    ∀ (pre bots : List Player), bots.length = rs.length →
      (fold_positions rs pre.length).foldr (fun index v => v.eraseIdx index)
        (pre ++ marked bet_amount bots rs) = pre ++ survivors bet_amount bots rs := by
  induction rs with
  | nil =>
    intro pre bots hl
    cases bots with
    | nil => simp [fold_positions, marked, survivors]
    | cons b bots => simp at hl
  | cons r rs ih =>
    intro pre bots hl
    cases bots with
    | nil => simp at hl
    | cons b bots =>
      simp only [List.length_cons, Nat.add_right_cancel_iff] at hl
      cases r
      · have h := ih (pre ++ [b]) bots hl
        simp only [List.length_append, List.length_singleton, List.append_assoc,
          List.singleton_append] at h
        simpa [fold_positions, marked, survivors] using h
      · have h := ih (pre ++ [b]) bots hl
        simp only [List.length_append, List.length_singleton, List.append_assoc,
          List.singleton_append] at h
        simp only [fold_positions, marked, survivors, List.foldr_cons]
        rw [h, List.eraseIdx_append_of_length_le (Nat.le_refl _)]
        simp
      · have h := ih (pre ++ [{ b with chips := b.chips - min bet_amount b.chips }]) bots hl
        simp only [List.length_append, List.length_singleton, List.append_assoc,
          List.singleton_append] at h
        simpa [fold_positions, marked, survivors] using h

theorem erase_indices_fold_positions (bet_amount : Int) (rs : List Response)
    (bots : List Player) (hl : bots.length = rs.length) :
    erase_indices (marked bet_amount bots rs) (fold_positions rs 0) =
      survivors bet_amount bots rs := by
  unfold erase_indices
  rw [insertionSort_ge_of_sorted _ (fold_positions_sorted rs 0), List.foldl_reverse]
  exact foldr_eraseIdx_fold_positions bet_amount rs [] bots hl

/-- The CALL branch for a bot with chips: it pays `min bet_amount chips`. -/
theorem bot_call_eq (bet_amount : Int) (i : Nat) (b : Player) (g : Game)
    (hb : 0 < b.chips) (hr : InIntRange b.chips) (hbet : 0 < bet_amount) :
    bot_call bet_amount i b g =
      { g with
          bots_in_the_game :=
            g.bots_in_the_game.set i { b with chips := b.chips - min bet_amount b.chips },
          pot := g.pot.add_to_pot { amount := min bet_amount b.chips, player_name := b.name },
          bot := g.bot.update_bot_chips b.name (min bet_amount b.chips) } := by
  unfold bot_call Player.bet
  unfold InIntRange at hr
  by_cases h : bet_amount ≥ b.chips
  · rw [if_pos h]
    have hm : min bet_amount b.chips = b.chips := min_eq_right h
    simp only [hm, sub_self]
    rw [int_wrap_of_range _ (by unfold InIntRange; norm_num)]
  · rw [if_neg h]
    have hm : min bet_amount b.chips = bet_amount := min_eq_left (by omega)
    simp only [hm]
    rw [int_wrap_of_range _ (by unfold InIntRange; omega)]

/-- The loop of `bot_response` from index `i` on: the bots behind the index
give responses, the calling bots pay at their place, the positions of the
folding bots are collected. -/
theorem bot_response_loop_spec (bet_amount : Int) (raiser : String) (hbet : 0 < bet_amount) :
    ∀ (n i : Nat) (g : Game) (idx rand : List Nat) (pre suf : List Player) (g1 : Game)
      (idx1 rand1 : List Nat),
      g.bots_in_the_game = pre ++ suf → pre.length = i → suf.length = n →
      (∀ b ∈ suf, InIntRange b.chips) →
      bot_response_loop bet_amount raiser n i g idx rand = some (g1, idx1, rand1) →
      ∃ rs : List Response, List.Forall₂ (Response.allowed raiser) suf rs ∧
        g1 = { g with
          bots_in_the_game := pre ++ marked bet_amount suf rs,
          pot := (called_bets bet_amount suf rs).foldl Pot.add_to_pot g.pot,
          bot := (called_bets bet_amount suf rs).foldl
            (fun bot x => bot.update_bot_chips x.player_name x.amount) g.bot } ∧
        idx1 = idx ++ fold_positions rs i := by
  intro n
  induction n with
  | zero =>
    intro i g idx rand pre suf g1 idx1 rand1 hg hi hn hr h
    simp only [bot_response_loop, Option.some.injEq, Prod.mk.injEq] at h
    obtain ⟨rfl, rfl, -⟩ := h
    have hs : suf = [] := List.length_eq_zero.1 hn
    subst hs
    refine ⟨[], List.Forall₂.nil, ?_, by simp [fold_positions]⟩
    simp only [marked, called_bets, List.foldl_nil, List.append_nil]
    rw [← List.append_nil pre, ← hg]
  | succ n ih =>
    intro i g idx rand pre suf g1 idx1 rand1 hg hi hn hr h
    cases suf with
    | nil => simp at hn
    | cons b suf =>
      simp only [List.length_cons, Nat.add_right_cancel_iff] at hn
      have hb : g.bots_in_the_game[i]? = some b := by
        rw [hg, ← hi, List.getElem?_append_right (Nat.le_refl _)]
        simp
      have hr1 : ∀ c ∈ suf, InIntRange c.chips := fun c hc => hr c (List.mem_cons_of_mem _ hc)
      simp only [bot_response_loop] at h
      split at h
      · cases h
      · rename_i g2 idx2 rand2 hs
        unfold bot_response_step at hs
        rw [hb] at hs
        simp only at hs
        split at hs
        · rename_i hname
          simp only [Option.some.injEq, Prod.mk.injEq] at hs
          obtain ⟨rfl, rfl, rfl⟩ := hs
          obtain ⟨rs, h1, h2, h3⟩ := ih (i + 1) _ _ _ (pre ++ [b]) suf g1 idx1 rand1
            (by simp [hg]) (by simp [hi]) hn hr1 h
          refine ⟨.stay :: rs, List.Forall₂.cons (fun _ => rfl) h1, ?_, ?_⟩
          · rw [h2]
            simp [marked, called_bets]
          · rw [h3]
            simp [fold_positions]
        · rename_i hname
          split at hs
          · cases hs
          · rename_i random_number rand3 hd
            split at hs
            · rename_i hfold
              simp only [Option.some.injEq, Prod.mk.injEq] at hs
              obtain ⟨rfl, rfl, rfl⟩ := hs
              obtain ⟨rs, h1, h2, h3⟩ := ih (i + 1) _ _ _ (pre ++ [b]) suf g1 idx1 rand1
                (by simp [hg]) (by simp [hi]) hn hr1 h
              refine ⟨.fold :: rs, List.Forall₂.cons ?_ h1, ?_, ?_⟩
              · intro hc
                rcases hc with hc | hc
                · exact absurd hc hname
                · omega
              · rw [h2]
                simp [marked, called_bets]
              · rw [h3]
                simp [fold_positions]
            · rename_i hfold
              split at hs
              · rename_i hcall
                simp only [Option.some.injEq, Prod.mk.injEq] at hs
                obtain ⟨rfl, rfl, rfl⟩ := hs
                have hcall1 : 0 < b.chips := hcall
                rw [bot_call_eq bet_amount i b g hcall1 (hr b (List.mem_cons_self _ _)) hbet] at h
                obtain ⟨rs, h1, h2, h3⟩ := ih (i + 1) _ _ _
                  (pre ++ [{ b with chips := b.chips - min bet_amount b.chips }]) suf g1 idx1 rand1
                  (by
                    simp only [hg, ← hi]
                    rw [List.set_append_right _ _ (Nat.le_refl _)]
                    simp)
                  (by simp [hi]) hn hr1 h
                refine ⟨.call :: rs, List.Forall₂.cons ?_ h1, ?_, ?_⟩
                · intro hc
                  rcases hc with hc | hc
                  · exact absurd hc hname
                  · omega
                · rw [h2]
                  simp [marked, called_bets]
                · rw [h3]
                  simp [fold_positions]
              · rename_i hcall
                simp only [Option.some.injEq, Prod.mk.injEq] at hs
                obtain ⟨rfl, rfl, rfl⟩ := hs
                obtain ⟨rs, h1, h2, h3⟩ := ih (i + 1) _ _ _ (pre ++ [b]) suf g1 idx1 rand1
                  (by simp [hg]) (by simp [hi]) hn hr1 h
                refine ⟨.stay :: rs, List.Forall₂.cons (fun _ => rfl) h1, ?_, ?_⟩
                · rw [h2]
                  simp [marked, called_bets]
                · rw [h3]
                  simp [fold_positions]

/-- The result of `bot_response` in terms of the responses of the bots. -/
theorem bot_response_spec (bet_amount : Int) (raiser : String) (g g1 : Game)
    (rand rand1 : List Nat) (hbet : 0 < bet_amount)
    (hr : ∀ b ∈ g.bots_in_the_game, InIntRange b.chips)
    (h : bot_response bet_amount raiser g rand = some (g1, rand1)) :
    ∃ rs : List Response, List.Forall₂ (Response.allowed raiser) g.bots_in_the_game rs ∧
      g1 = { g with
        bots_in_the_game := survivors bet_amount g.bots_in_the_game rs,
        pot := (called_bets bet_amount g.bots_in_the_game rs).foldl Pot.add_to_pot g.pot,
        bot := (called_bets bet_amount g.bots_in_the_game rs).foldl
          (fun bot x => bot.update_bot_chips x.player_name x.amount) g.bot } := by
  unfold bot_response at h
  split at h
  · cases h
  · rename_i g2 idx2 rand2 hl
    simp only [Option.some.injEq, Prod.mk.injEq] at h
    obtain ⟨rfl, -⟩ := h
    obtain ⟨rs, h1, h2, h3⟩ := bot_response_loop_spec bet_amount raiser hbet _ 0 g [] rand []
      g.bots_in_the_game g2 idx2 rand2 rfl rfl rfl hr hl
    refine ⟨rs, h1, ?_⟩
    rw [h3, h2]
    simp only [List.nil_append]
    rw [erase_indices_fold_positions bet_amount rs _ h1.length_eq]

/-- With one draw per bot the loop of `bot_response` runs to its end. -/
theorem bot_response_loop_some (bet_amount : Int) (raiser : String) :
    ∀ (n i : Nat) (g : Game) (idx rand : List Nat),
      i + n ≤ g.bots_in_the_game.length → n ≤ rand.length →
      (bot_response_loop bet_amount raiser n i g idx rand).isSome = true := by
  intro n
  induction n with
  | zero =>
    intro i g idx rand _ _
    rfl
  | succ n ih =>
    intro i g idx rand hi hn
    cases rand with
    | nil => simp at hn
    | cons v rest =>
      simp only [List.length_cons, Nat.add_le_add_iff_right] at hn
      have hlt : i < g.bots_in_the_game.length := by omega
      simp only [bot_response_loop, bot_response_step, List.getElem?_eq_getElem hlt, draw]
      split_ifs
      · exact ih _ _ _ _ (by omega) (by simp; omega)
      · exact ih _ _ _ _ (by omega) hn
      · apply ih _ _ _ _ _ hn
        obtain ⟨b1, hb1⟩ := bot_call_roster bet_amount i (g.bots_in_the_game[i]) g
        rw [hb1, List.length_set]
        omega
      · exact ih _ _ _ _ (by omega) hn

theorem bot_response_some (bet_amount : Int) (raiser : String) (g : Game) (rand : List Nat)
    (h : g.bots_in_the_game.length ≤ rand.length) :
    (bot_response bet_amount raiser g rand).isSome = true := by
  unfold bot_response
  have := bot_response_loop_some bet_amount raiser g.bots_in_the_game.length 0 g [] rand
    (by omega) h
  rw [Option.isSome_iff_exists] at this
  obtain ⟨⟨g1, idx1, rand1⟩, hx⟩ := this
  rw [hx]
  rfl

theorem survivors_keeps_stay (bet_amount : Int) (raiser : String) (bots : List Player)
    (rs : List Response) (h : List.Forall₂ (Response.allowed raiser) bots rs) (b : Player)
    (hb : b ∈ bots) (hs : b.name = raiser ∨ b.chips ≤ 0) : b ∈ survivors bet_amount bots rs := by
  induction h with
  | nil => simp at hb
  | @cons c r bots1 rs1 hc _ ih =>
    rcases List.mem_cons.1 hb with hb | hb
    · subst hb
      rw [hc hs]
      simp [survivors]
    · have := ih hb
      cases r
      · simp only [survivors, List.mem_cons]
        exact Or.inr this
      · simpa [survivors] using this
      · simp only [survivors, List.mem_cons]
        exact Or.inr this

theorem survivors_sublist (bet_amount : Int) (bots : List Player) (rs : List Response) :
    ((survivors bet_amount bots rs).map (fun b => (b.name, b.card1, b.card2))).Sublist
      (bots.map (fun b => (b.name, b.card1, b.card2))) := by
  induction bots generalizing rs with
  | nil => simp [survivors]
  | cons b bots ih =>
    cases rs with
    | nil => simp [survivors]
    | cons r rs =>
      cases r
      · simp only [survivors, List.map_cons]
        exact (ih rs).cons₂ _
      · simp only [survivors, List.map_cons]
        exact (ih rs).cons _
      · simp only [survivors, List.map_cons]
        exact (ih rs).cons₂ _

/-- The chips that leave the bots that stay in the hand are the chips bet. -/
theorem survivors_chips (bet_amount : Int) (bots : List Player) (rs : List Response) :
    (((bots.zip rs).filter (fun x => x.2 ≠ Response.fold)).map (fun x => x.1.chips)).sum =
      ((survivors bet_amount bots rs).map Player.chips).sum +
        ((called_bets bet_amount bots rs).map Bet.amount).sum := by
  induction bots generalizing rs with
  | nil => simp [survivors, called_bets]
  | cons b bots ih =>
    cases rs with
    | nil => simp [survivors, called_bets]
    | cons r rs =>
      have := ih rs
      cases r
      · simp only [List.zip_cons_cons, survivors, called_bets, List.map_cons, List.sum_cons]
        rw [List.filter_cons_of_pos (by simp), List.map_cons, List.sum_cons, this]
        ring
      · simp only [List.zip_cons_cons, survivors, called_bets]
        rw [List.filter_cons_of_neg (by simp), this]
      · simp only [List.zip_cons_cons, survivors, called_bets, List.map_cons, List.sum_cons]
        rw [List.filter_cons_of_pos (by simp), List.map_cons, List.sum_cons, this]
        ring

theorem foldl_add_to_pot_bets (bets : List Bet) (p : Pot) :
    (bets.foldl Pot.add_to_pot p).bets = p.bets ++ bets := by
  induction bets generalizing p with
  | nil => simp
  | cons x bets ih =>
    rw [List.foldl_cons, ih]
    simp [Pot.add_to_pot]

theorem foldl_add_to_pot_total (bets : List Bet) (p : Pot) (hpos : ∀ x ∈ bets, 0 ≤ x.amount)
    (hlo : -2 ^ 31 ≤ p.pot) (hhi : p.pot + (bets.map Bet.amount).sum < 2 ^ 31) :
    (bets.foldl Pot.add_to_pot p).pot = p.pot + (bets.map Bet.amount).sum := by
  induction bets generalizing p with
  | nil => simp
  | cons x bets ih =>
    have hx := hpos x (List.mem_cons_self _ _)
    have hrest : 0 ≤ (bets.map Bet.amount).sum :=
      List.sum_nonneg (fun a ha => by
        obtain ⟨y, hy, rfl⟩ := List.mem_map.1 ha
        exact hpos y (List.mem_cons_of_mem _ hy))
    simp only [List.map_cons, List.sum_cons] at hhi
    have hw : int_wrap (p.pot + x.amount) = p.pot + x.amount :=
      int_wrap_of_range _ (by unfold InIntRange; constructor <;> omega)
    rw [List.foldl_cons, ih _ (fun y hy => hpos y (List.mem_cons_of_mem _ hy))]
    · simp only [Pot.add_to_pot, hw, List.map_cons, List.sum_cons]
      ring
    · simp only [Pot.add_to_pot, hw]
      omega
    · simp only [Pot.add_to_pot, hw]
      omega

/-- A calling bot bets between 1 chip and its balance. -/
theorem called_bets_bound (bet_amount : Int) (raiser : String) (hbet : 0 < bet_amount)
    (bots : List Player) (rs : List Response)
    (h : List.Forall₂ (Response.allowed raiser) bots rs) :
    (∀ x ∈ called_bets bet_amount bots rs, 0 ≤ x.amount) ∧
      ((called_bets bet_amount bots rs).map Bet.amount).sum ≤
        (bots.map (fun b => max b.chips 0)).sum := by
  induction h with
  | nil => simp [called_bets]
  | @cons c r bots1 rs1 hc _ ih =>
    have hm : (0 : Int) ≤ max c.chips 0 := le_max_right _ _
    cases r
    · simp only [called_bets, List.map_cons, List.sum_cons]
      exact ⟨ih.1, by omega⟩
    · simp only [called_bets, List.map_cons, List.sum_cons]
      exact ⟨ih.1, by omega⟩
    · have hpos : 0 < c.chips := by
        by_contra hn
        have := hc (Or.inr (by omega))
        cases this
      simp only [called_bets, List.map_cons, List.sum_cons, List.mem_cons]
      refine ⟨?_, ?_⟩
      · intro x hx
        rcases hx with hx | hx
        · subst hx
          simp only
          omega
        · exact ih.1 x hx
      · have h1 : min bet_amount c.chips ≤ c.chips := min_le_right _ _
        have h2 : c.chips ≤ max c.chips 0 := le_max_left _ _
        omega

/-! ## Somebody is left in the hand -/

theorem bot_call_human_in (bet_amount : Int) (i : Nat) (b : Player) (g : Game) :
    (bot_call bet_amount i b g).human_in_the_game = g.human_in_the_game := by
  unfold bot_call
  split_ifs <;> rfl

theorem bot_raise_human_in (x : Int) (it : Nat) (b : Player) (g : Game) :
    (bot_raise x it b g).2.human_in_the_game = g.human_in_the_game := by
  unfold bot_raise
  split_ifs <;> rfl

theorem bot_raise_roster (x : Int) (it : Nat) (b : Player) (g : Game) :
    ∃ b1, b1.name = b.name ∧
      (bot_raise x it b g).2.bots_in_the_game = g.bots_in_the_game.set it b1 := by
  unfold bot_raise
  split_ifs
  · exact ⟨(b.bet b.chips g.pot).1, rfl, rfl⟩
  · exact ⟨(b.bet x g.pot).1, rfl, rfl⟩

theorem bot_response_step_human_in (bet_amount : Int) (raiser : String) (i : Nat)
    (g g1 : Game) (idx idx1 rand rand1 : List Nat)
    (h : bot_response_step bet_amount raiser i g idx rand = some (g1, idx1, rand1)) :
    g1.human_in_the_game = g.human_in_the_game := by
  unfold bot_response_step at h
  repeat' split at h
  all_goals first
    | (cases h; done)
    | (simp only [Option.some.injEq, Prod.mk.injEq] at h
       obtain ⟨rfl, -⟩ := h
       first | rfl | exact bot_call_human_in _ _ _ _)

theorem bot_response_loop_human_in (bet_amount : Int) (raiser : String) (n i : Nat)
    (g g1 : Game) (idx idx1 rand rand1 : List Nat)
    (h : bot_response_loop bet_amount raiser n i g idx rand = some (g1, idx1, rand1)) :
    g1.human_in_the_game = g.human_in_the_game := by
  induction n generalizing i g idx rand with
  | zero =>
    simp only [bot_response_loop, Option.some.injEq, Prod.mk.injEq] at h
    rw [← h.1]
  | succ n ih =>
    simp only [bot_response_loop] at h
    split at h
    · cases h
    · rename_i g2 idx2 rand2 hs
      rw [ih _ _ _ _ h, bot_response_step_human_in _ _ _ _ _ _ _ _ _ hs]

theorem bot_response_human_in (bet_amount : Int) (raiser : String) (g g1 : Game)
    (rand rand1 : List Nat) (h : bot_response bet_amount raiser g rand = some (g1, rand1)) :
    g1.human_in_the_game = g.human_in_the_game := by
  unfold bot_response at h
  split at h
  · cases h
  · rename_i g2 idx2 rand2 hl
    simp only [Option.some.injEq, Prod.mk.injEq] at h
    obtain ⟨rfl, -⟩ := h
    have hd := bot_response_loop_human_in _ _ _ _ _ _ _ _ _ _ hl
    exact hd

theorem big_blind_loop_human_in (player1_name : String) (big_blind : Int) (n i : Nat)
    (g : Game) :
    (big_blind_loop player1_name big_blind n i g).human_in_the_game = g.human_in_the_game := by
  induction n generalizing i g with
  | zero => rfl
  | succ n ih =>
    simp only [big_blind_loop]
    split
    · rfl
    · split
      · rw [ih]
      · rw [ih]

/-- One iteration of the loop of `bot_response` leaves a bot with the name of
the raiser in its place and does not collect its index. -/
theorem bot_response_step_named (bet_amount : Int) (raiser : String) (i : Nat) (g g1 : Game)
    (idx idx1 rand rand1 : List Nat) (j : Nat) (p : Player)
    (h : bot_response_step bet_amount raiser i g idx rand = some (g1, idx1, rand1))
    (hp : g.bots_in_the_game[j]? = some p) (hz : p.name = raiser)
    (hlt : ∀ k ∈ idx, k < i) (hnd : idx.Pairwise (fun a b => a < b)) (hj : j ∉ idx) :
    g1.bots_in_the_game[j]? = some p ∧ (∀ k ∈ idx1, k < i + 1) ∧
      idx1.Pairwise (fun a b => a < b) ∧ j ∉ idx1 := by
  have hlt1 : ∀ k ∈ idx, k < i + 1 := fun k hk => Nat.lt_succ_of_lt (hlt k hk)
  unfold bot_response_step at h
  split at h
  · cases h
  · rename_i b hb
    split at h
    · simp only [Option.some.injEq, Prod.mk.injEq] at h
      obtain ⟨rfl, rfl, -⟩ := h
      exact ⟨hp, hlt1, hnd, hj⟩
    · rename_i hname
      have hij : j ≠ i := by
        intro hji
        subst hji
        rw [hb] at hp
        have := Option.some.inj hp
        subst this
        exact hname hz
      split at h
      · cases h
      · rename_i random_number rand2 hd
        split at h
        · simp only [Option.some.injEq, Prod.mk.injEq] at h
          obtain ⟨rfl, rfl, -⟩ := h
          refine ⟨hp, ?_, ?_, ?_⟩
          · intro k hk
            rcases List.mem_append.1 hk with hk | hk
            · exact hlt1 k hk
            · simp only [List.mem_singleton] at hk
              omega
          · rw [List.pairwise_append]
            refine ⟨hnd, List.pairwise_singleton _ _, ?_⟩
            intro a ha c hc
            simp only [List.mem_singleton] at hc
            subst hc
            exact hlt a ha
          · intro hmem
            rcases List.mem_append.1 hmem with hk | hk
            · exact hj hk
            · simp only [List.mem_singleton] at hk
              exact hij hk
        · split at h
          · simp only [Option.some.injEq, Prod.mk.injEq] at h
            obtain ⟨rfl, rfl, -⟩ := h
            obtain ⟨b1, hb1⟩ := bot_call_roster bet_amount i b g
            refine ⟨?_, hlt1, hnd, hj⟩
            rw [hb1, List.getElem?_set_ne (Ne.symm hij)]
            exact hp
          · simp only [Option.some.injEq, Prod.mk.injEq] at h
            obtain ⟨rfl, rfl, -⟩ := h
            exact ⟨hp, hlt1, hnd, hj⟩

theorem bot_response_loop_named (bet_amount : Int) (raiser : String) (n i : Nat) (g g1 : Game)
    (idx idx1 rand rand1 : List Nat) (j : Nat) (p : Player)
    (h : bot_response_loop bet_amount raiser n i g idx rand = some (g1, idx1, rand1))
    (hp : g.bots_in_the_game[j]? = some p) (hz : p.name = raiser)
    (hlt : ∀ k ∈ idx, k < i) (hnd : idx.Pairwise (fun a b => a < b)) (hj : j ∉ idx) :
    g1.bots_in_the_game[j]? = some p ∧ idx1.Pairwise (fun a b => a < b) ∧ j ∉ idx1 := by
  induction n generalizing i g idx rand with
  | zero =>
    simp only [bot_response_loop, Option.some.injEq, Prod.mk.injEq] at h
    obtain ⟨rfl, rfl, -⟩ := h
    exact ⟨hp, hnd, hj⟩
  | succ n ih =>
    simp only [bot_response_loop] at h
    split at h
    · cases h
    · rename_i g2 idx2 rand2 hs
      obtain ⟨h1, h2, h3, h4⟩ :=
        bot_response_step_named _ _ _ _ _ _ _ _ _ j p hs hp hz hlt hnd hj
      exact ih _ _ _ _ h h1 h2 h3 h4

/-- A response pass never removes a bot that has the name of the raiser. -/
theorem bot_response_keeps_named (bet_amount : Int) (raiser : String) (g g1 : Game)
    (rand rand1 : List Nat) (p : Player)
    (h : bot_response bet_amount raiser g rand = some (g1, rand1))
    (hp : p ∈ g.bots_in_the_game) (hz : p.name = raiser) : p ∈ g1.bots_in_the_game := by
  obtain ⟨j, hj⟩ := List.mem_iff_getElem?.1 hp
  unfold bot_response at h
  split at h
  · cases h
  · rename_i g2 idx2 rand2 hl
    simp only [Option.some.injEq, Prod.mk.injEq] at h
    obtain ⟨rfl, -⟩ := h
    obtain ⟨h1, h2, h3⟩ := bot_response_loop_named _ _ _ _ _ _ _ _ _ _ j p hl hj hz
      (fun k hk => by simp at hk) List.Pairwise.nil (by simp)
    exact erase_indices_keeps _ _ j p h2 h3 h1

/-- A response of the human made while a bot is live leaves somebody in the
hand: a fold leaves the bots, a raise keeps the human in. -/
theorem human_response_loop_left (amount : Int) (g g1 : Game) (rand : List Nat)
    (human : List HumanInput) (o1 : Oracle) (hin : g.human_in_the_game = true)
    (hne : g.bots_in_the_game ≠ [])
    (h : human_response_loop amount g rand human = some (g1, o1)) : g1.player_left := by
  induction human with
  | nil => simp [human_response_loop] at h
  | cons input rest ih =>
    simp only [human_response_loop] at h
    repeat' split at h
    all_goals first
      | exact ih h
      | (cases h; done)
      | (simp only [Option.some.injEq, Prod.mk.injEq] at h
         obtain ⟨rfl, -⟩ := h
         first
           | exact Or.inr hne
           | exact Or.inl hin
           | (rename_i hr _
              exact Or.inl ((bot_response_human_in _ _ _ _ _ _ hr).trans hin)))

/-- A turn of the human taken while a bot is live leaves somebody in the
hand. -/
theorem human_turn_loop_left (g g1 : Game) (rand : List Nat) (human : List HumanInput)
    (r : Bool) (o1 : Oracle) (hin : g.human_in_the_game = true)
    (hne : g.bots_in_the_game ≠ [])
    (h : human_turn_loop g rand human = some (r, g1, o1)) : g1.player_left := by
  induction human with
  | nil => simp [human_turn_loop] at h
  | cons input rest ih =>
    simp only [human_turn_loop] at h
    repeat' split at h
    all_goals first
      | exact ih h
      | (cases h; done)
      | (simp only [Option.some.injEq, Prod.mk.injEq] at h
         obtain ⟨-, rfl, -⟩ := h
         first
           | exact Or.inr hne
           | exact Or.inl hin
           | (rename_i hr _
              exact Or.inl ((bot_response_human_in _ _ _ _ _ _ hr).trans hin)))

/-- A turn of the bots leaves somebody in the hand: the bot that raises stays
in the roster through the response pass to its raise. -/
theorem bot_turn_loop_left (bet_size : Int → Int → Int → Int) (g g1 : Game)
    (human : List HumanInput) (it : Nat) (rand : List Nat) (o1 : Oracle)
    (hl : g.player_left)
    (h : bot_turn_loop bet_size g human it rand = some (g1, o1)) : g1.player_left := by
  induction rand generalizing it with
  | nil =>
    simp only [bot_turn_loop] at h
    split at h
    · simp only [Option.some.injEq, Prod.mk.injEq] at h
      obtain ⟨rfl, -⟩ := h
      exact hl
    · cases h
  | cons v rest ih =>
    simp only [bot_turn_loop] at h
    split at h
    · simp only [Option.some.injEq, Prod.mk.injEq] at h
      obtain ⟨rfl, -⟩ := h
      exact hl
    · rename_i hit
      split at h
      · cases h
      · rename_i b hb
        split at h
        · exact ih _ h
        · split at h
          · split at h
            · cases h
            · rename_i x rand1 hd
              split at h
              · cases h
              · rename_i g2 rand2 hr
                obtain ⟨b1, hname, hroster⟩ := bot_raise_roster
                  (raise_request (bet_size g.difficulty g.starting_chips x) x) it b g
                have hmem : b1 ∈ (bot_raise
                    (raise_request (bet_size g.difficulty g.starting_chips x) x) it b
                    g).2.bots_in_the_game := by
                  rw [hroster]
                  exact List.mem_set _ _ (by omega) _
                have hne : g2.bots_in_the_game ≠ [] :=
                  List.ne_nil_of_mem (bot_response_keeps_named _ _ _ _ _ _ b1 hr hmem hname)
                split at h
                · rename_i hc
                  exact human_response_loop_left _ _ _ _ _ _ hc.1 hne h
                · simp only [Option.some.injEq, Prod.mk.injEq] at h
                  obtain ⟨rfl, -⟩ := h
                  exact Or.inr hne
          · exact ih _ h

/-- Round 1 entered with the human in leaves somebody in the hand. -/
theorem round_one_left (g g1 : Game) (o o1 : Oracle) (hin : g.human_in_the_game = true)
    (h : round_one g o = some (g1, o1)) : g1.player_left := by
  unfold round_one at h
  simp only at h
  split at h
  · cases h
  · rename_i player1 player2 rand1 hp
    split at h
    · cases h
    · rename_i g2 rand2 hr
      have hg2 : g2.human_in_the_game = true := by
        rw [bot_response_human_in _ _ _ _ _ _ hr]
        split
        · exact hin
        · rw [big_blind_loop_human_in]
          exact hin
      split at h
      · rename_i hsize
        have hne : g2.bots_in_the_game ≠ [] := by
          intro he
          rw [he] at hsize
          simp at hsize
        split at h
        · split at h
          · exact human_response_loop_left _ _ _ _ _ _ hg2 hne h
          · split at h
            · have hx := fun a b => human_response_loop_left _ _ _ _ _ _ a b h
              exact hx hg2 hne
            · simp only [Option.some.injEq, Prod.mk.injEq] at h
              obtain ⟨rfl, -⟩ := h
              exact Or.inl hg2
        · exact human_response_loop_left _ _ _ _ _ _ hg2 hne h
      · simp only [Option.some.injEq, Prod.mk.injEq] at h
        obtain ⟨rfl, -⟩ := h
        exact Or.inl hg2

/-- An iteration of the round loop leaves somebody in the hand. -/
theorem run_round_left (bet_size : Int → Int → Int → Int) (round : Int) (g g1 : Game)
    (o o1 : Oracle) (brk : Bool) (hl : g.player_left)
    (h1 : round = 1 → g.human_in_the_game = true)
    (h : run_round bet_size round g o = some (brk, g1, o1)) : g1.player_left := by
  unfold run_round at h
  split at h
  · cases h
  · rename_i g2 o2 hs
    have hl2 : g2.player_left := by
      by_cases hr : round = 1
      · unfold round_start at hs
        rw [if_pos hr] at hs
        exact round_one_left _ _ _ _ (h1 hr) hs
      · obtain ⟨-, -, -, -, h5, h6⟩ := round_start_frame _ _ _ _ _ hr hs
        unfold Game.player_left
        rw [h5, h6]
        exact hl
    split at h
    · simp only [Option.map_eq_some', Prod.mk.injEq] at h
      obtain ⟨d, hd, rfl, rfl, -⟩ := h
      exact hl2
    · rename_i hhigh
      have hne : g2.bots_in_the_game ≠ [] := by
        intro he
        rw [he] at hhigh
        exact hhigh rfl
      split at h
      · cases h
      · rename_i responded g3 o3 ht
        have hl3 : g3.player_left := by
          split at ht
          · rename_i hc
            exact human_turn_loop_left _ _ _ _ _ _ hc.1 hne ht
          · simp only [Option.some.injEq, Prod.mk.injEq] at ht
            rw [← ht.2.1]
            exact hl2
        split at h
        · simp only [Option.map_eq_some', Prod.mk.injEq] at h
          obtain ⟨r, hb, rfl, rfl, -⟩ := h
          exact bot_turn_loop_left _ _ _ _ _ _ _ hl3
            (show bot_turn_loop bet_size g3 o3.human 0 o3.rand = some (r.1, r.2) from hb)
        · split at h
          · simp only [Option.map_eq_some', Prod.mk.injEq] at h
            obtain ⟨d, hd, rfl, rfl, -⟩ := h
            exact hl3
          · simp only [Option.some.injEq, Prod.mk.injEq] at h
            obtain ⟨rfl, rfl, -⟩ := h
            exact hl3

theorem run_rounds_left (bet_size : Int → Int → Int → Int) (rounds : List Int) (g g1 : Game)
    (o o1 : Oracle) (hl : g.player_left) (h1 : 1 ∉ rounds)
    (h : run_rounds bet_size rounds g o = some (g1, o1)) : g1.player_left := by
  induction rounds generalizing g o with
  | nil =>
    simp only [run_rounds, Option.some.injEq, Prod.mk.injEq] at h
    rw [← h.1]
    exact hl
  | cons round rest ih =>
    obtain ⟨brk, g2, o2, hs, ht, hf⟩ := run_rounds_cons _ _ _ _ _ _ _ h
    have hl2 := run_round_left _ _ _ _ _ _ _ hl
      (fun hr => absurd (by rw [hr]; exact List.mem_cons_self _ _) h1) hs
    cases brk with
    | true => rw [ht rfl]; exact hl2
    | false => exact ih _ _ hl2 (fun hm => h1 (List.mem_cons_of_mem _ hm)) (hf rfl)

/-- The round loop entered with the human in ends with somebody in the
hand. -/
theorem round_loop_left (bet_size : Int → Int → Int → Int) (g g1 : Game) (o o1 : Oracle)
    (hin : g.human_in_the_game = true) (h : round_loop bet_size g o = some (g1, o1)) :
    g1.player_left := by
  unfold round_loop at h
  obtain ⟨brk, g2, o2, hs, ht, hf⟩ := run_rounds_cons _ _ _ _ _ _ _ h
  have hl2 := run_round_left _ _ _ _ _ _ _ (Or.inl hin) (fun _ => hin) hs
  cases brk with
  | true => rw [ht rfl]; exact hl2
  | false => exact run_rounds_left _ _ _ _ _ _ hl2 (by decide) (hf rfl)

theorem remaining_players_ne_nil (g : Game) (h : g.player_left) : remaining_players g ≠ [] := by
  unfold remaining_players
  rcases h with h | h
  · rw [if_pos h]
    split <;> simp
  · have hpos : g.bots_in_the_game.length > 0 := List.length_pos.2 h
    rw [if_pos hpos]
    simp [h]

theorem player_name_and_rank_length (players : List Player) (community_cards : List Card)
    (entries : List RankedPlayer)
    (h : player_name_and_rank players community_cards = some entries) :
    entries.length = players.length := by
  induction players generalizing entries with
  | nil =>
    simp only [player_name_and_rank, Option.some.injEq] at h
    cases h
    rfl
  | cons player rest ih =>
    simp only [player_name_and_rank, Option.bind_eq_bind, Option.pure_def,
      Option.bind_eq_some] at h
    obtain ⟨hand, -, tail, ht, he⟩ := h
    simp only [Option.some.injEq] at he
    rw [← he, List.length_cons, ih _ ht, List.length_cons]

/-! ## Facts about the partial pots -/

/-- The partial pot of a non-negative stack is the stack times the factor. -/
theorem partial_pot_amount_eq (chips : Int) (n_initial n_final : Nat) (hc : 0 ≤ chips)
    (hcr : InIntRange chips) (hn : n_initial < 2 ^ 32) (hf : n_final < 2 ^ 32) :
    ((partial_pot_amount chips n_initial n_final : Nat) : Int) =
      chips * (max (n_initial / 2) n_final : Nat) := by
  unfold InIntRange at hcr
  unfold partial_pot_amount
  rw [to_size_t_of_nonneg chips hc (by omega)]
  have hm : max (n_initial / 2) n_final < 2 ^ 32 := by
    rw [max_lt_iff]
    exact ⟨by omega, hf⟩
  have hc2 : chips.toNat < 2 ^ 31 := by omega
  have hprod : chips.toNat * max (n_initial / 2) n_final < 2 ^ 64 := by
    calc chips.toNat * max (n_initial / 2) n_final
        ≤ 2 ^ 31 * 2 ^ 32 := Nat.mul_le_mul (le_of_lt hc2) (le_of_lt hm)
      _ < 2 ^ 64 := by norm_num
  rw [Nat.mod_eq_of_lt hprod]
  push_cast
  rw [Int.toNat_of_nonneg hc]

/-- The partial-pot condition of the source, for values in range: the stack
times the factor is below the share. -/
theorem capped_iff (share chips : Int) (n_initial n_final : Nat) (hs : 0 ≤ share)
    (hsr : InIntRange share) (hc : 0 ≤ chips) (hcr : InIntRange chips)
    (hn : n_initial < 2 ^ 32) (hf : n_final < 2 ^ 32) :
    to_size_t share > partial_pot_amount chips n_initial n_final ↔
      chips * (max (n_initial / 2) n_final : Nat) < share := by
  rw [← partial_pot_amount_eq chips n_initial n_final hc hcr hn hf]
  unfold InIntRange at hsr
  rw [to_size_t_of_nonneg share hs (by omega)]
  omega

theorem find_bot_of_mem (b : Player) (bots : List Player) (hb : b ∈ bots)
    (hnd : (bots.map Player.name).Nodup) : find_bot b.name bots = some b := by
  unfold find_bot
  induction bots with
  | nil => simp at hb
  | cons c rest ih =>
    simp only [List.map_cons, List.nodup_cons] at hnd
    by_cases hc : c.name = b.name
    · have hcb : c = b := by
        rcases List.mem_cons.1 hb with h | h
        · exact h.symm
        · exact absurd (by rw [hc]; exact List.mem_map_of_mem _ h) hnd.1
      rw [List.find?_cons_of_pos _ (by simpa using hc), hcb]
    · have hbr : b ∈ rest := by
        rcases List.mem_cons.1 hb with h | h
        · exact absurd (by rw [h]) hc
        · exact h
      rw [List.find?_cons_of_neg _ (by simpa using hc)]
      exact ih hbr hnd.2

/-- The inner loop of the first loop at a winner whose entry meets the
partial-pot condition: the winner is paid the partial pot of the entry. -/
theorem partial_pot_inner_capped (w : String) (amount : Int) (n_initial n_final : Nat)
    (bots : List Player) (s : PartialPot) (b : Player) (hb : b ∈ bots) (hname : b.name = w)
    (hnd : (bots.map Player.name).Nodup)
    (hc : to_size_t amount > partial_pot_amount b.chips n_initial n_final) :
    partial_pot_inner w amount n_initial n_final bots s =
      { bot := s.bot.update_chips_for_bot w
          (int_wrap (partial_pot_amount b.chips n_initial n_final)),
        partial_pot_winner := w,
        distributed_chips := int_wrap (((to_size_t s.distributed_chips +
          partial_pot_amount b.chips n_initial n_final) % 2 ^ 64 : Nat)),
        distributed_chips_count := int_wrap (s.distributed_chips_count + 1) } := by
  induction bots with
  | nil => simp at hb
  | cons c rest ih =>
    simp only [List.map_cons, List.nodup_cons] at hnd
    simp only [partial_pot_inner]
    by_cases hn : w = c.name
    · have hcb : c = b := by
        rcases List.mem_cons.1 hb with h | h
        · exact h.symm
        · exact absurd (by rw [← hn, ← hname]; exact List.mem_map_of_mem _ h) hnd.1
      subst hcb
      rw [if_pos hn, if_pos hc]
    · have hbr : b ∈ rest := by
        rcases List.mem_cons.1 hb with h | h
        · exact absurd (by rw [← h, hname]) hn
        · exact h
      rw [if_neg hn]
      exact ih hbr hnd.2

/-- The first loop with one winner whose entry meets the partial-pot
condition. -/
theorem partial_pot_loop_one (amount : Int) (bot_initial_copy : List Player) (n_final : Nat)
    (ws : List String) (s : PartialPot) (w0 : String) (b0 : Player) (hws : ws.Nodup)
    (hw0 : w0 ∈ ws) (hb0 : b0 ∈ bot_initial_copy) (hname : b0.name = w0)
    (hnd : (bot_initial_copy.map Player.name).Nodup)
    (hc0 : to_size_t amount > partial_pot_amount b0.chips bot_initial_copy.length n_final)
    (hothers : ∀ b ∈ bot_initial_copy, b.name ∈ ws → b.name ≠ w0 →
      ¬ to_size_t amount > partial_pot_amount b.chips bot_initial_copy.length n_final) :
    partial_pot_loop amount bot_initial_copy n_final ws s =
      { bot := s.bot.update_chips_for_bot w0
          (int_wrap (partial_pot_amount b0.chips bot_initial_copy.length n_final)),
        partial_pot_winner := w0,
        distributed_chips := int_wrap (((to_size_t s.distributed_chips +
          partial_pot_amount b0.chips bot_initial_copy.length n_final) % 2 ^ 64 : Nat)),
        distributed_chips_count := int_wrap (s.distributed_chips_count + 1) } := by
  induction ws generalizing s with
  | nil => simp at hw0
  | cons w rest ih =>
    rw [List.nodup_cons] at hws
    have hstep : partial_pot_loop amount bot_initial_copy n_final (w :: rest) s =
        partial_pot_loop amount bot_initial_copy n_final rest
          (partial_pot_inner w amount bot_initial_copy.length n_final bot_initial_copy s) := rfl
    rw [hstep]
    by_cases hw : w = w0
    · subst hw
      rw [partial_pot_inner_capped w amount _ _ _ s b0 hb0 hname hnd hc0]
      apply partial_pot_loop_none
      intro b hb hm
      exact hothers b hb (List.mem_cons_of_mem _ hm) (fun e => hws.1 (by rw [← e]; exact hm))
    · have hw0r : w0 ∈ rest := by
        rcases List.mem_cons.1 hw0 with h | h
        · exact absurd h.symm hw
        · exact h
      rw [partial_pot_inner_none w amount _ _ _ s (fun b hb hn =>
        hothers b hb (by rw [hn]; exact List.mem_cons_self _ _) (by rw [hn]; exact hw))]
      exact ih s hws.2 hw0r (fun b hb hm => hothers b hb (List.mem_cons_of_mem _ hm))

/-- Paying distinct bots of a roster with distinct names, one after the other,
pays each of them once. -/
theorem pay_fold (a : String → Int) (ws : List String) (bot : Bot) (hws : ws.Nodup)
    (hnd : (bot.bots.map Player.name).Nodup) :
    ws.foldl (fun (bot : Bot) w => bot.update_chips_for_bot w (a w)) bot =
      { bot with
        bots := bot.bots.map (fun p =>
          if p.name ∈ ws then p.receive_pot_share (a p.name) else p) } := by
  induction ws generalizing bot with
  | nil =>
    cases bot
    simp
  | cons w rest ih =>
    rw [List.nodup_cons] at hws
    rw [List.foldl_cons]
    have hupd : bot.update_chips_for_bot w (a w) =
        { bot with
          bots := bot.bots.map (fun p =>
            if p.name = w then p.receive_pot_share (a w) else p) } := by
      unfold Bot.update_chips_for_bot
      simp only
      rw [update_first_named_eq_map _ _ _ hnd]
    rw [hupd, ih _ hws.2 (by
      simp only
      rw [map_receive_names (a w) bot.bots (fun p => p.name = w)]
      exact hnd)]
    simp only [List.map_map]
    congr 1
    apply List.map_congr_left
    intro p hp
    simp only [Function.comp, List.mem_cons]
    by_cases hpw : p.name = w
    · have hn : (p.receive_pot_share (a w)).name = w := hpw
      rw [if_pos hpw, if_pos (Or.inl hpw), hn, if_neg hws.1, hpw]
    · rw [if_neg hpw]
      simp only [hpw, false_or]

/-- The first loop when every winner has an entry that meets the partial-pot
condition: every winner is paid the partial pot of its entry and counted. -/
theorem partial_pot_loop_all (amount : Int) (bot_initial_copy : List Player) (n_final : Nat)
    (hnd : (bot_initial_copy.map Player.name).Nodup) (ws : List String) (s : PartialPot)
    (hall : ∀ w ∈ ws, ∃ b ∈ bot_initial_copy, b.name = w ∧
      to_size_t amount > partial_pot_amount b.chips bot_initial_copy.length n_final)
    (hc0 : 0 ≤ s.distributed_chips_count)
    (hc1 : s.distributed_chips_count + ws.length < 2 ^ 31) :
    (partial_pot_loop amount bot_initial_copy n_final ws s).bot =
        ws.foldl (fun (bot : Bot) w => bot.update_chips_for_bot w
          (int_wrap (((find_bot w bot_initial_copy).map (fun b =>
            partial_pot_amount b.chips bot_initial_copy.length n_final)).getD 0 : Nat))) s.bot ∧
      (partial_pot_loop amount bot_initial_copy n_final ws s).distributed_chips_count =
        s.distributed_chips_count + ws.length := by
  induction ws generalizing s with
  | nil => exact ⟨rfl, by simp [partial_pot_loop]⟩
  | cons w rest ih =>
    have hstep : partial_pot_loop amount bot_initial_copy n_final (w :: rest) s =
        partial_pot_loop amount bot_initial_copy n_final rest
          (partial_pot_inner w amount bot_initial_copy.length n_final bot_initial_copy s) := rfl
    obtain ⟨b, hb, hname, hc⟩ := hall w (List.mem_cons_self _ _)
    rw [hstep, partial_pot_inner_capped w amount _ _ _ s b hb hname hnd hc]
    simp only [List.length_cons, Nat.cast_add, Nat.cast_one] at hc1
    have hw1 : int_wrap (s.distributed_chips_count + 1) = s.distributed_chips_count + 1 :=
      int_wrap_of_range _ (by unfold InIntRange; constructor <;> omega)
    obtain ⟨h1, h2⟩ := ih
      { bot := s.bot.update_chips_for_bot w
          (int_wrap (partial_pot_amount b.chips bot_initial_copy.length n_final)),
        partial_pot_winner := w,
        distributed_chips := int_wrap (((to_size_t s.distributed_chips +
          partial_pot_amount b.chips bot_initial_copy.length n_final) % 2 ^ 64 : Nat)),
        distributed_chips_count := int_wrap (s.distributed_chips_count + 1) }
      (fun v hv => hall v (List.mem_cons_of_mem _ hv))
      (by
        show 0 ≤ int_wrap (s.distributed_chips_count + 1)
        rw [hw1]
        omega)
      (by
        show int_wrap (s.distributed_chips_count + 1) + (rest.length : Int) < 2 ^ 31
        rw [hw1]
        omega)
    have hfind : find_bot w bot_initial_copy = some b := by
      rw [← hname]
      exact find_bot_of_mem b _ hb hnd
    refine ⟨?_, ?_⟩
    · rw [h1, List.foldl_cons, hfind]
      rfl
    · rw [h2]
      simp only [hw1, List.length_cons, Nat.cast_add, Nat.cast_one]
      ring

theorem size_t_sub_self (m : Nat) (hm : m < 2 ^ 64) : size_t_sub m m = 0 := by
  unfold size_t_sub
  rw [Nat.mod_eq_of_lt hm]
  omega

theorem size_t_sub_one (m : Nat) (h1 : 1 ≤ m) (hm : m < 2 ^ 64) : size_t_sub m 1 = m - 1 := by
  unfold size_t_sub
  omega

/-- The bots of a roster with distinct names that are named in a list of
distinct names, with the human if named, are at most as many as the names. -/
theorem count_winners_le (ws : List String) (human_name : String) (bots : List Player)
    (hws : ws.Nodup) (hnd : (bots.map Player.name).Nodup)
    (hh : ∀ p ∈ bots, p.name ≠ human_name) :
    bots.countP (fun p => p.name ∈ ws) + (if human_name ∈ ws then 1 else 0) ≤ ws.length := by
  induction ws with
  | nil => simp
  | cons w rest ih =>
    rw [List.nodup_cons] at hws
    have ih1 := ih hws.2
    rw [countP_name_mem_cons w rest bots hws.1, countP_name_eq w bots hnd, List.length_cons]
    have hhn : human_name ∉ bots.map Player.name := by
      intro hm
      rw [List.mem_map] at hm
      obtain ⟨p, hp, hpn⟩ := hm
      exact hh p hp hpn
    by_cases hw : w = human_name
    · have h1 : w ∉ bots.map Player.name := by rw [hw]; exact hhn
      have h2 : human_name ∉ rest := by rw [← hw]; exact hws.1
      rw [if_neg h1, if_pos (by rw [hw]; exact List.mem_cons_self _ _)]
      rw [if_neg h2] at ih1
      omega
    · have h2 : (human_name ∈ w :: rest) ↔ human_name ∈ rest := by
        simp only [List.mem_cons]
        constructor
        · rintro (e | e)
          · exact absurd e.symm hw
          · exact e
        · exact Or.inr
      simp only [h2]
      split_ifs at ih1 ⊢ <;> omega

theorem countP_names_le (ws : List String) (bots : List Player) (hws : ws.Nodup)
    (hnd : (bots.map Player.name).Nodup) :
    bots.countP (fun p => p.name ∈ ws) ≤ ws.length := by
  induction ws with
  | nil => simp
  | cons w rest ih =>
    rw [List.nodup_cons] at hws
    have ih1 := ih hws.2
    rw [countP_name_mem_cons w rest bots hws.1, countP_name_eq w bots hnd, List.length_cons]
    split_ifs <;> omega

theorem sum_chips_map_add (c : Player → Prop) [DecidablePred c] (d : Player → Int)
    (bots : List Player) :
    ((bots.map (fun p => if c p then { p with chips := p.chips + d p } else p)).map
      Player.chips).sum =
      (bots.map Player.chips).sum + ((bots.filter (fun p => decide (c p))).map d).sum := by
  induction bots with
  | nil => simp
  | cons p rest ih =>
    simp only [List.map_cons, List.sum_cons, ih]
    by_cases h : c p
    · rw [List.filter_cons_of_pos (by simpa using h)]
      simp only [h, if_true, List.map_cons, List.sum_cons]
      ring
    · rw [List.filter_cons_of_neg (by simpa using h)]
      simp only [h, if_false]
      ring

theorem sum_map_le_of_le (d : Player → Int) (k : Int) (l : List Player)
    (h : ∀ p ∈ l, d p ≤ k) : (l.map d).sum ≤ k * (l.length : Nat) := by
  induction l with
  | nil => simp
  | cons p rest ih =>
    have h1 := h p (List.mem_cons_self _ _)
    have h2 := ih (fun q hq => h q (List.mem_cons_of_mem _ hq))
    simp only [List.map_cons, List.sum_cons, List.length_cons]
    push_cast
    linarith

/-- The cap of a winner whose entry is known. -/
theorem cap_of_entry (bot_initial_copy : List Player) (n_final : Nat) (b : Player)
    (hb : b ∈ bot_initial_copy) (hnd : (bot_initial_copy.map Player.name).Nodup) :
    cap_of bot_initial_copy n_final b.name =
      b.chips * (max (bot_initial_copy.length / 2) n_final : Nat) := by
  unfold cap_of
  rw [find_bot_of_mem b _ hb hnd]

/-- When every final player is a winner whose stack at the start of the hand
times the factor is below the even share, `distribute_pot` pays each of them
that product and nothing else. -/
theorem distribute_pot_capped_all (winners : List String) (final : List Player) (total : Int)
    (g : Game) (hne : winners ≠ []) (hws : winners.Nodup)
    (hfn : (final.map Player.name).Nodup)
    (hall : ∀ p ∈ final, p.name ∈ winners) (hfrom : ∀ w ∈ winners, w ∈ final.map Player.name)
    (hndi : (g.bot_initial_copy.map Player.name).Nodup)
    (hnd : (g.bot.bots.map Player.name).Nodup)
    (h0 : 0 ≤ total) (hr : InIntRange total)
    (hn : g.bot_initial_copy.length < 2 ^ 32) (hf : final.length < 2 ^ 31)
    (hcap : ∀ w ∈ winners, ∃ b ∈ g.bot_initial_copy, b.name = w ∧ 0 ≤ b.chips ∧
      InIntRange b.chips ∧
      b.chips * (max (g.bot_initial_copy.length / 2) final.length : Nat) <
        total / (winners.length : Int))
    (hrb : ∀ p ∈ g.bot.bots, InIntRange p.chips ∧ InIntRange (p.chips + total)) :
    distribute_pot winners final total g =
      some (g.with_balances g.human
        (g.bot.bots.map (fun p => if p.name ∈ winners then
          { p with chips := p.chips + cap_of g.bot_initial_copy final.length p.name }
          else p))) := by
  have hpos : 0 < winners.length := List.length_pos.2 hne
  have hlen : winners.length = final.length := by
    apply Nat.le_antisymm
    · rw [← List.length_map final Player.name]
      exact (List.subperm_of_subset hws (fun w hw => hfrom w hw)).length_le
    · rw [← List.length_map final Player.name]
      apply (List.subperm_of_subset hfn _).length_le
      intro w hw
      rw [List.mem_map] at hw
      obtain ⟨p, hp, rfl⟩ := hw
      exact hall p hp
  have hshare := even_share_eq total winners.length hpos h0 hr
  have hs0 : 0 ≤ total / (winners.length : Int) := Int.ediv_nonneg h0 (by omega)
  have hs1 : total / (winners.length : Int) ≤ total := Int.ediv_le_self _ h0
  have hsr : InIntRange (total / (winners.length : Int)) := by
    unfold InIntRange at hr ⊢
    omega
  have hf2 : final.length < 2 ^ 32 := by omega
  obtain ⟨hbot, hcount⟩ := partial_pot_loop_all (total / (winners.length : Int))
    g.bot_initial_copy final.length hndi winners ⟨g.bot, "", 0, 0⟩
    (fun w hw => by
      obtain ⟨b, hb, hname, hc0, hcr, hlt⟩ := hcap w hw
      exact ⟨b, hb, hname, (capped_iff _ _ _ _ hs0 hsr hc0 hcr hn hf2).2 hlt⟩)
    (le_refl _) (by simp only [zero_add]; omega)
  simp only [zero_add] at hcount
  have hts : to_size_t (winners.length : Int) = final.length := by
    rw [to_size_t_of_nonneg _ (by omega) (by omega), hlen]
    simp
  unfold distribute_pot
  rw [if_neg (by omega)]
  simp only [hshare, hcount, hts, hbot]
  rw [size_t_sub_self _ (by omega)]
  rw [if_neg (by simp), if_neg (by omega)]
  rw [pay_fold _ winners g.bot hws hnd]
  have hmap : g.bot.bots.map (fun p => if p.name ∈ winners then
        p.receive_pot_share (int_wrap (((find_bot p.name g.bot_initial_copy).map (fun b =>
          partial_pot_amount b.chips g.bot_initial_copy.length final.length)).getD 0 : Nat))
        else p) =
      g.bot.bots.map (fun p => if p.name ∈ winners then
        { p with chips := p.chips + cap_of g.bot_initial_copy final.length p.name }
        else p) := by
    apply List.map_congr_left
    intro p hp
    by_cases hpw : p.name ∈ winners
    · rw [if_pos hpw, if_pos hpw]
      obtain ⟨b, hb, hname, hc0, hcr, hlt⟩ := hcap p.name hpw
      have hfind : find_bot p.name g.bot_initial_copy = some b := by
        rw [← hname]
        exact find_bot_of_mem b _ hb hndi
      have hcapv : cap_of g.bot_initial_copy final.length p.name =
          b.chips * (max (g.bot_initial_copy.length / 2) final.length : Nat) := by
        rw [← hname]
        exact cap_of_entry _ _ b hb hndi
      have hamt := partial_pot_amount_eq b.chips g.bot_initial_copy.length final.length hc0 hcr
        hn hf2
      have hprod : 0 ≤ b.chips * (max (g.bot_initial_copy.length / 2) final.length : Nat) :=
        mul_nonneg hc0 (Int.natCast_nonneg _)
      simp only [hfind, Option.map_some', Option.getD_some]
      rw [hamt, hcapv]
      have hrp := hrb p hp
      unfold InIntRange at hr hrp
      rw [int_wrap_of_range _ (by unfold InIntRange; omega)]
      exact receive_pot_share_exact _ _ (by unfold InIntRange; omega)
    · rw [if_neg hpw, if_neg hpw]
  rw [hmap]
  rfl

/-! ## One partial-pot winner -/

/-- The refund loop is the share loop over the names of the final players
other than the partial-pot winner. -/
theorem refund_fold_eq (w0 : String) (a : Int) (final : List Player) (g : Game) :
    final.foldl (refund_step w0 a) g =
      ((final.map Player.name).filter (fun x => decide (x ≠ w0))).foldl (share_step a) g := by
  induction final generalizing g with
  | nil => rfl
  | cons p rest ih =>
    simp only [List.foldl_cons, List.map_cons]
    by_cases hp : p.name = w0
    · rw [List.filter_cons_of_neg (by simpa using hp)]
      have hstep : refund_step w0 a g p = g := by
        unfold refund_step
        rw [if_neg (by simpa using hp.symm)]
      rw [hstep]
      exact ih g
    · rw [List.filter_cons_of_pos (by simpa using hp), List.foldl_cons]
      have hstep : refund_step w0 a g p = share_step a g p.name := by
        unfold refund_step share_step
        rw [if_pos (fun e => hp e.symm)]
      rw [hstep]
      exact ih _

theorem sum_chips_two_level (w0 : String) (ws : List String) (c r : Int) (bots : List Player)
    (hw0 : w0 ∉ ws) :
    ((bots.map (fun p => if p.name = w0 then { p with chips := p.chips + c }
        else if p.name ∈ ws then { p with chips := p.chips + r } else p)).map
      Player.chips).sum =
      (bots.map Player.chips).sum + c * (bots.countP (fun p => p.name = w0) : Nat) +
        r * (bots.countP (fun p => p.name ∈ ws) : Nat) := by
  induction bots with
  | nil => simp
  | cons p rest ih =>
    simp only [List.map_cons, List.sum_cons, ih, List.countP_cons]
    by_cases h : p.name = w0
    · have h2 : p.name ∉ ws := by rw [h]; exact hw0
      simp only [h, hw0, if_true, if_false, decide_True, decide_False]
      push_cast
      ring
    · by_cases h2 : p.name ∈ ws
      · simp only [h, h2, if_true, if_false, decide_True, decide_False]
        push_cast
        ring
      · simp only [h, h2, if_false, decide_False]
        push_cast
        ring

theorem to_size_t_zero : to_size_t 0 = 0 := by
  rw [to_size_t_of_nonneg 0 (le_refl _) (by norm_num)]
  rfl

theorem to_size_t_one : to_size_t 1 = 1 := by
  rw [to_size_t_of_nonneg 1 (by norm_num) (by norm_num)]
  rfl

theorem partial_pot_amount_lt (chips : Int) (n_initial n_final : Nat) :
    partial_pot_amount chips n_initial n_final < 2 ^ 64 := by
  unfold partial_pot_amount
  exact Nat.mod_lt _ (by norm_num)

/-- With exactly one winner below its cap condition, `distribute_pot` pays that
winner its cap and hands every other final player an equal part of the rest of
the pot. -/
theorem distribute_pot_one_capped (winners : List String) (final : List Player) (total : Int)
    (g : Game) (w0 : String) (b0 : Player) (hws : winners.Nodup)
    (hfn : (final.map Player.name).Nodup) (hw0 : w0 ∈ winners)
    (hw0f : w0 ∈ final.map Player.name)
    (hb0 : b0 ∈ g.bot_initial_copy) (hname : b0.name = w0)
    (hndi : (g.bot_initial_copy.map Player.name).Nodup)
    (hnd : (g.bot.bots.map Player.name).Nodup) (hh : ∀ p ∈ g.bot.bots, p.name ≠ g.human.name)
    (h0 : 0 ≤ total) (hr : InIntRange total)
    (hn : g.bot_initial_copy.length < 2 ^ 32) (hf : final.length < 2 ^ 32)
    (hc0 : 0 ≤ b0.chips) (hcr0 : InIntRange b0.chips)
    (hlt : b0.chips * (max (g.bot_initial_copy.length / 2) final.length : Nat) <
      total / (winners.length : Int))
    (hothers : ∀ b ∈ g.bot_initial_copy, b.name ∈ winners → b.name ≠ w0 →
      0 ≤ b.chips ∧ InIntRange b.chips ∧
      total / (winners.length : Int) ≤
        b.chips * (max (g.bot_initial_copy.length / 2) final.length : Nat))
    (hrh : InIntRange g.human.chips ∧ InIntRange (g.human.chips + total))
    (hrb : ∀ p ∈ g.bot.bots, InIntRange p.chips ∧ InIntRange (p.chips + total)) :
    distribute_pot winners final total g =
      some (g.with_balances
        (if g.human.name ∈ (final.map Player.name).filter (fun x => decide (x ≠ w0)) then
          { g.human with chips := g.human.chips +
              (total - b0.chips * (max (g.bot_initial_copy.length / 2) final.length : Nat)) /
                ((final.length - 1 : Nat) : Int) }
          else g.human)
        (g.bot.bots.map (fun p =>
          if p.name = w0 then
            { p with chips := p.chips +
                b0.chips * (max (g.bot_initial_copy.length / 2) final.length : Nat) }
          else if p.name ∈ (final.map Player.name).filter (fun x => decide (x ≠ w0)) then
            { p with chips := p.chips +
                (total - b0.chips *
                  (max (g.bot_initial_copy.length / 2) final.length : Nat)) /
                  ((final.length - 1 : Nat) : Int) }
          else p))) := by
  have hpos : 0 < winners.length := List.length_pos.2 (List.ne_nil_of_mem hw0)
  have hshare := even_share_eq total winners.length hpos h0 hr
  have hs0 : 0 ≤ total / (winners.length : Int) := Int.ediv_nonneg h0 (by omega)
  have hs1 : total / (winners.length : Int) ≤ total := Int.ediv_le_self _ h0
  have hsr : InIntRange (total / (winners.length : Int)) := by
    unfold InIntRange at hr ⊢
    omega
  have hcap0 : 0 ≤ b0.chips * (max (g.bot_initial_copy.length / 2) final.length : Nat) :=
    mul_nonneg hc0 (Int.natCast_nonneg _)
  have hamt := partial_pot_amount_eq b0.chips g.bot_initial_copy.length final.length hc0 hcr0
    hn hf
  have hloop := partial_pot_loop_one (total / (winners.length : Int)) g.bot_initial_copy
    final.length winners ⟨g.bot, "", 0, 0⟩ w0 b0 hws hw0 hb0 hname hndi
    ((capped_iff _ _ _ _ hs0 hsr hc0 hcr0 hn hf).2 hlt)
    (fun b hb hm hne => not_capped _ _ _ _ hs0 hsr (hothers b hb hm hne).1
      (hothers b hb hm hne).2.1 hn hf (hothers b hb hm hne).2.2)
  have hcnt : int_wrap (0 + 1) = 1 := int_wrap_of_range _ (by unfold InIntRange; norm_num)
  have hcapw : int_wrap (partial_pot_amount b0.chips g.bot_initial_copy.length final.length) =
      b0.chips * (max (g.bot_initial_copy.length / 2) final.length : Nat) := by
    rw [hamt]
    unfold InIntRange at hr
    exact int_wrap_of_range _ (by unfold InIntRange; omega)
  have hdc : int_wrap (((to_size_t 0 +
      partial_pot_amount b0.chips g.bot_initial_copy.length final.length) % 2 ^ 64 : Nat)) =
      b0.chips * (max (g.bot_initial_copy.length / 2) final.length : Nat) := by
    rw [to_size_t_zero, Nat.zero_add, Nat.mod_eq_of_lt (partial_pot_amount_lt _ _ _)]
    exact hcapw
  have hmpos : 1 ≤ final.length := by
    have : 0 < (final.map Player.name).length := List.length_pos.2 (List.ne_nil_of_mem hw0f)
    simpa using this
  unfold distribute_pot
  rw [if_neg (by omega)]
  simp only [hshare, hloop, hdc, hcnt, hcapw, to_size_t_one]
  rw [size_t_sub_one _ hmpos (by omega)]
  clear hloop hdc hcnt hcapw hamt hshare
  have hbots1 : (g.bot.update_chips_for_bot w0
      (b0.chips * (max (g.bot_initial_copy.length / 2) final.length : Nat))).bots =
      g.bot.bots.map (fun p => if p.name = w0 then
        { p with chips := p.chips +
            b0.chips * (max (g.bot_initial_copy.length / 2) final.length : Nat) }
        else p) := by
    unfold Bot.update_chips_for_bot
    simp only
    rw [update_first_named_eq_map _ _ _ hnd]
    apply List.map_congr_left
    intro p hp
    by_cases hpw : p.name = w0
    · rw [if_pos hpw, if_pos hpw]
      have hrp := hrb p hp
      unfold InIntRange at hr hrp
      exact receive_pot_share_exact _ _ (by unfold InIntRange; omega)
    · rw [if_neg hpw, if_neg hpw]
  have hg1 : ({ g with
      bot := g.bot.update_chips_for_bot w0
        (b0.chips * (max (g.bot_initial_copy.length / 2) final.length : Nat)) } : Game) =
      g.with_balances g.human (g.bot.bots.map (fun p => if p.name = w0 then
        { p with chips := p.chips +
            b0.chips * (max (g.bot_initial_copy.length / 2) final.length : Nat) }
        else p)) := by
    rw [← hbots1]
    rfl
  by_cases hm : final.length = 1
  · have hL : (final.map Player.name).filter (fun x => decide (x ≠ w0)) = [] := by
      cases final with
      | nil => simp at hm
      | cons p rest =>
        have hrest : rest = [] := by
          apply List.length_eq_zero.1
          simpa using hm
        subst hrest
        simp only [List.map_cons, List.map_nil, List.mem_singleton] at hw0f
        simp [hw0f]
    rw [if_neg (by rw [hm]; simp), if_neg (by norm_num), hg1, hL]
    simp only [List.not_mem_nil, if_false]
  · have hm2 : 0 < final.length - 1 := by omega
    rw [if_pos ⟨by norm_num, hm2⟩]
    have hx0 : 0 ≤ total -
        b0.chips * (max (g.bot_initial_copy.length / 2) final.length : Nat) := by omega
    have hxr : InIntRange (total -
        b0.chips * (max (g.bot_initial_copy.length / 2) final.length : Nat)) := by
      unfold InIntRange at hr ⊢
      omega
    rw [int_wrap_of_range _ hxr, even_share_eq _ (final.length - 1) hm2 hx0 hxr,
      refund_fold_eq, hg1]
    have hrem0 : 0 ≤ (total -
        b0.chips * (max (g.bot_initial_copy.length / 2) final.length : Nat)) /
          ((final.length - 1 : Nat) : Int) := Int.ediv_nonneg hx0 (Int.natCast_nonneg _)
    have hrem1 : (total -
        b0.chips * (max (g.bot_initial_copy.length / 2) final.length : Nat)) /
          ((final.length - 1 : Nat) : Int) ≤ total := by
      have := Int.ediv_le_self ((final.length - 1 : Nat) : Int) hx0
      omega
    have hw0L : w0 ∉ (final.map Player.name).filter (fun x => decide (x ≠ w0)) := by
      intro hmem
      have := (List.mem_filter.1 hmem).2
      simp at this
    rw [share_fold _ _ g g.human _ (hfn.filter _)
      (by
        rw [List.map_map]
        have : (Player.name ∘ fun p => if p.name = w0 then
            { p with chips := p.chips +
                b0.chips * (max (g.bot_initial_copy.length / 2) final.length : Nat) }
            else p) = Player.name := by
          funext p
          simp only [Function.comp]
          split_ifs <;> rfl
        rw [this]
        exact hnd)
      (by
        intro p hp
        rw [List.mem_map] at hp
        obtain ⟨q, hq, rfl⟩ := hp
        have := hh q hq
        split_ifs <;> exact this)]
    have hhum : (if g.human.name ∈ (final.map Player.name).filter (fun x => decide (x ≠ w0))
        then g.human.receive_pot_share ((total -
          b0.chips * (max (g.bot_initial_copy.length / 2) final.length : Nat)) /
            ((final.length - 1 : Nat) : Int)) else g.human) =
        (if g.human.name ∈ (final.map Player.name).filter (fun x => decide (x ≠ w0)) then
          { g.human with chips := g.human.chips +
              (total - b0.chips * (max (g.bot_initial_copy.length / 2) final.length : Nat)) /
                ((final.length - 1 : Nat) : Int) }
          else g.human) := by
      split_ifs
      · unfold InIntRange at hrh
        exact receive_pot_share_exact _ _ (by unfold InIntRange; omega)
      · rfl
    rw [hhum, List.map_map]
    congr 2
    apply List.map_congr_left
    intro p hp
    simp only [Function.comp]
    have hrp := hrb p hp
    by_cases hpw : p.name = w0
    · have hpL : p.name ∉ (final.map Player.name).filter (fun x => decide (x ≠ w0)) := by
        rw [hpw]
        exact hw0L
      simp only [hpw, if_true]
      rw [if_neg (by
        show w0 ∉ (final.map Player.name).filter (fun x => decide (x ≠ w0))
        exact hw0L)]
    · simp only [hpw, if_false]
      split_ifs
      · unfold InIntRange at hrp
        exact receive_pot_share_exact _ _ (by unfold InIntRange; omega)
      · rfl

/-! ## Facts about the extraction of a typed number -/

theorem cin_int_of_range (typed : Int) (h : InIntRange typed) :
    cin_int (.number typed) = typed := by
  unfold InIntRange at h
  simp only [cin_int]
  rw [if_neg (by omega), if_neg (by omega)]

theorem cin_ok_of_range (typed : Int) (h : InIntRange typed) :
    cin_ok (.number typed) = true := by
  unfold InIntRange at h
  unfold cin_ok
  exact decide_eq_true h

theorem cin_ok_false (typed : Int) (h : ¬ InIntRange typed) :
    cin_ok (.number typed) = false := by
  unfold InIntRange at h
  unfold cin_ok
  exact decide_eq_false h

theorem cin_ok_iff (t : TypedAmount) :
    cin_ok t = true ↔ ∃ typed, t = .number typed ∧ InIntRange typed := by
  cases t with
  | number typed =>
    constructor
    · intro h
      refine ⟨typed, rfl, ?_⟩
      by_contra hn
      rw [cin_ok_false typed hn] at h
      cases h
    · rintro ⟨e, he, hr⟩
      cases he
      exact cin_ok_of_range typed hr
  | text =>
    constructor
    · intro h
      cases h
    · rintro ⟨e, he, -⟩
      cases he

theorem cin_int_range (t : TypedAmount) : InIntRange (cin_int t) := by
  cases t with
  | number typed =>
    simp only [InIntRange, cin_int]
    split_ifs <;> constructor <;> omega
  | text =>
    show -2 ^ 31 ≤ (0 : Int) ∧ (0 : Int) < 2 ^ 31
    constructor <;> norm_num

/-! ## How the live roster becomes empty -/

/-- When `human_response` starts with a live bot and ends with none, its last
action was the response pass of the bots to a raise of the human: it returns
the state of that pass. -/
theorem human_response_loop_emptied (amount : Int) (g g1 : Game) (rand : List Nat)
    (human : List HumanInput) (o1 : Oracle)
    (h : human_response_loop amount g rand human = some (g1, o1))
    (hne : g.bots_in_the_game ≠ []) (he : g1.bots_in_the_game = []) :
    ∃ input ∈ human, ∃ rand1, input.action = "raise" ∧
      bot_response (cin_int input.amount) "na"
        (human_raise_state amount (cin_int input.amount) g) rand = some (g1, rand1) ∧
      o1.rand = rand1 := by
  induction human with
  | nil => simp [human_response_loop] at h
  | cons input rest ih =>
    have hrec : ∀ hh : human_response_loop amount g rand rest = some (g1, o1),
        ∃ input1 ∈ input :: rest, ∃ rand1, input1.action = "raise" ∧
          bot_response (cin_int input1.amount) "na"
            (human_raise_state amount (cin_int input1.amount) g) rand = some (g1, rand1) ∧
          o1.rand = rand1 := by
      intro hh
      obtain ⟨i, hi, r, h1, h2, h3⟩ := ih hh
      exact ⟨i, List.mem_cons_of_mem _ hi, r, h1, h2, h3⟩
    simp only [human_response_loop] at h
    split at h
    · simp only [Option.some.injEq, Prod.mk.injEq] at h
      obtain ⟨rfl, -⟩ := h
      exact absurd he hne
    · split at h
      · simp only [Option.some.injEq, Prod.mk.injEq] at h
        obtain ⟨rfl, -⟩ := h
        exact absurd he hne
      · split at h
        · rename_i hraise
          split at h
          · exact hrec h
          · split at h
            · cases h
            · split at h
              · split at h
                · exact hrec h
                · cases h
              · split at h
                · cases h
                · rename_i g2 rand2 hr
                  simp only [Option.some.injEq, Prod.mk.injEq] at h
                  obtain ⟨rfl, rfl⟩ := h
                  exact ⟨input, List.mem_cons_self _ _, rand2, hraise, hr, rfl⟩
        · exact hrec h

/-- When `human_turn` starts with a live bot and ends with none, its last
action was the response pass of the bots to a raise of the human: it returns
the state of that pass, with `did_bots_respond` set. -/
theorem human_turn_loop_emptied (g g1 : Game) (rand : List Nat) (human : List HumanInput)
    (r : Bool) (o1 : Oracle) (h : human_turn_loop g rand human = some (r, g1, o1))
    (hne : g.bots_in_the_game ≠ []) (he : g1.bots_in_the_game = []) :
    r = true ∧ ∃ input ∈ human, ∃ rand1, input.action = "raise" ∧
      bot_response (cin_int input.amount) "none"
        (human_bet_state (cin_int input.amount) g) rand = some (g1, rand1) ∧
      o1.rand = rand1 := by
  induction human with
  | nil => simp [human_turn_loop] at h
  | cons input rest ih =>
    have hrec : ∀ hh : human_turn_loop g rand rest = some (r, g1, o1),
        r = true ∧ ∃ input1 ∈ input :: rest, ∃ rand1, input1.action = "raise" ∧
          bot_response (cin_int input1.amount) "none"
            (human_bet_state (cin_int input1.amount) g) rand = some (g1, rand1) ∧
          o1.rand = rand1 := by
      intro hh
      obtain ⟨hr, i, hi, r1, h1, h2, h3⟩ := ih hh
      exact ⟨hr, i, List.mem_cons_of_mem _ hi, r1, h1, h2, h3⟩
    simp only [human_turn_loop] at h
    split at h
    · simp only [Option.some.injEq, Prod.mk.injEq] at h
      obtain ⟨-, rfl, -⟩ := h
      exact absurd he hne
    · split at h
      · rename_i hraise
        split at h
        · cases h
        · split at h
          · split at h
            · exact hrec h
            · cases h
          · split at h
            · cases h
            · rename_i g2 rand2 hr
              simp only [Option.some.injEq, Prod.mk.injEq] at h
              obtain ⟨rfl, rfl, rfl⟩ := h
              exact ⟨rfl, input, List.mem_cons_self _ _, rand2, hraise, hr, rfl⟩
      · split at h
        · simp only [Option.some.injEq, Prod.mk.injEq] at h
          obtain ⟨-, rfl, -⟩ := h
          exact absurd he hne
        · exact hrec h

/-- When `bot_turn` starts with a live bot and ends with none, a bot raised,
the response pass of the other bots left the raiser in, and the last action
was the response of the human to that raise: `bot_turn` returns what
`human_response` returned. -/
theorem bot_turn_loop_emptied (bet_size : Int → Int → Int → Int) (g g1 : Game)
    (human : List HumanInput) (it : Nat) (rand : List Nat) (o1 : Oracle)
    (h : bot_turn_loop bet_size g human it rand = some (g1, o1))
    (hne : g.bots_in_the_game ≠ []) (he : g1.bots_in_the_game = []) :
    ∃ it1 b x rand1 g2 rand2, g.bots_in_the_game[it1]? = some b ∧ b.chips > 0 ∧
      bot_response
        (bot_raise (raise_request (bet_size g.difficulty g.starting_chips x) x) it1 b g).1
        b.name
        (bot_raise (raise_request (bet_size g.difficulty g.starting_chips x) x) it1 b g).2
        rand1 = some (g2, rand2) ∧
      g2.bots_in_the_game ≠ [] ∧ g2.human_in_the_game = true ∧ g2.human.chips > 0 ∧
      human_response
        (bot_raise (raise_request (bet_size g.difficulty g.starting_chips x) x) it1 b g).1
        g2 ⟨rand2, human⟩ = some (g1, o1) := by
  induction rand generalizing it with
  | nil =>
    simp only [bot_turn_loop] at h
    split at h
    · simp only [Option.some.injEq, Prod.mk.injEq] at h
      obtain ⟨rfl, -⟩ := h
      exact absurd he hne
    · cases h
  | cons v rest ih =>
    simp only [bot_turn_loop] at h
    split at h
    · simp only [Option.some.injEq, Prod.mk.injEq] at h
      obtain ⟨rfl, -⟩ := h
      exact absurd he hne
    · rename_i hit
      split at h
      · cases h
      · rename_i b hb
        split at h
        · exact ih _ h
        · split at h
          · rename_i hraise
            split at h
            · cases h
            · rename_i x rand1 hd
              split at h
              · cases h
              · rename_i g2 rand2 hr
                obtain ⟨b1, hname, hroster⟩ := bot_raise_roster
                  (raise_request (bet_size g.difficulty g.starting_chips x) x) it b g
                have hmem : b1 ∈ (bot_raise
                    (raise_request (bet_size g.difficulty g.starting_chips x) x) it b
                    g).2.bots_in_the_game := by
                  rw [hroster]
                  exact List.mem_set _ _ (by omega) _
                have hne2 : g2.bots_in_the_game ≠ [] :=
                  List.ne_nil_of_mem (bot_response_keeps_named _ _ _ _ _ _ b1 hr hmem hname)
                split at h
                · rename_i hc
                  exact ⟨it, b, x, rand1, g2, rand2, hb, hraise.2, hr, hne2, hc.1, hc.2, h⟩
                · simp only [Option.some.injEq, Prod.mk.injEq] at h
                  obtain ⟨rfl, -⟩ := h
                  exact absurd he hne2
          · exact ih _ h

/-- When round 1 ends with no live bot, either the response pass of the bots
to the big blind left none and `round_one` returns the state of that pass, or
the pass left a bot and the last action was a response of the human. -/
theorem round_one_emptied (g g1 : Game) (o o1 : Oracle)
    (h : round_one g o = some (g1, o1)) (he : g1.bots_in_the_game = []) :
    ∃ player1 player2 rand1 g2 rand2,
      get_two_random_players g.all_players_initial_copy o.rand =
        some ((player1, player2), rand1) ∧
      bot_response (big_blind_of g.starting_chips g.difficulty) player1.name
        (if player1.name = "Human" then g
          else big_blind_loop player1.name (big_blind_of g.starting_chips g.difficulty)
            g.bots_in_the_game.length 0 g) rand1 = some (g2, rand2) ∧
      ((g2.bots_in_the_game = [] ∧ g1 = g2 ∧ o1 = ⟨rand2, o.human⟩) ∨
        (g2.bots_in_the_game ≠ [] ∧ ∃ amount gh,
          (gh = g2 ∨
            gh = human_bet_state (small_blind_of g.starting_chips g.difficulty) g2) ∧
          human_response amount gh ⟨rand2, o.human⟩ = some (g1, o1))) := by
  unfold round_one at h
  simp only at h
  split at h
  · cases h
  · rename_i player1 player2 rand1 hp
    split at h
    · cases h
    · rename_i g2 rand2 hr
      refine ⟨player1, player2, rand1, g2, rand2, hp, hr, ?_⟩
      split at h
      · rename_i hsize
        have hne : g2.bots_in_the_game ≠ [] := by
          intro he2
          rw [he2] at hsize
          simp at hsize
        refine Or.inr ⟨hne, ?_⟩
        split at h
        · split at h
          · exact ⟨_, g2, Or.inl rfl, h⟩
          · split at h
            · exact ⟨_, _, Or.inr rfl, h⟩
            · simp only [Option.some.injEq, Prod.mk.injEq] at h
              obtain ⟨rfl, -⟩ := h
              exact absurd he hne
        · exact ⟨_, g2, Or.inl rfl, h⟩
      · rename_i hsize
        simp only [Option.some.injEq, Prod.mk.injEq] at h
        obtain ⟨rfl, rfl⟩ := h
        exact Or.inl ⟨he, rfl, rfl⟩

/-- The ways in which an iteration of the round loop ends with no live bot
and the human in: the first part of the iteration left no bot and the loop is
left at once; or the human raised in `human_turn`, every bot folded and the
loop is left at once; or `bot_turn` ended with no bot and is the last thing
the iteration did. In the first two cases only the deck differs from the state
in which the roster was found empty. -/
theorem run_round_emptied (bet_size : Int → Int → Int → Int) (round : Int) (g g1 : Game)
    (o o1 : Oracle) (brk : Bool) (h : run_round bet_size round g o = some (brk, g1, o1))
    (he : g1.bots_in_the_game = []) (hin : g1.human_in_the_game = true) :
    ∃ gs os, round_start round g o = some (gs, os) ∧
      ((gs.bots_in_the_game = [] ∧ brk = true ∧ o1 = os ∧
          ∃ d, take_all gs.deck = some d ∧ g1 = { gs with deck := d }) ∨
        (gs.bots_in_the_game ≠ [] ∧ round ≠ 1 ∧ brk = true ∧
          ∃ g2, human_turn gs os = some (true, g2, o1) ∧ g2.bots_in_the_game = [] ∧
            ∃ d, take_all g2.deck = some d ∧ g1 = { g2 with deck := d }) ∨
        (gs.bots_in_the_game ≠ [] ∧ round ≠ 1 ∧ brk = false ∧
          ∃ g2 o2,
            (if gs.human_in_the_game = true ∧ gs.human.chips > 0 ∧ round ≠ 1 then
              human_turn gs os else some (false, gs, os)) = some (false, g2, o2) ∧
            g2.bots_in_the_game ≠ [] ∧ bot_turn bet_size g2 o2 = some (g1, o1))) := by
  unfold run_round at h
  split at h
  · cases h
  · rename_i gs os hs
    refine ⟨gs, os, hs, ?_⟩
    split at h
    · simp only [Option.map_eq_some', Prod.mk.injEq] at h
      obtain ⟨d, hd, rfl, rfl, rfl⟩ := h
      exact Or.inl ⟨he, rfl, rfl, d, hd, rfl⟩
    · rename_i hhigh
      have hne : gs.bots_in_the_game ≠ [] := by
        intro he2
        rw [he2] at hhigh
        exact hhigh rfl
      refine Or.inr ?_
      split at h
      · cases h
      · rename_i responded g2 o2 ht
        split at h
        · rename_i hc
          simp only [Option.map_eq_some', Prod.mk.injEq] at h
          obtain ⟨r, hb, rfl, rfl, rfl⟩ := h
          have hresp : responded = false := hc.2.1
          subst hresp
          refine Or.inr ⟨hne, hc.2.2, rfl, g2, o2, ht, ?_, hb⟩
          intro he2
          have := hc.1
          rw [he2] at this
          simp at this
        · rename_i hc
          have hg2 : ∀ d, ({ g2 with deck := d } : Game).bots_in_the_game =
              g2.bots_in_the_game := fun _ => rfl
          have hturn : g2.bots_in_the_game = [] →
              round ≠ 1 ∧ human_turn gs os = some (true, g2, o2) := by
            intro he2
            split at ht
            · rename_i hcond
              obtain ⟨hr, -⟩ := human_turn_loop_emptied gs g2 os.rand os.human responded o2
                ht hne he2
              subst hr
              exact ⟨hcond.2.2, ht⟩
            · simp only [Option.some.injEq, Prod.mk.injEq] at ht
              obtain ⟨-, rfl, -⟩ := ht
              exact absurd he2 hne
          split at h
          · simp only [Option.map_eq_some', Prod.mk.injEq] at h
            obtain ⟨d, hd, rfl, rfl, rfl⟩ := h
            have he2 : g2.bots_in_the_game = [] := he
            obtain ⟨hr1, hht⟩ := hturn he2
            exact Or.inl ⟨hne, hr1, rfl, g2, hht, he2, d, hd, rfl⟩
          · rename_i hc2
            simp only [Option.some.injEq, Prod.mk.injEq] at h
            obtain ⟨rfl, rfl, rfl⟩ := h
            exact absurd (Or.inl ⟨by rw [he]; rfl, hin⟩) hc2

/-- From a round other than the first entered with no live bot, the round
loop reads no input, draws no number and leaves the pot, the balances and the
fold flag of the human as they are; it is left in its first iteration. -/
theorem run_rounds_empty (bet_size : Int → Int → Int → Int) (rounds : List Int)
    (g g1 : Game) (o o1 : Oracle) (h1 : 1 ∉ rounds) (he : g.bots_in_the_game = [])
    (h : run_rounds bet_size rounds g o = some (g1, o1)) :
    o1 = o ∧ g1.pot = g.pot ∧ g1.human = g.human ∧ g1.bot = g.bot ∧
      g1.bots_in_the_game = [] ∧ g1.human_in_the_game = g.human_in_the_game := by
  cases rounds with
  | nil =>
    simp only [run_rounds, Option.some.injEq, Prod.mk.injEq] at h
    obtain ⟨rfl, rfl⟩ := h
    exact ⟨rfl, rfl, rfl, rfl, he, rfl⟩
  | cons round rest =>
    have hround : round ≠ 1 := fun e => h1 (by rw [e]; exact List.mem_cons_self _ _)
    cases hrs : round_start round g o with
    | none =>
      simp only [run_rounds, run_round, hrs] at h
      cases h
    | some r =>
      obtain ⟨gs, os⟩ := r
      obtain ⟨ho, hpot, hhum, hbot, hbots, hhin⟩ := round_start_frame round g gs o os hround hrs
      simp only [run_rounds] at h
      rw [run_round_no_bots bet_size round g gs o os hrs (by rw [hbots, he])] at h
      cases hd : take_all gs.deck with
      | none =>
        rw [hd] at h
        cases h
      | some d =>
        rw [hd] at h
        simp only [Option.map_some', Option.some.injEq, Prod.mk.injEq] at h
        obtain ⟨rfl, rfl⟩ := h
        exact ⟨ho, hpot, hhum, hbot, by rw [← he, ← hbots], hhin⟩

/-! ## The claims -/

/-- C1 (failing input). The hand A♥ K♥ with Q♥ J♥ 10♥ 2♣ 3♦ holds 10, J, Q,
K and A of hearts, and `evaluate_hand` returns `flush`, not `royal_flush`. -/
theorem evaluate_hand_royal_flush_input :
    evaluate_hand ⟨"♥", "A"⟩ ⟨"♥", "K"⟩
        [⟨"♥", "Q"⟩, ⟨"♥", "J"⟩, ⟨"♥", "10"⟩, ⟨"♣", "2"⟩, ⟨"♦", "3"⟩] =
      some (.flush, 14) := by
  decide

/-- C2. For two hole cards and three to five community cards: when some rank
occurs exactly three times, another rank occurs exactly twice or exactly three
times, and no rank occurs four times, `evaluate_hand` returns `full_house`
with the highest rank that occurs exactly three times. -/
theorem evaluate_hand_full_house (card1 card2 : Card) (community_cards : List Card)
    (hlo : 3 ≤ community_cards.length) (hhi : community_cards.length ≤ 5) (r : Int)
    (hr : (numeric_ranks card1 card2 community_cards).count r = 3)
    (hother : ∃ q, q ≠ r ∧ ((numeric_ranks card1 card2 community_cards).count q = 2 ∨
      (numeric_ranks card1 card2 community_cards).count q = 3))
    (hno4 : ∀ q ∈ numeric_ranks card1 card2 community_cards,
      (numeric_ranks card1 card2 community_cards).count q ≠ 4) :
    ∃ t, evaluate_hand card1 card2 community_cards = some (.full_house, t) ∧
      (numeric_ranks card1 card2 community_cards).count t = 3 ∧
      ∀ q, (numeric_ranks card1 card2 community_cards).count q = 3 → q ≤ t := by
  have hlen := numeric_ranks_length card1 card2 community_cards
  have hok := countMap_rankMapOk (numeric_ranks card1 card2 community_cards)
  have hsum := countMap_sum int_less (numeric_ranks card1 card2 community_cards)
  generalize hranks : numeric_ranks card1 card2 community_cards = ranks at *
  generalize hm : countMap int_less ranks = m at *
  obtain ⟨q, hqr, hq⟩ := hother
  have hmem : ∀ k c, 0 < c → ranks.count k = c → (k, c) ∈ m := by
    intro k c hc hk
    exact (hok.2 k c).2 ⟨hk.symm, List.count_pos_iff.1 (by omega)⟩
  have hrm : (r, 3) ∈ m := hmem r 3 (by omega) hr
  have hq2 : 2 ≤ ranks.count q := by rcases hq with h | h <;> omega
  -- the straight loop finds nothing
  obtain ⟨found, hfound⟩ := straight_loop_defined card1 card2 community_cards (by omega) hhi
  rw [hranks] at hfound
  have hnone : found = none := by
    cases found with
    | none => rfl
    | some t =>
      exfalso
      obtain ⟨j, a, h0, h1, h2, h3, h4, _⟩ := straight_loop_found _ _ _ _ hfound
      exact no_run_with_full_house ranks (by omega) r q a hr hq2 hqr
        (getElem?_mem_of_some _ _ _ h0) (getElem?_mem_of_some _ _ _ h1)
        (getElem?_mem_of_some _ _ _ h2) (getElem?_mem_of_some _ _ _ h3)
        (getElem?_mem_of_some _ _ _ h4)
  subst hnone
  have heval := evaluate_hand_of_found card1 card2 community_cards none
    (by rw [hranks]; exact hfound)
  rw [hranks, hm] at heval
  simp only [afterStraightLoop] at heval
  -- the full-house test succeeds
  have h3pos : 0 < m.countP (fun e => e.2 = 3) :=
    List.countP_pos_iff.2 ⟨(r, 3), hrm, by simp⟩
  have hfh : ((afterGroups m).two_pair > 0 ∧ (afterGroups m).three_of_a_kind > 0) ∨
      (afterGroups m).three_of_a_kind = 2 := by
    rw [afterGroups_two_pair, afterGroups_three]
    rcases hq with h | h
    · left
      exact ⟨List.countP_pos_iff.2 ⟨(q, 2), hmem q 2 (by omega) h, by simp⟩, h3pos⟩
    · right
      have hge := countP_ge_two (fun e : Int × Nat => decide (e.2 = 3)) m (r, 3) (q, 3) hrm
        (hmem q 3 (by omega) h) (by simpa using fun hh => hqr hh.symm) (by simp) (by simp)
      have hle := three_countP_le_sum m
      omega
  have hno4m : ∀ e ∈ m, e.2 ≠ 4 := by
    intro e he h4
    have := (hok.2 e.1 e.2).1 he
    exact hno4 e.1 this.2 (by omega)
  obtain ⟨hlast, hhigh⟩ := afterStraight_full_house m
    (countMap string_less (suits card1 card2 community_cards)) (afterGroups m) hfh hno4m
  rw [hlast, hhigh] at heval
  refine ⟨(afterGroups m).highest_card, by simpa using heval, ?_⟩
  -- the tie-break is the highest rank of count three
  have hhc : (afterGroups m).highest_card = (m.foldl tripStep
      (if (m.foldl pairStep ⟨0, 0, 0, [.high_card]⟩).two_pair ≥ 2 then
        add_hand_ranking (m.foldl pairStep ⟨0, 0, 0, [.high_card]⟩) .two_pair
      else m.foldl pairStep ⟨0, 0, 0, [.high_card]⟩)).highest_card := rfl
  obtain ⟨⟨e, he, he3, heq⟩, hall⟩ := fold_trip_highest m
    (if (m.foldl pairStep ⟨0, 0, 0, [.high_card]⟩).two_pair ≥ 2 then
        add_hand_ranking (m.foldl pairStep ⟨0, 0, 0, [.high_card]⟩) .two_pair
      else m.foldl pairStep ⟨0, 0, 0, [.high_card]⟩) hok.1 ⟨(r, 3), hrm, rfl⟩
  rw [hhc, ← heq]
  constructor
  · have := (hok.2 e.1 e.2).1 he
    omega
  · intro q' hq'
    have := hall (q', 3) (hmem q' 3 (by omega) hq') rfl
    rw [← heq] at this
    exact this

/-- Witness for C2: the hand 2♥ 2♦ with 2♣ 5♠ 5♦ 9♥ K♣. -/
theorem evaluate_hand_full_house_witness :
    (numeric_ranks ⟨"♥", "2"⟩ ⟨"♦", "2"⟩
        [⟨"♣", "2"⟩, ⟨"♠", "5"⟩, ⟨"♦", "5"⟩, ⟨"♥", "9"⟩, ⟨"♣", "K"⟩]).count 2 = 3 ∧
    ∃ t, evaluate_hand ⟨"♥", "2"⟩ ⟨"♦", "2"⟩
        [⟨"♣", "2"⟩, ⟨"♠", "5"⟩, ⟨"♦", "5"⟩, ⟨"♥", "9"⟩, ⟨"♣", "K"⟩] = some (.full_house, t) ∧
      (numeric_ranks ⟨"♥", "2"⟩ ⟨"♦", "2"⟩
        [⟨"♣", "2"⟩, ⟨"♠", "5"⟩, ⟨"♦", "5"⟩, ⟨"♥", "9"⟩, ⟨"♣", "K"⟩]).count t = 3 ∧
      ∀ q, (numeric_ranks ⟨"♥", "2"⟩ ⟨"♦", "2"⟩
        [⟨"♣", "2"⟩, ⟨"♠", "5"⟩, ⟨"♦", "5"⟩, ⟨"♥", "9"⟩, ⟨"♣", "K"⟩]).count q = 3 → q ≤ t :=
  ⟨by decide,
    evaluate_hand_full_house _ _ _ (by decide) (by decide) 2 (by decide)
      ⟨5, by decide, Or.inl (by decide)⟩ (by decide)⟩

/-- C3. For five to seven cards with pairwise distinct ranks, no five
consecutive ranks and no suit occurring five or more times, `evaluate_hand`
returns `high_card` with the highest rank among all the cards. -/
theorem evaluate_hand_high_card (card1 card2 : Card) (community_cards : List Card)
    (hlo : 3 ≤ community_cards.length) (hhi : community_cards.length ≤ 5)
    (hdistinct : (numeric_ranks card1 card2 community_cards).Nodup)
    (hnorun : ∀ a ∈ numeric_ranks card1 card2 community_cards,
      ¬ (a + 1 ∈ numeric_ranks card1 card2 community_cards ∧
        a + 2 ∈ numeric_ranks card1 card2 community_cards ∧
        a + 3 ∈ numeric_ranks card1 card2 community_cards ∧
        a + 4 ∈ numeric_ranks card1 card2 community_cards))
    (hnoflush : ∀ s ∈ suits card1 card2 community_cards,
      (suits card1 card2 community_cards).count s ≤ 4) :
    ∃ t, evaluate_hand card1 card2 community_cards = some (.high_card, t) ∧
      t ∈ numeric_ranks card1 card2 community_cards ∧
      ∀ q ∈ numeric_ranks card1 card2 community_cards, q ≤ t := by
  have hlen := numeric_ranks_length card1 card2 community_cards
  have hok := countMap_rankMapOk (numeric_ranks card1 card2 community_cards)
  have hrange := numeric_ranks_range card1 card2 community_cards
  have hsuit := countMap_le_count string_less (suits card1 card2 community_cards)
  obtain ⟨found, hfound⟩ := straight_loop_defined card1 card2 community_cards (by omega) hhi
  have heval := evaluate_hand_of_found card1 card2 community_cards found hfound
  generalize hranks : numeric_ranks card1 card2 community_cards = ranks at *
  generalize hm : countMap int_less ranks = m at *
  generalize hsm : countMap string_less (suits card1 card2 community_cards) = sm at *
  have hone : ∀ e ∈ m, e.2 = 1 := by
    intro e he
    have := (hok.2 e.1 e.2).1 he
    rw [this.1]
    exact List.count_eq_one_of_mem hdistinct this.2
  have hnone : found = none := by
    cases found with
    | none => rfl
    | some t =>
      exfalso
      obtain ⟨j, a, h0, h1, h2, h3, h4, _⟩ := straight_loop_found _ _ _ _ hfound
      exact hnorun a (getElem?_mem_of_some _ _ _ h0)
        ⟨getElem?_mem_of_some _ _ _ h1, getElem?_mem_of_some _ _ _ h2,
          getElem?_mem_of_some _ _ _ h3, getElem?_mem_of_some _ _ _ h4⟩
  subst hnone
  have hflush : ∀ e ∈ sm, e.2 ≤ 4 := by
    intro e he
    have h1 := hsuit e he
    have hmem : e.1 ∈ suits card1 card2 community_cards :=
      List.count_pos_iff.1 (by omega)
    have := hnoflush e.1 hmem
    omega
  have hg := afterGroups_of_distinct m hone
  have hs := afterStraight_none m sm (afterGroups m) hflush (by rw [hg]; simp)
    (fun e he => by rw [hone e he]; decide)
  simp only [afterStraightLoop, hs] at heval
  rw [hg] at heval
  simp only [List.getLast?_singleton, Option.map_some'] at heval
  refine ⟨_, heval, ?_, ?_⟩
  · obtain ⟨hge, hall, hcases⟩ := foldl_max_spec m 0
    rcases hcases with h0 | ⟨e, he, h0⟩
    · obtain ⟨x, hx⟩ : ∃ x, x ∈ ranks := by
        cases ranks with
        | nil => simp at hlen
        | cons x _ => exact ⟨x, by simp⟩
      have hxm : (x, ranks.count x) ∈ m := (hok.2 x _).2 ⟨rfl, hx⟩
      have hle := hall _ hxm
      rw [h0] at hle ⊢
      have hx0 : x = 0 := by
        rcases hrange x hx with h | h
        · exact h
        · simp at hle; omega
      rw [← hx0]; exact hx
    · rw [← h0]
      exact ((hok.2 e.1 e.2).1 he).2
  · intro q hq
    exact (foldl_max_spec m 0).2.1 _ ((hok.2 q _).2 ⟨rfl, hq⟩)

/-- Witness for C3: the hand 7♥ 2♦ with 9♥ 4♦ K♣ Q♠ 3♣. -/
theorem evaluate_hand_high_card_witness :
    (numeric_ranks ⟨"♥", "7"⟩ ⟨"♦", "2"⟩
        [⟨"♥", "9"⟩, ⟨"♦", "4"⟩, ⟨"♣", "K"⟩, ⟨"♠", "Q"⟩, ⟨"♣", "3"⟩]).Nodup ∧
    ∃ t, evaluate_hand ⟨"♥", "7"⟩ ⟨"♦", "2"⟩
        [⟨"♥", "9"⟩, ⟨"♦", "4"⟩, ⟨"♣", "K"⟩, ⟨"♠", "Q"⟩, ⟨"♣", "3"⟩] = some (.high_card, t) ∧
      t ∈ numeric_ranks ⟨"♥", "7"⟩ ⟨"♦", "2"⟩
        [⟨"♥", "9"⟩, ⟨"♦", "4"⟩, ⟨"♣", "K"⟩, ⟨"♠", "Q"⟩, ⟨"♣", "3"⟩] ∧
      ∀ q ∈ numeric_ranks ⟨"♥", "7"⟩ ⟨"♦", "2"⟩
        [⟨"♥", "9"⟩, ⟨"♦", "4"⟩, ⟨"♣", "K"⟩, ⟨"♠", "Q"⟩, ⟨"♣", "3"⟩], q ≤ t :=
  ⟨by decide,
    evaluate_hand_high_card _ _ _ (by decide) (by decide) (by decide) (by decide) (by decide)⟩

/-- C4. For a non-empty list of players whose hands all evaluate,
`determine_winner` returns the names of exactly the players whose evaluation
is the lexicographic maximum `best` of all the evaluations: the returned list
is a rearrangement of the names of those players. -/
theorem determine_winner_exact (players : List Player) (community_cards : List Card)
    (hne : players ≠ [])
    (hdef : ∀ p ∈ players, ∃ e, evaluate_hand p.card1 p.card2 community_cards = some e) :
    ∃ winners best, determine_winner players community_cards = some winners ∧
      (∃ p ∈ players, evaluate_hand p.card1 p.card2 community_cards = some best) ∧
      (∀ p ∈ players, ∀ e, evaluate_hand p.card1 p.card2 community_cards = some e →
        hand_le e best) ∧
      winners.Perm ((players.filter (fun p =>
        evaluate_hand p.card1 p.card2 community_cards = some best)).map Player.name) := by
  have hentries := player_name_and_rank_eq players community_cards hdef
  generalize hf : (fun p : Player =>
    ((p.name, (evaluate_hand p.card1 p.card2 community_cards).getD (.high_card, 0)) :
      RankedPlayer)) = f at hentries
  have hfp : ∀ p ∈ players, ∀ e, evaluate_hand p.card1 p.card2 community_cards = some e →
      f p = (p.name, e) := by
    intro p _ e he
    rw [← hf]
    simp [he]
  haveI := sort_order_total
  haveI := sort_order_trans
  obtain ⟨best, hw, ⟨x, hx, hxb⟩, hmax, hperm⟩ := winners_of_sorted_spec (players.map f)
    ((players.map f).insertionSort sort_order) (List.perm_insertionSort _ _)
    (List.sorted_insertionSort _ _) (by simpa using hne)
  refine ⟨collect_winners best ((players.map f).insertionSort sort_order), best,
    ?_, ?_, ?_, ?_⟩
  · unfold determine_winner
    rw [hentries]
    exact hw
  · rw [List.mem_map] at hx
    obtain ⟨p, hp, rfl⟩ := hx
    obtain ⟨e, he⟩ := hdef p hp
    refine ⟨p, hp, ?_⟩
    rw [hfp p hp e he] at hxb
    rw [he, ← hxb]
  · intro p hp e he
    have := hmax (f p) (List.mem_map.2 ⟨p, hp, rfl⟩)
    rw [hfp p hp e he] at this
    exact this
  · refine hperm.trans (List.Perm.of_eq ?_)
    exact filter_entries_names players f
      (fun p => evaluate_hand p.card1 p.card2 community_cards) best
      (fun p hp => by
        obtain ⟨e, he⟩ := hdef p hp
        exact ⟨e, he, hfp p hp e he⟩)

/-- Witness for C4: three players, two of them tied with an ace-high hand. -/
theorem determine_winner_exact_witness :
    determine_winner
        [⟨"x", 100, ⟨"♥", "7"⟩, ⟨"♦", "4"⟩⟩, ⟨"y", 100, ⟨"♥", "9"⟩, ⟨"♦", "A"⟩⟩,
          ⟨"z", 100, ⟨"♦", "9"⟩, ⟨"♥", "A"⟩⟩]
        [⟨"♥", "Q"⟩, ⟨"♥", "J"⟩, ⟨"♥", "10"⟩, ⟨"♣", "2"⟩, ⟨"♦", "3"⟩] = some ["y", "z"] ∧
    ∃ winners best,
      determine_winner
        [⟨"x", 100, ⟨"♥", "7"⟩, ⟨"♦", "4"⟩⟩, ⟨"y", 100, ⟨"♥", "9"⟩, ⟨"♦", "A"⟩⟩,
          ⟨"z", 100, ⟨"♦", "9"⟩, ⟨"♥", "A"⟩⟩]
        [⟨"♥", "Q"⟩, ⟨"♥", "J"⟩, ⟨"♥", "10"⟩, ⟨"♣", "2"⟩, ⟨"♦", "3"⟩] = some winners ∧
      (∃ p ∈ ([⟨"x", 100, ⟨"♥", "7"⟩, ⟨"♦", "4"⟩⟩, ⟨"y", 100, ⟨"♥", "9"⟩, ⟨"♦", "A"⟩⟩,
          ⟨"z", 100, ⟨"♦", "9"⟩, ⟨"♥", "A"⟩⟩] : List Player),
        evaluate_hand p.card1 p.card2
          [⟨"♥", "Q"⟩, ⟨"♥", "J"⟩, ⟨"♥", "10"⟩, ⟨"♣", "2"⟩, ⟨"♦", "3"⟩] = some best) ∧
      (∀ p ∈ ([⟨"x", 100, ⟨"♥", "7"⟩, ⟨"♦", "4"⟩⟩, ⟨"y", 100, ⟨"♥", "9"⟩, ⟨"♦", "A"⟩⟩,
          ⟨"z", 100, ⟨"♦", "9"⟩, ⟨"♥", "A"⟩⟩] : List Player), ∀ e,
        evaluate_hand p.card1 p.card2
          [⟨"♥", "Q"⟩, ⟨"♥", "J"⟩, ⟨"♥", "10"⟩, ⟨"♣", "2"⟩, ⟨"♦", "3"⟩] = some e →
        hand_le e best) ∧
      winners.Perm
        ((([⟨"x", 100, ⟨"♥", "7"⟩, ⟨"♦", "4"⟩⟩, ⟨"y", 100, ⟨"♥", "9"⟩, ⟨"♦", "A"⟩⟩,
          ⟨"z", 100, ⟨"♦", "9"⟩, ⟨"♥", "A"⟩⟩] : List Player).filter (fun p =>
            evaluate_hand p.card1 p.card2
              [⟨"♥", "Q"⟩, ⟨"♥", "J"⟩, ⟨"♥", "10"⟩, ⟨"♣", "2"⟩, ⟨"♦", "3"⟩] =
            some best)).map Player.name) :=
  ⟨by decide,
    determine_winner_exact _ _ (by decide)
      (fun p _ => by
        obtain ⟨c, t, h⟩ := evaluate_hand_defined p.card1 p.card2
          [⟨"♥", "Q"⟩, ⟨"♥", "J"⟩, ⟨"♥", "10"⟩, ⟨"♣", "2"⟩, ⟨"♦", "3"⟩] (by decide) (by decide)
        exact ⟨(c, t), h⟩)⟩

/-- C5. `compare_hand_ranks` orders `a` before `b` exactly when the category
of `a` is greater, or the categories are equal and the tie-break of `a` is
greater; the categories are ordered as in the enumeration; so a greater
category compares greater whatever the tie-breaks. -/
theorem compare_hand_ranks_lexicographic (a b : RankedPlayer) :
    (compare_hand_ranks a b = true ↔
      (a.2.1 > b.2.1 ∨ (a.2.1 = b.2.1 ∧ a.2.2 > b.2.2))) ∧
    (Poker_Ranks.high_card < Poker_Ranks.pair ∧ Poker_Ranks.pair < Poker_Ranks.two_pair ∧
      Poker_Ranks.two_pair < Poker_Ranks.three_of_a_kind ∧
      Poker_Ranks.three_of_a_kind < Poker_Ranks.straight ∧
      Poker_Ranks.straight < Poker_Ranks.flush ∧
      Poker_Ranks.flush < Poker_Ranks.full_house ∧
      Poker_Ranks.full_house < Poker_Ranks.four_of_a_kind ∧
      Poker_Ranks.four_of_a_kind < Poker_Ranks.straight_flush ∧
      Poker_Ranks.straight_flush < Poker_Ranks.royal_flush) ∧
    (a.2.1 > b.2.1 → compare_hand_ranks a b = true ∧ compare_hand_ranks b a = false) := by
  refine ⟨compare_hand_ranks_true_iff a b, by decide, ?_⟩
  intro h
  refine ⟨(compare_hand_ranks_true_iff a b).2 (Or.inl h), ?_⟩
  rw [← Bool.not_eq_true, compare_hand_ranks_true_iff]
  simp only [gt_iff_lt, rank_lt_iff] at h ⊢
  rintro (h' | ⟨h1, _⟩)
  · omega
  · rw [h1] at h; omega

/-- Witness for C5: a pair of twos against an ace-high hand. -/
theorem compare_hand_ranks_lexicographic_witness :
    compare_hand_ranks ("a", (.pair, 2)) ("b", (.high_card, 14)) = true ∧
      compare_hand_ranks ("b", (.high_card, 14)) ("a", (.pair, 2)) = false :=
  (compare_hand_ranks_lexicographic ("a", (.pair, 2)) ("b", (.high_card, 14))).2.2
    (by decide)

/-- Counterexample to C6 as stated: with no community card, and with one, the
bound `numeric_ranks.size()-4` of the straight loop wraps around and the loop
reads `numeric_ranks` past its end. -/
theorem evaluate_hand_few_cards_counterexample :
    size_t_sub 2 4 = 2 ^ 64 - 2 ∧ size_t_sub 3 4 = 2 ^ 64 - 1 ∧
    (numeric_ranks ⟨"♥", "A"⟩ ⟨"♥", "K"⟩ [])[2]? = none ∧
    evaluate_hand ⟨"♥", "A"⟩ ⟨"♥", "K"⟩ [] = none ∧
    evaluate_hand ⟨"♥", "A"⟩ ⟨"♥", "K"⟩ [⟨"♥", "Q"⟩] = none :=
  ⟨by decide, by decide, by decide,
    evaluate_hand_out_of_bounds ⟨"♥", "A"⟩ ⟨"♥", "K"⟩ [] (by decide),
    evaluate_hand_out_of_bounds ⟨"♥", "A"⟩ ⟨"♥", "K"⟩ [⟨"♥", "Q"⟩] (by decide)⟩

/-- C6 (as amended). For every pair of hole cards and every list of two to
five community cards, `evaluate_hand` returns a result, and the straight loop
stays in bounds: its bound `numeric_ranks.size()-4` does not wrap, every
iteration `i` it allows has `i + 4` below the size of the vector, and the loop
ends without an out-of-bounds read. -/
theorem evaluate_hand_in_bounds (card1 card2 : Card) (community_cards : List Card)
    (hlo : 2 ≤ community_cards.length) (hhi : community_cards.length ≤ 5) :
    (∃ c t, evaluate_hand card1 card2 community_cards = some (c, t)) ∧
      size_t_sub (numeric_ranks card1 card2 community_cards).length 4 =
        (numeric_ranks card1 card2 community_cards).length - 4 ∧
      (∀ i, i < size_t_sub (numeric_ranks card1 card2 community_cards).length 4 →
        i + 4 < (numeric_ranks card1 card2 community_cards).length) ∧
      (∃ found, straight_loop (numeric_ranks card1 card2 community_cards)
        (size_t_sub (numeric_ranks card1 card2 community_cards).length 4) 0 = some found) := by
  have hlen := numeric_ranks_length card1 card2 community_cards
  have hsub : size_t_sub (numeric_ranks card1 card2 community_cards).length 4 =
      (numeric_ranks card1 card2 community_cards).length - 4 :=
    size_t_sub_four _ (by omega) (by rw [hlen]; norm_num; omega)
  refine ⟨evaluate_hand_defined card1 card2 community_cards hlo hhi, hsub, ?_,
    straight_loop_defined card1 card2 community_cards hlo hhi⟩
  intro i hi
  rw [hsub] at hi
  omega

/-- Witness for C6 (as amended): with the two community cards Q♥ J♥ the hand
A♥ K♥ evaluates, to a high card. -/
theorem evaluate_hand_in_bounds_witness :
    ∃ c t, evaluate_hand ⟨"♥", "A"⟩ ⟨"♥", "K"⟩ [⟨"♥", "Q"⟩, ⟨"♥", "J"⟩] = some (c, t) :=
  (evaluate_hand_in_bounds ⟨"♥", "A"⟩ ⟨"♥", "K"⟩ [⟨"♥", "Q"⟩, ⟨"♥", "J"⟩] (by decide)
    (by decide)).1

/-- C7 (failing input). The hand 2♥ 3♦ with 3♣ 4♠ 5♦ 6♥ K♣ holds the ranks
2, 3, 4, 5 and 6 and no flush, full house or four of a kind; the second 3
hides the run and `evaluate_hand` returns `pair`. -/
theorem evaluate_hand_run_with_duplicate :
    evaluate_hand ⟨"♥", "2"⟩ ⟨"♦", "3"⟩
        [⟨"♣", "3"⟩, ⟨"♠", "4"⟩, ⟨"♦", "5"⟩, ⟨"♥", "6"⟩, ⟨"♣", "K"⟩] = some (.pair, 3) ∧
    numeric_ranks ⟨"♥", "2"⟩ ⟨"♦", "3"⟩
        [⟨"♣", "3"⟩, ⟨"♠", "4"⟩, ⟨"♦", "5"⟩, ⟨"♥", "6"⟩, ⟨"♣", "K"⟩] =
      [2, 3, 3, 4, 5, 6, 13] := by
  decide

/-- C8 (failing input). For 2♥ 3♦ with 4♣ 5♠ 6♦ 7♥ K♣ the highest run of five
is 3-4-5-6-7, and `evaluate_hand` returns `straight` with tie-break 6, the top
of the lowest run 2-3-4-5-6. -/
theorem evaluate_hand_lowest_run :
    evaluate_hand ⟨"♥", "2"⟩ ⟨"♦", "3"⟩
        [⟨"♣", "4"⟩, ⟨"♠", "5"⟩, ⟨"♦", "6"⟩, ⟨"♥", "7"⟩, ⟨"♣", "K"⟩] =
      some (.straight, 6) := by
  decide

/-- Counterexample to C9 as stated: A♥ 2♦ with 3♣ 4♠ 5♦ 9♥ K♣ contains A, 2,
3, 4 and 5, every rank once and no suit more than twice, and is classified as
`high_card`, not `straight`. -/
theorem ace_low_straight_counterexample :
    numeric_ranks ⟨"♥", "A"⟩ ⟨"♦", "2"⟩
        [⟨"♣", "3"⟩, ⟨"♠", "4"⟩, ⟨"♦", "5"⟩, ⟨"♥", "9"⟩, ⟨"♣", "K"⟩] =
      [2, 3, 4, 5, 9, 13, 14] ∧
    (∀ s ∈ suits ⟨"♥", "A"⟩ ⟨"♦", "2"⟩
        [⟨"♣", "3"⟩, ⟨"♠", "4"⟩, ⟨"♦", "5"⟩, ⟨"♥", "9"⟩, ⟨"♣", "K"⟩],
      (suits ⟨"♥", "A"⟩ ⟨"♦", "2"⟩
        [⟨"♣", "3"⟩, ⟨"♠", "4"⟩, ⟨"♦", "5"⟩, ⟨"♥", "9"⟩, ⟨"♣", "K"⟩]).count s ≤ 2) ∧
    evaluate_hand ⟨"♥", "A"⟩ ⟨"♦", "2"⟩
        [⟨"♣", "3"⟩, ⟨"♠", "4"⟩, ⟨"♦", "5"⟩, ⟨"♥", "9"⟩, ⟨"♣", "K"⟩] =
      some (.high_card, 14) := by
  decide

/-- C9 (as amended). For five to seven cards containing the ranks A, 2, 3, 4
and 5, `evaluate_hand` returns a result, and its category is `straight` only
if the hand also contains a 6: the Ace counts as 14 only and does not complete
the run A-2-3-4-5. -/
theorem evaluate_hand_ace_low (card1 card2 : Card) (community_cards : List Card)
    (hlo : 3 ≤ community_cards.length) (hhi : community_cards.length ≤ 5)
    (hA : 14 ∈ numeric_ranks card1 card2 community_cards)
    (h2 : 2 ∈ numeric_ranks card1 card2 community_cards)
    (h3 : 3 ∈ numeric_ranks card1 card2 community_cards)
    (h4 : 4 ∈ numeric_ranks card1 card2 community_cards)
    (h5 : 5 ∈ numeric_ranks card1 card2 community_cards) :
    ∃ c t, evaluate_hand card1 card2 community_cards = some (c, t) ∧
      (c = .straight → 6 ∈ numeric_ranks card1 card2 community_cards) := by
  have _hA := hA
  obtain ⟨c, t, hev⟩ := evaluate_hand_defined card1 card2 community_cards (by omega) hhi
  refine ⟨c, t, hev, ?_⟩
  intro hc
  obtain ⟨top, htop⟩ := (evaluate_hand_category _ _ _ _ _ hev).2 hc
  obtain ⟨j, a, g0, g1, g2, g3, g4, _⟩ := straight_loop_found _ _ _ _ htop
  have m0 := getElem?_mem_of_some _ _ _ g0
  have m1 := getElem?_mem_of_some _ _ _ g1
  have m2 := getElem?_mem_of_some _ _ _ g2
  have m3 := getElem?_mem_of_some _ _ _ g3
  have m4 := getElem?_mem_of_some _ _ _ g4
  have hlen := numeric_ranks_length card1 card2 community_cards
  have r0 := numeric_ranks_range _ _ _ _ m0
  have r1 := numeric_ranks_range _ _ _ _ m1
  have r4 := numeric_ranks_range _ _ _ _ m4
  unfold RankValue at r0 r1 r4
  by_cases hlow : a ≤ 6
  · have hcases : a = 2 ∨ a = 3 ∨ a = 4 ∨ a = 5 ∨ a = 6 := by omega
    rcases hcases with rfl | rfl | rfl | rfl | rfl
    · simpa using m4
    · simpa using m3
    · simpa using m2
    · simpa using m1
    · exact m0
  · exfalso
    have h9 := length_le_of_nodup_subset [2, 3, 4, 5, a, a + 1, a + 2, a + 3, a + 4]
      (numeric_ranks card1 card2 community_cards) (by simp; omega) (by
        intro x hx
        simp only [List.mem_cons, List.mem_singleton, List.not_mem_nil, or_false] at hx
        rcases hx with rfl | rfl | rfl | rfl | rfl | rfl | rfl | rfl | rfl <;> assumption)
    simp at h9
    omega

/-- Witness for C9 (as amended): A♥ 2♦ with 3♣ 4♠ 5♦ 6♥ K♣. -/
theorem evaluate_hand_ace_low_witness :
    evaluate_hand ⟨"♥", "A"⟩ ⟨"♦", "2"⟩
        [⟨"♣", "3"⟩, ⟨"♠", "4"⟩, ⟨"♦", "5"⟩, ⟨"♥", "6"⟩, ⟨"♣", "K"⟩] = some (.straight, 6) ∧
    ∃ c t, evaluate_hand ⟨"♥", "A"⟩ ⟨"♦", "2"⟩
        [⟨"♣", "3"⟩, ⟨"♠", "4"⟩, ⟨"♦", "5"⟩, ⟨"♥", "6"⟩, ⟨"♣", "K"⟩] = some (c, t) ∧
      (c = .straight → 6 ∈ numeric_ranks ⟨"♥", "A"⟩ ⟨"♦", "2"⟩
        [⟨"♣", "3"⟩, ⟨"♠", "4"⟩, ⟨"♦", "5"⟩, ⟨"♥", "6"⟩, ⟨"♣", "K"⟩]) :=
  ⟨by decide,
    evaluate_hand_ace_low _ _ _ (by decide) (by decide) (by decide) (by decide) (by decide)
      (by decide) (by decide)⟩

/-- Counterexample to C10 as stated: 2♥ 2♦ with 3♣ 3♠ 4♦ 4♥ 9♣ is classified
as `two_pair` although three distinct ranks occur exactly twice. -/
theorem two_pair_exactly_two_counterexample :
    evaluate_hand ⟨"♥", "2"⟩ ⟨"♦", "2"⟩
        [⟨"♣", "3"⟩, ⟨"♠", "3"⟩, ⟨"♦", "4"⟩, ⟨"♥", "4"⟩, ⟨"♣", "9"⟩] = some (.two_pair, 4) ∧
    ((numeric_ranks ⟨"♥", "2"⟩ ⟨"♦", "2"⟩
        [⟨"♣", "3"⟩, ⟨"♠", "3"⟩, ⟨"♦", "4"⟩, ⟨"♥", "4"⟩, ⟨"♣", "9"⟩]).dedup.filter
      (fun r => (numeric_ranks ⟨"♥", "2"⟩ ⟨"♦", "2"⟩
        [⟨"♣", "3"⟩, ⟨"♠", "3"⟩, ⟨"♦", "4"⟩, ⟨"♥", "4"⟩, ⟨"♣", "9"⟩]).count r = 2)) =
      [2, 3, 4] := by
  decide

/-- C10 (as amended). Whenever `evaluate_hand` classifies a hand as `two_pair`,
at least two distinct ranks occur exactly twice among the combined cards. -/
theorem evaluate_hand_two_pair_groups (card1 card2 : Card) (community_cards : List Card)
    (t : Int) (h : evaluate_hand card1 card2 community_cards = some (.two_pair, t)) :
    ∃ r1 r2, r1 ≠ r2 ∧ (numeric_ranks card1 card2 community_cards).count r1 = 2 ∧
      (numeric_ranks card1 card2 community_cards).count r2 = 2 := by
  have hok := countMap_rankMapOk (numeric_ranks card1 card2 community_cards)
  have h2 := (evaluate_hand_category _ _ _ _ _ h).1 rfl
  obtain ⟨a, b, ha, hb, hpa, hpb, hlt⟩ := exists_two_of_countP _ _ hok.1 h2
  have hca := (hok.2 a.1 a.2).1 ha
  have hcb := (hok.2 b.1 b.2).1 hb
  simp only [decide_eq_true_eq] at hpa hpb
  exact ⟨a.1, b.1, ne_of_lt hlt, by rw [← hca.1, hpa], by rw [← hcb.1, hpb]⟩

/-- Witness for C10 (as amended): 2♥ 2♦ with 5♣ 5♠ 9♦ J♥ K♣. -/
theorem evaluate_hand_two_pair_groups_witness :
    evaluate_hand ⟨"♥", "2"⟩ ⟨"♦", "2"⟩
        [⟨"♣", "5"⟩, ⟨"♠", "5"⟩, ⟨"♦", "9"⟩, ⟨"♥", "J"⟩, ⟨"♣", "K"⟩] = some (.two_pair, 5) ∧
    ∃ r1 r2, r1 ≠ r2 ∧
      (numeric_ranks ⟨"♥", "2"⟩ ⟨"♦", "2"⟩
        [⟨"♣", "5"⟩, ⟨"♠", "5"⟩, ⟨"♦", "9"⟩, ⟨"♥", "J"⟩, ⟨"♣", "K"⟩]).count r1 = 2 ∧
      (numeric_ranks ⟨"♥", "2"⟩ ⟨"♦", "2"⟩
        [⟨"♣", "5"⟩, ⟨"♠", "5"⟩, ⟨"♦", "9"⟩, ⟨"♥", "J"⟩, ⟨"♣", "K"⟩]).count r2 = 2 :=
  ⟨by decide, evaluate_hand_two_pair_groups _ _ _ 5 (by decide)⟩

/-- C11. For five to seven cards `evaluate_hand` returns a result; when its
category is `pair` or `two_pair` the tie-break is the highest rank occurring
exactly twice, when it is `three_of_a_kind` the highest rank occurring exactly
three times, and when it is `four_of_a_kind` the (highest) rank occurring four
times. -/
theorem evaluate_hand_group_tie_break (card1 card2 : Card) (community_cards : List Card)
    (hlo : 3 ≤ community_cards.length) (hhi : community_cards.length ≤ 5) :
    ∃ c t, evaluate_hand card1 card2 community_cards = some (c, t) ∧
      ((c = .pair ∨ c = .two_pair) →
        (numeric_ranks card1 card2 community_cards).count t = 2 ∧
        ∀ q, (numeric_ranks card1 card2 community_cards).count q = 2 → q ≤ t) ∧
      (c = .three_of_a_kind →
        (numeric_ranks card1 card2 community_cards).count t = 3 ∧
        ∀ q, (numeric_ranks card1 card2 community_cards).count q = 3 → q ≤ t) ∧
      (c = .four_of_a_kind →
        (numeric_ranks card1 card2 community_cards).count t = 4 ∧
        ∀ q, (numeric_ranks card1 card2 community_cards).count q = 4 → q ≤ t) := by
  obtain ⟨found, hfound⟩ := straight_loop_defined card1 card2 community_cards (by omega) hhi
  obtain ⟨c, hc, hlast⟩ := evaluate_hand_of_found_some _ _ _ found hfound
  have hok := countMap_rankMapOk (numeric_ranks card1 card2 community_cards)
  generalize numeric_ranks card1 card2 community_cards = ranks at *
  generalize countMap int_less ranks = m at *
  generalize countMap string_less (suits card1 card2 community_cards) = sm at *
  obtain ⟨⟨s, hs, hsne, hsc⟩, hzero⟩ := ranking_last_facts m sm found c hlast
  have hmem : ∀ k n, 0 < n → ranks.count k = n → (k, n) ∈ m := by
    intro k n hn hk
    exact (hok.2 k n).2 ⟨hk.symm, List.count_pos_iff.1 (by omega)⟩
  have hcount : ∀ e ∈ m, ranks.count e.1 = e.2 := fun e he => ((hok.2 e.1 e.2).1 he).1.symm
  have hex : ∀ n : Nat, m.countP (fun e => e.2 = n) ≠ 0 → ∃ e ∈ m, e.2 = n := by
    intro n hn
    obtain ⟨e, he, h⟩ := List.countP_pos_iff.1 (Nat.pos_of_ne_zero hn)
    exact ⟨e, he, by simpa using h⟩
  -- the facts shared by the categories below `straight`
  have hq0 : c.toInt < 7 → m.countP (fun e => e.2 = 4) = 0 := fun h =>
    hzero (m.countP (fun e => e.2 = 4), .four_of_a_kind) (by simp [ranking_segments]) h
  have hf0 : c.toInt < 4 → found = none := by
    intro h
    have := hzero (if found.isSome then 1 else 0, .straight) (by simp [ranking_segments]) h
    cases found with
    | none => rfl
    | some top => simp at this
  have ht0 : c.toInt < 3 → m.countP (fun e => e.2 = 3) = 0 := fun h =>
    hzero (m.countP (fun e => e.2 = 3), .three_of_a_kind) (by simp [ranking_segments]) h
  refine ⟨c, _, hc, ?_, ?_, ?_⟩
  · intro hcp
    have hlt : c.toInt < 3 := by rcases hcp with rfl | rfl <;> decide
    have hfn := hf0 (by omega)
    subst hfn
    have hp : m.countP (fun e => e.2 = 2) ≠ 0 := by
      simp only [ranking_segments, List.mem_cons, List.mem_singleton, List.not_mem_nil,
        or_false] at hs
      rcases hcp with rfl | rfl
      · rcases hs with rfl | rfl | rfl | rfl | rfl | rfl | rfl | rfl <;>
          first | exact hsne | cases hsc
      · rcases hs with rfl | rfl | rfl | rfl | rfl | rfl | rfl | rfl <;>
          first | (cases hsc; done) | (intro h0; simp [h0] at hsne)
    rw [final_highest_no_quad m sm _ (hq0 (by omega))]
    simp only [afterStraightLoop]
    rw [afterGroups_highest_no_trip m (ht0 hlt)]
    obtain ⟨⟨e, he, he2, heq⟩, hall⟩ := fold_pair_highest m ⟨0, 0, 0, [.high_card]⟩ hok.1
      (hex 2 hp)
    rw [← heq]
    exact ⟨by rw [hcount e he, he2], fun q hq => by
      rw [heq]; exact hall (q, 2) (hmem q 2 (by omega) hq) rfl⟩
  · intro hct
    subst hct
    have hfn := hf0 (by decide)
    subst hfn
    have ht : m.countP (fun e => e.2 = 3) ≠ 0 := by
      simp only [ranking_segments, List.mem_cons, List.mem_singleton, List.not_mem_nil,
        or_false] at hs
      rcases hs with rfl | rfl | rfl | rfl | rfl | rfl | rfl | rfl <;>
        first | exact hsne | cases hsc
    rw [final_highest_no_quad m sm _ (hq0 (by decide))]
    simp only [afterStraightLoop]
    obtain ⟨⟨e, he, he3, heq⟩, hall⟩ := fold_trip_highest m
      (if (m.foldl pairStep ⟨0, 0, 0, [.high_card]⟩).two_pair ≥ 2 then
        add_hand_ranking (m.foldl pairStep ⟨0, 0, 0, [.high_card]⟩) .two_pair
      else m.foldl pairStep ⟨0, 0, 0, [.high_card]⟩) hok.1 (hex 3 ht)
    have hhc : (afterGroups m).highest_card = (m.foldl tripStep
        (if (m.foldl pairStep ⟨0, 0, 0, [.high_card]⟩).two_pair ≥ 2 then
          add_hand_ranking (m.foldl pairStep ⟨0, 0, 0, [.high_card]⟩) .two_pair
        else m.foldl pairStep ⟨0, 0, 0, [.high_card]⟩)).highest_card := rfl
    rw [hhc, ← heq]
    exact ⟨by rw [hcount e he, he3], fun q hq => by
      rw [heq]; exact hall (q, 3) (hmem q 3 (by omega) hq) rfl⟩
  · intro hcq
    subst hcq
    have hq : m.countP (fun e => e.2 = 4) ≠ 0 := by
      simp only [ranking_segments, List.mem_cons, List.mem_singleton, List.not_mem_nil,
        or_false] at hs
      rcases hs with rfl | rfl | rfl | rfl | rfl | rfl | rfl | rfl <;>
        first | exact hsne | cases hsc
    obtain ⟨⟨e, he, he4, heq⟩, hall⟩ := afterStraight_highest_quad m sm
      (afterStraightLoop (afterGroups m) found) hok.1 (hex 4 hq)
    rw [← heq]
    exact ⟨by rw [hcount e he, he4], fun q hq => by
      rw [heq]; exact hall (q, 4) (hmem q 4 (by omega) hq) rfl⟩

/-- Witness for C11: 2♥ 2♦ with 5♣ 5♠ 9♦ J♥ K♣, classified `two_pair` with
tie-break 5. -/
theorem evaluate_hand_group_tie_break_witness :
    evaluate_hand ⟨"♥", "2"⟩ ⟨"♦", "2"⟩
        [⟨"♣", "5"⟩, ⟨"♠", "5"⟩, ⟨"♦", "9"⟩, ⟨"♥", "J"⟩, ⟨"♣", "K"⟩] = some (.two_pair, 5) ∧
    ∃ c t, evaluate_hand ⟨"♥", "2"⟩ ⟨"♦", "2"⟩
        [⟨"♣", "5"⟩, ⟨"♠", "5"⟩, ⟨"♦", "9"⟩, ⟨"♥", "J"⟩, ⟨"♣", "K"⟩] = some (c, t) ∧
      ((c = .pair ∨ c = .two_pair) →
        (numeric_ranks ⟨"♥", "2"⟩ ⟨"♦", "2"⟩
          [⟨"♣", "5"⟩, ⟨"♠", "5"⟩, ⟨"♦", "9"⟩, ⟨"♥", "J"⟩, ⟨"♣", "K"⟩]).count t = 2 ∧
        ∀ q, (numeric_ranks ⟨"♥", "2"⟩ ⟨"♦", "2"⟩
          [⟨"♣", "5"⟩, ⟨"♠", "5"⟩, ⟨"♦", "9"⟩, ⟨"♥", "J"⟩, ⟨"♣", "K"⟩]).count q = 2 → q ≤ t) ∧
      (c = .three_of_a_kind →
        (numeric_ranks ⟨"♥", "2"⟩ ⟨"♦", "2"⟩
          [⟨"♣", "5"⟩, ⟨"♠", "5"⟩, ⟨"♦", "9"⟩, ⟨"♥", "J"⟩, ⟨"♣", "K"⟩]).count t = 3 ∧
        ∀ q, (numeric_ranks ⟨"♥", "2"⟩ ⟨"♦", "2"⟩
          [⟨"♣", "5"⟩, ⟨"♠", "5"⟩, ⟨"♦", "9"⟩, ⟨"♥", "J"⟩, ⟨"♣", "K"⟩]).count q = 3 → q ≤ t) ∧
      (c = .four_of_a_kind →
        (numeric_ranks ⟨"♥", "2"⟩ ⟨"♦", "2"⟩
          [⟨"♣", "5"⟩, ⟨"♠", "5"⟩, ⟨"♦", "9"⟩, ⟨"♥", "J"⟩, ⟨"♣", "K"⟩]).count t = 4 ∧
        ∀ q, (numeric_ranks ⟨"♥", "2"⟩ ⟨"♦", "2"⟩
          [⟨"♣", "5"⟩, ⟨"♠", "5"⟩, ⟨"♦", "9"⟩, ⟨"♥", "J"⟩, ⟨"♣", "K"⟩]).count q = 4 → q ≤ t) :=
  ⟨by decide, evaluate_hand_group_tie_break _ _ _ (by decide) (by decide)⟩

/-- C12. For at least five cards, `evaluate_hand` returns the last element of
the vector of detected categories, that vector starts from `high_card` and is
in non-decreasing enumeration order, and so the returned category is the
greatest detected one. -/
theorem evaluate_hand_greatest_detected (card1 card2 : Card) (community_cards : List Card)
    (hlo : 3 ≤ community_cards.length) (hhi : community_cards.length + 2 < 2 ^ 64) :
    ∃ detected c t, detected_categories card1 card2 community_cards = some detected ∧
      evaluate_hand card1 card2 community_cards = some (c, t) ∧
      detected.getLast? = some c ∧ Poker_Ranks.high_card ∈ detected ∧
      detected.Pairwise (fun a b => a ≤ b) ∧ c ∈ detected ∧ ∀ x ∈ detected, x ≤ c := by
  obtain ⟨found, hfound⟩ := straight_loop_defined_of_length card1 card2 community_cards
    (by omega) hhi
  obtain ⟨c, hc, hlast⟩ := evaluate_hand_of_found_some _ _ _ found hfound
  have hsorted := final_ranking_sorted
    (countMap int_less (numeric_ranks card1 card2 community_cards))
    (countMap string_less (suits card1 card2 community_cards)) found
  refine ⟨_, c, _, detected_categories_of_found _ _ _ found hfound, hc, hlast, ?_, hsorted,
    List.mem_of_getLast?_eq_some hlast, getLast?_greatest _ c hsorted hlast⟩
  rw [final_ranking_eq, mem_segments]
  exact ⟨(1, .high_card), by simp [ranking_segments], by decide, rfl⟩

/-- Witness for C12: A♥ K♥ with Q♥ J♥ 10♥ 2♣ 3♦, where `straight` and `flush`
are both detected and `flush` is returned. -/
theorem evaluate_hand_greatest_detected_witness :
    detected_categories ⟨"♥", "A"⟩ ⟨"♥", "K"⟩
        [⟨"♥", "Q"⟩, ⟨"♥", "J"⟩, ⟨"♥", "10"⟩, ⟨"♣", "2"⟩, ⟨"♦", "3"⟩] =
      some [.high_card, .straight, .flush] ∧
    ∃ detected c t, detected_categories ⟨"♥", "A"⟩ ⟨"♥", "K"⟩
        [⟨"♥", "Q"⟩, ⟨"♥", "J"⟩, ⟨"♥", "10"⟩, ⟨"♣", "2"⟩, ⟨"♦", "3"⟩] = some detected ∧
      evaluate_hand ⟨"♥", "A"⟩ ⟨"♥", "K"⟩
        [⟨"♥", "Q"⟩, ⟨"♥", "J"⟩, ⟨"♥", "10"⟩, ⟨"♣", "2"⟩, ⟨"♦", "3"⟩] = some (c, t) ∧
      detected.getLast? = some c ∧ Poker_Ranks.high_card ∈ detected ∧
      detected.Pairwise (fun a b => a ≤ b) ∧ c ∈ detected ∧ ∀ x ∈ detected, x ≤ c :=
  ⟨by decide, evaluate_hand_greatest_detected _ _ _ (by decide) (by norm_num)⟩

/-- C14. `Pot::reset` sets the total to 0 and leaves the bet history as it
is: same bets in the same order. -/
theorem pot_reset_keeps_history (p : Pot) :
    p.reset.pot = 0 ∧ p.reset.bets = p.bets ∧ p.reset.bets.length = p.bets.length :=
  ⟨rfl, rfl, rfl⟩

/-- Counterexample to C13 as stated: after the bets 2147483647 and 1 the
`int` total is -2147483648, not the exact sum 2147483648. -/
theorem pot_total_overflow_counterexample :
    (Pot.empty.run [.add_to_pot ⟨2147483647, "a"⟩, .add_to_pot ⟨1, "b"⟩]).pot = -2147483648 ∧
    (([⟨2147483647, "a"⟩, ⟨1, "b"⟩] : List Bet).map Bet.amount).sum = 2147483648 := by
  decide

/-- C13 (as amended). Starting from an empty pot, after `add_to_pot` calls
with the given bets and no reset in between, the bet history is exactly those
bets in call order, and the total equals the exact sum of the amounts provided
every running total stays within the range of `int`. -/
theorem pot_add_sequence (bets : List Bet)
    (hrange : ∀ k ≤ bets.length, InIntRange (((bets.take k).map Bet.amount).sum)) :
    (Pot.empty.run (bets.map PotOp.add_to_pot)).pot = (bets.map Bet.amount).sum ∧
      (Pot.empty.run (bets.map PotOp.add_to_pot)).bets = bets := by
  have h := pot_run_spec (bets.map PotOp.add_to_pot) (by
    intro k hk
    rw [← List.map_take, (since_reset_adds (bets.take k)).1]
    exact hrange k (by simpa using hk))
  rw [(since_reset_adds bets).1, (since_reset_adds bets).2] at h
  exact h

/-- Witness for C13 (as amended): the bets 10, 5 and 20. -/
theorem pot_add_sequence_witness :
    (Pot.empty.run [.add_to_pot ⟨10, "Alice"⟩, .add_to_pot ⟨5, "Human"⟩,
        .add_to_pot ⟨20, "Bence"⟩]).pot = 35 ∧
      (Pot.empty.run [.add_to_pot ⟨10, "Alice"⟩, .add_to_pot ⟨5, "Human"⟩,
        .add_to_pot ⟨20, "Bence"⟩]).bets = [⟨10, "Alice"⟩, ⟨5, "Human"⟩, ⟨20, "Bence"⟩] :=
  pot_add_sequence [⟨10, "Alice"⟩, ⟨5, "Human"⟩, ⟨20, "Bence"⟩] (by
    intro k hk
    have hk3 : k ≤ 3 := hk
    unfold InIntRange
    interval_cases k <;> simp)

/-- Counterexample to C15 as stated: after a bet of 5 and a reset the total is
0 while the amounts in the history add up to 5. -/
theorem pot_total_after_reset_counterexample :
    (Pot.empty.run [.add_to_pot ⟨5, "a"⟩, .reset]).pot = 0 ∧
    ((Pot.empty.run [.add_to_pot ⟨5, "a"⟩, .reset]).bets.map Bet.amount).sum = 5 := by
  decide

/-- C15 (as amended). In every pot state reached from the empty pot by
`add_to_pot` and `reset` operations, the history holds all the bets ever
added, and the total equals the sum of the amounts of the bets added since the
last reset, provided the running total never leaves the range of `int`. -/
theorem pot_total_since_reset (ops : List PotOp)
    (hrange : ∀ k ≤ ops.length,
      InIntRange (((since_reset (ops.take k)).map Bet.amount).sum)) :
    (Pot.empty.run ops).pot = ((since_reset ops).map Bet.amount).sum ∧
      (Pot.empty.run ops).bets = added_bets ops :=
  pot_run_spec ops hrange

/-- Witness for C15 (as amended): two bets, a reset, one more bet. -/
theorem pot_total_since_reset_witness :
    (Pot.empty.run [.add_to_pot ⟨10, "Alice"⟩, .add_to_pot ⟨5, "Human"⟩, .reset,
        .add_to_pot ⟨20, "Bence"⟩]).pot = 20 ∧
      (Pot.empty.run [.add_to_pot ⟨10, "Alice"⟩, .add_to_pot ⟨5, "Human"⟩, .reset,
        .add_to_pot ⟨20, "Bence"⟩]).bets = [⟨10, "Alice"⟩, ⟨5, "Human"⟩, ⟨20, "Bence"⟩] :=
  pot_total_since_reset [.add_to_pot ⟨10, "Alice"⟩, .add_to_pot ⟨5, "Human"⟩, .reset,
      .add_to_pot ⟨20, "Bence"⟩] (by
    intro k hk
    have hk4 : k ≤ 4 := hk
    unfold InIntRange
    interval_cases k <;> simp [since_reset])

/-- Counterexample to C17 as stated: a player with 5 chips betting 10 is left
with -5 chips, and the pot receives 10. -/
theorem player_bet_no_clamp_counterexample :
    ((⟨"p", 5, ⟨"♥", "2"⟩, ⟨"♦", "3"⟩⟩ : Player).bet 10 Pot.empty).1.chips = -5 ∧
    ((⟨"p", 5, ⟨"♥", "2"⟩, ⟨"♦", "3"⟩⟩ : Player).bet 10 Pot.empty).2.pot = 10 ∧
    ((⟨"p", 5, ⟨"♥", "2"⟩, ⟨"♦", "3"⟩⟩ : Player).bet 10 Pot.empty).2.bets = [⟨10, "p"⟩] := by
  decide

/-- C17 (as amended). For a player with balance `c ≥ 0` and an amount `a > 0`
(both `int` values), `Player::bet(a)` subtracts exactly `a` and hands a bet of
exactly `a` to the pot, without clamping: the balance after the bet is
`c - a`, which is non-negative exactly when `a ≤ c`. -/
theorem player_bet_exact (p : Player) (a : Int) (pot : Pot)
    (hc : 0 ≤ p.chips) (ha : 0 < a) (hcr : InIntRange p.chips) (har : InIntRange a) :
    (p.bet a pot).1.chips = p.chips - a ∧
      (p.bet a pot).2.bets = pot.bets ++ [⟨a, p.name⟩] ∧
      (p.bet a pot).2.pot = int_wrap (pot.pot + a) ∧
      (0 ≤ (p.bet a pot).1.chips ↔ a ≤ p.chips) := by
  have hchips : (p.bet a pot).1.chips = p.chips - a := by
    simp only [Player.bet]
    apply int_wrap_of_range
    unfold InIntRange at *
    norm_num at *
    omega
  refine ⟨hchips, rfl, rfl, ?_⟩
  rw [hchips]
  omega

/-- Witness for C17 (as amended): 100 chips, a bet of 30. -/
theorem player_bet_exact_witness :
    ((⟨"p", 100, ⟨"♥", "2"⟩, ⟨"♦", "3"⟩⟩ : Player).bet 30 Pot.empty).1.chips = 100 - 30 ∧
      ((⟨"p", 100, ⟨"♥", "2"⟩, ⟨"♦", "3"⟩⟩ : Player).bet 30 Pot.empty).2.bets =
        Pot.empty.bets ++ [⟨30, "p"⟩] ∧
      ((⟨"p", 100, ⟨"♥", "2"⟩, ⟨"♦", "3"⟩⟩ : Player).bet 30 Pot.empty).2.pot =
        int_wrap (Pot.empty.pot + 30) ∧
      (0 ≤ ((⟨"p", 100, ⟨"♥", "2"⟩, ⟨"♦", "3"⟩⟩ : Player).bet 30 Pot.empty).1.chips ↔
        (30 : Int) ≤ 100) :=
  player_bet_exact ⟨"p", 100, ⟨"♥", "2"⟩, ⟨"♦", "3"⟩⟩ 30 Pot.empty (by decide) (by decide)
    (by unfold InIntRange; decide) (by unfold InIntRange; decide)

/-- C18. On a deck whose reserve and community cards are empty at the start of
the hand (as built by the constructor or left by `reset`), after `recreate`
and `populate_game_cards` and any sequence of `take_game_card`, `take_flop`,
`take_turn` and `take_river` that the reserve can serve, the pool, the
reserve, the community cards and the cards handed out hold together exactly
the 52 distinct cards, each in one place only, whatever the shuffle. -/
theorem deck_partition (d0 : Deck) (shuffle : List Card → List Card)
    (hshuffle : (shuffle ordered_cards).Perm ordered_cards)
    (hg : d0.game_cards = []) (hc : d0.community_cards = [])
    (d1 : Deck) (hpop : (d0.recreate shuffle).populate_game_cards = some d1)
    (ops : List DeckOp) (d2 : Deck) (dealt : List Card)
    (hrun : Deck.run_ops ops d1 [] = some (d2, dealt)) :
    (d2.cards ++ d2.game_cards ++ d2.community_cards ++ dealt).Perm ordered_cards ∧
      (d2.cards ++ d2.game_cards ++ d2.community_cards ++ dealt).Nodup ∧
      (d2.cards ++ d2.game_cards ++ d2.community_cards ++ dealt).length = 52 ∧
      (∀ c, c ∈ d2.cards ++ d2.game_cards ++ d2.community_cards ++ dealt ↔
        c.suit ∈ container_suits ∧ c.rank ∈ container_ranks) := by
  have h1 := run_ops_perm ops d1 d2 [] dealt hrun
  have h2 := populate_loop_perm _ _ d1 [] hpop
  have h3 : ((d0.recreate shuffle).all_cards []).Perm ordered_cards := by
    simp only [Deck.all_cards, Deck.recreate, hg, hc, List.append_nil]
    exact hshuffle
  have hperm : (d2.all_cards dealt).Perm ordered_cards := (h1.trans h2).trans h3
  simp only [Deck.all_cards] at hperm
  refine ⟨hperm, hperm.nodup_iff.2 (by decide), ?_, ?_⟩
  · rw [hperm.length_eq]; decide
  · intro c
    rw [hperm.mem_iff]
    exact mem_ordered_cards c

/-- Witness for C18: three players, the reversed deck as shuffle, two cards
handed out and the five community cards revealed. -/
theorem deck_partition_witness :
    ∃ d1 d2 dealt,
      (((Deck.new 3 5).recreate List.reverse).populate_game_cards = some d1) ∧
      Deck.run_ops [.take_game_card, .take_game_card, .take_flop, .take_turn, .take_river]
        d1 [] = some (d2, dealt) ∧
      d2.community_cards.length = 5 ∧ dealt.length = 2 ∧
      (d2.cards ++ d2.game_cards ++ d2.community_cards ++ dealt).Perm ordered_cards ∧
      (d2.cards ++ d2.game_cards ++ d2.community_cards ++ dealt).Nodup ∧
      (d2.cards ++ d2.game_cards ++ d2.community_cards ++ dealt).length = 52 ∧
      (∀ c, c ∈ d2.cards ++ d2.game_cards ++ d2.community_cards ++ dealt ↔
        c.suit ∈ container_suits ∧ c.rank ∈ container_ranks) := by
  have hp : (((Deck.new 3 5).recreate List.reverse).populate_game_cards).isSome = true := by
    decide
  obtain ⟨d1, hd1⟩ := Option.isSome_iff_exists.1 hp
  have hr : ((((Deck.new 3 5).recreate List.reverse).populate_game_cards).bind (fun d =>
      Deck.run_ops [.take_game_card, .take_game_card, .take_flop, .take_turn, .take_river]
        d [])).isSome = true := by decide
  rw [hd1] at hr
  obtain ⟨r, hr1⟩ := Option.isSome_iff_exists.1 hr
  obtain ⟨d2, dealt⟩ := r
  have hlen : ((((Deck.new 3 5).recreate List.reverse).populate_game_cards).bind (fun d =>
      Deck.run_ops [.take_game_card, .take_game_card, .take_flop, .take_turn, .take_river]
        d [])).map (fun r => (r.1.community_cards.length, r.2.length)) = some (5, 2) := by
    decide
  rw [hd1] at hlen
  simp only [Option.some_bind] at hr1 hlen
  rw [hr1] at hlen
  simp only [Option.map_some', Option.some.injEq, Prod.mk.injEq] at hlen
  exact ⟨d1, d2, dealt, hd1, hr1, hlen.1, hlen.2,
    deck_partition (Deck.new 3 5) List.reverse (List.reverse_perm _) rfl rfl d1 hd1 _ d2 dealt
      hr1⟩

/-- C19. On a deck whose stage flag is still unset, `take_flop` moves the
three cards at the back of the reserve, and `take_turn` and `take_river` the
one card at the back, to the end of the community cards and change nothing
else but the flag, and a repeated call leaves the deck so obtained unchanged;
on any deck whose stage flag is set the call changes nothing. -/
theorem take_stage_once_only (d : Deck) :
    (∀ g c1 c2 c3, d.flop_is_taken = false → d.game_cards = g ++ [c3, c2, c1] →
      d.take_flop = some (d.after_flop g c1 c2 c3) ∧
      (d.after_flop g c1 c2 c3).take_flop = some (d.after_flop g c1 c2 c3)) ∧
    (∀ g c, d.turn_is_taken = false → d.game_cards = g ++ [c] →
      d.take_turn = some (d.after_turn g c) ∧
      (d.after_turn g c).take_turn = some (d.after_turn g c)) ∧
    (∀ g c, d.river_is_taken = false → d.game_cards = g ++ [c] →
      d.take_river = some (d.after_river g c) ∧
      (d.after_river g c).take_river = some (d.after_river g c)) ∧
    (d.flop_is_taken = true → d.take_flop = some d) ∧
    (d.turn_is_taken = true → d.take_turn = some d) ∧
    (d.river_is_taken = true → d.take_river = some d) := by
  refine ⟨?_, ?_, ?_, ?_, ?_, ?_⟩
  · intro g c1 c2 c3 hf hg
    constructor
    · have h1 := take_game_card_of_back d (g ++ [c3, c2]) c1 (by simp [hg])
      have h2 := take_game_card_of_back { d with game_cards := g ++ [c3, c2] } (g ++ [c3]) c2
        (by simp)
      have h3 := take_game_card_of_back { d with game_cards := g ++ [c3] } g c3 rfl
      rw [Deck.take_flop, if_pos hf]
      simp only [h1, Option.bind_eq_bind, Option.some_bind]
      simp only at h2 h3
      simp only [h2, h3, Option.some_bind, Option.pure_def, Deck.after_flop]
    · simp [Deck.take_flop, Deck.after_flop]
  · intro g c hf hg
    constructor
    · have h1 := take_game_card_of_back d g c hg
      rw [Deck.take_turn, if_pos hf]
      simp only [h1, Option.bind_eq_bind, Option.some_bind, Option.pure_def, Deck.after_turn]
    · simp [Deck.take_turn, Deck.after_turn]
  · intro g c hf hg
    constructor
    · have h1 := take_game_card_of_back d g c hg
      rw [Deck.take_river, if_pos hf]
      simp only [h1, Option.bind_eq_bind, Option.some_bind, Option.pure_def, Deck.after_river]
    · simp [Deck.take_river, Deck.after_river]
  · intro hf; simp [Deck.take_flop, hf]
  · intro hf; simp [Deck.take_turn, hf]
  · intro hf; simp [Deck.take_river, hf]

/-- Witness for C19: a reserve of five cards, the flop taken twice. -/
theorem take_stage_once_only_witness :
    (Deck.mk [] [⟨"♥", "2"⟩, ⟨"♥", "3"⟩, ⟨"♥", "4"⟩, ⟨"♣", "5"⟩, ⟨"♦", "9"⟩] [] 5 3
        false false false).take_flop =
      some (Deck.mk [] [⟨"♥", "2"⟩, ⟨"♥", "3"⟩] [⟨"♦", "9"⟩, ⟨"♣", "5"⟩, ⟨"♥", "4"⟩] 5 3
        true false false) ∧
    (Deck.mk [] [⟨"♥", "2"⟩, ⟨"♥", "3"⟩] [⟨"♦", "9"⟩, ⟨"♣", "5"⟩, ⟨"♥", "4"⟩] 5 3
        true false false).take_flop =
      some (Deck.mk [] [⟨"♥", "2"⟩, ⟨"♥", "3"⟩] [⟨"♦", "9"⟩, ⟨"♣", "5"⟩, ⟨"♥", "4"⟩] 5 3
        true false false) :=
  (take_stage_once_only (Deck.mk [] [⟨"♥", "2"⟩, ⟨"♥", "3"⟩, ⟨"♥", "4"⟩, ⟨"♣", "5"⟩,
    ⟨"♦", "9"⟩] [] 5 3 false false false)).1 [⟨"♥", "2"⟩, ⟨"♥", "3"⟩] ⟨"♦", "9"⟩ ⟨"♣", "5"⟩
    ⟨"♥", "4"⟩ rfl rfl

/-- C16. When a bot with balance `c > 0` commits chips for a requested amount
`x > 0`, as a call in `bot_response` or as a raise in `bot_turn`, the bet
added to the pot is exactly `min x c`, never more than `c`, and the balance of
the bot becomes `c - min x c` in the live roster and in the master roster
(which holds the same balance for it before the bet): exactly 0 when
`x ≥ c`. -/
theorem bot_commits_min (g : Game) (i : Nat) (b m : Player) (x : Int)
    (hb : g.bots_in_the_game[i]? = some b)
    (hm : find_bot b.name g.bot.bots = some m) (hsync : m.chips = b.chips)
    (hc : 0 < b.chips) (hcr : InIntRange b.chips) (hx : 0 < x) :
    min x b.chips ≤ b.chips ∧ (x ≥ b.chips → b.chips - min x b.chips = 0) ∧
    ((bot_call x i b g).pot.bets = g.pot.bets ++ [⟨min x b.chips, b.name⟩] ∧
      (bot_call x i b g).pot.pot = int_wrap (g.pot.pot + min x b.chips) ∧
      (bot_call x i b g).bots_in_the_game[i]? =
        some { b with chips := b.chips - min x b.chips } ∧
      find_bot b.name (bot_call x i b g).bot.bots =
        some { m with chips := b.chips - min x b.chips }) ∧
    ((bot_raise x i b g).1 = min x b.chips ∧
      (bot_raise x i b g).2.pot.bets = g.pot.bets ++ [⟨min x b.chips, b.name⟩] ∧
      (bot_raise x i b g).2.pot.pot = int_wrap (g.pot.pot + min x b.chips) ∧
      (bot_raise x i b g).2.bots_in_the_game[i]? =
        some { b with chips := b.chips - min x b.chips } ∧
      find_bot b.name (bot_raise x i b g).2.bot.bots =
        some { m with chips := b.chips - min x b.chips }) := by
  have hi : i < g.bots_in_the_game.length := by
    rw [List.getElem?_eq_some_iff] at hb
    exact hb.1
  have hmin : 0 < min x b.chips := lt_min hx hc
  have hle : min x b.chips ≤ b.chips := min_le_right _ _
  have key := bet_and_mirror g i b m (min x b.chips) hi hm hsync hmin hle hcr
  refine ⟨hle, fun h => by rw [min_eq_right h]; omega, ?_, ?_⟩
  · unfold bot_call
    by_cases hge : x ≥ b.chips
    · rw [if_pos hge]
      rw [min_eq_right hge] at key ⊢
      exact key
    · rw [if_neg hge]
      have : min x b.chips = x := min_eq_left (by omega)
      rw [this] at key ⊢
      exact key
  · unfold bot_raise
    by_cases hgt : x > b.chips
    · rw [if_pos hgt]
      have : min x b.chips = b.chips := min_eq_right (by omega)
      rw [this] at key ⊢
      exact ⟨rfl, key⟩
    · rw [if_neg hgt]
      have : min x b.chips = x := min_eq_left (by omega)
      rw [this] at key ⊢
      exact ⟨rfl, key⟩

/-- Witness for C16: a bot with 30 chips asked for 50 goes all-in. -/
theorem bot_commits_min_witness :
    (bot_call 50 0 ⟨"Alice", 30, ⟨"♠", "A"⟩, ⟨"♠", "K"⟩⟩
      { difficulty := 2, nr_of_bots := 1, starting_chips := 100,
        deck := Deck.new 2 5,
        bot := ⟨[⟨"Alice", 30, ⟨"♠", "A"⟩, ⟨"♠", "K"⟩⟩], []⟩,
        human := ⟨"Human", 100, ⟨"♠", "Q"⟩, ⟨"♦", "J"⟩⟩, pot := Pot.empty,
        bots_in_the_game := [⟨"Alice", 30, ⟨"♠", "A"⟩, ⟨"♠", "K"⟩⟩],
        bot_initial_copy := [⟨"Alice", 30, ⟨"♠", "A"⟩, ⟨"♠", "K"⟩⟩],
        all_players_initial_copy := [⟨"Alice", 30, ⟨"♠", "A"⟩, ⟨"♠", "K"⟩⟩,
          ⟨"Human", 100, ⟨"♠", "Q"⟩, ⟨"♦", "J"⟩⟩],
        human_in_the_game := true, it_is_the_first_game := true }).pot.bets =
      Pot.empty.bets ++ [⟨min 50 30, "Alice"⟩] :=
  (bot_commits_min
    { difficulty := 2, nr_of_bots := 1, starting_chips := 100,
      deck := Deck.new 2 5,
      bot := ⟨[⟨"Alice", 30, ⟨"♠", "A"⟩, ⟨"♠", "K"⟩⟩], []⟩,
      human := ⟨"Human", 100, ⟨"♠", "Q"⟩, ⟨"♦", "J"⟩⟩, pot := Pot.empty,
      bots_in_the_game := [⟨"Alice", 30, ⟨"♠", "A"⟩, ⟨"♠", "K"⟩⟩],
      bot_initial_copy := [⟨"Alice", 30, ⟨"♠", "A"⟩, ⟨"♠", "K"⟩⟩],
      all_players_initial_copy := [⟨"Alice", 30, ⟨"♠", "A"⟩, ⟨"♠", "K"⟩⟩,
        ⟨"Human", 100, ⟨"♠", "Q"⟩, ⟨"♦", "J"⟩⟩],
      human_in_the_game := true, it_is_the_first_game := true }
    0 ⟨"Alice", 30, ⟨"♠", "A"⟩, ⟨"♠", "K"⟩⟩ ⟨"Alice", 30, ⟨"♠", "A"⟩, ⟨"♠", "K"⟩⟩ 50
    (by decide) (by decide) (by decide) (by decide) (by unfold InIntRange; decide)
    (by decide)).2.2.1.1

/-- C20. The round loop of `run` starts from a deck with no community cards
and the three flags unset. Whatever the random draws and the inputs of the
human are, when the loop ends (after round 4 or by one of its two `break`s)
the deck that `determine_winner` reads holds exactly 5 community cards, and
the flop, the turn and the river are all marked as taken. -/
theorem round_loop_reveals_five (bet_size : Int → Int → Int → Int) (g g1 : Game)
    (o o1 : Oracle) (hc : g.deck.community_cards = []) (hf : g.deck.flop_is_taken = false)
    (ht : g.deck.turn_is_taken = false) (hr : g.deck.river_is_taken = false)
    (h : round_loop bet_size g o = some (g1, o1)) :
    g1.deck.get_community_cards.length = 5 ∧ g1.deck.flop_is_taken = true ∧
      g1.deck.turn_is_taken = true ∧ g1.deck.river_is_taken = true := by
  have hi : g.deck.flags_agree := by
    unfold Deck.flags_agree Deck.revealed_count
    rw [hc, hf, ht, hr]
    rfl
  obtain ⟨h1, h2⟩ := round_loop_stage bet_size g g1 o o1 h hi
  exact ⟨five_of_all_revealed _ h1 h2, h2⟩

/-- Witness for C20: on `sample_game` with `sample_oracle` the round loop
ends, and it ends with five community cards. -/
theorem round_loop_reveals_five_witness :
    ∃ g1 o1, round_loop (fun _ sc r => r + sc * r / 200) sample_game sample_oracle =
        some (g1, o1) ∧ g1.deck.get_community_cards.length = 5 :=
  match hr : round_loop (fun _ sc r => r + sc * r / 200) sample_game sample_oracle,
    (by decide : (round_loop (fun _ sc r => r + sc * r / 200) sample_game
      sample_oracle).isSome = true) with
  | some (g1, o1), _ =>
    ⟨g1, o1, rfl, (round_loop_reveals_five _ sample_game g1 sample_oracle o1 rfl rfl rfl rfl
      hr).1⟩

/-- C29. `delete_defeated_bots` keeps exactly the bots whose balance is not 0,
unchanged and in their order, and a response pass of a hand never removes a
bot whose balance is 0 from the live roster. -/
theorem delete_defeated_bots_filter (b : Bot) :
    b.delete_defeated_bots.bots = b.bots.filter (fun object => object.chips ≠ 0) ∧
      (∀ object ∈ b.delete_defeated_bots.bots, object.chips ≠ 0) ∧
      (∀ object ∈ b.bots, object.chips ≠ 0 → object ∈ b.delete_defeated_bots.bots) ∧
      b.delete_defeated_bots.bots.Sublist b.bots ∧
      (∀ bet_amount raiser g rand g1 rand1,
        bot_response bet_amount raiser g rand = some (g1, rand1) →
        ∀ object ∈ g.bots_in_the_game, object.chips = 0 → object ∈ g1.bots_in_the_game) := by
  have heq : b.delete_defeated_bots.bots = b.bots.filter (fun object => object.chips ≠ 0) := by
    simp only [Bot.delete_defeated_bots, delete_defeated_loop_eq, List.nil_append]
  refine ⟨heq, ?_, ?_, ?_, ?_⟩
  · intro object hmem
    rw [heq, List.mem_filter] at hmem
    simpa using hmem.2
  · intro object hmem hne
    rw [heq, List.mem_filter]
    exact ⟨hmem, by simpa using hne⟩
  · rw [heq]
    exact List.filter_sublist _
  · intro bet_amount raiser g rand g1 rand1 h object hmem hz
    exact bot_response_keeps_zero _ _ _ _ _ _ _ h hmem hz

/-- Witness for C29: of Alice (0 chips), Bence (40) and Carol (0) only Bence
is kept; in a response pass to a bet of 10 in which fold is drawn for every
bot, Alice, without chips, stays in the live roster. -/
theorem delete_defeated_bots_filter_witness :
    (Bot.delete_defeated_bots ⟨[⟨"Alice", 0, ⟨"♠", "A"⟩, ⟨"♠", "K"⟩⟩,
        ⟨"Bence", 40, ⟨"♠", "7"⟩, ⟨"♦", "7"⟩⟩, ⟨"Carol", 0, ⟨"♥", "2"⟩, ⟨"♦", "3"⟩⟩], []⟩).bots =
      [⟨"Bence", 40, ⟨"♠", "7"⟩, ⟨"♦", "7"⟩⟩] ∧
    ∃ g1 rand1,
      bot_response 10 "none"
        { sample_game with bots_in_the_game := [⟨"Alice", 0, ⟨"♠", "A"⟩, ⟨"♠", "K"⟩⟩,
            ⟨"Bence", 40, ⟨"♠", "7"⟩, ⟨"♦", "7"⟩⟩] } [0, 0] = some (g1, rand1) ∧
      (⟨"Alice", 0, ⟨"♠", "A"⟩, ⟨"♠", "K"⟩⟩ : Player) ∈ g1.bots_in_the_game :=
  ⟨(delete_defeated_bots_filter _).1.trans (by decide),
    match hr : bot_response 10 "none"
        { sample_game with bots_in_the_game := [⟨"Alice", 0, ⟨"♠", "A"⟩, ⟨"♠", "K"⟩⟩,
            ⟨"Bence", 40, ⟨"♠", "7"⟩, ⟨"♦", "7"⟩⟩] } [0, 0],
      (by decide : (bot_response 10 "none"
        { sample_game with bots_in_the_game := [⟨"Alice", 0, ⟨"♠", "A"⟩, ⟨"♠", "K"⟩⟩,
            ⟨"Bence", 40, ⟨"♠", "7"⟩, ⟨"♦", "7"⟩⟩] } [0, 0]).isSome = true) with
    | some (g1, rand1), _ =>
      ⟨g1, rand1, rfl, (delete_defeated_bots_filter sample_game.bot).2.2.2.2 _ _ _ _ _ _ hr _
        (by decide) rfl⟩⟩

/-- C30. Whatever the cards, a result of `evaluate_hand` never has the
category `straight_flush` or `royal_flush`: its category is one of `high_card`
to `four_of_a_kind`; and with at least four cards in all a result is
returned. -/
theorem evaluate_hand_never_straight_flush (card1 card2 : Card) (community_cards : List Card) :
    (∀ c t, evaluate_hand card1 card2 community_cards = some (c, t) →
      c ≠ .straight_flush ∧ c ≠ .royal_flush ∧
      c ∈ [Poker_Ranks.high_card, .pair, .two_pair, .three_of_a_kind, .straight, .flush,
        .full_house, .four_of_a_kind]) ∧
    (2 ≤ community_cards.length → community_cards.length + 2 < 2 ^ 64 →
      ∃ c t, evaluate_hand card1 card2 community_cards = some (c, t)) := by
  constructor
  · intro c t h
    obtain ⟨found, hfound⟩ := evaluate_hand_some_found _ _ _ _ h
    obtain ⟨c1, hc1, hlast⟩ := evaluate_hand_of_found_some _ _ _ found hfound
    rw [h] at hc1
    have hcc : c = c1 := (Prod.mk.inj (Option.some.inj hc1)).1
    subst hcc
    have hmem := List.mem_of_getLast?_eq_some hlast
    rw [final_ranking_eq, mem_segments] at hmem
    obtain ⟨s, hs, -, rfl⟩ := hmem
    simp only [ranking_segments, List.mem_cons, List.mem_singleton, List.not_mem_nil,
      or_false] at hs
    rcases hs with rfl | rfl | rfl | rfl | rfl | rfl | rfl | rfl <;> simp
  · intro hlo hhi
    obtain ⟨found, hfound⟩ := straight_loop_defined_of_length card1 card2 community_cards hlo hhi
    obtain ⟨c, hc, -⟩ := evaluate_hand_of_found_some _ _ _ found hfound
    exact ⟨c, _, hc⟩

/-- Witness for C30: the royal flush A♥ K♥ Q♥ J♥ 10♥ with 2♣ 3♦ evaluates
to a flush. -/
theorem evaluate_hand_never_straight_flush_witness :
    evaluate_hand ⟨"♥", "A"⟩ ⟨"♥", "K"⟩
        [⟨"♥", "Q"⟩, ⟨"♥", "J"⟩, ⟨"♥", "10"⟩, ⟨"♣", "2"⟩, ⟨"♦", "3"⟩] = some (.flush, 14) ∧
      Poker_Ranks.flush ≠ .straight_flush ∧ Poker_Ranks.flush ≠ .royal_flush :=
  ⟨by decide,
    ((evaluate_hand_never_straight_flush ⟨"♥", "A"⟩ ⟨"♥", "K"⟩
      [⟨"♥", "Q"⟩, ⟨"♥", "J"⟩, ⟨"♥", "10"⟩, ⟨"♣", "2"⟩, ⟨"♦", "3"⟩]).1 .flush 14
        (by decide)).1,
    ((evaluate_hand_never_straight_flush ⟨"♥", "A"⟩ ⟨"♥", "K"⟩
      [⟨"♥", "Q"⟩, ⟨"♥", "J"⟩, ⟨"♥", "10"⟩, ⟨"♣", "2"⟩, ⟨"♦", "3"⟩]).1 .flush 14
        (by decide)).2.1⟩

/-- C28. On a deck just recreated whose reserve is empty, with non-negative
`nr_of_players` and `nr_of_community_cards` asking for at most 52 cards,
`populate_game_cards` never reads an empty pool and leaves that many cards in
the reserve and the rest of the 52 in the pool. For 1 to 20 bots, the deck of
the game (one more player than bots, 5 community cards) asks for at most 47
cards, and no sequence of calls with at most two `take_game_card` per player
ever reads an empty reserve. -/
theorem populate_game_cards_safe (shuffle : List Card → List Card)
    (hshuffle : (shuffle ordered_cards).Perm ordered_cards) :
    (∀ d0 : Deck, d0.game_cards = [] → 0 ≤ d0.nr_of_players → 0 ≤ d0.nr_of_community_cards →
      d0.nr_of_community_cards + 2 * d0.nr_of_players ≤ 52 →
      ∃ d1, (d0.recreate shuffle).populate_game_cards = some d1 ∧
        (d1.game_cards.length : Int) = d0.nr_of_community_cards + 2 * d0.nr_of_players ∧
        (d1.cards.length : Int) = 52 - (d0.nr_of_community_cards + 2 * d0.nr_of_players)) ∧
    (∀ nr_of_bots : Int, 1 ≤ nr_of_bots → nr_of_bots ≤ 20 →
      5 + 2 * (nr_of_bots + 1) ≤ 47 ∧
      ∃ d1, ((Deck.new (nr_of_bots + 1) 5).recreate shuffle).populate_game_cards = some d1 ∧
        (d1.game_cards.length : Int) = 5 + 2 * (nr_of_bots + 1) ∧
        ∀ ops : List DeckOp, (ops.count .take_game_card : Int) ≤ 2 * (nr_of_bots + 1) →
          ∃ d2 dealt, Deck.run_ops ops d1 [] = some (d2, dealt)) := by
  constructor
  · intro d0 hg hp hc hsum
    obtain ⟨d1, h1, h2, h3, -⟩ := populate_game_cards_lengths shuffle hshuffle d0 hg hp hc hsum
    exact ⟨d1, h1, h2, h3⟩
  · intro nr_of_bots hlo hhi
    refine ⟨by omega, ?_⟩
    obtain ⟨d1, h1, h2, -, -⟩ := populate_game_cards_lengths shuffle hshuffle
      (Deck.new (nr_of_bots + 1) 5) rfl (by simp only [Deck.new]; omega)
      (by simp only [Deck.new]; omega) (by simp only [Deck.new]; omega)
    simp only [Deck.new] at h2
    refine ⟨d1, h1, h2, ?_⟩
    intro ops hops
    apply run_ops_some
    omega

/-- Witness for C28: a game with two bots reserves 11 cards and leaves 41 in
the pool, and dealing two cards to each of the three players and the five
community cards succeeds. -/
theorem populate_game_cards_safe_witness :
    (∃ d1, ((Deck.new 3 5).recreate List.reverse).populate_game_cards = some d1 ∧
      (d1.game_cards.length : Int) = 5 + 2 * 3 ∧ (d1.cards.length : Int) = 52 - (5 + 2 * 3)) ∧
    (∃ d1, ((Deck.new (2 + 1) 5).recreate List.reverse).populate_game_cards = some d1 ∧
      ∃ d2 dealt, Deck.run_ops [.take_game_card, .take_game_card, .take_game_card,
        .take_game_card, .take_game_card, .take_game_card, .take_flop, .take_turn,
        .take_river] d1 [] = some (d2, dealt)) :=
  ⟨(populate_game_cards_safe List.reverse (List.reverse_perm _)).1 (Deck.new 3 5) rfl
      (by decide) (by decide) (by decide),
    match ((populate_game_cards_safe List.reverse (List.reverse_perm _)).2 2 (by decide)
      (by decide)).2 with
    | ⟨d1, h1, _, h3⟩ => ⟨d1, h1, h3 _ (by decide)⟩⟩

/-- In `human_turn` with at least one live bot, a raise of an amount `a` that
an `int` holds is rejected when `a ≤ 0`, or `a` exceeds the balance of the
human, or `a` exceeds the largest balance among the live bots: the game then
reads the next attempt in the same state. Otherwise it is accepted: the
balance of the human drops by `a`, a bet of `a` is added to the pot, and the
bots respond to `a` in that state. -/
theorem human_turn_raise_in_range (g : Game) (rand : List Nat) (a : Int)
    (rest : List HumanInput) (hne : g.bots_in_the_game ≠ []) (hcr : InIntRange g.human.chips)
    (ha : InIntRange a) :
    ∃ m, max_element_chips g.bots_in_the_game = some m ∧ m ∈ g.bots_in_the_game ∧
      (∀ b ∈ g.bots_in_the_game, b.chips ≤ m.chips) ∧
      ((a ≤ 0 ∨ a > g.human.chips ∨ a > m.chips) →
        human_turn g ⟨rand, ⟨"raise", .number a⟩ :: rest⟩ = human_turn g ⟨rand, rest⟩) ∧
      (¬ (a ≤ 0 ∨ a > g.human.chips ∨ a > m.chips) → InIntRange (g.pot.pot + a) →
        human_turn g ⟨rand, ⟨"raise", .number a⟩ :: rest⟩ =
          (bot_response a "none"
            { g with human := { g.human with chips := g.human.chips - a },
                     pot := ⟨g.pot.pot + a, g.pot.bets ++ [⟨a, g.human.name⟩]⟩ }
            rand).map (fun r => (true, r.1, ⟨r.2, rest⟩))) := by
  obtain ⟨m, hm, hmem, hmax⟩ := max_element_chips_spec g.bots_in_the_game hne
  have hv := cin_int_of_range a ha
  have hok := cin_ok_of_range a ha
  refine ⟨m, hm, hmem, hmax, ?_, ?_⟩
  · intro hrej
    simp only [human_turn, human_turn_loop, hm, hv, hok]
    rw [if_neg (by decide), if_pos trivial, if_pos hrej, if_pos trivial]
  · intro hacc hpot
    simp only [human_turn, human_turn_loop, hm, hv, hok]
    rw [if_neg (by decide), if_pos trivial, if_neg hacc]
    have hb := player_bet_chips g.human a g.pot hcr (by omega) (by omega)
    rw [hb]
    simp only [Player.bet, Pot.add_to_pot, int_wrap_of_range _ hpot, if_true]
    cases bot_response a "none" _ rand with
    | none => rfl
    | some r => rfl

/-- C26 at a failing input. With 100 chips and bots holding 100, the human
types `raise 99999999999` and then `check`. No `int` holds the number: the
extraction fails and leaves the largest `int`, the raise is refused, and the
stream stays failed, so the `check` is never read and `human_turn` does not
return. The same happens when the human types a text that is no number after
`raise`. A refused raise of 150, which an `int` holds, is followed by the
`check`. -/
theorem human_turn_stream_fails :
    cin_ok (.number 99999999999) = false ∧ cin_int (.number 99999999999) = 2147483647 ∧
    human_turn sample_game ⟨[], [⟨"raise", .number 99999999999⟩, ⟨"check", .number 0⟩]⟩ =
      none ∧
    cin_ok .text = false ∧ cin_int .text = 0 ∧
    human_turn sample_game ⟨[], [⟨"raise", .text⟩, ⟨"check", .number 0⟩]⟩ = none ∧
    human_turn sample_game ⟨[], [⟨"raise", .number 150⟩, ⟨"check", .number 0⟩]⟩ =
      some (false, sample_game, ⟨[], []⟩) := by
  decide

/-- C27. In `human_response(amount)` a raise is rejected with the state
unchanged when the balance of the human is at most `amount` (nothing more is
read of the attempt), or, with at least one live bot, when the extra amount
extracted is not positive, exceeds the balance minus `amount`, or exceeds the
largest balance among the live bots. The loop then goes on from the same
state: it reads the next attempt, unless the extraction of the number failed,
after which nothing is read any more and the loop does not end. Otherwise the
human bets `amount` and then the extra amount, and the bots respond to the
extra amount alone. The extraction succeeds for a number that an `int` holds
and for nothing else, and the extra amount extracted is then the number
typed. -/
theorem human_response_raise (amount : Int) (g : Game) (rand : List Nat) (e : TypedAmount)
    (rest : List HumanInput) (hcr : InIntRange g.human.chips) (ham : 0 ≤ amount) :
    (cin_ok e = true ↔ ∃ typed, e = .number typed ∧ InIntRange typed) ∧
    (∀ typed, e = .number typed → InIntRange typed → cin_int e = typed) ∧
    (g.human.chips ≤ amount →
      human_response amount g ⟨rand, ⟨"raise", e⟩ :: rest⟩ =
        human_response amount g ⟨rand, rest⟩) ∧
    (g.human.chips > amount → g.bots_in_the_game ≠ [] →
      ∃ m, max_element_chips g.bots_in_the_game = some m ∧ m ∈ g.bots_in_the_game ∧
        (∀ b ∈ g.bots_in_the_game, b.chips ≤ m.chips) ∧
        ((cin_int e ≤ 0 ∨ cin_int e > g.human.chips - amount ∨ cin_int e > m.chips) →
          human_response amount g ⟨rand, ⟨"raise", e⟩ :: rest⟩ =
            if cin_ok e = true then human_response amount g ⟨rand, rest⟩ else none) ∧
        (¬ (cin_int e ≤ 0 ∨ cin_int e > g.human.chips - amount ∨ cin_int e > m.chips) →
          InIntRange g.pot.pot → InIntRange (g.pot.pot + (amount + cin_int e)) →
          human_response amount g ⟨rand, ⟨"raise", e⟩ :: rest⟩ =
            (bot_response (cin_int e) "na"
              { g with
                human := { g.human with chips := g.human.chips - (amount + cin_int e) },
                pot := ⟨g.pot.pot + (amount + cin_int e),
                  g.pot.bets ++ [⟨amount, g.human.name⟩, ⟨cin_int e, g.human.name⟩]⟩ }
              rand).map (fun r => (r.1, ⟨r.2, if cin_ok e = true then rest else []⟩)))) := by
  refine ⟨cin_ok_iff e, fun typed he hr => by rw [he]; exact cin_int_of_range typed hr, ?_, ?_⟩
  · intro hle
    simp only [human_response, human_response_loop]
    rw [if_neg (by decide), if_neg (by decide), if_pos trivial, if_pos hle]
  · intro hgt hne
    obtain ⟨m, hm, hmem, hmax⟩ := max_element_chips_spec g.bots_in_the_game hne
    have hsub : int_wrap (g.human.chips - amount) = g.human.chips - amount := by
      apply int_wrap_of_range
      unfold InIntRange at *
      omega
    refine ⟨m, hm, hmem, hmax, ?_, ?_⟩
    · intro hrej
      simp only [human_response, human_response_loop, hm, hsub]
      rw [if_neg (by decide), if_neg (by decide), if_pos trivial, if_neg (by omega),
        if_pos hrej]
    · intro hacc hp1 hp2
      simp only [human_response, human_response_loop, hm, hsub]
      rw [if_neg (by decide), if_neg (by decide), if_pos trivial, if_neg (by omega),
        if_neg hacc]
      have h1 : int_wrap (g.pot.pot + amount) = g.pot.pot + amount := by
        apply int_wrap_of_range
        unfold InIntRange at *
        omega
      have h2 : int_wrap (g.pot.pot + amount + cin_int e) =
          g.pot.pot + (amount + cin_int e) := by
        rw [add_assoc]
        exact int_wrap_of_range _ hp2
      have h3 : int_wrap (g.human.chips - amount - cin_int e) =
          g.human.chips - (amount + cin_int e) := by
        rw [sub_sub]
        apply int_wrap_of_range
        unfold InIntRange at *
        omega
      simp only [Player.bet, Pot.add_to_pot, hsub, h1, h2, h3, List.append_assoc,
        List.singleton_append]
      cases bot_response (cin_int e) "na" _ rand with
      | none => rfl
      | some r => rfl

/-- Witness for C27: asked for 10 with 100 chips, the human raises by 20; 30
chips go to the pot and the bots respond to 20. -/
theorem human_response_raise_witness :
    human_response 10 sample_game ⟨[1, 1], [⟨"raise", .number 20⟩]⟩ =
      (bot_response 20 "na"
        { sample_game with human := { sample_game.human with chips := 100 - (10 + 20) },
                           pot := ⟨0 + (10 + 20), [⟨10, "Human"⟩, ⟨20, "Human"⟩]⟩ }
        [1, 1]).map (fun r => (r.1, ⟨r.2, []⟩)) := by
  obtain ⟨m, _, _, hmax, _, hacc⟩ := (human_response_raise 10 sample_game [1, 1] (.number 20) []
    (by unfold InIntRange; decide) (by decide)).2.2.2 (by decide) (by decide)
  have h100 : (100 : Int) ≤ m.chips := hmax ⟨"Alice", 100, ⟨"♠", "A"⟩, ⟨"♠", "K"⟩⟩ (by decide)
  have hchips : sample_game.human.chips = 100 := rfl
  have hv : cin_int (.number 20) = 20 := by decide
  rw [hv] at hacc
  have h := hacc (by rw [hchips]; omega) (by unfold InIntRange; decide)
    (by unfold InIntRange; decide)
  simp only [ite_self] at h
  exact h

/-- C24. Once all bots have folded with the human still in, nothing is bet
in the hand. The live roster becomes empty only in a response pass of the
bots. When `human_response` or `human_turn` starts with a live bot and ends
with none, what it returns is the state of the response pass to the raise of
the human; when `bot_turn` ends with none, its last action was such a
`human_response`; when round 1 ends with none, its last action was the
response pass to the big blind or such a `human_response`, and when that pass
leaves no bot the human is not asked. An iteration of the round loop whose
first part, or whose turn of the human, ends with no live bot leaves the loop
at once by `take_flop`, `take_turn`, `take_river` in the state reached; every
iteration that ends with no live bot and the human in did nothing after the
function that emptied the roster but reveal cards. After an iteration that
ends with no live bot the rest of the loop reads no input, draws no number and
changes neither the pot nor a balance. Every iteration that leaves the loop,
and the loop as a whole, ends with 5 community cards. -/
theorem roster_emptied_no_more_bets (bet_size : Int → Int → Int → Int) :
    (∀ amount g g1 rand human o1,
      human_response_loop amount g rand human = some (g1, o1) →
      g.bots_in_the_game ≠ [] → g1.bots_in_the_game = [] →
      ∃ input ∈ human, ∃ rand1, input.action = "raise" ∧
        bot_response (cin_int input.amount) "na"
          (human_raise_state amount (cin_int input.amount) g) rand = some (g1, rand1) ∧
        o1.rand = rand1) ∧
    (∀ g g1 rand human r o1,
      human_turn_loop g rand human = some (r, g1, o1) →
      g.bots_in_the_game ≠ [] → g1.bots_in_the_game = [] →
      r = true ∧ ∃ input ∈ human, ∃ rand1, input.action = "raise" ∧
        bot_response (cin_int input.amount) "none"
          (human_bet_state (cin_int input.amount) g) rand = some (g1, rand1) ∧
        o1.rand = rand1) ∧
    (∀ g g1 o o1,
      bot_turn bet_size g o = some (g1, o1) →
      g.bots_in_the_game ≠ [] → g1.bots_in_the_game = [] →
      ∃ it1 b x rand1 g2 rand2, g.bots_in_the_game[it1]? = some b ∧ b.chips > 0 ∧
        bot_response
          (bot_raise (raise_request (bet_size g.difficulty g.starting_chips x) x) it1 b g).1
          b.name
          (bot_raise (raise_request (bet_size g.difficulty g.starting_chips x) x) it1 b g).2
          rand1 = some (g2, rand2) ∧
        g2.bots_in_the_game ≠ [] ∧ g2.human_in_the_game = true ∧ g2.human.chips > 0 ∧
        human_response
          (bot_raise (raise_request (bet_size g.difficulty g.starting_chips x) x) it1 b g).1
          g2 ⟨rand2, o.human⟩ = some (g1, o1)) ∧
    (∀ g g1 o o1,
      round_one g o = some (g1, o1) → g1.bots_in_the_game = [] →
      ∃ player1 player2 rand1 g2 rand2,
        get_two_random_players g.all_players_initial_copy o.rand =
          some ((player1, player2), rand1) ∧
        bot_response (big_blind_of g.starting_chips g.difficulty) player1.name
          (if player1.name = "Human" then g
            else big_blind_loop player1.name (big_blind_of g.starting_chips g.difficulty)
              g.bots_in_the_game.length 0 g) rand1 = some (g2, rand2) ∧
        ((g2.bots_in_the_game = [] ∧ g1 = g2 ∧ o1 = ⟨rand2, o.human⟩) ∨
          (g2.bots_in_the_game ≠ [] ∧ ∃ amount gh,
            (gh = g2 ∨
              gh = human_bet_state (small_blind_of g.starting_chips g.difficulty) g2) ∧
            human_response amount gh ⟨rand2, o.human⟩ = some (g1, o1)))) ∧
    (∀ g o player1 player2 rand1 g2 rand2,
      get_two_random_players g.all_players_initial_copy o.rand =
        some ((player1, player2), rand1) →
      bot_response (big_blind_of g.starting_chips g.difficulty) player1.name
        (if player1.name = "Human" then g
          else big_blind_loop player1.name (big_blind_of g.starting_chips g.difficulty)
            g.bots_in_the_game.length 0 g) rand1 = some (g2, rand2) →
      g2.bots_in_the_game = [] →
      round_one g o = some (g2, ⟨rand2, o.human⟩)) ∧
    (∀ round g o g1 o1, round_start round g o = some (g1, o1) → g1.bots_in_the_game = [] →
      run_round bet_size round g o =
        (take_all g1.deck).map (fun d => (true, { g1 with deck := d }, o1))) ∧
    (∀ round g o g1 o1 responded g2 o2, round ≠ 1 → round_start round g o = some (g1, o1) →
      highest_chips g1.bots_in_the_game ≠ 0 → g1.human_in_the_game = true →
      g1.human.chips > 0 → human_turn g1 o1 = some (responded, g2, o2) →
      g2.bots_in_the_game = [] → g2.human_in_the_game = true →
      run_round bet_size round g o =
        (take_all g2.deck).map (fun d => (true, { g2 with deck := d }, o2))) ∧
    (∀ round g g1 o o1 brk,
      run_round bet_size round g o = some (brk, g1, o1) →
      g1.bots_in_the_game = [] → g1.human_in_the_game = true →
      ∃ gs os, round_start round g o = some (gs, os) ∧
        ((gs.bots_in_the_game = [] ∧ brk = true ∧ o1 = os ∧
            ∃ d, take_all gs.deck = some d ∧ g1 = { gs with deck := d }) ∨
          (gs.bots_in_the_game ≠ [] ∧ round ≠ 1 ∧ brk = true ∧
            ∃ g2, human_turn gs os = some (true, g2, o1) ∧ g2.bots_in_the_game = [] ∧
              ∃ d, take_all g2.deck = some d ∧ g1 = { g2 with deck := d }) ∨
          (gs.bots_in_the_game ≠ [] ∧ round ≠ 1 ∧ brk = false ∧
            ∃ g2 o2,
              (if gs.human_in_the_game = true ∧ gs.human.chips > 0 ∧ round ≠ 1 then
                human_turn gs os else some (false, gs, os)) = some (false, g2, o2) ∧
              g2.bots_in_the_game ≠ [] ∧ bot_turn bet_size g2 o2 = some (g1, o1)))) ∧
    (∀ round g o brk g1 o1, round ≠ 1 → g.bots_in_the_game = [] →
      run_round bet_size round g o = some (brk, g1, o1) →
      brk = true ∧ o1 = o ∧ g1.pot = g.pot ∧ g1.human = g.human ∧ g1.bot = g.bot ∧
        g1.bots_in_the_game = []) ∧
    (∀ round rest g g2 g1 o o2 o1 brk,
      run_round bet_size round g o = some (brk, g2, o2) → g2.bots_in_the_game = [] →
      1 ∉ rest → run_rounds bet_size (round :: rest) g o = some (g1, o1) →
      o1 = o2 ∧ g1.pot = g2.pot ∧ g1.human = g2.human ∧ g1.bot = g2.bot ∧
        g1.bots_in_the_game = [] ∧ g1.human_in_the_game = g2.human_in_the_game) ∧
    (∀ d d1, take_all d = some d1 → d.flags_agree → d1.get_community_cards.length = 5) ∧
    (∀ round g g1 o o1 brk,
      run_round bet_size round g o = some (brk, g1, o1) → 1 ≤ round ∧ round ≤ 4 →
      g.deck.revealed_up_to (round - 1) →
      (brk = true → g1.deck.get_community_cards.length = 5) ∧
        (brk = false → g1.deck.revealed_up_to round)) ∧
    (∀ g g1 o o1,
      round_loop bet_size g o = some (g1, o1) → g.deck.flags_agree →
      g1.deck.get_community_cards.length = 5) := by
  refine ⟨?_, ?_, ?_, ?_, ?_, ?_, ?_, ?_, ?_, ?_, ?_, ?_, ?_⟩
  · intro amount g g1 rand human o1 h hne he
    exact human_response_loop_emptied amount g g1 rand human o1 h hne he
  · intro g g1 rand human r o1 h hne he
    exact human_turn_loop_emptied g g1 rand human r o1 h hne he
  · intro g g1 o o1 h hne he
    exact bot_turn_loop_emptied bet_size g g1 o.human 0 o.rand o1 h hne he
  · intro g g1 o o1 h he
    exact round_one_emptied g g1 o o1 h he
  · intro g o player1 player2 rand1 g2 rand2 hp hr he
    unfold round_one
    simp only [hp, hr]
    rw [if_neg (by rw [he]; simp)]
  · intro round g o g1 o1 h he
    exact run_round_no_bots bet_size round g g1 o o1 h he
  · intro round g o g1 o1 responded g2 o2 hround hs hh hin hchips ht he hin2
    unfold run_round
    simp only [hs]
    rw [if_neg hh, if_pos ⟨hin, hchips, hround⟩]
    simp only [ht]
    rw [if_neg (by rw [he]; simp), if_pos (Or.inl ⟨by rw [he]; rfl, hin2⟩)]
  · intro round g g1 o o1 brk h he hin
    exact run_round_emptied bet_size round g g1 o o1 brk h he hin
  · intro round g o brk g1 o1 hround he h
    cases hs : round_start round g o with
    | none =>
      unfold run_round at h
      simp [hs] at h
    | some r =>
      obtain ⟨g2, o2⟩ := r
      obtain ⟨ho, hpot, hhum, hbot, hbots, -⟩ := round_start_frame round g g2 o o2 hround hs
      rw [run_round_no_bots bet_size round g g2 o o2 hs (by rw [hbots, he])] at h
      simp only [Option.map_eq_some', Prod.mk.injEq] at h
      obtain ⟨d, -, rfl, rfl, rfl⟩ := h
      exact ⟨rfl, ho, hpot, hhum, hbot, by rw [← he, ← hbots]⟩
  · intro round rest g g2 g1 o o2 o1 brk hrun he h1 h
    simp only [run_rounds, hrun] at h
    cases brk with
    | true =>
      simp only [Option.some.injEq, Prod.mk.injEq] at h
      obtain ⟨rfl, rfl⟩ := h
      exact ⟨rfl, rfl, rfl, rfl, he, rfl⟩
    | false => exact run_rounds_empty bet_size rest g2 g1 o2 o1 h1 he h
  · intro d d1 h hi
    obtain ⟨h1, h2⟩ := take_all_stage d d1 h hi
    exact five_of_all_revealed d1 h1 h2
  · intro round g g1 o o1 brk h hr hp
    obtain ⟨h1, h2⟩ := run_round_stage bet_size round g g1 o o1 brk h hr hp
    exact ⟨fun hb => five_of_all_revealed _ (h1 hb).1 (h1 hb).2, h2⟩
  · intro g g1 o o1 h hi
    obtain ⟨h1, h2⟩ := round_loop_stage bet_size g g1 o o1 h hi
    exact five_of_all_revealed _ h1 h2

/-- Witness for C24. Asked for 10 in `sample_game`, the human raises by 20
and both bots fold: `human_response` returns the state of that response pass,
with the 30 chips of the human as the only bets. In round 2 of `sample_game`
the human raises 20 and both bots fold: the iteration ends by the three reveal
calls, with the 20 chips of the human as the only bet of the pot. -/
theorem roster_emptied_no_more_bets_witness :
    (human_response_loop 10 sample_game [0, 0] [⟨"raise", .number 20⟩] =
        some (sample_game_reraised, ⟨[], []⟩) ∧
      ∃ input ∈ [(⟨"raise", .number 20⟩ : HumanInput)], ∃ rand1, input.action = "raise" ∧
        bot_response (cin_int input.amount) "na"
          (human_raise_state 10 (cin_int input.amount) sample_game) [0, 0] =
            some (sample_game_reraised, rand1) ∧
        (⟨[], []⟩ : Oracle).rand = rand1) ∧
    run_round (fun _ sc r => r + sc * r / 200) 2 sample_game
        ⟨[0, 0], [⟨"raise", .number 20⟩]⟩ =
      (take_all sample_game_all_folded.deck).map
        (fun d => (true, { sample_game_all_folded with deck := d }, ⟨[], []⟩)) :=
  have hh : human_response_loop 10 sample_game [0, 0] [⟨"raise", .number 20⟩] =
      some (sample_game_reraised, ⟨[], []⟩) := by decide
  ⟨⟨hh, (roster_emptied_no_more_bets (fun _ sc r => r + sc * r / 200)).1 10 sample_game
      sample_game_reraised [0, 0] [⟨"raise", .number 20⟩] ⟨[], []⟩ hh (by decide) rfl⟩,
    (roster_emptied_no_more_bets (fun _ sc r => r + sc * r / 200)).2.2.2.2.2.2.1 2 sample_game
      ⟨[0, 0], [⟨"raise", .number 20⟩]⟩ sample_game_flop
      ⟨[0, 0], [⟨"raise", .number 20⟩]⟩ true
      sample_game_all_folded ⟨[], []⟩ (by decide) (by decide) (by decide) (by decide)
      (by decide) (by decide) rfl rfl⟩

/-- C25 at a failing input: in round 2, with Alice as the only live bot, the
human folds; the loop does not end there: `bot_turn` runs, Alice raises 7 and
the iteration ends without `break`. -/
theorem single_bot_after_fold_bets :
    (run_round (fun _ sc r => r + sc * r / 200) 2 sample_game_lone_bot
        ⟨[4, 0], [⟨"fold", .number 0⟩]⟩).map
      (fun r => (r.1, r.2.1.human_in_the_game, r.2.1.bots_in_the_game.length)) =
      some (false, false, 1) ∧
    (run_round (fun _ sc r => r + sc * r / 200) 2 sample_game_lone_bot
        ⟨[4, 0], [⟨"fold", .number 0⟩]⟩).map
      (fun r => (r.2.1.pot.pot, r.2.1.pot.bets, r.2.1.deck.get_community_cards.length)) =
      some (7, [⟨7, "Alice"⟩], 3) := by
  decide

/-- C21. With a non-empty list of distinct winners, a pot total that is a
non-negative `int`, and no bot winner capped (the even share
`total / winner_count` is at most the stack of the bot at the start of the
hand times `max (initial_bot_count / 2) final_player_count`),
`distribute_pot` adds exactly the even share to the balance of every winner
and changes nothing else. The bots of the master roster have distinct names,
none of them the name of the human. -/
theorem distribute_pot_even_share (winners : List String) (final : List Player) (total : Int)
    (g : Game) (hne : winners ≠ []) (hws : winners.Nodup)
    (hnd : (g.bot.bots.map Player.name).Nodup) (hh : ∀ p ∈ g.bot.bots, p.name ≠ g.human.name)
    (h0 : 0 ≤ total) (hr : InIntRange total)
    (hn : g.bot_initial_copy.length < 2 ^ 32) (hf : final.length < 2 ^ 32)
    (hcap : ∀ b ∈ g.bot_initial_copy, b.name ∈ winners → 0 ≤ b.chips ∧ InIntRange b.chips ∧
      total / (winners.length : Int) ≤
        b.chips * (max (g.bot_initial_copy.length / 2) final.length : Nat))
    (hrh : InIntRange (g.human.chips + total / (winners.length : Int)))
    (hrb : ∀ p ∈ g.bot.bots, InIntRange (p.chips + total / (winners.length : Int))) :
    distribute_pot winners final total g =
      some (g.with_balances
        (if g.human.name ∈ winners then
          { g.human with chips := g.human.chips + total / (winners.length : Int) }
          else g.human)
        (g.bot.bots.map (fun p => if p.name ∈ winners then
          { p with chips := p.chips + total / (winners.length : Int) } else p))) := by
  have hshare := distribute_pot_uncapped winners final total g hne hws hnd hh h0 hr hn hf hcap
  rw [hshare, receive_pot_share_exact _ _ hrh]
  congr 2
  apply List.map_congr_left
  intro p hp
  rw [receive_pot_share_exact _ _ (hrb p hp)]

/-- Witness for C21: Alice and the human share a pot of 70; each balance goes
from 100 to 135 and Bence keeps 100. -/
theorem distribute_pot_even_share_witness :
    distribute_pot ["Alice", "Human"]
        [sample_game.human, ⟨"Alice", 100, ⟨"♠", "A"⟩, ⟨"♠", "K"⟩⟩,
          ⟨"Bence", 100, ⟨"♠", "7"⟩, ⟨"♦", "7"⟩⟩] 70 sample_game =
      some (sample_game.with_balances ⟨"Human", 135, ⟨"♠", "Q"⟩, ⟨"♦", "J"⟩⟩
        [⟨"Alice", 135, ⟨"♠", "A"⟩, ⟨"♠", "K"⟩⟩, ⟨"Bence", 100, ⟨"♠", "7"⟩, ⟨"♦", "7"⟩⟩]) :=
  distribute_pot_even_share ["Alice", "Human"]
    [sample_game.human, ⟨"Alice", 100, ⟨"♠", "A"⟩, ⟨"♠", "K"⟩⟩,
      ⟨"Bence", 100, ⟨"♠", "7"⟩, ⟨"♦", "7"⟩⟩] 70 sample_game (by decide) (by decide)
    (by decide) (by decide) (by decide) (by unfold InIntRange; decide) (by decide) (by decide)
    (by unfold InIntRange; decide) (by unfold InIntRange; decide)
    (by unfold InIntRange; decide)

/-- Counterexample to C22 as stated: Alice and the human, neither capped,
share a pot of 5; each receives 2, and the increments add up to 4. -/
theorem distribute_pot_remainder_counterexample :
    (partial_pot_loop 2 sample_game.bot_initial_copy 3 ["Alice", "Human"]
      ⟨sample_game.bot, "", 0, 0⟩).distributed_chips_count = 0 ∧
    (distribute_pot ["Alice", "Human"]
        [sample_game.human, ⟨"Alice", 100, ⟨"♠", "A"⟩, ⟨"♠", "K"⟩⟩,
          ⟨"Bence", 100, ⟨"♠", "7"⟩, ⟨"♦", "7"⟩⟩] 5 sample_game).map
      (fun g1 => total_chips g1 - total_chips sample_game) = some 4 := by
  decide

/-- C22 (as amended). When no winner is capped and every winner is the human
or a bot of the master roster, the chip increments applied by `distribute_pot`
add up to `winner_count * (total / winner_count)`, that is the pot total less
the remainder of the integer division; they add up to the pot total exactly
when the number of winners divides it. -/
theorem distribute_pot_increments (winners : List String) (final : List Player) (total : Int)
    (g : Game) (hne : winners ≠ []) (hws : winners.Nodup)
    (hnd : (g.bot.bots.map Player.name).Nodup) (hh : ∀ p ∈ g.bot.bots, p.name ≠ g.human.name)
    (hmem : ∀ w ∈ winners, w = g.human.name ∨ w ∈ g.bot.bots.map Player.name)
    (h0 : 0 ≤ total) (hr : InIntRange total)
    (hn : g.bot_initial_copy.length < 2 ^ 32) (hf : final.length < 2 ^ 32)
    (hcap : ∀ b ∈ g.bot_initial_copy, b.name ∈ winners → 0 ≤ b.chips ∧ InIntRange b.chips ∧
      total / (winners.length : Int) ≤
        b.chips * (max (g.bot_initial_copy.length / 2) final.length : Nat))
    (hrh : InIntRange (g.human.chips + total / (winners.length : Int)))
    (hrb : ∀ p ∈ g.bot.bots, InIntRange (p.chips + total / (winners.length : Int))) :
    ∃ g1, distribute_pot winners final total g = some g1 ∧
      total_chips g1 - total_chips g = winners.length * (total / (winners.length : Int)) ∧
      total_chips g1 - total_chips g = total - total % (winners.length : Int) ∧
      (total_chips g1 - total_chips g = total ↔ total % (winners.length : Int) = 0) := by
  have hd := distribute_pot_exact winners final total g hne hws hnd hh h0 hr hn hf hcap
    hrh hrb
  refine ⟨_, hd, ?_⟩
  have hcount := count_winners winners g.human.name g.bot.bots hws hnd hh hmem
  have hsum : total_chips (g.with_balances
        (if g.human.name ∈ winners then
          { g.human with chips := g.human.chips + total / (winners.length : Int) }
          else g.human)
        (g.bot.bots.map (fun p => if p.name ∈ winners then
          { p with chips := p.chips + total / (winners.length : Int) } else p))) -
      total_chips g = winners.length * (total / (winners.length : Int)) := by
    simp only [total_chips, Game.with_balances, sum_chips_map_share]
    rw [← hcount]
    by_cases hm : g.human.name ∈ winners
    · simp only [hm, if_true]
      push_cast
      ring
    · simp only [hm, if_false]
      push_cast
      ring
  have hdiv := Int.emod_add_ediv total (winners.length : Int)
  refine ⟨hsum, ?_, ?_⟩
  · rw [hsum]
    omega
  · rw [hsum]
    constructor
    · intro h
      omega
    · intro h
      omega

/-- Witness for C22 (as amended): Alice and the human share a pot of 5; the
increments add up to 4, the pot less the remainder 1. -/
theorem distribute_pot_increments_witness :
    ∃ g1, distribute_pot ["Alice", "Human"]
        [sample_game.human, ⟨"Alice", 100, ⟨"♠", "A"⟩, ⟨"♠", "K"⟩⟩,
          ⟨"Bence", 100, ⟨"♠", "7"⟩, ⟨"♦", "7"⟩⟩] 5 sample_game = some g1 ∧
      total_chips g1 - total_chips sample_game = 5 - 5 % 2 :=
  match distribute_pot_increments ["Alice", "Human"]
    [sample_game.human, ⟨"Alice", 100, ⟨"♠", "A"⟩, ⟨"♠", "K"⟩⟩,
      ⟨"Bence", 100, ⟨"♠", "7"⟩, ⟨"♦", "7"⟩⟩] 5 sample_game (by decide) (by decide)
    (by decide) (by decide) (by decide) (by decide) (by unfold InIntRange; decide)
    (by decide) (by decide) (by unfold InIntRange; decide) (by unfold InIntRange; decide)
    (by unfold InIntRange; decide) with
  | ⟨g1, h1, _, h3, _⟩ => ⟨g1, h1, h3⟩

/-- C23 at a failing input: Alice and Bence, 10 chips each at the start of
the hand, win a pot of 200 against the human; the cap of each is 30. Both
receive their partial pot of 30, and Alice, who is not the last partial-pot
winner, receives the refund of 140 as well: 170 chips in all. -/
theorem distribute_pot_two_partial_winners :
    partial_pot_amount 10 3 3 = 30 ∧
    (distribute_pot ["Alice", "Bence"]
        [sample_game_all_in.human, ⟨"Alice", 0, ⟨"♠", "A"⟩, ⟨"♠", "K"⟩⟩,
          ⟨"Bence", 0, ⟨"♥", "A"⟩, ⟨"♥", "K"⟩⟩] 200 sample_game_all_in).map
      (fun g1 => (g1.human.chips, g1.bot.bots.map (fun p => (p.name, p.chips)))) =
      some (1040, [("Alice", 170), ("Bence", 30), ("Carol", 300)]) := by
  decide

/-- Counterexample to C31 as stated: with 10 starting chips at difficulty 4
the big blind is 3 and the small blind is 0, not 3 / 2 = 1. -/
theorem small_blind_scaled_counterexample :
    big_blind_of 10 4 = 3 ∧ small_blind_of 10 4 = 0 ∧
      small_blind_of 10 4 ≠ big_blind_of 10 4 / 2 := by
  decide

/-- C31 (as amended). For `starting_chips` in 10..10000 and any difficulty
(1..4 in the game), the big blind is `starting_chips / 10`, multiplied by 3 at difficulty 4,
and the small blind is `(starting_chips / 10) / 2`, multiplied by 3 at
difficulty 4: it is half the unscaled big blind, so it equals the big blind
`/ 2` at difficulties 1 to 3, and at difficulty 4 exactly when
`starting_chips / 10` is even. -/
theorem blinds_values (starting_chips difficulty : Int)
    (hs : 10 ≤ starting_chips ∧ starting_chips ≤ 10000) :
    big_blind_of starting_chips difficulty =
        (if difficulty = 4 then starting_chips / 10 * 3 else starting_chips / 10) ∧
      small_blind_of starting_chips difficulty =
        (if difficulty = 4 then starting_chips / 10 / 2 * 3 else starting_chips / 10 / 2) ∧
      (difficulty ≠ 4 →
        small_blind_of starting_chips difficulty =
          big_blind_of starting_chips difficulty / 2) ∧
      (difficulty = 4 →
        (small_blind_of starting_chips difficulty =
            big_blind_of starting_chips difficulty / 2 ↔ starting_chips / 10 % 2 = 0)) := by
  have hb := big_blind_of_eq starting_chips difficulty ⟨by omega, hs.2⟩
  have hsm := small_blind_of_eq starting_chips difficulty ⟨by omega, hs.2⟩
  refine ⟨hb, hsm, ?_, ?_⟩
  · intro h4
    rw [hb, hsm, if_neg h4, if_neg h4]
  · intro h4
    rw [hb, hsm, if_pos h4, if_pos h4]
    constructor <;> intro h <;> omega

/-- Witness for C31 (as amended): 100 starting chips at difficulty 4 give the
blinds 30 and 15. -/
theorem blinds_values_witness :
    big_blind_of 100 4 = (if (4 : Int) = 4 then 100 / 10 * 3 else 100 / 10) ∧
      small_blind_of 100 4 = (if (4 : Int) = 4 then 100 / 10 / 2 * 3 else 100 / 10 / 2) :=
  ⟨(blinds_values 100 4 (by decide)).1, (blinds_values 100 4 (by decide)).2.1⟩

/-- Counterexample to C32 as stated. In `sample_game_short_human` (blinds 10
and 5) Alice is chosen as big blind and the human, who holds 8 chips, as small
blind. The human is not made to post the small blind but asked to call with
all 8 chips: after a fold the pot holds no bet of the human, after a call it
holds a bet of 8. -/
theorem human_small_blind_not_posted_counterexample :
    big_blind_of sample_game_short_human.starting_chips
      sample_game_short_human.difficulty = 10 ∧
    small_blind_of sample_game_short_human.starting_chips
      sample_game_short_human.difficulty = 5 ∧
    (get_two_random_players sample_game_short_human.all_players_initial_copy [0, 2, 1]).map
      (fun r => (r.1.1.name, r.1.2.name)) = some ("Alice", "Human") ∧
    (round_one sample_game_short_human ⟨[0, 2, 1], [⟨"fold", .number 0⟩]⟩).map
      (fun r => r.1.pot.bets) = some [⟨10, "Alice"⟩, ⟨10, "Bence"⟩] ∧
    (round_one sample_game_short_human ⟨[0, 2, 1], [⟨"call", .number 0⟩]⟩).map
      (fun r => r.1.pot.bets) = some [⟨10, "Alice"⟩, ⟨10, "Bence"⟩, ⟨8, "Human"⟩] := by
  decide

/-- C32 (as amended). In round 1, when the player chosen as big blind is a
bot of the live roster (the only one of its name) that holds at least the big
blind, the loop of the big blind makes it bet the big blind, mirrored in the
master roster, before the bots respond. When the player chosen as small blind
is the human, a bot is still live after the response pass and the human holds
more than the big blind, the human bets the small blind and is then asked for
the difference. -/
theorem blinds_posted_in_funds (g : Game) (o : Oracle) (player1 player2 : Player)
    (rand1 : List Nat)
    (hp : get_two_random_players g.all_players_initial_copy o.rand =
      some ((player1, player2), rand1)) :
    (∀ i b, g.bots_in_the_game[i]? = some b → b.name = player1.name →
      (∀ j c, j ≠ i → g.bots_in_the_game[j]? = some c → c.name ≠ player1.name) →
      0 ≤ big_blind_of g.starting_chips g.difficulty →
      big_blind_of g.starting_chips g.difficulty ≤ b.chips → InIntRange b.chips →
      big_blind_loop player1.name (big_blind_of g.starting_chips g.difficulty)
          g.bots_in_the_game.length 0 g =
        { g with
          bots_in_the_game := g.bots_in_the_game.set i
            { b with chips := b.chips - big_blind_of g.starting_chips g.difficulty },
          pot := g.pot.add_to_pot ⟨big_blind_of g.starting_chips g.difficulty, b.name⟩,
          bot := g.bot.update_bot_chips player1.name
            (big_blind_of g.starting_chips g.difficulty) }) ∧
    (∀ g2 rand2, player2.name = "Human" →
      bot_response (big_blind_of g.starting_chips g.difficulty) player1.name
        (if player1.name = "Human" then g
          else big_blind_loop player1.name (big_blind_of g.starting_chips g.difficulty)
            g.bots_in_the_game.length 0 g) rand1 = some (g2, rand2) →
      g2.bots_in_the_game ≠ [] →
      g2.human.chips > big_blind_of g.starting_chips g.difficulty →
      round_one g o =
        human_response
          (int_wrap (big_blind_of g.starting_chips g.difficulty -
            small_blind_of g.starting_chips g.difficulty))
          { g2 with
            human := { g2.human with chips := int_wrap (g2.human.chips -
              small_blind_of g.starting_chips g.difficulty) },
            pot := g2.pot.add_to_pot
              ⟨small_blind_of g.starting_chips g.difficulty, g2.human.name⟩ }
          ⟨rand2, o.human⟩) := by
  constructor
  · intro i b hb hn hu h0 hle hr
    have hi := (List.getElem?_eq_some_iff.1 hb).1
    rw [big_blind_loop_one player1.name _ _ 0 i g b hb hn hu (Nat.zero_le _) (by omega)]
    have hw : int_wrap (b.chips - big_blind_of g.starting_chips g.difficulty) =
        b.chips - big_blind_of g.starting_chips g.difficulty := by
      apply int_wrap_of_range
      unfold InIntRange at hr ⊢
      omega
    simp only [Player.bet, hw]
  · intro g2 rand2 h2 hr hne hchips
    unfold round_one
    simp only [hp, hr]
    rw [if_pos (List.length_pos.2 hne), if_pos hchips, if_neg (by simp [h2]), if_pos h2]
    rfl

/-- Witness for C32 (as amended): in `sample_game` the draws 0 and 2 choose
Alice as big blind and the human as small blind. Alice bets 10 and Bence
calls (`sample_game_big_blind_called`); the human then posts 5 and is asked
for the difference of 5, which it calls. -/
theorem blinds_posted_in_funds_witness :
    big_blind_loop "Alice" 10 2 0 sample_game =
      { sample_game with
        bots_in_the_game :=
          [⟨"Alice", 90, ⟨"♠", "A"⟩, ⟨"♠", "K"⟩⟩, ⟨"Bence", 100, ⟨"♠", "7"⟩, ⟨"♦", "7"⟩⟩],
        pot := ⟨10, [⟨10, "Alice"⟩]⟩,
        bot := sample_game.bot.update_bot_chips "Alice" 10 } ∧
    bot_response 10 "Alice" (big_blind_loop "Alice" 10 2 0 sample_game) [1] =
      some (sample_game_big_blind_called, []) ∧
    round_one sample_game ⟨[0, 2, 1], [⟨"call", .number 0⟩]⟩ =
      human_response 5
        { sample_game_big_blind_called with
          human := { sample_game.human with chips := 95 },
          pot := ⟨25, [⟨10, "Alice"⟩, ⟨10, "Bence"⟩, ⟨5, "Human"⟩]⟩ }
        ⟨[], [⟨"call", .number 0⟩]⟩ ∧
    (round_one sample_game ⟨[0, 2, 1], [⟨"call", .number 0⟩]⟩).map
        (fun r => (r.1.pot.bets, r.1.human.chips)) =
      some ([⟨10, "Alice"⟩, ⟨10, "Bence"⟩, ⟨5, "Human"⟩, ⟨5, "Human"⟩], 90) :=
  have hr : bot_response 10 "Alice" (big_blind_loop "Alice" 10 2 0 sample_game) [1] =
      some (sample_game_big_blind_called, []) := by decide
  ⟨(blinds_posted_in_funds sample_game ⟨[0, 2, 1], [⟨"call", .number 0⟩]⟩
      ⟨"Alice", 100, ⟨"♠", "A"⟩, ⟨"♠", "K"⟩⟩ sample_game.human [1] (by decide)).1 0
      ⟨"Alice", 100, ⟨"♠", "A"⟩, ⟨"♠", "K"⟩⟩ (by decide) (by decide) (by
        intro j c hj hc
        have hlt := (List.getElem?_eq_some_iff.1 hc).1
        have h2 : sample_game.bots_in_the_game.length = 2 := rfl
        have hj1 : j = 1 := by omega
        subst hj1
        have hc1 : c = ⟨"Bence", 100, ⟨"♠", "7"⟩, ⟨"♦", "7"⟩⟩ := (Option.some.inj hc).symm
        rw [hc1]
        decide) (by decide) (by decide) (by unfold InIntRange; decide),
    hr,
    ((blinds_posted_in_funds sample_game ⟨[0, 2, 1], [⟨"call", .number 0⟩]⟩
      ⟨"Alice", 100, ⟨"♠", "A"⟩, ⟨"♠", "K"⟩⟩ sample_game.human [1] (by decide)).2
      sample_game_big_blind_called [] rfl hr (by decide) (by decide)).trans (by decide),
    by decide⟩

/-- C33 at a failing input: Alice starts the hand with 5 chips and is chosen
as big blind (10); she bets the whole big blind and is left with -5 chips in
the live roster and in the master roster. -/
theorem big_blind_below_zero :
    (get_two_random_players sample_game_short_bot.all_players_initial_copy [0, 1, 1]).map
      (fun r => (r.1.1.name, r.1.2.name)) = some ("Alice", "Bence") ∧
    (round_one sample_game_short_bot ⟨[0, 1, 1], [⟨"call", .number 0⟩]⟩).map
      (fun r => r.1.bots_in_the_game.map (fun p => (p.name, p.chips))) =
      some [("Alice", -5), ("Bence", 90)] ∧
    (round_one sample_game_short_bot ⟨[0, 1, 1], [⟨"call", .number 0⟩]⟩).map
      (fun r => r.1.bot.bots.map (fun p => (p.name, p.chips))) =
      some [("Alice", -5), ("Bence", 90)] ∧
    (round_one sample_game_short_bot ⟨[0, 1, 1], [⟨"call", .number 0⟩]⟩).map
      (fun r => (r.1.human.chips, r.1.pot.pot)) = some (90, 30) := by
  decide

/-- C35. The result of `evaluate_hand` depends only on the ranks and on the
suits of the combined cards, each taken as a multiset: two hands whose rank
lists are permutations of each other and whose suit lists are permutations of
each other evaluate alike. So the result does not change when a hole card is
swapped with a community card, when the community cards are reordered, or when
two cards exchange their suits. -/
theorem evaluate_hand_multiset (card1 card2 : Card) (community_cards : List Card) :
    (∀ other1 other2 other_cards,
      (card1.rank :: card2.rank :: community_cards.map (fun c => c.rank)).Perm
        (other1.rank :: other2.rank :: other_cards.map (fun c => c.rank)) →
      (card1.suit :: card2.suit :: community_cards.map (fun c => c.suit)).Perm
        (other1.suit :: other2.suit :: other_cards.map (fun c => c.suit)) →
      evaluate_hand card1 card2 community_cards = evaluate_hand other1 other2 other_cards) ∧
    (∀ x, evaluate_hand card1 card2 (x :: community_cards) =
      evaluate_hand x card2 (card1 :: community_cards)) ∧
    (∀ reordered, community_cards.Perm reordered →
      evaluate_hand card1 card2 community_cards = evaluate_hand card1 card2 reordered) ∧
    evaluate_hand card1 card2 community_cards =
      evaluate_hand ⟨card2.suit, card1.rank⟩ ⟨card1.suit, card2.rank⟩ community_cards := by
  refine ⟨?_, ?_, ?_, ?_⟩
  · intro other1 other2 other_cards hr hs
    exact evaluate_hand_of_perm _ _ _ _ _ _ hr hs
  · intro x
    apply evaluate_hand_of_perm
    · simp only [List.map_cons]
      exact ((List.Perm.swap _ _ _).trans ((List.Perm.swap _ _ _).cons _)).trans
        (List.Perm.swap _ _ _)
    · simp only [List.map_cons]
      exact ((List.Perm.swap _ _ _).trans ((List.Perm.swap _ _ _).cons _)).trans
        (List.Perm.swap _ _ _)
  · intro reordered hp
    apply evaluate_hand_of_perm
    · exact ((hp.map _).cons _).cons _
    · exact ((hp.map _).cons _).cons _
  · apply evaluate_hand_of_perm
    · exact List.Perm.refl _
    · exact List.Perm.swap _ _ _

/-- Witness for C35: 2♥ 3♦ with 3♣ 4♠ 5♦ 6♥ K♣ and the same cards dealt as
K♣ 6♥ with 5♦ 4♠ 3♣ 3♦ 2♥ evaluate alike. -/
theorem evaluate_hand_multiset_witness :
    evaluate_hand ⟨"♥", "2"⟩ ⟨"♦", "3"⟩
        [⟨"♣", "3"⟩, ⟨"♠", "4"⟩, ⟨"♦", "5"⟩, ⟨"♥", "6"⟩, ⟨"♣", "K"⟩] =
      evaluate_hand ⟨"♣", "K"⟩ ⟨"♥", "6"⟩
        [⟨"♦", "5"⟩, ⟨"♠", "4"⟩, ⟨"♣", "3"⟩, ⟨"♦", "3"⟩, ⟨"♥", "2"⟩] :=
  (evaluate_hand_multiset ⟨"♥", "2"⟩ ⟨"♦", "3"⟩
    [⟨"♣", "3"⟩, ⟨"♠", "4"⟩, ⟨"♦", "5"⟩, ⟨"♥", "6"⟩, ⟨"♣", "K"⟩]).1 ⟨"♣", "K"⟩ ⟨"♥", "6"⟩
    [⟨"♦", "5"⟩, ⟨"♠", "4"⟩, ⟨"♣", "3"⟩, ⟨"♦", "3"⟩, ⟨"♥", "2"⟩]
    (by decide) (by decide)

/-- C34. For five to seven cards with a suit occurring at least five times, no
rank occurring four times, no pair together with a triple and no two triples,
`evaluate_hand` returns the category `flush`. The tie-break does not look at
the suits: it is the top of the run found by the straight loop when it finds
one; otherwise the rank of the triple when there is one; otherwise the highest
rank occurring twice when there is one; otherwise the highest rank of all the
cards. -/
theorem evaluate_hand_flush_tie_break (card1 card2 : Card) (community_cards : List Card)
    (hlo : 3 ≤ community_cards.length) (hhi : community_cards.length ≤ 5)
    (hflush : ∃ s, 5 ≤ (suits card1 card2 community_cards).count s)
    (hquad : ∀ q, (numeric_ranks card1 card2 community_cards).count q ≠ 4)
    (hfull : ¬ ((∃ q, (numeric_ranks card1 card2 community_cards).count q = 2) ∧
      (∃ q, (numeric_ranks card1 card2 community_cards).count q = 3)))
    (htwo : ∀ q r, (numeric_ranks card1 card2 community_cards).count q = 3 →
      (numeric_ranks card1 card2 community_cards).count r = 3 → q = r) :
    ∃ t, evaluate_hand card1 card2 community_cards = some (.flush, t) ∧
      (∀ top, straight_loop (numeric_ranks card1 card2 community_cards)
          (size_t_sub (numeric_ranks card1 card2 community_cards).length 4) 0 =
            some (some top) → t = top) ∧
      (straight_loop (numeric_ranks card1 card2 community_cards)
          (size_t_sub (numeric_ranks card1 card2 community_cards).length 4) 0 = some none →
        (∀ q, (numeric_ranks card1 card2 community_cards).count q = 3 → t = q) ∧
        ((∀ q, (numeric_ranks card1 card2 community_cards).count q ≠ 3) →
          (∃ q, (numeric_ranks card1 card2 community_cards).count q = 2) →
          (numeric_ranks card1 card2 community_cards).count t = 2 ∧
            ∀ q, (numeric_ranks card1 card2 community_cards).count q = 2 → q ≤ t) ∧
        ((∀ q, (numeric_ranks card1 card2 community_cards).count q ≠ 3) →
          (∀ q, (numeric_ranks card1 card2 community_cards).count q ≠ 2) →
          t ∈ numeric_ranks card1 card2 community_cards ∧
            ∀ q ∈ numeric_ranks card1 card2 community_cards, q ≤ t)) := by
  obtain ⟨found, hfound⟩ := straight_loop_defined card1 card2 community_cards (by omega) hhi
  obtain ⟨c, hc, hlast⟩ := evaluate_hand_of_found_some _ _ _ found hfound
  have hok := countMap_rankMapOk (numeric_ranks card1 card2 community_cards)
  obtain ⟨hsorted, hmem⟩ := hok
  -- the entries of the rank map
  have hcnt : ∀ e ∈ countMap int_less (numeric_ranks card1 card2 community_cards),
      e.2 = (numeric_ranks card1 card2 community_cards).count e.1 ∧
        e.1 ∈ numeric_ranks card1 card2 community_cards := by
    intro e he
    exact (hmem e.1 e.2).1 he
  have hin : ∀ q, 0 < (numeric_ranks card1 card2 community_cards).count q →
      (q, (numeric_ranks card1 card2 community_cards).count q) ∈
        countMap int_less (numeric_ranks card1 card2 community_cards) := by
    intro q hq
    exact (hmem q _).2 ⟨rfl, List.count_pos_iff.1 hq⟩
  have hq0 : (countMap int_less (numeric_ranks card1 card2 community_cards)).countP
      (fun e => e.2 = 4) = 0 := by
    rw [List.countP_eq_zero]
    intro e he h4
    have h4' : e.2 = 4 := by simpa using h4
    exact hquad e.1 (by rw [← (hcnt e he).1]; exact h4')
  have hpair : 0 < (countMap int_less (numeric_ranks card1 card2 community_cards)).countP
      (fun e => e.2 = 2) → ∃ q, (numeric_ranks card1 card2 community_cards).count q = 2 := by
    intro h
    rw [List.countP_pos_iff] at h
    obtain ⟨e, he, h2⟩ := h
    have h2' : e.2 = 2 := by simpa using h2
    exact ⟨e.1, by rw [← (hcnt e he).1]; exact h2'⟩
  have htrip : 0 < (countMap int_less (numeric_ranks card1 card2 community_cards)).countP
      (fun e => e.2 = 3) → ∃ q, (numeric_ranks card1 card2 community_cards).count q = 3 := by
    intro h
    rw [List.countP_pos_iff] at h
    obtain ⟨e, he, h3⟩ := h
    have h3' : e.2 = 3 := by simpa using h3
    exact ⟨e.1, by rw [← (hcnt e he).1]; exact h3'⟩
  have hfh : ¬ ((0 < (countMap int_less (numeric_ranks card1 card2 community_cards)).countP
        (fun e => e.2 = 2) ∧
      0 < (countMap int_less (numeric_ranks card1 card2 community_cards)).countP
        (fun e => e.2 = 3)) ∨
      (countMap int_less (numeric_ranks card1 card2 community_cards)).countP
        (fun e => e.2 = 3) = 2) := by
    rintro (⟨h2, h3⟩ | h3)
    · exact hfull ⟨hpair h2, htrip h3⟩
    · obtain ⟨a, b, ha, hb, hpa, hpb, hab⟩ := exists_two_of_countP (fun e => e.2 = 3) _ hsorted
        (le_of_eq h3.symm)
      have ha3 : a.2 = 3 := by simpa using hpa
      have hb3 : b.2 = 3 := by simpa using hpb
      have := htwo a.1 b.1 (by rw [← (hcnt a ha).1]; exact ha3)
        (by rw [← (hcnt b hb).1]; exact hb3)
      omega
  -- a flush is detected
  have hfl : 0 < (countMap string_less (suits card1 card2 community_cards)).countP
      (fun e => e.2 > 4) := by
    obtain ⟨s, hs⟩ := hflush
    rw [List.countP_pos_iff]
    refine ⟨(s, (suits card1 card2 community_cards).count s),
      countMap_mem_count string_less string_less_strictTotal _ s
        (List.count_pos_iff.1 (by omega)), ?_⟩
    simpa using hs
  -- the category
  obtain ⟨⟨s, hs, hs0, hcs⟩, hgreater⟩ := ranking_last_facts _ _ found c hlast
  have hno : ∀ c1 : Poker_Ranks, c = c1 → c1.toInt < Poker_Ranks.flush.toInt → False := by
    intro c1 hc1 hlt
    have h0 := hgreater
      ((countMap string_less (suits card1 card2 community_cards)).countP (fun e => e.2 > 4),
        .flush) (by simp [ranking_segments]) (by rw [hc1]; exact hlt)
    simp only at h0
    omega
  have hcflush : c = .flush := by
    simp only [ranking_segments, List.mem_cons, List.mem_singleton, List.not_mem_nil,
      or_false] at hs
    rcases hs with rfl | rfl | rfl | rfl | rfl | rfl | rfl | rfl
    · exact (hno _ hcs (by simp [Poker_Ranks.toInt])).elim
    · exact (hno _ hcs (by simp [Poker_Ranks.toInt])).elim
    · exact (hno _ hcs (by simp [Poker_Ranks.toInt])).elim
    · exact (hno _ hcs (by simp [Poker_Ranks.toInt])).elim
    · exact (hno _ hcs (by simp [Poker_Ranks.toInt])).elim
    · exact hcs
    · exfalso
      apply hs0
      simp only [afterGroups_two_pair, afterGroups_three] at *
      rw [if_neg hfh]
    · exact absurd hq0 hs0
  subst hcflush
  refine ⟨_, hc, ?_, ?_⟩
  · intro top htop
    rw [hfound] at htop
    have hft : found = some top := Option.some.inj htop
    subst hft
    rw [final_highest_no_quad _ _ _ hq0]
    rfl
  · intro hnone
    rw [hfound] at hnone
    have hfn : found = none := Option.some.inj hnone
    subst hfn
    rw [final_highest_no_quad _ _ _ hq0]
    simp only [afterStraightLoop]
    refine ⟨?_, ?_, ?_⟩
    · intro q hq
      have hex : ∃ e ∈ countMap int_less (numeric_ranks card1 card2 community_cards),
          e.2 = 3 := ⟨(q, _), hin q (by omega), hq⟩
      obtain ⟨⟨e, he, he3, het⟩, -⟩ := fold_trip_highest _
        (if (List.foldl pairStep ⟨0, 0, 0, [.high_card]⟩
            (countMap int_less (numeric_ranks card1 card2 community_cards))).two_pair ≥ 2 then
          add_hand_ranking (List.foldl pairStep ⟨0, 0, 0, [.high_card]⟩
            (countMap int_less (numeric_ranks card1 card2 community_cards))) .two_pair
          else List.foldl pairStep ⟨0, 0, 0, [.high_card]⟩
            (countMap int_less (numeric_ranks card1 card2 community_cards))) hsorted hex
      have := htwo e.1 q (by rw [← (hcnt e he).1]; exact he3) hq
      rw [← this]
      exact het.symm
    · intro hno3 hex2
      have ht0 : (countMap int_less (numeric_ranks card1 card2 community_cards)).countP
          (fun e => e.2 = 3) = 0 := by
        rw [List.countP_eq_zero]
        intro e he h3
        have h3' : e.2 = 3 := by simpa using h3
        exact hno3 e.1 (by rw [← (hcnt e he).1]; exact h3')
      rw [afterGroups_highest_no_trip _ ht0]
      obtain ⟨q, hq⟩ := hex2
      obtain ⟨⟨e, he, he2, het⟩, hall⟩ := fold_pair_highest _ ⟨0, 0, 0, [.high_card]⟩ hsorted
        ⟨(q, _), hin q (by omega), hq⟩
      constructor
      · rw [← het, ← (hcnt e he).1]
        exact he2
      · intro r hr
        exact hall (r, _) (hin r (by omega)) hr
    · intro hno3 hno2
      have ht0 : (countMap int_less (numeric_ranks card1 card2 community_cards)).countP
          (fun e => e.2 = 3) = 0 := by
        rw [List.countP_eq_zero]
        intro e he h3
        have h3' : e.2 = 3 := by simpa using h3
        exact hno3 e.1 (by rw [← (hcnt e he).1]; exact h3')
      rw [afterGroups_highest_no_trip _ ht0, fold_pair_none _ _ rfl (by
        intro e he h2
        exact hno2 e.1 (by rw [← (hcnt e he).1]; exact h2))]
      simp only
      obtain ⟨h0, hle, hcase⟩ := foldl_max_spec
        (countMap int_less (numeric_ranks card1 card2 community_cards)) 0
      have hall : ∀ r ∈ numeric_ranks card1 card2 community_cards,
          r ≤ (countMap int_less (numeric_ranks card1 card2 community_cards)).foldl
            (fun h e => max h e.1) 0 := by
        intro r hr
        exact hle (r, _) (hin r (List.count_pos_iff.2 hr))
      refine ⟨?_, hall⟩
      rcases hcase with h | ⟨e, he, het⟩
      · rw [h]
        have hlen := numeric_ranks_length card1 card2 community_cards
        obtain ⟨x, hx⟩ : ∃ x, x ∈ numeric_ranks card1 card2 community_cards :=
          List.exists_mem_of_length_pos (by omega)
        have hx0 := hall x hx
        rw [h] at hx0
        rcases numeric_ranks_range _ _ _ x hx with hz | hz
        · rw [← hz]; exact hx
        · omega
      · rw [← het]
        exact (hcnt e he).2

/-- Witness for C34: A♠ 9♥ with 2♥ 4♥ 6♥ 8♥ K♦ is a flush in hearts whose
tie-break is the highest rank of all seven cards, the ace of spades. -/
theorem evaluate_hand_flush_tie_break_witness :
    evaluate_hand ⟨"♠", "A"⟩ ⟨"♥", "9"⟩
        [⟨"♥", "2"⟩, ⟨"♥", "4"⟩, ⟨"♥", "6"⟩, ⟨"♥", "8"⟩, ⟨"♦", "K"⟩] = some (.flush, 14) ∧
    ∃ t, evaluate_hand ⟨"♠", "A"⟩ ⟨"♥", "9"⟩
        [⟨"♥", "2"⟩, ⟨"♥", "4"⟩, ⟨"♥", "6"⟩, ⟨"♥", "8"⟩, ⟨"♦", "K"⟩] = some (.flush, t) ∧
      ∀ q ∈ numeric_ranks ⟨"♠", "A"⟩ ⟨"♥", "9"⟩
        [⟨"♥", "2"⟩, ⟨"♥", "4"⟩, ⟨"♥", "6"⟩, ⟨"♥", "8"⟩, ⟨"♦", "K"⟩], q ≤ t := by
  have hnd : (numeric_ranks ⟨"♠", "A"⟩ ⟨"♥", "9"⟩
      [⟨"♥", "2"⟩, ⟨"♥", "4"⟩, ⟨"♥", "6"⟩, ⟨"♥", "8"⟩, ⟨"♦", "K"⟩]).Nodup := by decide
  have h1 : ∀ q, (numeric_ranks ⟨"♠", "A"⟩ ⟨"♥", "9"⟩
      [⟨"♥", "2"⟩, ⟨"♥", "4"⟩, ⟨"♥", "6"⟩, ⟨"♥", "8"⟩, ⟨"♦", "K"⟩]).count q ≤ 1 :=
    fun q => List.nodup_iff_count_le_one.1 hnd q
  obtain ⟨t, ht, -, hnone⟩ := evaluate_hand_flush_tie_break ⟨"♠", "A"⟩ ⟨"♥", "9"⟩
    [⟨"♥", "2"⟩, ⟨"♥", "4"⟩, ⟨"♥", "6"⟩, ⟨"♥", "8"⟩, ⟨"♦", "K"⟩] (by decide) (by decide)
    ⟨"♥", by decide⟩ (fun q => by have := h1 q; omega)
    (fun h => by obtain ⟨⟨q, hq⟩, -⟩ := h; have := h1 q; omega)
    (fun q r hq _ => by have := h1 q; omega)
  exact ⟨by decide, t, ht, ((hnone (by decide)).2.2 (fun q => by have := h1 q; omega)
    (fun q => by have := h1 q; omega)).2⟩

/-- C40. For a bet above 0, `bot_response` returns as soon as the engine has
one draw per live bot, and its result is the state it started from with three
changes that follow from one response per live bot (stay, fold or call, the
bot named as raiser and every bot with balance ≤ 0 staying): the live roster
loses the folding bots and each calling bot has `min bet_amount balance` chips
less; the pot receives one bet of that amount per calling bot, in roster order;
the master roster is charged the same amounts. So the raiser and the bots
without chips stay as they were, the survivors keep their order, names and
cards, the human, the deck and the fold flag of the human are unchanged, the
chips that left the bots still in the hand are the chips bet, and the pot total
grows by their sum as long as it fits an `int`. -/
theorem bot_response_frame (bet_amount : Int) (raiser : String) (g : Game) (rand : List Nat)
    (hbet : 0 < bet_amount) (hr : ∀ b ∈ g.bots_in_the_game, InIntRange b.chips) :
    (g.bots_in_the_game.length ≤ rand.length →
      (bot_response bet_amount raiser g rand).isSome = true) ∧
    ∀ g1 rand1, bot_response bet_amount raiser g rand = some (g1, rand1) →
      ∃ rs : List Response, List.Forall₂ (Response.allowed raiser) g.bots_in_the_game rs ∧
        g1 = { g with
          bots_in_the_game := survivors bet_amount g.bots_in_the_game rs,
          pot := (called_bets bet_amount g.bots_in_the_game rs).foldl Pot.add_to_pot g.pot,
          bot := (called_bets bet_amount g.bots_in_the_game rs).foldl
            (fun bot x => bot.update_bot_chips x.player_name x.amount) g.bot } ∧
        (∀ b ∈ g.bots_in_the_game, b.name = raiser ∨ b.chips ≤ 0 → b ∈ g1.bots_in_the_game) ∧
        ((g1.bots_in_the_game.map (fun b => (b.name, b.card1, b.card2))).Sublist
          (g.bots_in_the_game.map (fun b => (b.name, b.card1, b.card2)))) ∧
        g1.human = g.human ∧ g1.deck = g.deck ∧
        g1.human_in_the_game = g.human_in_the_game ∧
        g1.pot.bets = g.pot.bets ++ called_bets bet_amount g.bots_in_the_game rs ∧
        (((g.bots_in_the_game.zip rs).filter (fun x => x.2 ≠ Response.fold)).map
            (fun x => x.1.chips)).sum =
          (g1.bots_in_the_game.map Player.chips).sum +
            ((called_bets bet_amount g.bots_in_the_game rs).map Bet.amount).sum ∧
        (-2 ^ 31 ≤ g.pot.pot →
          g.pot.pot + (g.bots_in_the_game.map (fun b => max b.chips 0)).sum < 2 ^ 31 →
          g1.pot.pot =
            g.pot.pot + ((called_bets bet_amount g.bots_in_the_game rs).map Bet.amount).sum) := by
  refine ⟨bot_response_some bet_amount raiser g rand, ?_⟩
  intro g1 rand1 h
  obtain ⟨rs, h1, h2⟩ := bot_response_spec bet_amount raiser g g1 rand rand1 hbet hr h
  refine ⟨rs, h1, h2, ?_⟩
  subst h2
  refine ⟨fun b hb hs => survivors_keeps_stay bet_amount raiser _ rs h1 b hb hs,
    survivors_sublist bet_amount _ rs, rfl, rfl, rfl, foldl_add_to_pot_bets _ _,
    survivors_chips bet_amount _ rs, ?_⟩
  intro hlo hhi
  obtain ⟨hb1, hb2⟩ := called_bets_bound bet_amount raiser hbet _ rs h1
  exact foldl_add_to_pot_total _ _ hb1 hlo (by omega)

/-- Witness for C40: Alice raises 10 in `sample_game` and Bence draws a call;
Bence pays 10, the pot holds his bet and nothing else changes. -/
theorem bot_response_frame_witness :
    bot_response 10 "Alice" sample_game [1] =
      some ({ sample_game with
          bots_in_the_game :=
            [⟨"Alice", 100, ⟨"♠", "A"⟩, ⟨"♠", "K"⟩⟩, ⟨"Bence", 90, ⟨"♠", "7"⟩, ⟨"♦", "7"⟩⟩],
          pot := ⟨10, [⟨10, "Bence"⟩]⟩,
          bot := ⟨[⟨"Alice", 100, ⟨"♠", "A"⟩, ⟨"♠", "K"⟩⟩,
            ⟨"Bence", 90, ⟨"♠", "7"⟩, ⟨"♦", "7"⟩⟩], []⟩ }, []) ∧
      ∃ rs : List Response,
        List.Forall₂ (Response.allowed "Alice") sample_game.bots_in_the_game rs ∧
        survivors 10 sample_game.bots_in_the_game rs =
          [⟨"Alice", 100, ⟨"♠", "A"⟩, ⟨"♠", "K"⟩⟩, ⟨"Bence", 90, ⟨"♠", "7"⟩, ⟨"♦", "7"⟩⟩] :=
  have hv : bot_response 10 "Alice" sample_game [1] =
      some ({ sample_game with
          bots_in_the_game :=
            [⟨"Alice", 100, ⟨"♠", "A"⟩, ⟨"♠", "K"⟩⟩, ⟨"Bence", 90, ⟨"♠", "7"⟩, ⟨"♦", "7"⟩⟩],
          pot := ⟨10, [⟨10, "Bence"⟩]⟩,
          bot := ⟨[⟨"Alice", 100, ⟨"♠", "A"⟩, ⟨"♠", "K"⟩⟩,
            ⟨"Bence", 90, ⟨"♠", "7"⟩, ⟨"♦", "7"⟩⟩], []⟩ }, []) := by decide
  ⟨hv, by
    obtain ⟨rs, h1, h2, -⟩ := (bot_response_frame 10 "Alice" sample_game [1] (by decide)
      (by
        intro b hb
        simp only [sample_game, List.mem_cons, List.mem_singleton, List.not_mem_nil,
          or_false] at hb
        rcases hb with rfl | rfl <;> (unfold InIntRange; decide))).2 _ _ hv
    refine ⟨rs, h1, ?_⟩
    have := congrArg Game.bots_in_the_game h2
    exact this.symm⟩

/-- C36. When the round loop of `run` is entered with the human in the hand,
as it is after the assignments of `begin_hand`, then whatever the random draws
and the inputs of the human are, at the end of the loop the human has not
folded or a bot is in the live roster. So the vector `remaining_players`
handed to `determine_winner` is not empty, and once the hands are evaluated
the sorted vector has an entry 0 for `determine_winner` to read. -/
theorem remaining_players_nonempty (bet_size : Int → Int → Int → Int) (g g1 : Game)
    (o o1 : Oracle) (hin : g.human_in_the_game = true)
    (h : round_loop bet_size g o = some (g1, o1)) :
    (g1.human_in_the_game = true ∨ g1.bots_in_the_game ≠ []) ∧
      remaining_players g1 ≠ [] ∧
      ∀ entries,
        player_name_and_rank (remaining_players g1) g1.deck.get_community_cards =
          some entries →
        (∃ first, (entries.insertionSort sort_order)[0]? = some first) ∧
          (winners_of_sorted (entries.insertionSort sort_order)).isSome = true := by
  have hl := round_loop_left bet_size g g1 o o1 hin h
  have hne := remaining_players_ne_nil g1 hl
  refine ⟨hl, hne, ?_⟩
  intro entries he
  have hlen := player_name_and_rank_length _ _ _ he
  have hpos : 0 < (entries.insertionSort sort_order).length := by
    rw [List.length_insertionSort, hlen]
    exact List.length_pos.2 hne
  have h0 : (entries.insertionSort sort_order)[0]? =
      some ((entries.insertionSort sort_order)[0]) := List.getElem?_eq_getElem hpos
  refine ⟨⟨_, h0⟩, ?_⟩
  unfold winners_of_sorted
  rw [h0]
  rfl

/-- Witness for C36: the hand of `sample_game` played with `sample_oracle`
reaches the end of the round loop, and somebody is left. -/
theorem remaining_players_nonempty_witness :
    ∃ g1 o1, round_loop (fun _ sc r => r + sc * r / 200) (begin_hand sample_game)
        sample_oracle = some (g1, o1) ∧ remaining_players g1 ≠ [] :=
  match hr : round_loop (fun _ sc r => r + sc * r / 200) (begin_hand sample_game)
      sample_oracle,
    (by decide : (round_loop (fun _ sc r => r + sc * r / 200) (begin_hand sample_game)
      sample_oracle).isSome = true) with
  | some (g1, o1), _ =>
    ⟨g1, o1, rfl, (remaining_players_nonempty _ (begin_hand sample_game) g1 sample_oracle o1
      rfl hr).2.1⟩

/-- C38. When the final players are exactly the winners, all with distinct
names, and each of them has an entry in `bot_initial_copy` whose stack times
`max (initial_bot_count / 2) final_player_count` is below the even share
`total / winner_count`, `distribute_pot` adds that product, its cap, to the
balance of each of them in the master roster and changes nothing else: the
increments add up to less than the pot and the rest is credited to nobody. In
particular a single remaining bot whose stack at the start of the hand times
`max (initial_bot_count / 2) 1` is below the pot receives exactly that
product. -/
theorem distribute_pot_all_capped :
    (∀ (winners : List String) (final : List Player) (total : Int) (g : Game),
      winners ≠ [] → winners.Nodup → (final.map Player.name).Nodup →
      (∀ p ∈ final, p.name ∈ winners) → (∀ w ∈ winners, w ∈ final.map Player.name) →
      (g.bot_initial_copy.map Player.name).Nodup → (g.bot.bots.map Player.name).Nodup →
      0 ≤ total → InIntRange total →
      g.bot_initial_copy.length < 2 ^ 32 → final.length < 2 ^ 31 →
      (∀ w ∈ winners, ∃ b ∈ g.bot_initial_copy, b.name = w ∧ 0 ≤ b.chips ∧
        InIntRange b.chips ∧
        b.chips * (max (g.bot_initial_copy.length / 2) final.length : Nat) <
          total / (winners.length : Int)) →
      (∀ p ∈ g.bot.bots, InIntRange p.chips ∧ InIntRange (p.chips + total)) →
      ∃ g1, distribute_pot winners final total g = some g1 ∧
        g1 = g.with_balances g.human
          (g.bot.bots.map (fun p => if p.name ∈ winners then
            { p with chips := p.chips + cap_of g.bot_initial_copy final.length p.name }
            else p)) ∧
        total_chips g1 - total_chips g < total) ∧
    (∀ (p b : Player) (total : Int) (g : Game),
      b ∈ g.bot_initial_copy → b.name = p.name →
      (g.bot_initial_copy.map Player.name).Nodup → (g.bot.bots.map Player.name).Nodup →
      0 ≤ b.chips → InIntRange b.chips → InIntRange total →
      g.bot_initial_copy.length < 2 ^ 32 →
      b.chips * (max (g.bot_initial_copy.length / 2) 1 : Nat) < total →
      (∀ q ∈ g.bot.bots, InIntRange q.chips ∧ InIntRange (q.chips + total)) →
      distribute_pot [p.name] [p] total g =
        some (g.with_balances g.human
          (g.bot.bots.map (fun q => if q.name = p.name then
            { q with chips := q.chips +
                b.chips * (max (g.bot_initial_copy.length / 2) 1 : Nat) }
            else q)))) := by
  constructor
  · intro winners final total g hne hws hfn hall hfrom hndi hnd h0 hr hn hf hcap hrb
    refine ⟨_, distribute_pot_capped_all winners final total g hne hws hfn hall hfrom hndi hnd
      h0 hr hn hf hcap hrb, rfl, ?_⟩
    have hpos : 0 < winners.length := List.length_pos.2 hne
    have hdiv : total / (winners.length : Int) * (winners.length : Int) ≤ total :=
      Int.ediv_mul_le total (by omega)
    have hshare1 : 1 ≤ total / (winners.length : Int) := by
      obtain ⟨w, hw⟩ := List.exists_mem_of_ne_nil winners hne
      obtain ⟨b, -, -, hc0, -, hlt⟩ := hcap w hw
      have : 0 ≤ b.chips * (max (g.bot_initial_copy.length / 2) final.length : Nat) :=
        mul_nonneg hc0 (Int.natCast_nonneg _)
      omega
    have hsum := sum_map_le_of_le (fun p => cap_of g.bot_initial_copy final.length p.name)
      (total / (winners.length : Int) - 1)
      (g.bot.bots.filter (fun p => decide (p.name ∈ winners)))
      (fun p hp => by
        have hpw : p.name ∈ winners := by simpa using (List.mem_filter.1 hp).2
        obtain ⟨b, hb, hname, -, -, hlt⟩ := hcap p.name hpw
        have := cap_of_entry g.bot_initial_copy final.length b hb hndi
        rw [hname] at this
        simp only [this]
        omega)
    have hcount := countP_names_le winners g.bot.bots hws hnd
    rw [List.countP_eq_length_filter] at hcount
    have hk : ((g.bot.bots.filter (fun p => decide (p.name ∈ winners))).length : Int) ≤
        (winners.length : Int) := by exact_mod_cast hcount
    have hmul : (total / (winners.length : Int) - 1) *
        ((g.bot.bots.filter (fun p => decide (p.name ∈ winners))).length : Int) ≤
        (total / (winners.length : Int) - 1) * (winners.length : Int) :=
      mul_le_mul_of_nonneg_left hk (by omega)
    simp only [total_chips, Game.with_balances, sum_chips_map_add]
    have hn1 : (1 : Int) ≤ (winners.length : Int) := by omega
    linarith
  · intro p b total g hb hname hndi hnd hc0 hcr hr hn hlt hrb
    have hprod : 0 ≤ b.chips * (max (g.bot_initial_copy.length / 2) 1 : Nat) :=
      mul_nonneg hc0 (Int.natCast_nonneg _)
    have h := distribute_pot_capped_all [p.name] [p] total g (by simp) (by simp) (by simp)
      (by simp) (by simp) hndi hnd (by omega) hr hn (by simp)
      (by
        intro w hw
        simp only [List.mem_singleton] at hw
        subst hw
        refine ⟨b, hb, hname, hc0, hcr, ?_⟩
        simpa using hlt)
      hrb
    rw [h]
    have hcapv : cap_of g.bot_initial_copy [p].length p.name =
        b.chips * (max (g.bot_initial_copy.length / 2) 1 : Nat) := by
      rw [← hname]
      exact cap_of_entry _ _ b hb hndi
    have hmap : g.bot.bots.map (fun q => if q.name ∈ [p.name] then
          { q with chips := q.chips + cap_of g.bot_initial_copy [p].length q.name }
          else q) =
        g.bot.bots.map (fun q => if q.name = p.name then
          { q with chips := q.chips +
              b.chips * (max (g.bot_initial_copy.length / 2) 1 : Nat) }
          else q) := by
      apply List.map_congr_left
      intro q _
      by_cases hq : q.name = p.name
      · rw [if_pos (by simp [hq]), if_pos hq, hq, hcapv]
      · rw [if_neg (by simpa using hq), if_neg hq]
    rw [hmap]

/-- Witness for C38: Alice and Bence, 10 chips each at the start of the hand,
are the only players left and win a pot of 200; each receives its cap of 20. -/
theorem distribute_pot_all_capped_witness :
    ∃ g1, distribute_pot ["Alice", "Bence"]
        [⟨"Alice", 0, ⟨"♠", "A"⟩, ⟨"♠", "K"⟩⟩, ⟨"Bence", 0, ⟨"♥", "A"⟩, ⟨"♥", "K"⟩⟩] 200
        sample_game_all_in = some g1 ∧
      g1.bot.bots.map (fun p => (p.name, p.chips)) =
        [("Alice", 20), ("Bence", 20), ("Carol", 300)] ∧
      total_chips g1 - total_chips sample_game_all_in < 200 :=
  match distribute_pot_all_capped.1 ["Alice", "Bence"]
    [⟨"Alice", 0, ⟨"♠", "A"⟩, ⟨"♠", "K"⟩⟩, ⟨"Bence", 0, ⟨"♥", "A"⟩, ⟨"♥", "K"⟩⟩] 200
    sample_game_all_in (by decide) (by decide) (by decide) (by decide) (by decide) (by decide)
    (by decide) (by decide) (by unfold InIntRange; decide) (by decide) (by decide)
    (by unfold InIntRange; decide) (by unfold InIntRange; decide) with
  | ⟨g1, h1, h2, h3⟩ => ⟨g1, h1, by rw [h2]; decide, h3⟩

/-- C37. A call of `distribute_pot` with a pot total that is a non-negative
`int`, non-negative stacks at the start of the hand, distinct names (of the
winners, of the final players, of the entries of `bot_initial_copy` and of the
bots of the master roster, none of these the name of the human) and winners
that are final players, in which at most one winner is capped (its stack at
the start of the hand times `max (initial_bot_count / 2) final_player_count`
is below the even share), returns, and the chips it adds to the balances of
the human and of the master roster add up to at least 0 and at most the pot
total. -/
theorem distribute_pot_creates_no_chips (winners : List String) (final : List Player)
    (total : Int) (g : Game) (hne : winners ≠ []) (hws : winners.Nodup)
    (hfn : (final.map Player.name).Nodup)
    (hfrom : ∀ w ∈ winners, w ∈ final.map Player.name)
    (hndi : (g.bot_initial_copy.map Player.name).Nodup)
    (hnd : (g.bot.bots.map Player.name).Nodup) (hh : ∀ p ∈ g.bot.bots, p.name ≠ g.human.name)
    (h0 : 0 ≤ total) (hr : InIntRange total)
    (hn : g.bot_initial_copy.length < 2 ^ 32) (hf : final.length < 2 ^ 32)
    (hstack : ∀ b ∈ g.bot_initial_copy, 0 ≤ b.chips ∧ InIntRange b.chips)
    (hone : ∀ b1 ∈ g.bot_initial_copy, ∀ b2 ∈ g.bot_initial_copy,
      b1.name ∈ winners → b2.name ∈ winners →
      b1.chips * (max (g.bot_initial_copy.length / 2) final.length : Nat) <
        total / (winners.length : Int) →
      b2.chips * (max (g.bot_initial_copy.length / 2) final.length : Nat) <
        total / (winners.length : Int) → b1.name = b2.name)
    (hrh : InIntRange g.human.chips ∧ InIntRange (g.human.chips + total))
    (hrb : ∀ p ∈ g.bot.bots, InIntRange p.chips ∧ InIntRange (p.chips + total)) :
    ∃ g1, distribute_pot winners final total g = some g1 ∧
      0 ≤ total_chips g1 - total_chips g ∧ total_chips g1 - total_chips g ≤ total := by
  have hpos : 0 < winners.length := List.length_pos.2 hne
  have hs0 : 0 ≤ total / (winners.length : Int) := Int.ediv_nonneg h0 (by omega)
  have hs1 : total / (winners.length : Int) ≤ total := Int.ediv_le_self _ h0
  by_cases hex : ∃ b ∈ g.bot_initial_copy, b.name ∈ winners ∧
      b.chips * (max (g.bot_initial_copy.length / 2) final.length : Nat) <
        total / (winners.length : Int)
  · obtain ⟨b0, hb0, hw0, hlt⟩ := hex
    have hd := distribute_pot_one_capped winners final total g b0.name b0 hws hfn hw0
      (hfrom _ hw0) hb0 rfl hndi hnd hh h0 hr hn hf (hstack b0 hb0).1 (hstack b0 hb0).2 hlt
      (fun b hb hm hne2 => ⟨(hstack b hb).1, (hstack b hb).2, by
        by_contra hc
        exact hne2 (hone b hb b0 hb0 hm hw0 (by omega) hlt)⟩)
      hrh hrb
    refine ⟨_, hd, ?_⟩
    have hcap0 : 0 ≤ b0.chips * (max (g.bot_initial_copy.length / 2) final.length : Nat) :=
      mul_nonneg (hstack b0 hb0).1 (Int.natCast_nonneg _)
    have hx0 : 0 ≤ total -
        b0.chips * (max (g.bot_initial_copy.length / 2) final.length : Nat) := by omega
    have hrem0 : 0 ≤ (total -
        b0.chips * (max (g.bot_initial_copy.length / 2) final.length : Nat)) /
          ((final.length - 1 : Nat) : Int) := Int.ediv_nonneg hx0 (Int.natCast_nonneg _)
    have hremle : (total -
        b0.chips * (max (g.bot_initial_copy.length / 2) final.length : Nat)) /
          ((final.length - 1 : Nat) : Int) * ((final.length - 1 : Nat) : Int) ≤
        total - b0.chips * (max (g.bot_initial_copy.length / 2) final.length : Nat) := by
      by_cases hz : ((final.length - 1 : Nat) : Int) = 0
      · rw [hz, mul_zero]
        exact hx0
      · exact Int.ediv_mul_le _ hz
    have hw0L : b0.name ∉ (final.map Player.name).filter (fun x => decide (x ≠ b0.name)) := by
      intro hmem
      have := (List.mem_filter.1 hmem).2
      simp at this
    have hLlen : ((final.map Player.name).filter (fun x => decide (x ≠ b0.name))).length ≤
        final.length - 1 := by
      have hlt2 : ((final.map Player.name).filter (fun x => decide (x ≠ b0.name))).length <
          (final.map Player.name).length :=
        List.length_filter_lt_length_iff_exists.2 ⟨b0.name, hfrom _ hw0, by simp⟩
      rw [List.length_map] at hlt2
      omega
    have hcount := count_winners_le
      ((final.map Player.name).filter (fun x => decide (x ≠ b0.name))) g.human.name g.bot.bots
      (hfn.filter _) hnd hh
    have hc0 := countP_name_eq b0.name g.bot.bots hnd
    have hc0le : g.bot.bots.countP (fun p => p.name = b0.name) ≤ 1 := by
      rw [hc0]
      split_ifs <;> omega
    simp only [total_chips, Game.with_balances]
    rw [sum_chips_two_level _ _ _ _ _ hw0L]
    generalize hC : b0.chips * (max (g.bot_initial_copy.length / 2) final.length : Nat) = C at *
    generalize hR : (total - C) / ((final.length - 1 : Nat) : Int) = R at *
    generalize hK : g.bot.bots.countP (fun p =>
      p.name ∈ (final.map Player.name).filter (fun x => decide (x ≠ b0.name))) = K at *
    generalize hK0 : g.bot.bots.countP (fun p => p.name = b0.name) = K0 at *
    have hK0i : (K0 : Int) ≤ 1 := by exact_mod_cast hc0le
    have hK0n : (0 : Int) ≤ (K0 : Int) := Int.natCast_nonneg _
    have hKn : (0 : Int) ≤ (K : Int) := Int.natCast_nonneg _
    have hCK : C * (K0 : Int) ≤ C := by nlinarith
    have hCK0 : 0 ≤ C * (K0 : Int) := mul_nonneg hcap0 hK0n
    have hRK0 : 0 ≤ R * (K : Int) := mul_nonneg hrem0 hKn
    by_cases hmem : g.human.name ∈
        (final.map Player.name).filter (fun x => decide (x ≠ b0.name))
    · simp only [hmem, if_true] at hcount ⊢
      have hKi : (K : Int) + 1 ≤ ((final.length - 1 : Nat) : Int) := by
        have : K + 1 ≤ final.length - 1 := by omega
        exact_mod_cast this
      have hRK : R * ((K : Int) + 1) ≤ R * ((final.length - 1 : Nat) : Int) :=
        mul_le_mul_of_nonneg_left hKi hrem0
      constructor
      · linarith
      · linarith
    · simp only [hmem, if_false] at hcount ⊢
      have hKi : (K : Int) ≤ ((final.length - 1 : Nat) : Int) := by
        have : K ≤ final.length - 1 := by omega
        exact_mod_cast this
      have hRK : R * (K : Int) ≤ R * ((final.length - 1 : Nat) : Int) :=
        mul_le_mul_of_nonneg_left hKi hrem0
      constructor
      · linarith
      · linarith
  · have hcap : ∀ b ∈ g.bot_initial_copy, b.name ∈ winners → 0 ≤ b.chips ∧
        InIntRange b.chips ∧
        total / (winners.length : Int) ≤
          b.chips * (max (g.bot_initial_copy.length / 2) final.length : Nat) := by
      intro b hb hm
      refine ⟨(hstack b hb).1, (hstack b hb).2, ?_⟩
      by_contra hc
      exact hex ⟨b, hb, hm, by omega⟩
    have hd := distribute_pot_exact winners final total g hne hws hnd hh h0 hr hn hf hcap
      (by unfold InIntRange at hrh ⊢; omega)
      (fun p hp => by
        have := hrb p hp
        unfold InIntRange at this ⊢
        omega)
    refine ⟨_, hd, ?_⟩
    have hcount := count_winners_le winners g.human.name g.bot.bots hws hnd hh
    have hdiv : total / (winners.length : Int) * (winners.length : Int) ≤ total :=
      Int.ediv_mul_le total (by omega)
    simp only [total_chips, Game.with_balances, sum_chips_map_share]
    generalize hS : total / (winners.length : Int) = S at *
    generalize hK : g.bot.bots.countP (fun p => p.name ∈ winners) = K at *
    have hKn : (0 : Int) ≤ (K : Int) := Int.natCast_nonneg _
    have hSK0 : 0 ≤ S * (K : Int) := mul_nonneg hs0 hKn
    by_cases hmem : g.human.name ∈ winners
    · simp only [hmem, if_true] at hcount ⊢
      have hKi : (K : Int) + 1 ≤ (winners.length : Int) := by exact_mod_cast hcount
      have hSK : S * ((K : Int) + 1) ≤ S * (winners.length : Int) :=
        mul_le_mul_of_nonneg_left hKi hs0
      constructor
      · linarith
      · linarith
    · simp only [hmem, if_false] at hcount ⊢
      have hKi : (K : Int) ≤ (winners.length : Int) := by exact_mod_cast hcount
      have hSK : S * (K : Int) ≤ S * (winners.length : Int) :=
        mul_le_mul_of_nonneg_left hKi hs0
      constructor
      · linarith
      · linarith

/-- Witness for C37: Alice, 10 chips at the start of the hand, wins a pot of
200 against Bence and the human; she is capped at 30 and the other two receive
85 each, 200 chips in all. -/
theorem distribute_pot_creates_no_chips_witness :
    ∃ g1, distribute_pot ["Alice"]
        [sample_game_all_in.human, ⟨"Alice", 0, ⟨"♠", "A"⟩, ⟨"♠", "K"⟩⟩,
          ⟨"Bence", 0, ⟨"♥", "A"⟩, ⟨"♥", "K"⟩⟩] 200 sample_game_all_in = some g1 ∧
      0 ≤ total_chips g1 - total_chips sample_game_all_in ∧
      total_chips g1 - total_chips sample_game_all_in ≤ 200 :=
  distribute_pot_creates_no_chips ["Alice"]
    [sample_game_all_in.human, ⟨"Alice", 0, ⟨"♠", "A"⟩, ⟨"♠", "K"⟩⟩,
      ⟨"Bence", 0, ⟨"♥", "A"⟩, ⟨"♥", "K"⟩⟩] 200 sample_game_all_in (by decide) (by decide)
    (by decide) (by decide) (by decide) (by decide) (by decide) (by decide)
    (by unfold InIntRange; decide) (by decide) (by decide) (by unfold InIntRange; decide)
    (by decide) (by unfold InIntRange; decide) (by unfold InIntRange; decide)

end Poker
